import Mathlib

/-!
# ringbuf.c : a bounded ring buffer shared by one producer and two consumers

Shallow embedding of `ComputerSystems - C Assignments/ringbuf.c`.

* `message_t`, `RingBuf`, `enqueue`, `dequeue` follow lines 17-106.  The globals
  `buffer`, `rear`, `front` are the fields of `RingBuf`; the capacity macro
  `BUFFER_SIZE` is passed as the first argument `cap` of the buffer operations and
  instantiated with `BUFFER_SIZE = 10`.
* A call that sits in its `pthread_cond_wait` loop is `Outcome.blocked`; an array
  access outside `[0, cap)` is `Outcome.out_of_bounds`.
* `int` additions on input values (`sum += msg.value`, `line++`, the total in
  `main`) are reduced to 32 bits by `wrap32`.  `front` and `rear` stay inside
  `[-2, cap]`, so they are plain integers.
* The threads are run at two levels.  `Sys` takes every completed call of `enqueue` or
  `dequeue` as one atomic step.  `Prog` runs the program statement by statement, with
  the mutex, `pthread_cond_wait`, `pthread_cond_signal`, spurious wake-ups, and a
  process that runs on after `exit` has been called until it ends.
-/

namespace RingbufC

/-! ## Data model -/

/-- Struct for messages (lines 18-25). -/
structure message_t where
  value : Int
  consumer_sleep : Int
  line : Int
  print_code : Int
  quit : Int
deriving DecidableEq, Repr, Inhabited

/-- The macro `BUFFER_SIZE` (line 10). -/
def BUFFER_SIZE : Nat := 10

/-- The globals of lines 28-29: the array `buffer` and the indices `rear`, `front`. -/
structure RingBuf where
  buffer : List message_t
  rear : Int
  front : Int
deriving DecidableEq, Repr

/-- What a call of a buffer operation does in a given state. -/
inductive Outcome (α : Type) where
  | blocked : Outcome α
  | out_of_bounds : Outcome α
  | ok : α → Outcome α
deriving DecidableEq, Repr

/-- A zero-initialised message: the content of a global array slot at program start. -/
def zero_msg : message_t :=
  { value := 0, consumer_sleep := 0, line := 0, print_code := 0, quit := 0 }

/-- The buffer after lines 233-234 of `main`: `front = -1; rear = -1;`. -/
def init_buf (cap : Nat) : RingBuf :=
  { buffer := List.replicate cap zero_msg, rear := -1, front := -1 }

/-- Reading `a[i]` for a C `int` index; `none` outside the array. -/
def array_get (a : List message_t) (i : Int) : Option message_t :=
  if 0 ≤ i then a[i.toNat]? else none

/-- Writing `a[i] = m` for a C `int` index; `none` outside the array. -/
def array_set (a : List message_t) (i : Int) (m : message_t) : Option (List message_t) :=
  if 0 ≤ i ∧ i.toNat < a.length then some (a.set i.toNat m) else none

/-! ## enqueue and dequeue -/

/-- The wait condition of `enqueue` (line 38). -/
def enqueue_wait (cap : Nat) (s : RingBuf) : Bool :=
  (s.rear == s.front - 1) || (s.rear == (cap : Int) - 1 && s.front == 0)

/-- The wait condition of `dequeue` (line 76). -/
def dequeue_wait (s : RingBuf) : Bool :=
  s.front == -1

/-- Lines 32-67.  While the wait condition holds the caller is blocked; otherwise the
indices are updated (lines 44-57) and the message is stored at `buffer[rear]`. -/
def enqueue (cap : Nat) (s : RingBuf) (msg : message_t) : Outcome RingBuf :=
  if enqueue_wait cap s then Outcome.blocked
  else
    let front : Int := if s.front == -1 then 0 else s.front
    let rear : Int :=
      if s.front == -1 then 0
      else if s.rear + 1 ≥ (cap : Int) then 0 else s.rear + 1
    match array_set s.buffer rear msg with
    | none => Outcome.out_of_bounds
    | some b => Outcome.ok { buffer := b, rear := rear, front := front }

/-- Lines 70-106.  While `front == -1` the caller is blocked; otherwise the message at
`buffer[front]` is held, the indices are updated (lines 85-98) and the message returned. -/
def dequeue (cap : Nat) (s : RingBuf) : Outcome (message_t × RingBuf) :=
  if dequeue_wait s then Outcome.blocked
  else
    match array_get s.buffer s.front with
    | none => Outcome.out_of_bounds
    | some msg =>
      if s.front == s.rear then
        Outcome.ok (msg, { buffer := s.buffer, rear := -1, front := -1 })
      else
        let front : Int := if s.front + 1 ≥ (cap : Int) then 0 else s.front + 1
        Outcome.ok (msg, { buffer := s.buffer, rear := s.rear, front := front })

/-! ## Sequences of buffer operations -/

/-- One call on the buffer: `enqueue(&msg)` or `dequeue()`. -/
inductive Op where
  | enq : message_t → Op
  | deq : Op
deriving DecidableEq, Repr

/-- Runs a sequence of calls from state `s`.  The result is the final state together
with the messages returned by the `dequeue` calls, in call order; the run is
`blocked` as soon as a call meets its wait condition. -/
def run (cap : Nat) : List Op → RingBuf → Outcome (RingBuf × List message_t)
  | [], s => Outcome.ok (s, [])
  | Op.enq m :: ops, s =>
    match enqueue cap s m with
    | Outcome.ok s1 => run cap ops s1
    | Outcome.blocked => Outcome.blocked
    | Outcome.out_of_bounds => Outcome.out_of_bounds
  | Op.deq :: ops, s =>
    match dequeue cap s with
    | Outcome.ok (m, s1) =>
      match run cap ops s1 with
      | Outcome.ok (t, outs) => Outcome.ok (t, m :: outs)
      | Outcome.blocked => Outcome.blocked
      | Outcome.out_of_bounds => Outcome.out_of_bounds
    | Outcome.blocked => Outcome.blocked
    | Outcome.out_of_bounds => Outcome.out_of_bounds

/-- The messages passed to the `enqueue` calls of a sequence, in call order. -/
def enqueued : List Op → List message_t
  | [] => []
  | Op.enq m :: ops => m :: enqueued ops
  | Op.deq :: ops => enqueued ops

/-- The number of `dequeue` calls of a sequence. -/
def dequeues : List Op → Nat
  | [] => 0
  | Op.enq _ :: ops => dequeues ops
  | Op.deq :: ops => dequeues ops + 1

/-- The resident messages of a state, oldest first: the slots from `front` to `rear`,
wrapping at the end of the array. -/
def contents (s : RingBuf) : List message_t :=
  if s.front == -1 then []
  else if s.front ≤ s.rear then
    (s.buffer.drop s.front.toNat).take (s.rear - s.front + 1).toNat
  else s.buffer.drop s.front.toNat ++ s.buffer.take (s.rear + 1).toNat

/-- Slot `i` holds a resident message: it lies between `front` and `rear`, cyclically. -/
def occupied (s : RingBuf) (i : Int) : Prop :=
  s.front ≠ -1 ∧
    ((s.front ≤ s.rear ∧ s.front ≤ i ∧ i ≤ s.rear) ∨
     (s.rear < s.front ∧ (s.front ≤ i ∨ i ≤ s.rear)))

/-- The index invariant of the buffer: the array has `cap` slots and the indices are
either both `-1` or both inside `[0, cap)`. -/
def Inv (cap : Nat) (s : RingBuf) : Prop :=
  s.buffer.length = cap ∧
    ((s.front = -1 ∧ s.rear = -1) ∨
     (0 ≤ s.front ∧ s.front < cap ∧ 0 ≤ s.rear ∧ s.rear < cap))

/-- A state reached from the empty buffer by a sequence of calls none of which blocks. -/
def Reachable (cap : Nat) (s : RingBuf) : Prop :=
  ∃ ops outs, run cap ops (init_buf cap) = Outcome.ok (s, outs)


/-! ## Sample data -/

/-- The data message built at line 148 for value `v` read on input line `line`, with no
delay and no report. -/
def data_msg (v line : Int) : message_t :=
  { value := v, consumer_sleep := 0, line := line, print_code := 0, quit := 0 }

/-- Two enqueues followed by one dequeue. -/
def sample_ops : List Op :=
  [Op.enq (data_msg 5 1), Op.enq (data_msg 3 2), Op.deq]

/-- The state after `sample_ops`: one resident message in slot 1. -/
def sample_state : RingBuf :=
  { buffer := [data_msg 5 1, data_msg 3 2, zero_msg, zero_msg, zero_msg, zero_msg, zero_msg,
      zero_msg, zero_msg, zero_msg],
    rear := 1, front := 1 }

/-- Ten enqueues: the buffer is filled. -/
def fill_ops : List Op :=
  [Op.enq (data_msg 0 1), Op.enq (data_msg 1 2), Op.enq (data_msg 2 3), Op.enq (data_msg 3 4),
   Op.enq (data_msg 4 5), Op.enq (data_msg 5 6), Op.enq (data_msg 6 7), Op.enq (data_msg 7 8),
   Op.enq (data_msg 8 9), Op.enq (data_msg 9 10)]

/-- The state after `fill_ops`: ten resident messages, `front = 0`, `rear = 9`. -/
def full_state : RingBuf :=
  { buffer := [data_msg 0 1, data_msg 1 2, data_msg 2 3, data_msg 3 4, data_msg 4 5,
      data_msg 5 6, data_msg 6 7, data_msg 7 8, data_msg 8 9, data_msg 9 10],
    rear := 9, front := 0 }

/-! ## 32-bit `int` arithmetic and `sleep_wrapper` -/

/-- The largest `int`. -/
def INT_MAX : Int := 2147483647

/-- The smallest `int`. -/
def INT_MIN : Int := -2147483648

/-- Reduction of an integer to the 32-bit two's-complement range `[INT_MIN, INT_MAX]`:
the value an `int` holds after an addition or multiplication. -/
def wrap32 (x : Int) : Int :=
  (x + 2147483648) % 4294967296 - 2147483648

/-- The fields of `struct timespec` that `sleep_wrapper` fills in. -/
structure timespec where
  tv_sec : Int
  tv_nsec : Int
deriving DecidableEq, Repr

/-- Lines 113-115: the `timespec` built from `sleep_time`.  C division truncates
towards zero and `%` has the sign of the dividend. -/
def sleep_timespec (sleep_time : Int) : timespec :=
  { tv_sec := Int.tdiv sleep_time 1000,
    tv_nsec := wrap32 (Int.tmod sleep_time 1000 * 1000000) }

/-- The library call `nanosleep(&tim, NULL)` as POSIX specifies it: it fails with
`EINVAL` (returns `-1`) when `tv_sec` is negative or `tv_nsec` lies outside
`[0, 999999999]`, and returns `0` once the interval has elapsed.  The program installs
no signal handler, so an interrupted sleep is not considered. -/
def nanosleep (tim : timespec) : Int :=
  if tim.tv_sec < 0 ∨ tim.tv_nsec < 0 ∨ 999999999 < tim.tv_nsec then -1 else 0

/-- Lines 110-125.  `true` when `sleep_wrapper` returns; `false` when `nanosleep`
reports an error, in which case the error line is printed and `exit(1)` is called. -/
def sleep_wrapper (sleep_time : Int) : Bool :=
  if nanosleep (sleep_timespec sleep_time) < 0 then false else true

/-! ## Input and output -/

/-- An item of standard input as a `%d` conversion of `scanf` meets it after skipping
white space.  `int v` is an optional sign followed by digits, which is converted to `v`
and consumed.  `sign` is a `+` or `-` that is not followed by a digit: the conversion
consumes the sign and then fails.  `junk` is any other character: the conversion fails
and the character stays in the stream. -/
inductive Token where
  | int : Int → Token
  | sign : Token
  | junk : Token
deriving DecidableEq, Repr

/-- The value of `EOF`. -/
def EOF : Int := -1

/-- The lines written to standard output by `printf`. -/
inductive Output where
  | sleep_error : Output
  | producer_value (value line : Int) : Output
  | input_error : Output
  | consumer_final (id sum : Int) : Output
  | consumer_value (id value line sum : Int) : Output
  | total (sum : Int) : Output
deriving DecidableEq, Repr

/-- At most `n` successive `%d` conversions: the converted values and the rest of the
stream.  Conversion stops at the end of input or at an item that is not an integer; a
lone sign is consumed by the conversion that fails on it. -/
def scan_ints : Nat → List Token → List Int × List Token
  | 0, inp => ([], inp)
  | _ + 1, [] => ([], [])
  | _ + 1, Token.junk :: rest => ([], Token.junk :: rest)
  | _ + 1, Token.sign :: rest => ([], rest)
  | n + 1, Token.int v :: rest => (v :: (scan_ints n rest).1, (scan_ints n rest).2)

/-- The library call `scanf("%d %d %d %d", ...)` on the token stream `inp`: the return
value (the number of converted items, or `EOF` when the input ends before the first
conversion), the converted values, and the rest of the stream.  Line ends are
white space to `scanf`, so the stream is the sequence of items of all lines. -/
def scanf (inp : List Token) : Int × List Int × List Token :=
  (if inp = [] then EOF else ((scan_ints 4 inp).1.length : Int),
   (scan_ints 4 inp).1, (scan_ints 4 inp).2)

/-- Standard input given line by line, as `scanf` reads it. -/
def stream_of_lines (lines : List (List Token)) : List Token :=
  lines.flatten

/-- An input that `scanf` cannot read to its end: it holds a character that `%d` cannot
consume, or a lone sign that is not its last item. -/
def unreadable (inp : List Token) : Prop :=
  Token.junk ∈ inp ∨ ∃ pre rest, inp = pre ++ Token.sign :: rest ∧ rest ≠ []

/-! ## The producer thread -/

/-- What a thread does that other threads or the user can observe. -/
inductive Event where
  | enq : message_t → Event
  | out : Output → Event
deriving DecidableEq, Repr

/-- How a thread function ends. -/
inductive Ending where
  | returned : Ending
  | exited : Int → Ending
  | out_of_fuel : Ending
deriving DecidableEq, Repr

/-- The message of line 164 that tells a consumer to quit. -/
def quit_msg : message_t :=
  { value := 0, consumer_sleep := 0, line := 0, print_code := 0, quit := 1 }

/-- The loop of lines 139-158 followed by lines 161-173, started with the line counter
`line` on the stream `inp`.  The result is the sequence of `enqueue` and `printf` calls
made and the way the function ends.  `fuel` bounds the number of loop iterations. -/
def producer_loop : Nat → Int → List Token → List Event × Ending
  | 0, _, _ => ([], Ending.out_of_fuel)
  | fuel + 1, line, inp =>
    if (scanf inp).1 == 4 then
      let consumer_val := (scanf inp).2.1.getD 0 0
      let producer_sleep := (scanf inp).2.1.getD 1 0
      let consumer_sleep := (scanf inp).2.1.getD 2 0
      let print_code := (scanf inp).2.1.getD 3 0
      if producer_sleep != 0 && !sleep_wrapper producer_sleep then
        ([Event.out Output.sleep_error], Ending.exited 1)
      else
        let msg : message_t :=
          { value := consumer_val, consumer_sleep := consumer_sleep, line := line,
            print_code := print_code, quit := 0 }
        let report : List Event :=
          if print_code == 1 || print_code == 3 then
            [Event.out (Output.producer_value consumer_val line)]
          else []
        let rest := producer_loop fuel (wrap32 (line + 1)) (scanf inp).2.2
        (Event.enq msg :: report ++ rest.1, rest.2)
    else if (scanf (scanf inp).2.2).1 == EOF then
      ([Event.enq quit_msg, Event.enq quit_msg], Ending.returned)
    else
      ([Event.out Output.input_error], Ending.exited 1)

/-- Lines 130-176: `producer_thread` on the standard input `inp`.  Every iteration of
the loop consumes four tokens, so `inp.length + 1` iterations are never exhausted. -/
def producer_thread (inp : List Token) : List Event × Ending :=
  producer_loop (inp.length + 1) 1 inp

/-- The messages passed to `enqueue` in a sequence of events, in order. -/
def enqueues : List Event → List message_t
  | [] => []
  | Event.enq m :: es => m :: enqueues es
  | Event.out _ :: es => enqueues es

/-- The lines printed in a sequence of events, in order. -/
def outputs : List Event → List Output
  | [] => []
  | Event.enq _ :: es => outputs es
  | Event.out o :: es => o :: outputs es

/-- One input record: the four integers of a line. -/
structure Record where
  value : Int
  producer_sleep : Int
  consumer_sleep : Int
  print_code : Int
deriving DecidableEq, Repr

/-- The tokens of a list of records, ended by a clean end of input. -/
def encode : List Record → List Token
  | [] => []
  | r :: rs =>
    Token.int r.value :: Token.int r.producer_sleep :: Token.int r.consumer_sleep ::
      Token.int r.print_code :: encode rs

/-- The message that line 148 builds from a record read on input line `line`. -/
def message_of (r : Record) (line : Int) : message_t :=
  { value := r.value, consumer_sleep := r.consumer_sleep, line := line,
    print_code := r.print_code, quit := 0 }

/-- The messages for a list of records when the counter `line` of `producer_thread`
holds `line` at the first of them; the counter is an `int` incremented at line 157. -/
def messages_from (line : Int) : List Record → List message_t
  | [] => []
  | r :: rs => message_of r line :: messages_from (wrap32 (line + 1)) rs

/-! ## The consumer thread -/

/-- Where a consumer thread stands after an iteration of its loop: back at `dequeue`
with the local `sum`; returned through line 200 after storing `sum` in its argument;
inside `exit`; or returned through line 219 with its argument untouched. -/
inductive Next where
  | again : Int → Next
  | returned : Int → Next
  | exited : Int → Next
  | left_loop : Next
deriving DecidableEq, Repr

/-- Lines 195-217: the body of the loop of `consumer_thread` for the dequeued message
`msg`, in the consumer whose argument held the index `id`, with the local `sum`.  The
result is the lines printed and where the thread stands afterwards. -/
def consumer_body (id sum : Int) (msg : message_t) : List Output × Next :=
  if msg.quit != 0 then
    ([Output.consumer_final id sum], Next.returned sum)
  else if msg.consumer_sleep != 0 && !sleep_wrapper msg.consumer_sleep then
    ([Output.sleep_error], Next.exited 1)
  else
    let sum1 := wrap32 (sum + msg.value)
    let report : List Output :=
      if msg.print_code == 2 || msg.print_code == 3 then
        [Output.consumer_value id msg.value msg.line sum1]
      else []
    if msg.quit == 0 then (report, Next.again sum1) else (report, Next.left_loop)

/-- A run of one consumer on the messages that its `dequeue` calls return. -/
structure ConsumerRun where
  output : List Output
  dequeued : Nat
  next : Next
deriving DecidableEq, Repr

/-- The loop of lines 190-217 with the local `sum`, on the stream of messages handed
to this consumer by `dequeue`.  When the stream is used up the thread waits in
`dequeue` (`Next.again`). -/
def consumer_loop (id : Int) : Int → List message_t → ConsumerRun
  | sum, [] => { output := [], dequeued := 0, next := Next.again sum }
  | sum, msg :: rest =>
    match consumer_body id sum msg with
    | (out, Next.again sum1) =>
      { output := out ++ (consumer_loop id sum1 rest).output,
        dequeued := (consumer_loop id sum1 rest).dequeued + 1,
        next := (consumer_loop id sum1 rest).next }
    | (out, n) => { output := out, dequeued := 1, next := n }

/-- Lines 179-220: `consumer_thread` with `sum = 0`, for the consumer whose argument
holds the index `id`. -/
def consumer_thread (id : Int) (stream : List message_t) : ConsumerRun :=
  consumer_loop id 0 stream

/-- The sum of the `value` fields of a list of messages. -/
def value_sum (l : List message_t) : Int :=
  (l.map (fun m => m.value)).sum

/-! ## The program at the level of atomic `enqueue` and `dequeue` steps

One producer, two consumers and `main`, with every completed call of `enqueue` or
`dequeue` as one step.  The statements of a consumer between two `dequeue` calls are
taken together with the call before them, and a call of `exit` ends the process at
once.  The program at the level of statements, with the mutex, the condition variables
and a process that runs on after `exit` has been called, is `Prog` below. -/

/-- The threads of the program. -/
inductive Tid where
  | producer : Tid
  | consumer_zero : Tid
  | consumer_one : Tid
  | main : Tid
deriving DecidableEq, Repr

/-- The state of the process between atomic steps: the shared buffer, the calls the
producer has still to make and how it ends after them, where the two consumers stand,
the lines printed so far, and the exit status once `exit` has been called. -/
structure Sys where
  buf : RingBuf
  script : List Event
  ending : Ending
  producer_done : Bool
  consumer_zero : Next
  consumer_one : Next
  output : List Output
  exit_status : Option Int
deriving DecidableEq, Repr

/-- The state set up by `main` (lines 228-244) for the standard input `inp`: the buffer
is empty, both consumers start with `sum = 0`, the producer is about to run. -/
def sys_init (cap : Nat) (inp : List Token) : Sys :=
  { buf := init_buf cap, script := (producer_thread inp).1,
    ending := (producer_thread inp).2, producer_done := false,
    consumer_zero := Next.again 0, consumer_one := Next.again 0,
    output := [], exit_status := none }

/-- The thread has returned, so that `pthread_join` on it succeeds. -/
def joined : Next → Bool
  | Next.returned _ => true
  | Next.left_loop => true
  | _ => false

/-- The value of the variable `consumer_zero_sum` or `consumer_one_sum` of `main`: the
index `id` until the consumer stores its sum there. -/
def sum_var (id : Int) : Next → Int
  | Next.returned published => published
  | _ => id

/-- The exit status that a consumer step leaves: set when `sleep_wrapper` called `exit`. -/
def status_after : Next → Option Int
  | Next.exited k => some k
  | _ => none

/-- A consumer step on the buffer `b`: a completed `dequeue` (lines 70-106) followed by
the loop body (lines 195-217), for the consumer with index `id` standing at `c`.  The
result is the buffer, the lines printed and where the consumer stands afterwards;
`none` when the consumer has terminated or waits in `dequeue`. -/
def consumer_step (cap : Nat) (id : Int) (c : Next) (b : RingBuf) :
    Option (RingBuf × List Output × Next) :=
  match c with
  | Next.again sum =>
    match dequeue cap b with
    | Outcome.ok (msg, b1) =>
      some (b1, (consumer_body id sum msg).1, (consumer_body id sum msg).2)
    | _ => none
  | _ => none

/-- One atomic step of thread `t`, or `none` when the thread cannot move: it has
terminated, the process has exited, or it waits in `enqueue`, `dequeue` or
`pthread_join`.  A producer step is its next `enqueue` or `printf`, or its end; the
step of `main` is lines 247-258 once the three joins succeed. -/
def sys_step (cap : Nat) (s : Sys) (t : Tid) : Option Sys :=
  if s.exit_status.isSome then none
  else
    match t with
    | Tid.producer =>
      if s.producer_done then none
      else
        match s.script with
        | Event.out o :: es => some { s with script := es, output := s.output ++ [o] }
        | Event.enq m :: es =>
          match enqueue cap s.buf m with
          | Outcome.ok b => some { s with buf := b, script := es }
          | _ => none
        | [] =>
          match s.ending with
          | Ending.returned => some { s with producer_done := true }
          | Ending.exited k => some { s with producer_done := true, exit_status := some k }
          | Ending.out_of_fuel => none
    | Tid.consumer_zero =>
      match consumer_step cap 0 s.consumer_zero s.buf with
      | some (b, out, n) =>
        some { s with buf := b, consumer_zero := n, output := s.output ++ out,
                      exit_status := status_after n }
      | none => none
    | Tid.consumer_one =>
      match consumer_step cap 1 s.consumer_one s.buf with
      | some (b, out, n) =>
        some { s with buf := b, consumer_one := n, output := s.output ++ out,
                      exit_status := status_after n }
      | none => none
    | Tid.main =>
      if joined s.consumer_zero && joined s.consumer_one && s.producer_done then
        some { s with
          output := s.output ++
            [Output.total (wrap32 (sum_var 1 s.consumer_one + sum_var 0 s.consumer_zero))],
          exit_status := some 0 }
      else none

/-- The state after the steps of a schedule, or `none` when a scheduled thread cannot
move.  Every interleaving of the atomic steps is such a schedule. -/
def sys_run (cap : Nat) : List Tid → Sys → Option Sys
  | [], s => some s
  | t :: ts, s =>
    match sys_step cap s t with
    | some s1 => sys_run cap ts s1
    | none => none

/-- The sum of the `value` fields of a list of input records. -/
def record_sum (rs : List Record) : Int :=
  (rs.map (fun r => r.value)).sum

/-! ## Invariants of the program -/

/-- The shape of what a producer does: its `enqueue` calls pass data messages
(`quit = 0`) followed by `q` quit messages, where `q = 2` when it returns and `q = 0`
when it ends in `exit(1)`; it never prints the total line. -/
def ScriptOk (q : Nat) (datas : List message_t) (evs : List Event) (ending : Ending) : Prop :=
  enqueues evs = datas ++ List.replicate q quit_msg ∧
  (∀ d ∈ datas, d.quit = 0) ∧
  ((ending = Ending.returned ∧ q = 2) ∨ (ending = Ending.exited 1 ∧ q = 0)) ∧
  (∀ x, Output.total x ∉ outputs evs)

/-- One for a consumer that has returned through line 200, zero otherwise. -/
def returned_flag : Next → Nat
  | Next.returned _ => 1
  | _ => 0

/-- The number of consumers that have returned through line 200. -/
def returned_count (s : Sys) : Nat :=
  returned_flag s.consumer_zero + returned_flag s.consumer_one

/-- The sum a consumer holds: its local `sum`, or the sum it stored on return. -/
def held_sum : Next → Int
  | Next.again sum => sum
  | Next.returned published => published
  | _ => 0

/-- The consumer has not called `exit`. -/
def alive : Next → Prop
  | Next.exited _ => False
  | _ => True

/-- The messages still to be dequeued: the resident ones followed by those the producer
has still to enqueue. -/
def pending (s : Sys) : List message_t :=
  contents s.buf ++ enqueues s.script

/-- The invariant of the program for an input whose data messages sum to `total` and
whose producer enqueues `q` quit messages. -/
def SysInv (cap : Nat) (total : Int) (q : Nat) (s : Sys) : Prop :=
  Inv cap s.buf ∧
  (s.ending = Ending.returned ∨ s.ending = Ending.exited 1) ∧
  (q = 2 ∨ (q = 0 ∧ s.ending = Ending.exited 1)) ∧
  s.consumer_zero ≠ Next.left_loop ∧ s.consumer_one ≠ Next.left_loop ∧
  (∀ x, Output.total x ∉ outputs s.script) ∧
  (∃ datas k, pending s = datas ++ List.replicate k quit_msg ∧
    (∀ d ∈ datas, d.quit = 0) ∧
    returned_count s + k = q ∧
    (0 < returned_count s → datas = []) ∧
    (alive s.consumer_zero → alive s.consumer_one →
      wrap32 (held_sum s.consumer_zero + held_sum s.consumer_one + value_sum datas) =
        wrap32 total)) ∧
  (∀ x, Output.total x ∈ s.output → returned_count s = 2 ∧ x = wrap32 total) ∧
  (∀ k, s.exit_status = some k → k = 1 ∨ (k = 0 ∧ returned_count s = 2))

/-- The delay of the record makes `sleep_wrapper` call `exit(1)` in the producer. -/
def sleep_fails (r : Record) : Bool :=
  r.producer_sleep != 0 && !sleep_wrapper r.producer_sleep

/-! ## Sample runs of the program -/

/-- The input of the scenario: the records `(5,0,0,0)` and `(3,0,0,0)`. -/
def sample_records : List Record :=
  [{ value := 5, producer_sleep := 0, consumer_sleep := 0, print_code := 0 },
   { value := 3, producer_sleep := 0, consumer_sleep := 0, print_code := 0 }]

/-- An interleaving for `sample_records`: consumer one takes the first record, consumer
zero the second, then each takes a quit message and `main` prints the total. -/
def sample_schedule : List Tid :=
  [Tid.producer, Tid.producer, Tid.consumer_one, Tid.producer, Tid.consumer_zero,
   Tid.consumer_one, Tid.producer, Tid.consumer_zero, Tid.producer, Tid.main]

/-- The state after `sample_schedule` on `sample_records`. -/
def sample_final : Sys :=
  { buf :=
      { buffer := [quit_msg, data_msg 3 2, quit_msg, zero_msg, zero_msg, zero_msg, zero_msg,
          zero_msg, zero_msg, zero_msg],
        rear := -1, front := -1 },
    script := [], ending := Ending.returned, producer_done := true,
    consumer_zero := Next.returned 3, consumer_one := Next.returned 5,
    output := [Output.consumer_final 1 5, Output.consumer_final 0 3, Output.total 8],
    exit_status := some 0 }

/-- An input whose lines hold five and three integers: eight integers in all. -/
def miscounted_lines : List (List Token) :=
  [[Token.int 1, Token.int 2, Token.int 3, Token.int 4, Token.int 5],
   [Token.int 6, Token.int 7, Token.int 8]]

/-- An input line whose third field is not an integer. -/
def junk_lines : List (List Token) :=
  [[Token.int 1, Token.int 2, Token.junk, Token.int 4]]

/-- The input text `5 0 0 0`, `+`, `3 0 0 0`: a lone sign between two records. -/
def sign_lines : List (List Token) :=
  [[Token.int 5, Token.int 0, Token.int 0, Token.int 0], [Token.sign],
   [Token.int 3, Token.int 0, Token.int 0, Token.int 0]]

/-- The input text `5 0 0 0`, `+`: a record followed by a line that holds a lone sign. -/
def lone_sign_lines : List (List Token) :=
  [[Token.int 5, Token.int 0, Token.int 0, Token.int 0], [Token.sign]]

/-- The input text `1 2 3`: one line of three integers. -/
def short_lines : List (List Token) :=
  [[Token.int 1, Token.int 2, Token.int 3]]

/-- The exit status and the printed lines of a run. -/
def observed (r : Option Sys) : Option (Option Int × List Output) :=
  match r with
  | some s => some (s.exit_status, s.output)
  | none => none

/-- A record whose producer delay is negative. -/
def negative_delay_record : Record :=
  { value := 1, producer_sleep := -1, consumer_sleep := 0, print_code := 0 }

/-- A data message whose consumer delay is negative. -/
def negative_delay_msg : message_t :=
  { value := 1, consumer_sleep := -1, line := 1, print_code := 0, quit := 0 }

/-- The record `(0,0,0,0)`. -/
def zero_record : Record :=
  { value := 0, producer_sleep := 0, consumer_sleep := 0, print_code := 0 }

/-! ## The mutex: an instruction-level model of the threads

The statements of the four functions that matter for the mutex, in source order, and
an interleaving semantics in which `pthread_mutex_lock` succeeds only on a free mutex
and `pthread_cond_wait` releases the mutex while the caller sleeps and takes it again
before it returns.  Branches and loops of the thread functions are left open: a thread
in its function body may execute any statement of the body next. -/

/-- The kinds of statements.  `wait_while` is a loop `while (test) pthread_cond_wait`
whose test reads `front` and `rear`; `shared` is any other statement that reads or
writes `front`, `rear` or `buffer`; `io` is a call of `scanf`, `sleep_wrapper` or
`printf`; `call` is a call of `enqueue` or `dequeue`; `plain` touches local variables
only. -/
inductive Instr where
  | lock : Instr
  | wait_while : Instr
  | shared : Instr
  | unlock : Instr
  | signal : Instr
  | io : Instr
  | call : Instr
  | plain : Instr
  | create : Tid → Instr
  | join : Tid → Instr
deriving DecidableEq, Repr

/-- The statements of `enqueue`: line 35 (lock), lines 38-41 (wait loop), lines 44-57
(index update), line 60 (`buffer[rear] = *msg`), line 63 (unlock), line 64 (signal). -/
def enqueue_code : List Instr :=
  [Instr.lock, Instr.wait_while, Instr.shared, Instr.shared, Instr.unlock, Instr.signal]

/-- The statements of `dequeue`: line 73 (lock), lines 76-79 (wait loop), line 82
(`msg = buffer[front]`), lines 85-98 (index update), line 101 (unlock), line 102
(signal). -/
def dequeue_code : List Instr :=
  [Instr.lock, Instr.wait_while, Instr.shared, Instr.shared, Instr.unlock, Instr.signal]

/-- The statements of `producer_thread`: lines 139 (`scanf`), 144 (`sleep_wrapper`), 148
(message), 149 (`enqueue`), 154 (`printf`), 157 (`line++`), 161 (`scanf`), 164
(message), 165 and 166 (`enqueue`), 171 (`printf`). -/
def producer_code : List Instr :=
  [Instr.io, Instr.io, Instr.plain, Instr.call, Instr.io, Instr.plain, Instr.io, Instr.plain,
   Instr.call, Instr.call, Instr.io]

/-- The statements of `consumer_thread`: lines 193 (`dequeue`), 198 (`printf`), 199
(`*consumer_sum = sum`), 206 (`sleep_wrapper`), 210 (`sum += msg.value`), 215
(`printf`). -/
def consumer_code : List Instr :=
  [Instr.call, Instr.io, Instr.plain, Instr.io, Instr.plain, Instr.io]

/-- The statements of `main`: lines 224, 229, 230 (local set-up), 233 and 234
(`front = -1; rear = -1;`), 238-240 (the three `pthread_create`), 247-249 (the three
`pthread_join`), 256 (`printf`). -/
def main_code : List Instr :=
  [Instr.plain, Instr.plain, Instr.plain, Instr.shared, Instr.shared,
   Instr.create Tid.consumer_zero, Instr.create Tid.consumer_one, Instr.create Tid.producer,
   Instr.join Tid.consumer_zero, Instr.join Tid.consumer_one, Instr.join Tid.producer,
   Instr.io]

/-- Where a created thread stands: not created yet; in its thread function; in
`enqueue` or `dequeue` before statement `pc`; asleep in the `pthread_cond_wait` of the
wait loop at `pc`, the mutex released; or returned. -/
inductive Loc where
  | idle : Loc
  | body : Loc
  | inside : Nat → Loc
  | asleep : Nat → Loc
  | finished : Loc
deriving DecidableEq, Repr

/-- The state of the mutex model: the owner of the mutex, where the three created
threads stand, and the next statement of `main`. -/
structure MState where
  owner : Option Tid
  producer : Loc
  consumer_zero : Loc
  consumer_one : Loc
  main_pc : Nat
deriving DecidableEq, Repr

/-- The state at the start of `main`. -/
def mx_init : MState :=
  { owner := none, producer := Loc.idle, consumer_zero := Loc.idle,
    consumer_one := Loc.idle, main_pc := 0 }

/-- Where thread `t` stands; `main` is always in its function body. -/
def loc (s : MState) : Tid → Loc
  | Tid.producer => s.producer
  | Tid.consumer_zero => s.consumer_zero
  | Tid.consumer_one => s.consumer_one
  | Tid.main => Loc.body

/-- Moves thread `t` to `l`. -/
def set_loc (s : MState) (t : Tid) (l : Loc) : MState :=
  match t with
  | Tid.producer => { s with producer := l }
  | Tid.consumer_zero => { s with consumer_zero := l }
  | Tid.consumer_one => { s with consumer_one := l }
  | Tid.main => s

/-- The buffer function that thread `t` calls: the producer calls `enqueue`, the
consumers call `dequeue`. -/
def callee_code : Tid → List Instr
  | Tid.producer => enqueue_code
  | _ => dequeue_code

/-- The statements of the thread function of `t`. -/
def body_code : Tid → List Instr
  | Tid.producer => producer_code
  | Tid.main => main_code
  | _ => consumer_code

/-- Whether the mutex is held after the statements `is` when it was held (`b`) or not
before them. -/
def held_after (b : Bool) : List Instr → Bool
  | [] => b
  | Instr.lock :: is => held_after true is
  | Instr.unlock :: is => held_after false is
  | _ :: is => held_after b is

/-- Whether a thread that runs `code` from its start holds the mutex just before
statement `pc`. -/
def holds (code : List Instr) (pc : Nat) : Bool :=
  held_after false (code.take pc)

/-- A thread `t` that stands at `l` is between `pthread_mutex_lock` and
`pthread_mutex_unlock`. -/
def critical_at (t : Tid) (l : Loc) : Bool :=
  match l with
  | Loc.inside pc => holds (callee_code t) pc
  | _ => false

/-- The thread is between `pthread_mutex_lock` and `pthread_mutex_unlock`. -/
def in_critical (s : MState) (t : Tid) : Bool :=
  critical_at t (loc s t)

/-- A thread asleep in `pthread_cond_wait` sleeps at a statement before which it held
the mutex. -/
def sleeps_well (t : Tid) (l : Loc) : Bool :=
  match l with
  | Loc.asleep pc => holds (callee_code t) pc
  | _ => true

/-- The statement reads or writes `front`, `rear` or `buffer`. -/
def accesses : Instr → Bool
  | Instr.shared => true
  | Instr.wait_while => true
  | _ => false

/-- Every statement of `code` that accesses the shared variables, and every unlock,
stands where the mutex is held; every `scanf`, `sleep_wrapper` or `printf` call and
every lock stands where it is not held; and the mutex is not held at the end. -/
def well_locked (code : List Instr) : Bool :=
  (List.range code.length).all (fun pc =>
    match code[pc]? with
    | some Instr.shared => holds code pc
    | some Instr.wait_while => holds code pc
    | some Instr.unlock => holds code pc
    | some Instr.io => !holds code pc
    | some Instr.lock => !holds code pc
    | _ => true) &&
  !holds code code.length

/-- One step of a created thread `t` that stands in `enqueue` or `dequeue` before
statement `i` at `pc`.  `choice` is the outcome of the test of a wait loop: 0 when the
loop is left, anything else when the thread calls `pthread_cond_wait`. -/
def inside_step (s : MState) (t : Tid) (pc : Nat) (i : Instr) (choice : Nat) :
    Option (MState × Instr) :=
  match i with
  | Instr.lock =>
    if s.owner = none then some (set_loc { s with owner := some t } t (Loc.inside (pc + 1)), i)
    else none
  | Instr.wait_while =>
    if choice = 0 then some (set_loc s t (Loc.inside (pc + 1)), i)
    else some (set_loc { s with owner := none } t (Loc.asleep pc), i)
  | Instr.unlock => some (set_loc { s with owner := none } t (Loc.inside (pc + 1)), i)
  | Instr.create _ => none
  | Instr.join _ => none
  | Instr.call => none
  | _ => some (set_loc s t (Loc.inside (pc + 1)), i)

/-- One step of a created thread `t`, with the statement it executes.  In its function
body the thread executes the statement number `choice` of the body, or returns when
there is no such statement; a `call` enters `enqueue` or `dequeue`.  A thread asleep in
`pthread_cond_wait` wakes up by taking the mutex again. -/
def worker_step (s : MState) (t : Tid) (choice : Nat) : Option (MState × Instr) :=
  match loc s t with
  | Loc.idle => none
  | Loc.finished => none
  | Loc.body =>
    match (body_code t)[choice]? with
    | none => some (set_loc s t Loc.finished, Instr.plain)
    | some Instr.call => some (set_loc s t (Loc.inside 0), Instr.call)
    | some Instr.io => some (s, Instr.io)
    | some Instr.plain => some (s, Instr.plain)
    | some _ => none
  | Loc.inside pc =>
    match (callee_code t)[pc]? with
    | none => some (set_loc s t Loc.body, Instr.plain)
    | some i => inside_step s t pc i choice
  | Loc.asleep pc =>
    if s.owner = none then some (set_loc { s with owner := some t } t (Loc.inside pc), Instr.lock)
    else none

/-- One step of `main`: its statements in order; `pthread_create` starts a thread and
`pthread_join` waits until the thread has returned. -/
def main_step (s : MState) : Option (MState × Instr) :=
  match main_code[s.main_pc]? with
  | none => none
  | some (Instr.create t) =>
    if loc s t = Loc.idle then
      some ({ set_loc s t Loc.body with main_pc := s.main_pc + 1 }, Instr.create t)
    else none
  | some (Instr.join t) =>
    if loc s t = Loc.finished then some ({ s with main_pc := s.main_pc + 1 }, Instr.join t)
    else none
  | some Instr.shared => some ({ s with main_pc := s.main_pc + 1 }, Instr.shared)
  | some Instr.io => some ({ s with main_pc := s.main_pc + 1 }, Instr.io)
  | some Instr.plain => some ({ s with main_pc := s.main_pc + 1 }, Instr.plain)
  | some _ => none

/-- One step of thread `t` in the mutex model, with the statement executed, or `none`
when the thread cannot move. -/
def mx_step (s : MState) (t : Tid) (choice : Nat) : Option (MState × Instr) :=
  match t with
  | Tid.main => main_step s
  | _ => worker_step s t choice

/-- The state after a schedule of steps, each with its thread and its choice. -/
def mx_run : List (Tid × Nat) → MState → Option MState
  | [], s => some s
  | (t, c) :: rest, s =>
    match mx_step s t c with
    | some (s1, _) => mx_run rest s1
    | none => none

/-- The invariant of the mutex model: a created thread owns the mutex exactly when it
is between lock and unlock, a sleeping thread sleeps in a wait loop under the mutex,
`main` never owns the mutex, and no thread exists before `main` reaches the first
`pthread_create`. -/
def MxInv (s : MState) : Prop :=
  (∀ t, t ≠ Tid.main → (s.owner = some t ↔ in_critical s t = true)) ∧
  (∀ t, t ≠ Tid.main → sleeps_well t (loc s t) = true) ∧
  s.owner ≠ some Tid.main ∧
  (s.main_pc ≤ 5 → s.producer = Loc.idle ∧ s.consumer_zero = Loc.idle ∧
    s.consumer_one = Loc.idle)

/-- A schedule in which `main` creates the threads, the producer enters `enqueue` and
takes the mutex, and consumer zero enters `dequeue`. -/
def mx_sample_schedule : List (Tid × Nat) :=
  [(Tid.main, 0), (Tid.main, 0), (Tid.main, 0), (Tid.main, 0), (Tid.main, 0), (Tid.main, 0),
   (Tid.main, 0), (Tid.main, 0), (Tid.producer, 3), (Tid.producer, 0),
   (Tid.consumer_zero, 0)]

/-- The state after `mx_sample_schedule`. -/
def mx_sample_state : MState :=
  { owner := some Tid.producer, producer := Loc.inside 1, consumer_zero := Loc.inside 0,
    consumer_one := Loc.body, main_pc := 8 }

/-! ## The program at the level of statements

The threads of the program as they run in `main` after the three `pthread_create`
calls of lines 238-240, one statement at a time.  A step of the process is a step of
one thread; every other thread may run between two statements of a thread, also between
the `dequeue` of line 193 and the `printf` of line 215.

* The mutex is a variable that names its owner.  `pthread_mutex_lock` is enabled only
  on a free mutex.  `pthread_cond_wait` releases the mutex and blocks the caller until
  a `pthread_cond_signal` on the same condition variable, or a spurious wake-up,
  unblocks it; the caller then takes the mutex again and tests the loop condition again.
* The statements of `enqueue` and `dequeue` between the loop and the unlock (lines 44-60
  and 82-98) are one step: they run with the mutex held and touch only `rear`, `front`,
  `buffer` and a local of the caller.
* A condition that reads locals only (lines 142, 152, 196, 204, 213, 217) is evaluated
  together with the statement before it.
* `exit` only records the exit status; the other threads keep running until the
  process is ended by the step `Action.halt`, which may come at any later time.
* `pthread_cond_signal` unblocks one thread; a call that unblocks more is a signal
  followed by spurious wake-ups.  A line printed by `printf` is appended to the output
  in one step.
-/

/-- Where a thread stands inside a call of `enqueue` or `dequeue`: before the
`pthread_mutex_lock` (line 35 or 73); before the test of the loop condition (line 38 or
76) with the mutex held; blocked in `pthread_cond_wait` (line 40 or 78); unblocked in
`pthread_cond_wait` and about to take the mutex again; before the statements on the
buffer (lines 44-60 or 82-98); before `pthread_mutex_unlock` (line 63 or 101); before
`pthread_cond_signal` (line 64 or 102). -/
inductive CallPc where
  | lock : CallPc
  | test : CallPc
  | waiting : CallPc
  | woken : CallPc
  | body : CallPc
  | unlock : CallPc
  | signal : CallPc
deriving DecidableEq, Repr

/-- The three calls of `enqueue` in `producer_thread`: lines 149, 165 and 166. -/
inductive EnqueueCall where
  | data : EnqueueCall
  | first_quit : EnqueueCall
  | second_quit : EnqueueCall
deriving DecidableEq, Repr

/-- Where the producer stands: before the `scanf` of line 139; before the `nanosleep`
of `sleep_wrapper` called at line 144; before the `printf` of line 120; inside one of
its `enqueue` calls; before the `printf` of line 154; before `line++` (line 157); before
the `scanf` of line 161; before the `printf` of line 171; before `exit(1)` (line 121 or
172); inside `exit`; returned (line 175). -/
inductive ProducerPc where
  | scan : ProducerPc
  | nap : ProducerPc
  | nap_error : ProducerPc
  | enq : EnqueueCall → CallPc → ProducerPc
  | report : ProducerPc
  | incr : ProducerPc
  | scan_end : ProducerPc
  | input_error : ProducerPc
  | exit_call : ProducerPc
  | exiting : ProducerPc
  | done : ProducerPc
deriving DecidableEq, Repr

/-- The producer thread: where it stands and its locals (lines 133-136). -/
structure ProducerState where
  pc : ProducerPc
  line : Int
  consumer_val : Int
  producer_sleep : Int
  consumer_sleep : Int
  print_code : Int
deriving DecidableEq, Repr

/-- Where a consumer stands: inside `dequeue` (line 193); before the `printf` of line
198; before `*consumer_sum = sum` (line 199); before the `nanosleep` of `sleep_wrapper`
called at line 206; before the `printf` of line 120; before `exit(1)` (line 121);
before `sum += msg.value` (line 210); before the `printf` of line 215; inside `exit`;
returned. -/
inductive ConsumerPc where
  | deq : CallPc → ConsumerPc
  | final_line : ConsumerPc
  | publish : ConsumerPc
  | nap : ConsumerPc
  | nap_error : ConsumerPc
  | exit_call : ConsumerPc
  | add : ConsumerPc
  | report : ConsumerPc
  | exiting : ConsumerPc
  | done : ConsumerPc
deriving DecidableEq, Repr

/-- A consumer thread: where it stands, its locals `sum` and `msg` (lines 182-187), and
the variable of `main` that its argument points to (`consumer_zero_sum` or
`consumer_one_sum`, lines 228-230). -/
structure ConsumerState where
  pc : ConsumerPc
  sum : Int
  msg : message_t
  consumer_sum : Int
deriving DecidableEq, Repr

/-- Where `main` stands: before one of the three `pthread_join` calls (lines 247-249);
before the `printf` of line 256; before `exit(0)` (line 258); inside `exit`. -/
inductive MainPc where
  | join_zero : MainPc
  | join_one : MainPc
  | join_producer : MainPc
  | total : MainPc
  | exit_call : MainPc
  | exiting : MainPc
deriving DecidableEq, Repr

/-- The state of the process: standard input and output, the globals `buffer`, `rear`,
`front`, the owner of `mutex`, the four threads, the status passed to the first call of
`exit`, and whether the process has ended. -/
structure Prog where
  input : List Token
  output : List Output
  buf : RingBuf
  mutex : Option Tid
  producer : ProducerState
  consumer_zero : ConsumerState
  consumer_one : ConsumerState
  main : MainPc
  exit_code : Option Int
  halted : Bool
deriving DecidableEq, Repr

/-- The state after lines 224-240 of `main` on the standard input `inp`, when the three
`pthread_create` calls have succeeded: the buffer is empty, the variables
`consumer_zero_sum` and `consumer_one_sum` hold 0 and 1, the three threads stand at the
start of their functions and `main` before its first join.  The locals that the code
leaves uninitialised hold zero; each is assigned before it is read. -/
def prog_init (cap : Nat) (inp : List Token) : Prog :=
  { input := inp, output := [], buf := init_buf cap, mutex := none,
    producer :=
      { pc := ProducerPc.scan, line := 1, consumer_val := 0, producer_sleep := 0,
        consumer_sleep := 0, print_code := 0 },
    consumer_zero :=
      { pc := ConsumerPc.deq CallPc.lock, sum := 0, msg := zero_msg, consumer_sum := 0 },
    consumer_one :=
      { pc := ConsumerPc.deq CallPc.lock, sum := 0, msg := zero_msg, consumer_sum := 1 },
    main := MainPc.join_zero, exit_code := none, halted := false }

/-- The thread of consumer zero (`false`) or consumer one (`true`). -/
def consumer_tid (one : Bool) : Tid :=
  if one then Tid.consumer_one else Tid.consumer_zero

/-- The state of consumer zero (`false`) or consumer one (`true`). -/
def consumer (s : Prog) (one : Bool) : ConsumerState :=
  if one then s.consumer_one else s.consumer_zero

/-- Replaces the state of consumer zero (`false`) or consumer one (`true`). -/
def set_consumer (s : Prog) (one : Bool) (c : ConsumerState) : Prog :=
  if one then { s with consumer_one := c } else { s with consumer_zero := c }

/-- A call of `exit(k)`: the status of the first call is the exit status of the process. -/
def call_exit (s : Prog) (k : Int) : Prog :=
  { s with exit_code := if s.exit_code.isSome then s.exit_code else some k }

/-- A consumer blocked in `pthread_cond_wait` is unblocked. -/
def wake_consumer (c : ConsumerState) : ConsumerState :=
  if c.pc = ConsumerPc.deq CallPc.waiting then { c with pc := ConsumerPc.deq CallPc.woken }
  else c

/-- The producer, when blocked in `pthread_cond_wait`, is unblocked. -/
def wake_producer (p : ProducerState) : ProducerState :=
  match p.pc with
  | ProducerPc.enq c CallPc.waiting => { p with pc := ProducerPc.enq c CallPc.woken }
  | _ => p

/-- The call `pthread_cond_signal(&has_value)` of line 64: it unblocks one of the
consumers blocked on `has_value`, if there is one; `pick` tells which one is taken
first. -/
def signal_has_value (s : Prog) (pick : Bool) : Prog :=
  if (consumer s pick).pc = ConsumerPc.deq CallPc.waiting then
    set_consumer s pick (wake_consumer (consumer s pick))
  else set_consumer s (!pick) (wake_consumer (consumer s (!pick)))

/-- The call `pthread_cond_signal(&has_space)` of line 102: it unblocks the producer
when it is blocked on `has_space`. -/
def signal_has_space (s : Prog) : Prog :=
  { s with producer := wake_producer s.producer }

/-- The message passed to `enqueue`: the one built at line 148, or the one of line 164. -/
def enqueue_arg (p : ProducerState) : EnqueueCall → message_t
  | EnqueueCall.data =>
    { value := p.consumer_val, consumer_sleep := p.consumer_sleep, line := p.line,
      print_code := p.print_code, quit := 0 }
  | _ => quit_msg

/-- Where the producer continues after a call of `enqueue`: after line 149 at the
`printf` of line 154 when the report code is 1 or 3 (line 152) and at `line++`
otherwise; after line 165 in the call of line 166; after line 166 it returns. -/
def after_enqueue (p : ProducerState) : EnqueueCall → ProducerPc
  | EnqueueCall.data =>
    if p.print_code == 1 || p.print_code == 3 then ProducerPc.report else ProducerPc.incr
  | EnqueueCall.first_quit => ProducerPc.enq EnqueueCall.second_quit CallPc.lock
  | EnqueueCall.second_quit => ProducerPc.done

/-- One statement of `enqueue` (lines 32-67), executed by the producer in its call `c`
at `q`. -/
def enqueue_stmt (cap : Nat) (s : Prog) (c : EnqueueCall) (pick : Bool) :
    CallPc → Option Prog
  | CallPc.lock =>
    if s.mutex = none then
      some { s with mutex := some Tid.producer,
                    producer := { s.producer with pc := ProducerPc.enq c CallPc.test } }
    else none
  | CallPc.test =>
    if enqueue_wait cap s.buf then
      some { s with mutex := none,
                    producer := { s.producer with pc := ProducerPc.enq c CallPc.waiting } }
    else some { s with producer := { s.producer with pc := ProducerPc.enq c CallPc.body } }
  | CallPc.waiting => none
  | CallPc.woken =>
    if s.mutex = none then
      some { s with mutex := some Tid.producer,
                    producer := { s.producer with pc := ProducerPc.enq c CallPc.test } }
    else none
  | CallPc.body =>
    match enqueue cap s.buf (enqueue_arg s.producer c) with
    | Outcome.ok b =>
      some { s with buf := b,
                    producer := { s.producer with pc := ProducerPc.enq c CallPc.unlock } }
    | _ => none
  | CallPc.unlock =>
    some { s with mutex := none,
                  producer := { s.producer with pc := ProducerPc.enq c CallPc.signal } }
  | CallPc.signal =>
    some (signal_has_value
      { s with producer := { s.producer with pc := after_enqueue s.producer c } } pick)

/-- One statement of `producer_thread` (lines 130-176).  A failed `scanf` may have
written some of the locals; they are not read afterwards. -/
def producer_stmt (cap : Nat) (s : Prog) (pick : Bool) : Option Prog :=
  match s.producer.pc with
  | ProducerPc.scan =>
    if (scanf s.input).1 == 4 then
      some { s with
        input := (scanf s.input).2.2,
        producer :=
          { pc := if (scanf s.input).2.1.getD 1 0 != 0 then ProducerPc.nap
                  else ProducerPc.enq EnqueueCall.data CallPc.lock,
            line := s.producer.line,
            consumer_val := (scanf s.input).2.1.getD 0 0,
            producer_sleep := (scanf s.input).2.1.getD 1 0,
            consumer_sleep := (scanf s.input).2.1.getD 2 0,
            print_code := (scanf s.input).2.1.getD 3 0 } }
    else
      some { s with input := (scanf s.input).2.2,
                    producer := { s.producer with pc := ProducerPc.scan_end } }
  | ProducerPc.nap =>
    some { s with producer := { s.producer with
      pc := if sleep_wrapper s.producer.producer_sleep then
              ProducerPc.enq EnqueueCall.data CallPc.lock
            else ProducerPc.nap_error } }
  | ProducerPc.nap_error =>
    some { s with output := s.output ++ [Output.sleep_error],
                  producer := { s.producer with pc := ProducerPc.exit_call } }
  | ProducerPc.enq c q => enqueue_stmt cap s c pick q
  | ProducerPc.report =>
    some { s with
      output := s.output ++ [Output.producer_value s.producer.consumer_val s.producer.line],
      producer := { s.producer with pc := ProducerPc.incr } }
  | ProducerPc.incr =>
    some { s with producer := { s.producer with
      pc := ProducerPc.scan, line := wrap32 (s.producer.line + 1) } }
  | ProducerPc.scan_end =>
    some { s with
      input := (scanf s.input).2.2,
      producer := { s.producer with
        pc := if (scanf s.input).1 == EOF then
                ProducerPc.enq EnqueueCall.first_quit CallPc.lock
              else ProducerPc.input_error } }
  | ProducerPc.input_error =>
    some { s with output := s.output ++ [Output.input_error],
                  producer := { s.producer with pc := ProducerPc.exit_call } }
  | ProducerPc.exit_call =>
    some (call_exit { s with producer := { s.producer with pc := ProducerPc.exiting } } 1)
  | ProducerPc.exiting => none
  | ProducerPc.done => none

/-- Where a consumer continues after `dequeue` has returned `msg`: at line 198 when
`msg.quit != 0` (line 196), at the `nanosleep` of `sleep_wrapper` when
`msg.consumer_sleep != 0` (line 204), and at line 210 otherwise. -/
def after_dequeue (msg : message_t) : ConsumerPc :=
  if msg.quit != 0 then ConsumerPc.final_line
  else if msg.consumer_sleep != 0 then ConsumerPc.nap
  else ConsumerPc.add

/-- Where a consumer continues at the end of the loop body: the loop condition
`msg.quit == 0` of line 217 leads back to `dequeue`, or to the `return` of line 219. -/
def loop_back (msg : message_t) : ConsumerPc :=
  if msg.quit == 0 then ConsumerPc.deq CallPc.lock else ConsumerPc.done

/-- One statement of `dequeue` (lines 70-106), executed by consumer zero (`false`) or
consumer one (`true`) at `q`. -/
def dequeue_stmt (cap : Nat) (s : Prog) (one : Bool) : CallPc → Option Prog
  | CallPc.lock =>
    if s.mutex = none then
      some (set_consumer { s with mutex := some (consumer_tid one) } one
        { consumer s one with pc := ConsumerPc.deq CallPc.test })
    else none
  | CallPc.test =>
    if dequeue_wait s.buf then
      some (set_consumer { s with mutex := none } one
        { consumer s one with pc := ConsumerPc.deq CallPc.waiting })
    else some (set_consumer s one { consumer s one with pc := ConsumerPc.deq CallPc.body })
  | CallPc.waiting => none
  | CallPc.woken =>
    if s.mutex = none then
      some (set_consumer { s with mutex := some (consumer_tid one) } one
        { consumer s one with pc := ConsumerPc.deq CallPc.test })
    else none
  | CallPc.body =>
    match dequeue cap s.buf with
    | Outcome.ok (msg, b) =>
      some (set_consumer { s with buf := b } one
        { consumer s one with pc := ConsumerPc.deq CallPc.unlock, msg := msg })
    | _ => none
  | CallPc.unlock =>
    some (set_consumer { s with mutex := none } one
      { consumer s one with pc := ConsumerPc.deq CallPc.signal })
  | CallPc.signal =>
    some (signal_has_space (set_consumer s one
      { consumer s one with pc := after_dequeue (consumer s one).msg }))

/-- One statement of `consumer_thread` (lines 179-220), executed by consumer zero
(`false`) or consumer one (`true`). -/
def consumer_stmt (cap : Nat) (s : Prog) (one : Bool) : Option Prog :=
  match (consumer s one).pc with
  | ConsumerPc.deq q => dequeue_stmt cap s one q
  | ConsumerPc.final_line =>
    some (set_consumer
      { s with output := s.output ++
          [Output.consumer_final (consumer s one).consumer_sum (consumer s one).sum] }
      one { consumer s one with pc := ConsumerPc.publish })
  | ConsumerPc.publish =>
    some (set_consumer s one
      { consumer s one with pc := ConsumerPc.done, consumer_sum := (consumer s one).sum })
  | ConsumerPc.nap =>
    some (set_consumer s one { consumer s one with
      pc := if sleep_wrapper (consumer s one).msg.consumer_sleep then ConsumerPc.add
            else ConsumerPc.nap_error })
  | ConsumerPc.nap_error =>
    some (set_consumer { s with output := s.output ++ [Output.sleep_error] } one
      { consumer s one with pc := ConsumerPc.exit_call })
  | ConsumerPc.exit_call =>
    some (call_exit (set_consumer s one { consumer s one with pc := ConsumerPc.exiting }) 1)
  | ConsumerPc.add =>
    some (set_consumer s one { consumer s one with
      pc := if (consumer s one).msg.print_code == 2 || (consumer s one).msg.print_code == 3
            then ConsumerPc.report else loop_back (consumer s one).msg,
      sum := wrap32 ((consumer s one).sum + (consumer s one).msg.value) })
  | ConsumerPc.report =>
    some (set_consumer
      { s with output := s.output ++
          [Output.consumer_value (consumer s one).consumer_sum (consumer s one).msg.value
            (consumer s one).msg.line (consumer s one).sum] }
      one { consumer s one with pc := loop_back (consumer s one).msg })
  | ConsumerPc.exiting => none
  | ConsumerPc.done => none

/-- One statement of `main` (lines 247-258).  `pthread_join` returns once the thread
has returned. -/
def main_stmt (s : Prog) : Option Prog :=
  match s.main with
  | MainPc.join_zero =>
    if s.consumer_zero.pc = ConsumerPc.done then some { s with main := MainPc.join_one }
    else none
  | MainPc.join_one =>
    if s.consumer_one.pc = ConsumerPc.done then some { s with main := MainPc.join_producer }
    else none
  | MainPc.join_producer =>
    if s.producer.pc = ProducerPc.done then some { s with main := MainPc.total } else none
  | MainPc.total =>
    some { s with
      output := s.output ++
        [Output.total (wrap32 (s.consumer_one.consumer_sum + s.consumer_zero.consumer_sum))],
      main := MainPc.exit_call }
  | MainPc.exit_call => some (call_exit { s with main := MainPc.exiting } 0)
  | MainPc.exiting => none

/-- What the scheduler can do next: let a thread execute its next statement (`pick`
matters only at the `pthread_cond_signal` of the producer), unblock a thread that is
blocked in `pthread_cond_wait` without a signal (a spurious wake-up), or end the process
after `exit` has been called. -/
inductive Action where
  | run : Tid → Bool → Action
  | wake : Tid → Action
  | halt : Action
deriving DecidableEq, Repr

/-- A spurious wake-up of thread `t`; `none` when the thread is not blocked in
`pthread_cond_wait`. -/
def spurious_wake (s : Prog) : Tid → Option Prog
  | Tid.producer =>
    match s.producer.pc with
    | ProducerPc.enq c CallPc.waiting =>
      some { s with producer := { s.producer with pc := ProducerPc.enq c CallPc.woken } }
    | _ => none
  | Tid.consumer_zero =>
    if s.consumer_zero.pc = ConsumerPc.deq CallPc.waiting then
      some { s with consumer_zero := { s.consumer_zero with pc := ConsumerPc.deq CallPc.woken } }
    else none
  | Tid.consumer_one =>
    if s.consumer_one.pc = ConsumerPc.deq CallPc.waiting then
      some { s with consumer_one := { s.consumer_one with pc := ConsumerPc.deq CallPc.woken } }
    else none
  | Tid.main => none

/-- One step of the process, or `none` when the action is not enabled: the process
has ended, the thread is blocked or has terminated, or `exit` has not been called. -/
def prog_step (cap : Nat) (s : Prog) (a : Action) : Option Prog :=
  if s.halted then none
  else
    match a with
    | Action.run Tid.producer pick => producer_stmt cap s pick
    | Action.run Tid.consumer_zero _ => consumer_stmt cap s false
    | Action.run Tid.consumer_one _ => consumer_stmt cap s true
    | Action.run Tid.main _ => main_stmt s
    | Action.wake t => spurious_wake s t
    | Action.halt => if s.exit_code.isSome then some { s with halted := true } else none

/-- The state after a schedule of actions, or `none` when one of them is not enabled.
Every execution of the process is such a schedule. -/
def prog_run (cap : Nat) : List Action → Prog → Option Prog
  | [], s => some s
  | a :: rest, s =>
    match prog_step cap s a with
    | some s1 => prog_run cap rest s1
    | none => none

/-! ## Invariants of the program at the level of statements -/

/-- The mutex is held before the statement at `q` of `enqueue` or `dequeue`. -/
def holds_mutex : CallPc → Bool
  | CallPc.test => true
  | CallPc.body => true
  | CallPc.unlock => true
  | _ => false

/-- The statement of `enqueue` or `dequeue` before which a thread stands with the mutex
held; `none` when it stands elsewhere. -/
def critical_pc (q : CallPc) : Option CallPc :=
  if holds_mutex q then some q else none

/-- Where the producer stands between the lock and the unlock of `enqueue`. -/
def producer_view (p : ProducerState) : Option CallPc :=
  match p.pc with
  | ProducerPc.enq _ q => critical_pc q
  | _ => none

/-- Where a consumer stands between the lock and the unlock of `dequeue`. -/
def consumer_view (c : ConsumerState) : Option CallPc :=
  match c.pc with
  | ConsumerPc.deq q => critical_pc q
  | _ => none

/-- The invariant of the mutex and of the buffer: the indices of the buffer are
well-formed, a thread owns the mutex exactly when it stands between the lock and the
unlock of its call, and a thread that has passed the wait loop finds the loop condition
false. -/
def BaseInv (cap : Nat) (s : Prog) : Prop :=
  Inv cap s.buf ∧
  (s.mutex = some Tid.producer ↔ (producer_view s.producer).isSome = true) ∧
  (∀ one, s.mutex = some (consumer_tid one) ↔
    (consumer_view (consumer s one)).isSome = true) ∧
  s.mutex ≠ some Tid.main ∧
  (producer_view s.producer = some CallPc.body → enqueue_wait cap s.buf = false) ∧
  (∀ one, consumer_view (consumer s one) = some CallPc.body → dequeue_wait s.buf = false)

/-- One for a consumer that is blocked in `pthread_cond_wait`, zero otherwise. -/
def waits (c : ConsumerState) : Nat :=
  match c.pc with
  | ConsumerPc.deq CallPc.waiting => 1
  | _ => 0

/-- One for a consumer that is inside `dequeue` on its way to the wait loop or to the
statements on the buffer, zero otherwise. -/
def takes (c : ConsumerState) : Nat :=
  match c.pc with
  | ConsumerPc.deq CallPc.lock => 1
  | ConsumerPc.deq CallPc.test => 1
  | ConsumerPc.deq CallPc.woken => 1
  | ConsumerPc.deq CallPc.body => 1
  | _ => 0

/-- One for a consumer that has removed a message and has not yet signalled
`has_space`, zero otherwise. -/
def took (c : ConsumerState) : Nat :=
  match c.pc with
  | ConsumerPc.deq CallPc.unlock => 1
  | ConsumerPc.deq CallPc.signal => 1
  | _ => 0

/-- One for a producer that has stored a message and has not yet signalled
`has_value`, zero otherwise. -/
def stored (p : ProducerState) : Nat :=
  match p.pc with
  | ProducerPc.enq _ CallPc.unlock => 1
  | ProducerPc.enq _ CallPc.signal => 1
  | _ => 0

/-- One for a producer that is blocked in `pthread_cond_wait`, zero otherwise. -/
def blocked (p : ProducerState) : Nat :=
  match p.pc with
  | ProducerPc.enq _ CallPc.waiting => 1
  | _ => 0

/-- The invariant of the condition variables.  While a consumer is blocked on
`has_value`, every resident message is matched by a signal that the producer has still
to send or by a consumer that is on its way to the buffer.  While the producer is
blocked on `has_space`, every free slot is matched by a signal that a consumer has
still to send. -/
def CondInv (cap : Nat) (s : Prog) : Prop :=
  (0 < waits s.consumer_zero + waits s.consumer_one →
    (contents s.buf).length ≤
      stored s.producer + takes s.consumer_zero + takes s.consumer_one) ∧
  (0 < blocked s.producer →
    cap ≤ (contents s.buf).length + took s.consumer_zero + took s.consumer_one)

/-- The number of quit messages in a list of messages. -/
def quits_in (l : List message_t) : Nat :=
  l.countP (fun m => m.quit != 0)

/-- The number of quit messages that the producer has stored in the buffer when it
stands at `p`. -/
def quits_stored : ProducerPc → Nat
  | ProducerPc.enq EnqueueCall.first_quit CallPc.unlock => 1
  | ProducerPc.enq EnqueueCall.first_quit CallPc.signal => 1
  | ProducerPc.enq EnqueueCall.second_quit CallPc.lock => 1
  | ProducerPc.enq EnqueueCall.second_quit CallPc.test => 1
  | ProducerPc.enq EnqueueCall.second_quit CallPc.waiting => 1
  | ProducerPc.enq EnqueueCall.second_quit CallPc.woken => 1
  | ProducerPc.enq EnqueueCall.second_quit CallPc.body => 1
  | ProducerPc.enq EnqueueCall.second_quit CallPc.unlock => 2
  | ProducerPc.enq EnqueueCall.second_quit CallPc.signal => 2
  | ProducerPc.done => 2
  | _ => 0

/-- One for a consumer whose local `msg` holds a quit message, zero otherwise. -/
def holds_quit (c : ConsumerState) : Nat :=
  if c.msg.quit = 0 then 0 else 1

/-- The local `msg` of a consumer fits the place where the consumer stands: it is a
quit message on the way to the `return` of line 200, and a data message, or the
zero-initialised message of the start, everywhere else except right after the
statements of `dequeue` on the buffer. -/
def msg_fits (c : ConsumerState) : Prop :=
  match c.pc with
  | ConsumerPc.final_line => c.msg.quit ≠ 0
  | ConsumerPc.publish => c.msg.quit ≠ 0
  | ConsumerPc.done => c.msg.quit ≠ 0
  | ConsumerPc.deq CallPc.unlock => True
  | ConsumerPc.deq CallPc.signal => True
  | _ => c.msg.quit = 0

/-- The invariant of the quit messages: the resident messages are data messages
followed by quit messages, the quit messages that the producer has stored are either
resident or held by a consumer, and once a consumer holds a quit message no data
message is resident. -/
def QuitInv (s : Prog) : Prop :=
  ∃ ds k, contents s.buf = ds ++ List.replicate k quit_msg ∧ (∀ d ∈ ds, d.quit = 0) ∧
    k + (holds_quit s.consumer_zero + holds_quit s.consumer_one) =
      quits_stored s.producer.pc ∧
    (0 < holds_quit s.consumer_zero + holds_quit s.consumer_one → ds = []) ∧
    msg_fits s.consumer_zero ∧ msg_fits s.consumer_one

/-- How far `main` has come: the number of its statements already executed. -/
def main_rank : MainPc → Nat
  | MainPc.join_zero => 0
  | MainPc.join_one => 1
  | MainPc.join_producer => 2
  | MainPc.total => 3
  | MainPc.exit_call => 4
  | MainPc.exiting => 5

/-- The invariant of termination: the process ends only after a call of `exit`, a
thread inside `exit` has set the exit status, the status 0 is set by `main` only, a
thread that `main` has joined has returned, and `main` prints the total of the two
published sums before it calls `exit`. -/
def ExitInv (s : Prog) : Prop :=
  (s.halted = true → s.exit_code.isSome = true) ∧
  (s.producer.pc = ProducerPc.exiting → s.exit_code.isSome = true) ∧
  (s.consumer_zero.pc = ConsumerPc.exiting → s.exit_code.isSome = true) ∧
  (s.consumer_one.pc = ConsumerPc.exiting → s.exit_code.isSome = true) ∧
  (s.main = MainPc.exiting → s.exit_code.isSome = true) ∧
  (s.exit_code = some 0 → s.main = MainPc.exiting) ∧
  (1 ≤ main_rank s.main → s.consumer_zero.pc = ConsumerPc.done) ∧
  (2 ≤ main_rank s.main → s.consumer_one.pc = ConsumerPc.done) ∧
  (3 ≤ main_rank s.main → s.producer.pc = ProducerPc.done) ∧
  (4 ≤ main_rank s.main →
    Output.total (wrap32 (s.consumer_one.consumer_sum + s.consumer_zero.consumer_sum)) ∈
      s.output)

/-! ## A measure of the work that remains -/

/-- The steps a thread has still to make inside a call of `enqueue` or `dequeue` when it
is not blocked again, counting three for the signal: one for the step and two for the
steps of the thread that the signal unblocks. -/
def call_weight : CallPc → Nat
  | CallPc.lock => 7
  | CallPc.test => 6
  | CallPc.waiting => 5
  | CallPc.woken => 7
  | CallPc.body => 5
  | CallPc.unlock => 4
  | CallPc.signal => 3

/-- The weight of a message that a call of `enqueue` has still to store: the steps of
the consumer that will take it. -/
def store_weight : CallPc → Nat
  | CallPc.unlock => 0
  | CallPc.signal => 0
  | _ => 10

/-- A bound on the steps that the producer has still to make, apart from those it
makes for the input it has still to read. -/
def producer_weight : ProducerPc → Nat
  | ProducerPc.scan => 36
  | ProducerPc.nap => 56
  | ProducerPc.nap_error => 2
  | ProducerPc.enq EnqueueCall.data q => 38 + (call_weight q + store_weight q)
  | ProducerPc.enq EnqueueCall.first_quit q => 17 + (call_weight q + store_weight q)
  | ProducerPc.enq EnqueueCall.second_quit q => call_weight q + store_weight q
  | ProducerPc.report => 38
  | ProducerPc.incr => 37
  | ProducerPc.scan_end => 35
  | ProducerPc.input_error => 2
  | ProducerPc.exit_call => 1
  | ProducerPc.exiting => 0
  | ProducerPc.done => 0

/-- A bound on the steps that a consumer has still to make until it stands before the
statements of `dequeue` on the buffer again. -/
def consumer_weight : ConsumerPc → Nat
  | ConsumerPc.deq CallPc.unlock => 14
  | ConsumerPc.deq CallPc.signal => 13
  | ConsumerPc.deq q => call_weight q
  | ConsumerPc.final_line => 2
  | ConsumerPc.publish => 1
  | ConsumerPc.nap => 10
  | ConsumerPc.nap_error => 2
  | ConsumerPc.exit_call => 1
  | ConsumerPc.add => 9
  | ConsumerPc.report => 8
  | ConsumerPc.exiting => 0
  | ConsumerPc.done => 0

/-- A bound on the number of steps that the process can still make without a spurious
wake-up: six for every item of input not yet read, ten for every resident message, the
weights of the threads, and one for the end of the process. -/
def steps_left (s : Prog) : Nat :=
  6 * s.input.length + 10 * (contents s.buf).length + producer_weight s.producer.pc +
    (consumer_weight s.consumer_zero.pc + consumer_weight s.consumer_one.pc) +
    (5 - main_rank s.main) + (if s.halted then 0 else 1)

/-- The number of spurious wake-ups in a schedule. -/
def wakes : List Action → Nat
  | [] => 0
  | Action.wake _ :: rest => wakes rest + 1
  | _ :: rest => wakes rest

/-! ## Executions of the program -/

/-- The four invariants of the program at the level of statements. -/
def Sound (cap : Nat) (s : Prog) : Prop :=
  BaseInv cap s ∧ CondInv cap s ∧ QuitInv s ∧ ExitInv s

/-- The identity of a consumer: the value that `main` stores in the variable passed to
the thread (lines 229-230). -/
def consumer_id (one : Bool) : Int :=
  if one then 1 else 0

/-- The message that consumer zero (`false`) or consumer one (`true`) takes from the
buffer with its next statement: one entry when the consumer stands before the
statements of `dequeue` on the buffer (lines 82-98), none otherwise. -/
def taken (cap : Nat) (s : Prog) (one : Bool) : List (Bool × message_t) :=
  match (consumer s one).pc, dequeue cap s.buf with
  | ConsumerPc.deq CallPc.body, Outcome.ok (msg, _) => [(one, msg)]
  | _, _ => []

/-- The message that the action `a` takes from the buffer in state `s`, with the
consumer that takes it. -/
def dequeued_by (cap : Nat) (s : Prog) : Action → List (Bool × message_t)
  | Action.run Tid.consumer_zero _ => taken cap s false
  | Action.run Tid.consumer_one _ => taken cap s true
  | _ => []

/-- The messages taken from the buffer in the execution of a schedule from `s`, in the
order of the `dequeue` calls, each with the consumer that took it. -/
def dequeue_log (cap : Nat) : List Action → Prog → List (Bool × message_t)
  | [], _ => []
  | a :: rest, s =>
    match prog_step cap s a with
    | some s1 => dequeued_by cap s a ++ dequeue_log cap rest s1
    | none => []

/-- The messages that a consumer took, in order. -/
def stream (one : Bool) (log : List (Bool × message_t)) : List message_t :=
  (log.filter (fun e => e.1 == one)).map (fun e => e.2)

/-- The status lines of the producer (line 154). -/
def producer_line : Output → Bool
  | Output.producer_value _ _ => true
  | _ => false

/-- The lines of the consumer with identity `id` (lines 198 and 215). -/
def consumer_line (id : Int) : Output → Bool
  | Output.consumer_final i _ => i == id
  | Output.consumer_value i _ _ _ => i == id
  | _ => false

/-! ## Status lines -/

/-- What the producer does for one record read on input line `line`, in the words of
the specification: it enqueues the message of the record and then, when the report code
is 1 or 3, prints the producer line with the value and the line number. -/
def record_events (r : Record) (line : Int) : List Event :=
  Event.enq (message_of r line) ::
    (if r.print_code = 1 ∨ r.print_code = 3 then
      [Event.out (Output.producer_value r.value line)]
    else [])

/-- The blocks of `record_events` for a list of records when the counter `line` holds
`line` at the first of them. -/
def events_from (line : Int) : List Record → List Event
  | [] => []
  | r :: rs => record_events r line ++ events_from (wrap32 (line + 1)) rs

/-- A record with report code 1 whose producer delay is negative. -/
def negative_delay_report : Record :=
  { value := 7, producer_sleep := -1, consumer_sleep := 0, print_code := 1 }

/-! ## The progress of the threads on an input of records -/

/-- The producer stands inside the body of its loop (lines 142-157): it has read a
record that it has not yet finished. -/
def in_record : ProducerPc → Bool
  | ProducerPc.nap => true
  | ProducerPc.enq EnqueueCall.data _ => true
  | ProducerPc.report => true
  | ProducerPc.incr => true
  | _ => false

/-- The producer has stored the message of the record it stands in. -/
def data_stored : ProducerPc → Bool
  | ProducerPc.enq EnqueueCall.data CallPc.unlock => true
  | ProducerPc.enq EnqueueCall.data CallPc.signal => true
  | ProducerPc.report => true
  | ProducerPc.incr => true
  | _ => false

/-- The producer has passed the `printf` of line 154 for the record it stands in. -/
def reported : ProducerPc → Bool
  | ProducerPc.incr => true
  | _ => false

/-- The producer has left its loop. -/
def past_loop : ProducerPc → Bool
  | ProducerPc.scan_end => true
  | ProducerPc.enq EnqueueCall.first_quit _ => true
  | ProducerPc.enq EnqueueCall.second_quit _ => true
  | ProducerPc.done => true
  | _ => false

/-- The producer is on its way to `exit(1)`. -/
def failing : ProducerPc → Bool
  | ProducerPc.nap_error => true
  | ProducerPc.input_error => true
  | ProducerPc.exit_call => true
  | ProducerPc.exiting => true
  | _ => false

/-- The progress of the producer on the records `rs`, seen from the messages `sent`
through the buffer so far, the producer lines `lines` printed so far, the rest `inp` of
the input and the state `p` of the thread: the records split into those finished, the
one the producer stands in and those still to be read; the locals hold the record the
producer stands in and the number of its line; the messages sent are those of the
finished records, of the record in hand once stored, and the quit messages stored; the
lines printed are those of the finished records and of the record in hand once
reported. -/
def ProducerInv (rs : List Record) (sent : List message_t) (lines : List Output)
    (inp : List Token) (p : ProducerState) : Prop :=
  ∃ pre cur post, rs = pre ++ cur ++ post ∧
    cur.length = (if in_record p.pc then 1 else 0) ∧
    (past_loop p.pc = true → post = []) ∧
    inp = encode post ∧
    p.line = wrap32 ((pre.length : Int) + 1) ∧
    (∀ r ∈ cur, p.consumer_val = r.value ∧ p.producer_sleep = r.producer_sleep ∧
      p.consumer_sleep = r.consumer_sleep ∧ p.print_code = r.print_code) ∧
    (p.pc = ProducerPc.report → p.print_code = 1 ∨ p.print_code = 3) ∧
    sent = messages_from 1 (pre ++ if data_stored p.pc then cur else []) ++
      List.replicate (quits_stored p.pc) quit_msg ∧
    lines = outputs (events_from 1 (pre ++ if reported p.pc then cur else [])) ∧
    failing p.pc = false

/-- The consumer has a message in hand: it has taken it from the buffer and has not
yet finished the body of its loop for it. -/
def in_hand : ConsumerPc → Bool
  | ConsumerPc.deq CallPc.unlock => true
  | ConsumerPc.deq CallPc.signal => true
  | ConsumerPc.nap => true
  | ConsumerPc.add => true
  | ConsumerPc.report => true
  | ConsumerPc.final_line => true
  | _ => false

/-- The locals of a consumer with identity `id` fit the place `n` that
`consumer_loop` reaches on the messages the consumer has finished: the local `sum` is
the sum reached, the variable of `main` still holds the identity until line 199 stores
the sum in it, and before the `printf` of line 215 the value in hand is already added. -/
def sum_fits (id : Int) (c : ConsumerState) (n : Next) : Prop :=
  match c.pc with
  | ConsumerPc.report =>
    ∃ sum0, n = Next.again sum0 ∧ c.sum = wrap32 (sum0 + c.msg.value) ∧
      (c.msg.print_code = 2 ∨ c.msg.print_code = 3) ∧ c.consumer_sum = id
  | ConsumerPc.publish => n = Next.returned c.sum ∧ c.consumer_sum = id
  | ConsumerPc.done => n = Next.returned c.consumer_sum
  | ConsumerPc.nap_error => False
  | ConsumerPc.exit_call => False
  | ConsumerPc.exiting => False
  | _ => n = Next.again c.sum ∧ c.consumer_sum = id

/-- The progress of the consumer with identity `id`, seen from the messages `ms` it
has dequeued so far, the lines `lines` it has printed so far and the state `c` of the
thread: the lines are those that `consumer_loop` prints on the messages finished, and
the message in hand is the local `msg`. -/
def ConsumerInv (id : Int) (ms : List message_t) (lines : List Output)
    (c : ConsumerState) : Prop :=
  ∃ pre cur, ms = pre ++ cur ∧
    cur.length = (if in_hand c.pc then 1 else 0) ∧
    (∀ m ∈ cur, c.msg = m ∧ 0 ≤ m.consumer_sleep) ∧
    lines = (consumer_loop id 0 pre).output ∧
    sum_fits id c (consumer_loop id 0 pre).next

/-- The invariant of an execution on the records `rs` when no delay is negative, for
the messages `log` dequeued so far and the state `s`: the progress of the producer and
of the two consumers, and no exit status other than 0. -/
def LineInv (rs : List Record) (log : List (Bool × message_t)) (s : Prog) : Prop :=
  ProducerInv rs (log.map (fun e => e.2) ++ contents s.buf)
    (s.output.filter producer_line) s.input s.producer ∧
  (∀ one, ConsumerInv (consumer_id one) (stream one log)
    (s.output.filter (consumer_line (consumer_id one))) (consumer s one)) ∧
  (∀ k, s.exit_code = some k → k = 0)

/-! ## Sample executions -/

/-- A schedule written with one digit for each action: 0 for a statement of the
producer, 1 and 2 for a statement of consumer zero and of consumer one, 3 for a statement
of `main`, 4 for the end of the process, 5, 6 and 7 for a spurious wake-up of the
producer, of consumer zero and of consumer one. -/
def actions_of : List Nat → List Action
  | [] => []
  | 0 :: rest => Action.run Tid.producer false :: actions_of rest
  | 1 :: rest => Action.run Tid.consumer_zero false :: actions_of rest
  | 2 :: rest => Action.run Tid.consumer_one false :: actions_of rest
  | 3 :: rest => Action.run Tid.main false :: actions_of rest
  | 4 :: rest => Action.halt :: actions_of rest
  | 5 :: rest => Action.wake Tid.producer :: actions_of rest
  | 6 :: rest => Action.wake Tid.consumer_zero :: actions_of rest
  | _ :: rest => Action.wake Tid.consumer_one :: actions_of rest

/-- Four records, the last with report code 3 and value 7 on line 4. -/
def report_records : List Record :=
  [{ value := 1, producer_sleep := 0, consumer_sleep := 0, print_code := 0 },
   { value := 2, producer_sleep := 0, consumer_sleep := 0, print_code := 1 },
   { value := 3, producer_sleep := 5, consumer_sleep := 0, print_code := 2 },
   { value := 7, producer_sleep := 0, consumer_sleep := 2, print_code := 3 }]

/-- An execution on `report_records` to the end of the process. -/
def report_schedule : List Action :=
  actions_of
    [0, 1, 1, 0, 0, 0, 0, 2, 0, 0, 0, 2, 2, 2, 0, 0, 2, 2, 0, 0, 0, 1, 0, 0, 0, 0, 1, 1, 1,
     0, 0, 1, 0, 0, 0, 0, 1, 2, 0, 2, 2, 2, 2, 0, 0, 0, 2, 2, 0, 0, 0, 1, 0, 0, 0, 1, 1, 1,
     0, 0, 0, 1, 0, 0, 0, 0, 1, 0, 0, 0, 1, 1, 2, 2, 2, 2, 1, 2, 1, 1, 1, 1, 2, 1, 1, 2, 3,
     3, 3, 3, 3, 4]

/-- What an execution shows: the lines printed, the exit status, whether the process
has ended, and whether the producer and the two consumers have returned. -/
def outcome (r : Option Prog) : Option (List Output × Option Int × Bool × Bool × Bool × Bool) :=
  r.map (fun s => (s.output, s.exit_code, s.halted, decide (s.producer.pc = ProducerPc.done),
    decide (s.consumer_zero.pc = ConsumerPc.done), decide (s.consumer_one.pc = ConsumerPc.done)))

/-- The number of consumers that have not returned. -/
def running_consumers (s : Prog) : Nat :=
  (if s.consumer_zero.pc = ConsumerPc.done then 0 else 1) +
    (if s.consumer_one.pc = ConsumerPc.done then 0 else 1)

/-- The state at the end of `report_schedule` on `report_records`. -/
def report_final : Prog :=
  { input := [],
    output :=
      [Output.producer_value 2 2, Output.consumer_value 1 3 3 4, Output.producer_value 7 4,
       Output.consumer_value 0 7 4 9, Output.consumer_final 1 4, Output.consumer_final 0 9,
       Output.total 13],
    buf :=
      { buffer := [quit_msg, quit_msg, zero_msg, zero_msg, zero_msg, zero_msg, zero_msg,
          zero_msg, zero_msg, zero_msg],
        rear := -1, front := -1 },
    mutex := none,
    producer :=
      { pc := ProducerPc.done, line := 5, consumer_val := 7, producer_sleep := 0,
        consumer_sleep := 2, print_code := 3 },
    consumer_zero := { pc := ConsumerPc.done, sum := 9, msg := quit_msg, consumer_sum := 9 },
    consumer_one := { pc := ConsumerPc.done, sum := 4, msg := quit_msg, consumer_sum := 4 },
    main := MainPc.exiting, exit_code := some 0, halted := true }

/-- A record whose consumer delay is negative. -/
def negative_consumer_delay_record : Record :=
  { value := 1, producer_sleep := 0, consumer_sleep := -1, print_code := 0 }

/-- An execution on `negative_consumer_delay_record`: the producer reads the record and
stores its message (7 statements); consumer zero dequeues the message, fails in
`sleep_wrapper`, prints the error line and calls `exit(1)` (8 statements); the process
ends. -/
def early_exit_schedule : List Action :=
  actions_of [0, 0, 0, 0, 0, 0, 0, 1, 1, 1, 1, 1, 1, 1, 1, 4]

/-- An execution on `negative_consumer_delay_record` in which the other threads run on
after consumer zero has called `exit(1)`: the producer stores both quit messages and
returns (12 statements), consumer one dequeues a quit message and returns (7
statements), and then the process ends. -/
def late_exit_schedule : List Action :=
  actions_of [0, 0, 0, 0, 0, 0, 0, 1, 1, 1, 1, 1, 1, 1, 1, 0, 0, 0, 0, 0, 0, 0, 0, 0, 0, 0,
    0, 2, 2, 2, 2, 2, 2, 2, 4]

/-- An execution on the empty input: the producer stores both quit messages and returns
(12 statements), and consumer zero runs through its `dequeue` call (5 statements), which
returns the first quit message. -/
def quit_taken_schedule : List Action :=
  actions_of [0, 0, 0, 0, 0, 0, 0, 0, 0, 0, 0, 0, 1, 1, 1, 1, 1]

/-- What a state shows of the shutdown: the exit status, whether the process has ended,
where the four threads stand, the number of quit messages in the buffer and the number
of consumers that have not returned. -/
def shutdown_view (r : Option Prog) :
    Option (Option Int × Bool × ProducerPc × ConsumerPc × ConsumerPc × MainPc × Nat × Nat) :=
  r.map (fun s => (s.exit_code, s.halted, s.producer.pc, s.consumer_zero.pc,
    s.consumer_one.pc, s.main, quits_in (contents s.buf), running_consumers s))

/-- A record with report code 1 whose consumer delay is negative. -/
def negative_consumer_delay_report : Record :=
  { value := 7, producer_sleep := 0, consumer_sleep := -1, print_code := 1 }

/-- An execution on `negative_delay_report`: the producer reads the record, fails in
`sleep_wrapper`, prints the error line and calls `exit(1)` (4 statements); the process
ends. -/
def failed_nap_schedule : List Action :=
  actions_of [0, 0, 0, 0, 4]

/-- An execution on `negative_consumer_delay_report`: the producer reads the record and
runs through its `enqueue` call (6 statements), so that it stands before the `printf` of
line 154; consumer zero dequeues the message, fails in `sleep_wrapper`, prints the error
line and calls `exit(1)` (8 statements); the process ends. -/
def lost_report_schedule : List Action :=
  actions_of [0, 0, 0, 0, 0, 0, 1, 1, 1, 1, 1, 1, 1, 1, 4]

/-- The messages dequeued in `report_schedule` on `report_records`, each with the
consumer that took it (`true` for consumer one). -/
def report_log : List (Bool × message_t) :=
  [(true, { value := 1, consumer_sleep := 0, line := 1, print_code := 0, quit := 0 }),
   (false, { value := 2, consumer_sleep := 0, line := 2, print_code := 1, quit := 0 }),
   (true, { value := 3, consumer_sleep := 0, line := 3, print_code := 2, quit := 0 }),
   (false, { value := 7, consumer_sleep := 2, line := 4, print_code := 3, quit := 0 }),
   (true, quit_msg), (false, quit_msg)]

/-! ## The program on an input that `scanf` cannot read to its end -/

/-- The invariant of the producer on an unreadable input: inside its loop the rest of
the input is unreadable, after the loop the `scanf` of line 161 does not return `EOF`,
and the producer never reaches the `enqueue` calls of lines 165 and 166. -/
def UnreadableInv (s : Prog) : Prop :=
  match s.producer.pc with
  | ProducerPc.enq EnqueueCall.first_quit _ => False
  | ProducerPc.enq EnqueueCall.second_quit _ => False
  | ProducerPc.done => False
  | ProducerPc.scan_end => (scanf s.input).1 ≠ EOF
  | ProducerPc.nap_error => True
  | ProducerPc.input_error => True
  | ProducerPc.exit_call => True
  | ProducerPc.exiting => True
  | _ => unreadable s.input

/-- The invariant of the exit status and of the total line: `exit` is called with 0 or
1 only, and the total line is printed by `main` after its joins only. -/
def EndInv (s : Prog) : Prop :=
  (∀ k, s.exit_code = some k → k = 0 ∨ k = 1) ∧
  (∀ x, Output.total x ∈ s.output → 4 ≤ main_rank s.main)

/-- An execution on `sign_lines`: the producer reads the first record, stores its
message, fails to read on at the lone sign, finds in the `scanf` of line 161 that the
input has not ended, prints the error line and calls `exit(1)` (11 statements); the
process ends. -/
def sign_schedule : List Action :=
  actions_of [0, 0, 0, 0, 0, 0, 0, 0, 0, 0, 0, 4]

/-- An execution on `miscounted_lines` to the end of the process. -/
def miscounted_schedule : List Action :=
  actions_of
    [0, 1, 0, 1, 0, 0, 0, 0, 0, 0, 0, 1, 0, 1, 1, 1, 1, 2, 1, 1, 2, 1, 1, 0, 0, 0, 0, 0, 0,
     0, 0, 1, 1, 1, 1, 0, 1, 0, 0, 0, 0, 1, 2, 1, 2, 2, 2, 2, 0, 0, 0, 2, 2, 0, 0, 1, 1, 1,
     1, 1, 1, 1, 3, 3, 3, 3, 3, 4]

/-! # Proofs

All definitions are above this point; lemmas and the theorems for the claims follow. -/

/-! ## Lemmas on the buffer operations -/

theorem take_succ_set {α : Type} (l : List α) (k : Nat) (a : α) (h : k < l.length) :
    (l.set k a).take (k + 1) = l.take k ++ [a] := by
  rw [List.set_eq_take_append_cons_drop, if_pos h]
  have e : l.take k ++ a :: l.drop (k + 1) = (l.take k ++ [a]) ++ l.drop (k + 1) := by simp
  rw [e]
  apply List.take_left'
  simp
  omega

theorem contents_empty (buf : List message_t) (r : Int) : contents ⟨buf, r, -1⟩ = [] := by
  simp [contents]

theorem contents_le (buf : List message_t) (f r : Nat) (h : f ≤ r) :
    contents ⟨buf, (r : Int), (f : Int)⟩ = (buf.drop f).take (r - f + 1) := by
  have hne : ¬ ((f : Int) = -1) := by omega
  have e3 : (f : Int) ≤ (r : Int) := by omega
  have e4 : ((r : Int) - (f : Int) + 1).toNat = r - f + 1 := by omega
  simp only [contents, beq_iff_eq, hne, if_false, e3, if_true, Int.toNat_ofNat, e4]

theorem contents_gt (buf : List message_t) (f r : Nat) (h : r < f) :
    contents ⟨buf, (r : Int), (f : Int)⟩ = buf.drop f ++ buf.take (r + 1) := by
  have hne : ¬ ((f : Int) = -1) := by omega
  have e3 : ¬ ((f : Int) ≤ (r : Int)) := by omega
  have e4 : ((r : Int) + 1).toNat = r + 1 := by omega
  simp only [contents, beq_iff_eq, hne, if_false, e3, Int.toNat_ofNat, e4]

theorem inv_init (cap : Nat) : Inv cap (init_buf cap) := by
  simp [Inv, init_buf]

theorem contents_init (cap : Nat) : contents (init_buf cap) = [] := by
  simp [contents, init_buf]

theorem enqueue_spec (cap : Nat) (s : RingBuf) (m : message_t) (hc : 0 < cap)
    (h : Inv cap s) (hw : enqueue_wait cap s = false) :
    ∃ s1, enqueue cap s m = Outcome.ok s1 ∧ Inv cap s1 ∧
      contents s1 = contents s ++ [m] := by
  obtain ⟨buf, rear, front⟩ := s
  obtain ⟨hl, h | ⟨h1, h2, h3, h4⟩⟩ := h
  · obtain ⟨hf, hr⟩ := h
    simp only at hf hr hl
    subst hf hr
    have hb : 0 < buf.length := by omega
    refine ⟨⟨buf.set 0 m, 0, 0⟩, ?_, ?_, ?_⟩
    · simp [enqueue, hw, array_set, hb]
    · simp [Inv, hl, hc]
    · simp [contents]
      cases buf with
      | nil => simp at hb
      | cons a t => simp
  · simp only at h1 h2 h3 h4 hl
    obtain ⟨f, rfl⟩ := Int.eq_ofNat_of_zero_le h1
    obtain ⟨r, rfl⟩ := Int.eq_ofNat_of_zero_le h3
    have hf : f < cap := by omega
    have hr : r < cap := by omega
    have hne : ¬ ((f : Int) = -1) := by omega
    have hw2 := hw
    simp only [enqueue_wait, Bool.or_eq_false_iff, Bool.and_eq_false_iff, beq_eq_false_iff_ne,
      ne_eq] at hw2
    by_cases hwrap : r + 1 ≥ cap
    · -- the new rear wraps to slot 0
      have hf0 : 0 < f := by omega
      have hb : 0 < buf.length := by omega
      refine ⟨⟨buf.set 0 m, ((0 : Nat) : Int), (f : Int)⟩, ?_, ?_, ?_⟩
      · have e1 : ((r : Int) + 1 ≥ (cap : Int)) := by omega
        simp [enqueue, hw, array_set, hne, e1, hb]
      · simp [Inv, hl]
        omega
      · rw [contents_gt _ _ _ hf0, contents_le _ _ _ (by omega : f ≤ r),
          List.drop_set_of_lt m buf hf0, take_succ_set buf 0 m hb,
          List.take_of_length_le (l := List.drop f buf) (by simp; omega)]
        simp
    · have hr1 : r + 1 < cap := by omega
      have hb : r + 1 < buf.length := by omega
      refine ⟨⟨buf.set (r + 1) m, ((r + 1 : Nat) : Int), (f : Int)⟩, ?_, ?_, ?_⟩
      · have e1 : ¬ ((r : Int) + 1 ≥ (cap : Int)) := by omega
        have e2 : 0 ≤ (r : Int) + 1 := by omega
        have e6 : ((r : Int) + 1).toNat = r + 1 := by omega
        simp only [enqueue, hw, array_set, hne, e1, hb, e6, e2, beq_iff_eq, if_false, if_true,
          and_self, Nat.cast_add, Nat.cast_one]
        simp
      · simp [Inv, hl]
        omega
      · by_cases hfr : f ≤ r
        · rw [contents_le _ _ _ hfr, contents_le _ _ _ (by omega : f ≤ r + 1),
            List.drop_set, if_neg (by omega)]
          have e9 : r + 1 - f = r - f + 1 := by omega
          rw [e9, take_succ_set _ _ _ (by simp; omega)]
        · rw [contents_gt _ _ _ (by omega : r < f), contents_gt _ _ _ (by omega : r + 1 < f),
            List.drop_set_of_lt m buf (by omega), take_succ_set buf (r + 1) m (by omega)]
          simp

theorem dequeue_spec (cap : Nat) (s : RingBuf) (h : Inv cap s) (hw : dequeue_wait s = false) :
    ∃ m s1, dequeue cap s = Outcome.ok (m, s1) ∧ Inv cap s1 ∧
      contents s = m :: contents s1 ∧ array_get s.buffer s.front = some m := by
  obtain ⟨buf, rear, front⟩ := s
  have hne : ¬ (front = -1) := by simpa [dequeue_wait] using hw
  obtain ⟨hl, h | ⟨h1, h2, h3, h4⟩⟩ := h
  · exact absurd h.1 hne
  · simp only at h1 h2 h3 h4 hl hne
    obtain ⟨f, rfl⟩ := Int.eq_ofNat_of_zero_le h1
    obtain ⟨r, rfl⟩ := Int.eq_ofNat_of_zero_le h3
    have hf : f < buf.length := by omega
    have hr : r < buf.length := by omega
    have hget : array_get buf (f : Int) = some buf[f] := by
      simp [array_get, hf]
    by_cases hfr : f = r
    · subst hfr
      refine ⟨buf[f], ⟨buf, -1, -1⟩, ?_, ?_, ?_, hget⟩
      · simp [dequeue, hw, hget]
      · simp [Inv, hl]
      · rw [contents_le _ _ _ (le_refl f), contents_empty, List.drop_eq_getElem_cons hf]
        simp only [Nat.sub_self, zero_add, List.take_succ_cons, List.take_zero]
    · by_cases hwrap : f + 1 ≥ cap
      · refine ⟨buf[f], ⟨buf, (r : Int), ((0 : Nat) : Int)⟩, ?_, ?_, ?_, hget⟩
        · have e1 : ((f : Int) + 1 ≥ (cap : Int)) := by omega
          have e2 : ¬ ((f : Int) = (r : Int)) := by omega
          simp [dequeue, hw, hget, e1, e2]
        · simp [Inv, hl]
          omega
        · rw [contents_gt _ _ _ (by omega : r < f), contents_le _ _ _ (Nat.zero_le r),
            List.drop_eq_getElem_cons hf, List.drop_of_length_le (by omega : buf.length ≤ f + 1)]
          simp
      · refine ⟨buf[f], ⟨buf, (r : Int), ((f + 1 : Nat) : Int)⟩, ?_, ?_, ?_, hget⟩
        · have e1 : ¬ ((f : Int) + 1 ≥ (cap : Int)) := by omega
          have e2 : ¬ ((f : Int) = (r : Int)) := by omega
          simp [dequeue, hw, hget, e1, e2]
        · simp [Inv, hl]
          omega
        · by_cases hlt : f < r
          · rw [contents_le _ _ _ (by omega : f ≤ r), contents_le _ _ _ (by omega : f + 1 ≤ r),
              List.drop_eq_getElem_cons hf]
            have e3 : r - f + 1 = (r - (f + 1) + 1) + 1 := by omega
            rw [e3, List.take_succ_cons]
          · rw [contents_gt _ _ _ (by omega : r < f), contents_gt _ _ _ (by omega : r < f + 1),
              List.drop_eq_getElem_cons hf]
            simp only [List.cons_append]

/-- What a completed `enqueue` did to the indices and the array, read off the code. -/
theorem enqueue_shape (cap : Nat) (s s1 : RingBuf) (m : message_t)
    (h : enqueue cap s m = Outcome.ok s1) :
    enqueue_wait cap s = false ∧
    s1.front = (if s.front = -1 then 0 else s.front) ∧
    s1.rear = (if s.front = -1 then 0 else if s.rear + 1 ≥ (cap : Int) then 0 else s.rear + 1) ∧
    0 ≤ s1.rear ∧ s1.rear.toNat < s.buffer.length ∧
    s1.buffer = s.buffer.set s1.rear.toNat m := by
  obtain ⟨buf, rear, front⟩ := s
  unfold enqueue at h
  by_cases hw : enqueue_wait cap ⟨buf, rear, front⟩ = true
  · simp [hw] at h
  · simp only [hw, Bool.false_eq_true, if_false, beq_iff_eq] at h
    generalize hr : (if front = -1 then (0 : Int)
      else if rear + 1 ≥ (cap : Int) then 0 else rear + 1) = rear1 at h
    by_cases hidx : 0 ≤ rear1 ∧ rear1.toNat < buf.length
    · simp only [array_set, hidx, and_self, if_true, Outcome.ok.injEq] at h
      subst h
      exact ⟨by simpa using hw, rfl, rfl, hidx.1, hidx.2, rfl⟩
    · simp [array_set, hidx] at h

/-- What a completed `dequeue` did to the indices and the array, read off the code. -/
theorem dequeue_shape (cap : Nat) (s s1 : RingBuf) (m : message_t)
    (h : dequeue cap s = Outcome.ok (m, s1)) :
    s.front ≠ -1 ∧ array_get s.buffer s.front = some m ∧ s1.buffer = s.buffer ∧
    s1.front = (if s.front = s.rear then -1
      else if s.front + 1 ≥ (cap : Int) then 0 else s.front + 1) ∧
    s1.rear = (if s.front = s.rear then -1 else s.rear) := by
  obtain ⟨buf, rear, front⟩ := s
  unfold dequeue at h
  by_cases hw : dequeue_wait ⟨buf, rear, front⟩ = true
  · simp [hw] at h
  · have hne : front ≠ -1 := by simpa [dequeue_wait] using hw
    simp only [hw, Bool.false_eq_true, if_false, beq_iff_eq] at h
    cases hget : array_get buf front with
    | none => simp [hget] at h
    | some msg =>
      simp only [hget] at h
      by_cases hfr : front = rear
      · simp only [hfr, if_true, Outcome.ok.injEq, Prod.mk.injEq] at h
        obtain ⟨rfl, rfl⟩ := h
        exact ⟨hne, by simp [hfr], rfl, by simp [hfr], by simp [hfr]⟩
      · simp only [hfr, if_false, Outcome.ok.injEq, Prod.mk.injEq] at h
        obtain ⟨rfl, rfl⟩ := h
        exact ⟨hne, rfl, rfl, by simp [hfr], by simp [hfr]⟩

/-- Simulation of a run by a list queue: a run from a state satisfying the invariant is
either blocked at some call or completes, and then the old contents followed by the
enqueued messages are the dequeued messages followed by the final contents. -/
theorem run_sim (cap : Nat) (hc : 0 < cap) (ops : List Op) :
    ∀ s, Inv cap s → run cap ops s = Outcome.blocked ∨
      ∃ t outs, run cap ops s = Outcome.ok (t, outs) ∧ Inv cap t ∧
        contents s ++ enqueued ops = outs ++ contents t ∧ outs.length = dequeues ops := by
  induction ops with
  | nil =>
    intro s hs
    exact Or.inr ⟨s, [], rfl, hs, by simp [enqueued], by simp [dequeues]⟩
  | cons o ops ih =>
    intro s hs
    cases o with
    | enq m =>
      by_cases hw : enqueue_wait cap s = true
      · left
        simp [run, enqueue, hw]
      · have hw2 : enqueue_wait cap s = false := by simpa using hw
        obtain ⟨s1, he, hi, hcont⟩ := enqueue_spec cap s m hc hs hw2
        rcases ih s1 hi with hb | ⟨t, outs, hr, hit, hq, hlen⟩
        · left
          simp [run, he, hb]
        · right
          refine ⟨t, outs, by simp [run, he, hr], hit, ?_, by simpa [dequeues] using hlen⟩
          rw [← hq, hcont]
          simp [enqueued]
    | deq =>
      by_cases hw : dequeue_wait s = true
      · left
        simp [run, dequeue, hw]
      · have hw2 : dequeue_wait s = false := by simpa using hw
        obtain ⟨m, s1, hd, hi, hcont, _⟩ := dequeue_spec cap s hs hw2
        rcases ih s1 hi with hb | ⟨t, outs, hr, hit, hq, hlen⟩
        · left
          simp [run, hd, hb]
        · right
          refine ⟨t, m :: outs, by simp [run, hd, hr], hit, ?_, by simp [dequeues, hlen]⟩
          rw [hcont]
          simp [enqueued, ← hq]

/-- The number of resident messages as a function of the two indices. -/
theorem contents_length (cap : Nat) (s : RingBuf) (h : Inv cap s) :
    ((contents s).length : Int) =
      if s.front = -1 then 0
      else if s.front ≤ s.rear then s.rear - s.front + 1
      else s.rear - s.front + (cap : Int) + 1 := by
  obtain ⟨buf, rear, front⟩ := s
  obtain ⟨hl, h | ⟨h1, h2, h3, h4⟩⟩ := h
  · obtain ⟨hf, hr⟩ := h
    simp only at hf hr
    subst hf hr
    simp [contents]
  · simp only at h1 h2 h3 h4 hl
    obtain ⟨f, rfl⟩ := Int.eq_ofNat_of_zero_le h1
    obtain ⟨r, rfl⟩ := Int.eq_ofNat_of_zero_le h3
    have hne : ¬ ((f : Int) = -1) := by omega
    by_cases hfr : f ≤ r
    · rw [contents_le _ _ _ hfr]
      have e : (f : Int) ≤ (r : Int) := by omega
      simp only [hne, if_false, e, if_true, List.length_take, List.length_drop, hl]
      omega
    · rw [contents_gt _ _ _ (by omega : r < f)]
      have e : ¬ ((f : Int) ≤ (r : Int)) := by omega
      simp only [hne, if_false, e, List.length_append, List.length_take, List.length_drop, hl]
      omega

/-- Facts about every state reached from the empty buffer. -/
theorem reach_facts (cap : Nat) (hc : 0 < cap) (ops : List Op) (t : RingBuf)
    (outs : List message_t) (h : run cap ops (init_buf cap) = Outcome.ok (t, outs)) :
    Inv cap t ∧ enqueued ops = outs ++ contents t ∧ outs.length = dequeues ops := by
  rcases run_sim cap hc ops (init_buf cap) (inv_init cap) with hb | ⟨t1, o1, hr, hi, hq, hlen⟩
  · rw [hb] at h
    exact absurd h (by simp)
  · rw [hr] at h
    simp only [Outcome.ok.injEq, Prod.mk.injEq] at h
    obtain ⟨rfl, rfl⟩ := h
    rw [contents_init] at hq
    exact ⟨hi, by simpa using hq, hlen⟩

theorem reachable_inv (cap : Nat) (hc : 0 < cap) (s : RingBuf) (h : Reachable cap s) :
    Inv cap s := by
  obtain ⟨ops, outs, hr⟩ := h
  exact (reach_facts cap hc ops s outs hr).1

theorem array_get_set_ne (buf : List message_t) (k : Nat) (i : Int) (m : message_t)
    (h : i ≠ (k : Int)) : array_get (buf.set k m) i = array_get buf i := by
  unfold array_get
  split
  · rename_i hi
    have : k ≠ i.toNat := by omega
    simp [List.getElem?_set, this]
  · rfl

theorem array_get_set_eq (buf : List message_t) (k : Nat) (m : message_t)
    (h : k < buf.length) : array_get (buf.set k m) (k : Int) = some m := by
  simp [array_get, List.getElem?_set, h]

theorem enqueue_wait_true_iff (cap : Nat) (s : RingBuf) :
    enqueue_wait cap s = true ↔
      (s.rear = s.front - 1 ∨ (s.rear = (cap : Int) - 1 ∧ s.front = 0)) := by
  simp [enqueue_wait]

theorem enqueue_wait_false_iff (cap : Nat) (s : RingBuf) :
    enqueue_wait cap s = false ↔
      ¬ (s.rear = s.front - 1 ∨ (s.rear = (cap : Int) - 1 ∧ s.front = 0)) := by
  rw [← enqueue_wait_true_iff]
  simp

/-- Under the invariant the wait condition of `enqueue` says that `cap` messages are
resident. -/
theorem enqueue_wait_iff (cap : Nat) (s : RingBuf) (hc : 0 < cap) (h : Inv cap s) :
    enqueue_wait cap s = true ↔ (contents s).length = cap := by
  have hl := contents_length cap s h
  rw [enqueue_wait_true_iff]
  obtain ⟨_, h | h⟩ := h
  · simp only [h.1, if_true] at hl
    omega
  · split_ifs at hl <;> omega

/-- A completed `enqueue` writes a slot that held no resident message and leaves the
resident slots as they were. -/
theorem enqueue_no_overwrite (cap : Nat) (s s1 : RingBuf) (m : message_t) (hi : Inv cap s)
    (h : enqueue cap s m = Outcome.ok s1) :
    ¬ occupied s s1.rear ∧ ∀ i, occupied s i → array_get s1.buffer i = array_get s.buffer i := by
  obtain ⟨hw, _, hr, h0, _, hb⟩ := enqueue_shape cap s s1 m h
  rw [enqueue_wait_false_iff] at hw
  have hocc : ¬ occupied s s1.rear := by
    unfold occupied
    obtain ⟨_, hi | hi⟩ := hi
    · simp [hi.1]
    · split_ifs at hr <;> omega
  refine ⟨hocc, ?_⟩
  intro i hoi
  rw [hb]
  apply array_get_set_ne
  intro he
  apply hocc
  have : ((s1.rear.toNat : Nat) : Int) = s1.rear := Int.toNat_of_nonneg h0
  rw [← this, ← he]
  exact hoi

/-! ## The claims on the ring buffer -/

/-- C1 (global FIFO).  Start from the empty buffer (`front = rear = -1`) and perform any
finite sequence of `enqueue` and `dequeue` calls in which no call meets its wait
condition (the run is not blocked).  Then the run completes without an out-of-range
access, every `dequeue` returns a message, and the returned messages are exactly the
prefix, of the same length, of the enqueued messages, each with its five fields
unchanged. -/
theorem fifo_order (ops : List Op)
    (h : run BUFFER_SIZE ops (init_buf BUFFER_SIZE) ≠ Outcome.blocked) :
    ∃ t outs, run BUFFER_SIZE ops (init_buf BUFFER_SIZE) = Outcome.ok (t, outs) ∧
      outs.length = dequeues ops ∧
      outs = (enqueued ops).take (dequeues ops) ∧
      ∀ (i : Nat) (m : message_t), outs[i]? = some m → ∃ e : message_t,
        (enqueued ops)[i]? = some e ∧
        m.value = e.value ∧ m.consumer_sleep = e.consumer_sleep ∧ m.line = e.line ∧
        m.print_code = e.print_code ∧ m.quit = e.quit := by
  rcases run_sim BUFFER_SIZE (by decide) ops (init_buf BUFFER_SIZE) (inv_init _) with
    hb | ⟨t, outs, hr, _, hq, hlen⟩
  · exact absurd hb h
  · rw [contents_init, List.nil_append] at hq
    have hpre : outs = (enqueued ops).take (dequeues ops) := by
      rw [hq, ← hlen, List.take_left]
    refine ⟨t, outs, hr, hlen, hpre, ?_⟩
    intro i m hi
    refine ⟨m, ?_, rfl, rfl, rfl, rfl, rfl⟩
    have hlt : i < outs.length := by
      rcases Nat.lt_or_ge i outs.length with hl | hl
      · exact hl
      · rw [List.getElem?_eq_none hl] at hi
        exact absurd hi (by simp)
    rw [hq, List.getElem?_append_left hlt]
    exact hi


/-- Witness for C1: two enqueues and one dequeue on the empty buffer. -/
theorem fifo_order_witness :
    run BUFFER_SIZE sample_ops (init_buf BUFFER_SIZE) ≠ Outcome.blocked ∧
    ∃ t outs, run BUFFER_SIZE sample_ops (init_buf BUFFER_SIZE) = Outcome.ok (t, outs) ∧
      outs.length = dequeues sample_ops ∧
      outs = (enqueued sample_ops).take (dequeues sample_ops) ∧
      ∀ (i : Nat) (m : message_t), outs[i]? = some m → ∃ e : message_t,
        (enqueued sample_ops)[i]? = some e ∧
        m.value = e.value ∧ m.consumer_sleep = e.consumer_sleep ∧ m.line = e.line ∧
        m.print_code = e.print_code ∧ m.quit = e.quit :=
  ⟨by decide, fifo_order sample_ops (by decide)⟩

/-- C2 (capacity bound).  In every state reached from the empty buffer by calls that
were not blocked, the number of resident messages (completed enqueues minus completed
dequeues) is at most `BUFFER_SIZE = 10`; with ten resident messages `enqueue` is
blocked; and an `enqueue` that proceeds writes a slot that holds no resident message
and leaves every resident slot unchanged. -/
theorem capacity_bound (ops : List Op) (t : RingBuf) (outs : List message_t)
    (h : run BUFFER_SIZE ops (init_buf BUFFER_SIZE) = Outcome.ok (t, outs)) :
    dequeues ops ≤ (enqueued ops).length ∧
    (enqueued ops).length - dequeues ops ≤ BUFFER_SIZE ∧
    (enqueued ops).length - dequeues ops ≤ 10 ∧
    (contents t).length = (enqueued ops).length - dequeues ops ∧
    ((enqueued ops).length - dequeues ops = BUFFER_SIZE →
      ∀ m, enqueue BUFFER_SIZE t m = Outcome.blocked) ∧
    ∀ m t1, enqueue BUFFER_SIZE t m = Outcome.ok t1 →
      ¬ occupied t t1.rear ∧
      (∀ i, occupied t i → array_get t1.buffer i = array_get t.buffer i) ∧
      contents t1 = contents t ++ [m] := by
  obtain ⟨hi, hq, hlen⟩ := reach_facts BUFFER_SIZE (by decide) ops t outs h
  have hcount : (enqueued ops).length = dequeues ops + (contents t).length := by
    rw [hq, List.length_append, hlen]
  have hbound : (contents t).length ≤ BUFFER_SIZE := by
    have hl := contents_length BUFFER_SIZE t hi
    obtain ⟨_, hi2 | hi2⟩ := hi
    · simp only [hi2.1, if_true] at hl
      omega
    · split_ifs at hl <;> omega
  have hb10 : BUFFER_SIZE = 10 := rfl
  refine ⟨by omega, by omega, by omega, by omega, ?_, ?_⟩
  · intro hfull m
    have hw : enqueue_wait BUFFER_SIZE t = true :=
      (enqueue_wait_iff BUFFER_SIZE t (by decide) hi).2 (by omega)
    simp [enqueue, hw]
  · intro m t1 he
    obtain ⟨h1, h2⟩ := enqueue_no_overwrite BUFFER_SIZE t t1 m hi he
    refine ⟨h1, h2, ?_⟩
    obtain ⟨hw, _⟩ := enqueue_shape BUFFER_SIZE t t1 m he
    obtain ⟨s1, he1, _, hc1⟩ := enqueue_spec BUFFER_SIZE t m (by decide) hi hw
    rw [he1] at he
    simp only [Outcome.ok.injEq] at he
    rw [← he]
    exact hc1

/-- Witness for C2: the state after ten enqueues. -/
theorem capacity_bound_witness :
    run BUFFER_SIZE fill_ops (init_buf BUFFER_SIZE) = Outcome.ok (full_state, []) ∧
    (dequeues fill_ops ≤ (enqueued fill_ops).length ∧
    (enqueued fill_ops).length - dequeues fill_ops ≤ BUFFER_SIZE ∧
    (enqueued fill_ops).length - dequeues fill_ops ≤ 10 ∧
    (contents full_state).length = (enqueued fill_ops).length - dequeues fill_ops ∧
    ((enqueued fill_ops).length - dequeues fill_ops = BUFFER_SIZE →
      ∀ m, enqueue BUFFER_SIZE full_state m = Outcome.blocked) ∧
    ∀ m t1, enqueue BUFFER_SIZE full_state m = Outcome.ok t1 →
      ¬ occupied full_state t1.rear ∧
      (∀ i, occupied full_state i → array_get t1.buffer i = array_get full_state.buffer i) ∧
      contents t1 = contents full_state ++ [m]) :=
  ⟨by decide, capacity_bound fill_ops full_state [] (by decide)⟩

/-- C4 (the full test is exact).  In every state reached from the empty buffer by calls
that were not blocked, the wait condition of `enqueue`,
`(rear == front - 1) || (rear == BUFFER_SIZE - 1 && front == 0)`, holds exactly when
`BUFFER_SIZE` messages are resident, and exactly when the buffer is non-empty and
`(rear + 1) mod BUFFER_SIZE == front`.  It is false in the empty state and false when
exactly one slot is free. -/
theorem full_test_exact (ops : List Op) (t : RingBuf) (outs : List message_t)
    (h : run BUFFER_SIZE ops (init_buf BUFFER_SIZE) = Outcome.ok (t, outs)) :
    (enqueue_wait BUFFER_SIZE t = true ↔
      (enqueued ops).length - dequeues ops = BUFFER_SIZE) ∧
    (enqueue_wait BUFFER_SIZE t = true ↔
      (t.front ≠ -1 ∧ (t.rear + 1) % (BUFFER_SIZE : Int) = t.front)) ∧
    enqueue_wait BUFFER_SIZE (init_buf BUFFER_SIZE) = false ∧
    ((enqueued ops).length - dequeues ops = BUFFER_SIZE - 1 →
      enqueue_wait BUFFER_SIZE t = false) := by
  obtain ⟨hi, hq, hlen⟩ := reach_facts BUFFER_SIZE (by decide) ops t outs h
  have hcount : (enqueued ops).length = dequeues ops + (contents t).length := by
    rw [hq, List.length_append, hlen]
  have hfull := enqueue_wait_iff BUFFER_SIZE t (by decide) hi
  have hb10 : BUFFER_SIZE = 10 := rfl
  refine ⟨?_, ?_, by decide, ?_⟩
  · rw [hfull]
    omega
  · rw [enqueue_wait_true_iff]
    obtain ⟨_, hi2 | hi2⟩ := hi
    · simp only [hb10, Nat.cast_ofNat] at *
      omega
    · simp only [hb10, Nat.cast_ofNat] at *
      omega
  · intro h9
    cases hw : enqueue_wait BUFFER_SIZE t with
    | false => rfl
    | true =>
      have := hfull.1 hw
      omega

/-- Witness for C4: the state after ten enqueues. -/
theorem full_test_exact_witness :
    run BUFFER_SIZE fill_ops (init_buf BUFFER_SIZE) = Outcome.ok (full_state, []) ∧
    ((enqueue_wait BUFFER_SIZE full_state = true ↔
      (enqueued fill_ops).length - dequeues fill_ops = BUFFER_SIZE) ∧
    (enqueue_wait BUFFER_SIZE full_state = true ↔
      (full_state.front ≠ -1 ∧
        (full_state.rear + 1) % (BUFFER_SIZE : Int) = full_state.front)) ∧
    enqueue_wait BUFFER_SIZE (init_buf BUFFER_SIZE) = false ∧
    ((enqueued fill_ops).length - dequeues fill_ops = BUFFER_SIZE - 1 →
      enqueue_wait BUFFER_SIZE full_state = false)) :=
  ⟨by decide, full_test_exact fill_ops full_state [] (by decide)⟩

/-- C5 (the empty test is exact).  In every state reached from the empty buffer by
calls that were not blocked, `front == -1` holds exactly when no message is resident
(as many dequeues as enqueues have completed), and then `rear == -1` too.  The
`dequeue` that removes the last resident message leaves `front = rear = -1`, and on a
drained buffer `dequeue` is blocked, while `enqueue` is not. -/
theorem empty_test_exact (ops : List Op) (t : RingBuf) (outs : List message_t)
    (h : run BUFFER_SIZE ops (init_buf BUFFER_SIZE) = Outcome.ok (t, outs)) :
    (t.front = -1 ↔ (enqueued ops).length = dequeues ops) ∧
    (t.front = -1 → t.rear = -1) ∧
    ((enqueued ops).length = dequeues ops + 1 →
      ∃ m, dequeue BUFFER_SIZE t = Outcome.ok (m, { buffer := t.buffer, rear := -1, front := -1 })) ∧
    (∀ m t1, dequeue BUFFER_SIZE t = Outcome.ok (m, t1) →
      (t1.front = -1 ↔ (enqueued ops).length = dequeues ops + 1)) ∧
    ((enqueued ops).length = dequeues ops →
      dequeue BUFFER_SIZE t = Outcome.blocked ∧
      ∀ m, ∃ t1, enqueue BUFFER_SIZE t m = Outcome.ok t1 ∧ t1.front ≠ -1) := by
  obtain ⟨hi, hq, hlen⟩ := reach_facts BUFFER_SIZE (by decide) ops t outs h
  have hcount : (enqueued ops).length = dequeues ops + (contents t).length := by
    rw [hq, List.length_append, hlen]
  have hl := contents_length BUFFER_SIZE t hi
  have hb10 : BUFFER_SIZE = 10 := rfl
  have hempty : t.front = -1 ↔ (enqueued ops).length = dequeues ops := by
    obtain ⟨_, hi2 | hi2⟩ := hi
    · simp only [hi2.1, if_true] at hl
      constructor
      · intro _
        omega
      · intro _
        exact hi2.1
    · constructor
      · intro hf
        omega
      · intro he
        split_ifs at hl <;> omega
  have hone : ∀ m t1, dequeue BUFFER_SIZE t = Outcome.ok (m, t1) →
      (t1.front = -1 ↔ (enqueued ops).length = dequeues ops + 1) := by
    intro m t1 hd
    obtain ⟨hne, _, _, hf1, _⟩ := dequeue_shape BUFFER_SIZE t t1 m hd
    obtain ⟨_, hi2 | hi2⟩ := hi
    · exact absurd hi2.1 hne
    · rw [hf1]
      have hcap : (BUFFER_SIZE : Int) = 10 := rfl
      rw [hcap] at hl hi2 ⊢
      split_ifs at hl ⊢ <;> constructor <;> intro hx <;> first | omega | exact absurd hx (by omega) | exact hx.elim
  refine ⟨hempty, ?_, ?_, hone, ?_⟩
  · intro hf
    obtain ⟨_, hi2 | hi2⟩ := hi
    · exact hi2.2
    · omega
  · intro h1
    have hne : t.front ≠ -1 := fun hf => by
      have := hempty.1 hf
      omega
    have hw : dequeue_wait t = false := by simpa [dequeue_wait] using hne
    obtain ⟨m, s1, hd, _, _, _⟩ := dequeue_spec BUFFER_SIZE t hi hw
    obtain ⟨_, _, hb1, hf1, hr1⟩ := dequeue_shape BUFFER_SIZE t s1 m hd
    have hf := (hone m s1 hd).2 h1
    refine ⟨m, ?_⟩
    rw [hd]
    obtain ⟨b, r, f⟩ := s1
    dsimp only at hb1 hf hr1 hf1
    have hfront : 0 ≤ t.front := by
      obtain ⟨_, hi2 | hi2⟩ := hi
      · exact absurd hi2.1 hne
      · exact hi2.1
    have hr : r = -1 := by
      rw [hr1]
      rw [hf1] at hf
      split_ifs at hf ⊢ <;> first | rfl | omega
    rw [hb1, hf, hr]
  · intro h0
    have hf := hempty.2 h0
    refine ⟨by simp [dequeue, dequeue_wait, hf], ?_⟩
    intro m
    have hw : enqueue_wait BUFFER_SIZE t = false := by
      rw [enqueue_wait_false_iff]
      obtain ⟨_, hi2 | hi2⟩ := hi
      · simp only [hb10, Nat.cast_ofNat] at *
        omega
      · omega
    obtain ⟨s1, he, _, _⟩ := enqueue_spec BUFFER_SIZE t m (by decide) hi hw
    obtain ⟨_, hf1, _⟩ := enqueue_shape BUFFER_SIZE t s1 m he
    refine ⟨s1, he, ?_⟩
    rw [hf1, hf]
    simp

/-- Witness for C5: the state after two enqueues and one dequeue. -/
theorem empty_test_exact_witness :
    run BUFFER_SIZE sample_ops (init_buf BUFFER_SIZE) =
      Outcome.ok (sample_state, [data_msg 5 1]) ∧
    ((sample_state.front = -1 ↔ (enqueued sample_ops).length = dequeues sample_ops) ∧
    (sample_state.front = -1 → sample_state.rear = -1) ∧
    ((enqueued sample_ops).length = dequeues sample_ops + 1 →
      ∃ m, dequeue BUFFER_SIZE sample_state =
        Outcome.ok (m, { buffer := sample_state.buffer, rear := -1, front := -1 })) ∧
    (∀ m t1, dequeue BUFFER_SIZE sample_state = Outcome.ok (m, t1) →
      (t1.front = -1 ↔ (enqueued sample_ops).length = dequeues sample_ops + 1)) ∧
    ((enqueued sample_ops).length = dequeues sample_ops →
      dequeue BUFFER_SIZE sample_state = Outcome.blocked ∧
      ∀ m, ∃ t1, enqueue BUFFER_SIZE sample_state m = Outcome.ok t1 ∧ t1.front ≠ -1)) :=
  ⟨by decide, empty_test_exact sample_ops sample_state [data_msg 5 1] (by decide)⟩

/-- C6 (the enqueue step).  In every state reached from the empty buffer in which the
wait condition of `enqueue` is false, `enqueue(m)` completes.  If the buffer was empty
it stores `m` in slot 0 and sets `front = rear = 0`; otherwise it stores `m` in slot
`(rear + 1) mod BUFFER_SIZE`, sets `rear` to that index and leaves `front` unchanged.
The queue contents afterwards are the previous contents with `m` appended. -/
theorem enqueue_step (ops : List Op) (s : RingBuf) (outs : List message_t) (m : message_t)
    (h : run BUFFER_SIZE ops (init_buf BUFFER_SIZE) = Outcome.ok (s, outs))
    (hw : enqueue_wait BUFFER_SIZE s = false) :
    ∃ s1, enqueue BUFFER_SIZE s m = Outcome.ok s1 ∧
      (s.front = -1 → s1.front = 0 ∧ s1.rear = 0 ∧ array_get s1.buffer 0 = some m) ∧
      (s.front ≠ -1 → s1.rear = (s.rear + 1) % (BUFFER_SIZE : Int) ∧ s1.front = s.front ∧
        array_get s1.buffer ((s.rear + 1) % (BUFFER_SIZE : Int)) = some m) ∧
      contents s1 = contents s ++ [m] := by
  obtain ⟨hi, _, _⟩ := reach_facts BUFFER_SIZE (by decide) ops s outs h
  obtain ⟨s1, he, _, hc⟩ := enqueue_spec BUFFER_SIZE s m (by decide) hi hw
  obtain ⟨_, hf1, hr1, h0, hlt, hb⟩ := enqueue_shape BUFFER_SIZE s s1 m he
  have hstored : array_get s1.buffer s1.rear = some m := by
    have e : ((s1.rear.toNat : Nat) : Int) = s1.rear := Int.toNat_of_nonneg h0
    rw [hb, ← e, Int.toNat_ofNat]
    exact array_get_set_eq s.buffer s1.rear.toNat m hlt
  have hcap : (BUFFER_SIZE : Int) = 10 := rfl
  refine ⟨s1, he, ?_, ?_, hc⟩
  · intro hf
    rw [hf] at hf1 hr1
    simp only [if_true] at hf1 hr1
    rw [hr1] at hstored
    exact ⟨hf1, hr1, hstored⟩
  · intro hf
    simp only [hf, if_false] at hf1 hr1
    have hrear : s1.rear = (s.rear + 1) % (BUFFER_SIZE : Int) := by
      rw [hr1, hcap]
      obtain ⟨_, hi2 | hi2⟩ := hi
      · exact absurd hi2.1 hf
      · rw [hcap] at hi2
        split_ifs <;> omega
    rw [← hrear]
    exact ⟨rfl, hf1, hstored⟩

/-- Witness for C6: enqueueing a third message after `sample_ops`. -/
theorem enqueue_step_witness :
    run BUFFER_SIZE sample_ops (init_buf BUFFER_SIZE) =
      Outcome.ok (sample_state, [data_msg 5 1]) ∧
    enqueue_wait BUFFER_SIZE sample_state = false ∧
    ∃ s1, enqueue BUFFER_SIZE sample_state (data_msg 7 3) = Outcome.ok s1 ∧
      (sample_state.front = -1 →
        s1.front = 0 ∧ s1.rear = 0 ∧ array_get s1.buffer 0 = some (data_msg 7 3)) ∧
      (sample_state.front ≠ -1 →
        s1.rear = (sample_state.rear + 1) % (BUFFER_SIZE : Int) ∧
        s1.front = sample_state.front ∧
        array_get s1.buffer ((sample_state.rear + 1) % (BUFFER_SIZE : Int)) =
          some (data_msg 7 3)) ∧
      contents s1 = contents sample_state ++ [data_msg 7 3] :=
  ⟨by decide, by decide,
    enqueue_step sample_ops sample_state [data_msg 5 1] (data_msg 7 3) (by decide) (by decide)⟩

/-- C7 (the dequeue step).  In every state reached from the empty buffer with
`front != -1`, `dequeue` completes and returns the message stored at slot `front`,
which is the oldest resident message (the first enqueued message not yet dequeued).
If `front == rear` beforehand it sets `front = rear = -1`; otherwise it sets `front` to
`(front + 1) mod BUFFER_SIZE` and leaves `rear` unchanged.  The queue contents
afterwards are the previous contents without their first element. -/
theorem dequeue_step (ops : List Op) (s : RingBuf) (outs : List message_t)
    (h : run BUFFER_SIZE ops (init_buf BUFFER_SIZE) = Outcome.ok (s, outs))
    (hw : s.front ≠ -1) :
    ∃ m s1, dequeue BUFFER_SIZE s = Outcome.ok (m, s1) ∧
      array_get s.buffer s.front = some m ∧
      (contents s).head? = some m ∧
      (enqueued ops)[dequeues ops]? = some m ∧
      (s.front = s.rear → s1.front = -1 ∧ s1.rear = -1) ∧
      (s.front ≠ s.rear →
        s1.front = (s.front + 1) % (BUFFER_SIZE : Int) ∧ s1.rear = s.rear) ∧
      contents s1 = (contents s).tail := by
  obtain ⟨hi, hq, hlen⟩ := reach_facts BUFFER_SIZE (by decide) ops s outs h
  have hdw : dequeue_wait s = false := by simpa [dequeue_wait] using hw
  obtain ⟨m, s1, hd, _, hc, hget⟩ := dequeue_spec BUFFER_SIZE s hi hdw
  obtain ⟨_, _, _, hf1, hr1⟩ := dequeue_shape BUFFER_SIZE s s1 m hd
  have hcap : (BUFFER_SIZE : Int) = 10 := rfl
  refine ⟨m, s1, hd, hget, by rw [hc]; rfl, ?_, ?_, ?_, by rw [hc]; rfl⟩
  · rw [hq, hc, ← hlen, List.getElem?_append_right (le_refl _)]
    simp
  · intro hfr
    simp only [hfr, if_true] at hf1 hr1
    exact ⟨hf1, hr1⟩
  · intro hfr
    simp only [hfr, if_false] at hf1 hr1
    refine ⟨?_, hr1⟩
    rw [hf1, hcap]
    obtain ⟨_, hi2 | hi2⟩ := hi
    · exact absurd hi2.1 hw
    · rw [hcap] at hi2
      split_ifs <;> omega

/-- Witness for C7: dequeueing from the filled buffer. -/
theorem dequeue_step_witness :
    run BUFFER_SIZE fill_ops (init_buf BUFFER_SIZE) = Outcome.ok (full_state, []) ∧
    full_state.front ≠ -1 ∧
    ∃ m s1, dequeue BUFFER_SIZE full_state = Outcome.ok (m, s1) ∧
      array_get full_state.buffer full_state.front = some m ∧
      (contents full_state).head? = some m ∧
      (enqueued fill_ops)[dequeues fill_ops]? = some m ∧
      (full_state.front = full_state.rear → s1.front = -1 ∧ s1.rear = -1) ∧
      (full_state.front ≠ full_state.rear →
        s1.front = (full_state.front + 1) % (BUFFER_SIZE : Int) ∧
        s1.rear = full_state.rear) ∧
      contents s1 = (contents full_state).tail :=
  ⟨by decide, by decide, dequeue_step fill_ops full_state [] (by decide) (by decide)⟩

/-! ## Lemmas on `sleep_wrapper`, `scanf` and the producer -/

theorem wrap32_id (x : Int) (h1 : INT_MIN ≤ x) (h2 : x ≤ INT_MAX) : wrap32 x = x := by
  unfold INT_MIN at h1
  unfold INT_MAX at h2
  unfold wrap32
  omega

theorem wrap32_add_left (a b : Int) : wrap32 (wrap32 a + b) = wrap32 (a + b) := by
  unfold wrap32
  omega

/-- A non-negative delay gives a valid `timespec`, so `sleep_wrapper` returns. -/
theorem sleep_wrapper_of_nonneg (t : Int) (h : 0 ≤ t) : sleep_wrapper t = true := by
  have h1 : 0 ≤ Int.tdiv t 1000 := Int.tdiv_nonneg h (by decide)
  have h2 : 0 ≤ Int.tmod t 1000 := Int.tmod_nonneg 1000 h
  have h3 : Int.tmod t 1000 < 1000 := Int.tmod_lt_of_pos t (by decide)
  have h4 : wrap32 (Int.tmod t 1000 * 1000000) = Int.tmod t 1000 * 1000000 := by
    apply wrap32_id <;> simp only [INT_MIN, INT_MAX] <;> omega
  have h5 : ¬ (Int.tdiv t 1000 < 0 ∨ Int.tmod t 1000 * 1000000 < 0 ∨
      999999999 < Int.tmod t 1000 * 1000000) := by omega
  simp [sleep_wrapper, nanosleep, sleep_timespec, h4, h5]

/-- C division and remainder by 1000 in terms of the floor operations. -/
theorem c_div_mod_1000 (t : Int) :
    Int.tdiv t 1000 = (if 0 ≤ t then t / 1000 else -((-t) / 1000)) ∧
    Int.tmod t 1000 = (if 0 ≤ t then t % 1000 else -((-t) % 1000)) := by
  by_cases h : 0 ≤ t
  · rw [if_pos h, if_pos h]
    exact ⟨Int.tdiv_eq_ediv h (by decide), Int.tmod_eq_emod h (by decide)⟩
  · rw [if_neg h, if_neg h]
    have hd : Int.tdiv t 1000 = -((-t) / 1000) := by
      have e : t = -(-t) := by omega
      rw [e, Int.neg_tdiv, Int.tdiv_eq_ediv (by omega) (by decide)]
      simp
    refine ⟨hd, ?_⟩
    rw [Int.tmod_def, hd]
    omega

/-- `sleep_wrapper` returns exactly for the non-negative delays. -/
theorem sleep_wrapper_iff (t : Int) : sleep_wrapper t = true ↔ 0 ≤ t := by
  constructor
  · intro hs
    rcases Int.lt_or_le t 0 with hneg | hpos
    · exfalso
      obtain ⟨hd, hm⟩ := c_div_mod_1000 t
      rw [if_neg (by omega)] at hd hm
      have hfail : nanosleep (sleep_timespec t) < 0 := by
        have h4 : wrap32 (Int.tmod t 1000 * 1000000) = Int.tmod t 1000 * 1000000 := by
          apply wrap32_id <;> simp only [INT_MIN, INT_MAX] <;> omega
        have h5 : Int.tdiv t 1000 < 0 ∨ Int.tmod t 1000 * 1000000 < 0 ∨
            999999999 < Int.tmod t 1000 * 1000000 := by omega
        simp [nanosleep, sleep_timespec, h4, h5]
      simp [sleep_wrapper, hfail] at hs
    · exact hpos
  · exact sleep_wrapper_of_nonneg t

theorem scanf_nil : scanf [] = (EOF, [], []) := by
  simp [scanf, scan_ints]

theorem scanf_four (a b c d : Int) (rest : List Token) :
    scanf (Token.int a :: Token.int b :: Token.int c :: Token.int d :: rest) =
      (4, [a, b, c, d], rest) := by
  simp [scanf, scan_ints]

/-- When `scanf` returns 4 the stream starts with four integers, which are consumed. -/
theorem scanf_eq_four (inp : List Token) (h : (scanf inp).1 = 4) :
    ∃ a b c d, inp = Token.int a :: Token.int b :: Token.int c :: Token.int d :: (scanf inp).2.2 ∧
      (scanf inp).2.1 = [a, b, c, d] := by
  match inp with
  | [] => simp [scanf, EOF] at h
  | Token.junk :: _ => simp [scanf, scan_ints] at h
  | Token.sign :: _ => simp [scanf, scan_ints] at h
  | [Token.int _] => simp [scanf, scan_ints] at h
  | Token.int _ :: Token.junk :: _ => simp [scanf, scan_ints] at h
  | Token.int _ :: Token.sign :: _ => simp [scanf, scan_ints] at h
  | [Token.int _, Token.int _] => simp [scanf, scan_ints] at h
  | Token.int _ :: Token.int _ :: Token.junk :: _ => simp [scanf, scan_ints] at h
  | Token.int _ :: Token.int _ :: Token.sign :: _ => simp [scanf, scan_ints] at h
  | [Token.int _, Token.int _, Token.int _] => simp [scanf, scan_ints] at h
  | Token.int _ :: Token.int _ :: Token.int _ :: Token.junk :: _ =>
    simp [scanf, scan_ints] at h
  | Token.int _ :: Token.int _ :: Token.int _ :: Token.sign :: _ =>
    simp [scanf, scan_ints] at h
  | Token.int a :: Token.int b :: Token.int c :: Token.int d :: rest =>
    exact ⟨a, b, c, d, by simp [scanf, scan_ints], by simp [scanf, scan_ints]⟩

theorem producer_loop_four (fuel : Nat) (line a b c d : Int) (rest : List Token) :
    producer_loop (fuel + 1) line
        (Token.int a :: Token.int b :: Token.int c :: Token.int d :: rest) =
      if b != 0 && !sleep_wrapper b then ([Event.out Output.sleep_error], Ending.exited 1)
      else
        (Event.enq { value := a, consumer_sleep := c, line := line, print_code := d, quit := 0 } ::
          (if d == 1 || d == 3 then [Event.out (Output.producer_value a line)] else []) ++
            (producer_loop fuel (wrap32 (line + 1)) rest).1,
         (producer_loop fuel (wrap32 (line + 1)) rest).2) := by
  simp [producer_loop, scanf_four]

theorem enqueues_append (a b : List Event) : enqueues (a ++ b) = enqueues a ++ enqueues b := by
  induction a with
  | nil => rfl
  | cons e a ih => cases e <;> simp [enqueues, ih]

theorem outputs_append (a b : List Event) : outputs (a ++ b) = outputs a ++ outputs b := by
  induction a with
  | nil => rfl
  | cons e a ih => cases e <;> simp [outputs, ih]

/-- Every run of the producer loop with enough fuel has the shape `ScriptOk`. -/
theorem producer_loop_ok (fuel : Nat) :
    ∀ (line : Int) (inp : List Token), inp.length < fuel →
      ∃ q datas, ScriptOk q datas (producer_loop fuel line inp).1 (producer_loop fuel line inp).2 := by
  induction fuel with
  | zero =>
    intro line inp h
    exact absurd h (Nat.not_lt_zero _)
  | succ fuel ih =>
    intro line inp h
    by_cases h4 : (scanf inp).1 = 4
    · obtain ⟨a, b, c, d, hinp, _⟩ := scanf_eq_four inp h4
      generalize (scanf inp).2.2 = rest at hinp
      subst hinp
      rw [producer_loop_four]
      by_cases hs : (b != 0 && !sleep_wrapper b) = true
      · rw [if_pos hs]
        exact ⟨0, [], by simp [ScriptOk, enqueues, outputs]⟩
      · rw [if_neg hs]
        obtain ⟨q, datas, h1, h2, h3, h4⟩ := ih (wrap32 (line + 1)) rest (by
          simp only [List.length_cons] at h
          omega)
        refine ⟨q, { value := a, consumer_sleep := c, line := line, print_code := d, quit := 0 }
          :: datas, ?_, ?_, h3, ?_⟩
        · simp only [enqueues, enqueues_append]
          split <;> simp [enqueues, h1]
        · intro x hx
          rcases List.mem_cons.1 hx with hx | hx
          · rw [hx]
          · exact h2 x hx
        · intro x
          simp only [outputs, outputs_append]
          split <;> simp [outputs, h4 x]
    · have h4b : ((scanf inp).1 == 4) = false := by simpa using h4
      simp only [producer_loop, h4b, Bool.false_eq_true, if_false]
      split
      · exact ⟨2, [], by simp [ScriptOk, enqueues, outputs]⟩
      · exact ⟨0, [], by simp [ScriptOk, enqueues, outputs]⟩

theorem producer_thread_ok (inp : List Token) :
    ∃ q datas, ScriptOk q datas (producer_thread inp).1 (producer_thread inp).2 :=
  producer_loop_ok (inp.length + 1) 1 inp (Nat.lt_succ_self _)

/-! ## Lemmas on the consumer and on the program -/

theorem consumer_body_quit (id sum : Int) (msg : message_t) (h : msg.quit ≠ 0) :
    consumer_body id sum msg = ([Output.consumer_final id sum], Next.returned sum) := by
  simp [consumer_body, h]

theorem consumer_body_exit (id sum : Int) (msg : message_t) (h : msg.quit = 0)
    (hs : (msg.consumer_sleep != 0 && !sleep_wrapper msg.consumer_sleep) = true) :
    consumer_body id sum msg = ([Output.sleep_error], Next.exited 1) := by
  unfold consumer_body
  rw [if_neg (by simp [h]), if_pos hs]

theorem consumer_body_data (id sum : Int) (msg : message_t) (h : msg.quit = 0)
    (hs : ¬ (msg.consumer_sleep != 0 && !sleep_wrapper msg.consumer_sleep) = true) :
    consumer_body id sum msg =
      (if msg.print_code == 2 || msg.print_code == 3 then
          [Output.consumer_value id msg.value msg.line (wrap32 (sum + msg.value))]
        else [],
       Next.again (wrap32 (sum + msg.value))) := by
  unfold consumer_body
  rw [if_neg (by simp [h]), if_neg hs]
  simp [h]

/-- The three ways the loop body can go. -/
theorem consumer_body_cases (id sum : Int) (msg : message_t) :
    (∀ x, Output.total x ∉ (consumer_body id sum msg).1) ∧
    ((msg.quit ≠ 0 ∧ (consumer_body id sum msg).2 = Next.returned sum) ∨
     (msg.quit = 0 ∧ (consumer_body id sum msg).2 = Next.exited 1) ∨
     (msg.quit = 0 ∧ (consumer_body id sum msg).2 = Next.again (wrap32 (sum + msg.value)))) := by
  by_cases hq : msg.quit = 0
  · by_cases hs : (msg.consumer_sleep != 0 && !sleep_wrapper msg.consumer_sleep) = true
    · rw [consumer_body_exit id sum msg hq hs]
      exact ⟨by simp, Or.inr (Or.inl ⟨hq, rfl⟩)⟩
    · rw [consumer_body_data id sum msg hq hs]
      refine ⟨?_, Or.inr (Or.inr ⟨hq, rfl⟩)⟩
      intro x
      dsimp only
      split <;> simp
  · rw [consumer_body_quit id sum msg hq]
    exact ⟨by simp, Or.inl ⟨hq, rfl⟩⟩

/-- What a consumer step does to the buffer and to the consumer. -/
theorem consumer_step_spec (cap : Nat) (id : Int) (c n : Next) (b b1 : RingBuf)
    (out : List Output) (hi : Inv cap b) (h : consumer_step cap id c b = some (b1, out, n)) :
    ∃ sum msg, c = Next.again sum ∧ contents b = msg :: contents b1 ∧ Inv cap b1 ∧
      (∀ x, Output.total x ∉ out) ∧
      ((msg.quit ≠ 0 ∧ n = Next.returned sum) ∨
       (msg.quit = 0 ∧ n = Next.exited 1) ∨
       (msg.quit = 0 ∧ n = Next.again (wrap32 (sum + msg.value)))) := by
  cases c with
  | again sum =>
    simp only [consumer_step] at h
    cases hd : dequeue cap b with
    | blocked => simp [hd] at h
    | out_of_bounds => simp [hd] at h
    | ok r =>
      obtain ⟨msg, b2⟩ := r
      simp only [hd, Option.some.injEq, Prod.mk.injEq] at h
      obtain ⟨rfl, rfl, rfl⟩ := h
      have hw : dequeue_wait b = false := by
        cases hdw : dequeue_wait b with
        | false => rfl
        | true => simp [dequeue, hdw] at hd
      obtain ⟨m, s1, hd2, hi1, hc, _⟩ := dequeue_spec cap b hi hw
      rw [hd] at hd2
      simp only [Outcome.ok.injEq, Prod.mk.injEq] at hd2
      obtain ⟨rfl, rfl⟩ := hd2
      obtain ⟨h1, h2⟩ := consumer_body_cases id sum msg
      exact ⟨sum, msg, rfl, hc, hi1, h1, h2⟩
  | returned p => simp [consumer_step] at h
  | exited k => simp [consumer_step] at h
  | left_loop => simp [consumer_step] at h

/-- Removing the head of a queue made of data messages followed by quit messages. -/
theorem pending_pop (datas rest : List message_t) (k : Nat) (msg : message_t)
    (h : msg :: rest = datas ++ List.replicate k quit_msg) (hd : ∀ d ∈ datas, d.quit = 0) :
    (msg.quit = 0 ∧ ∃ ds, datas = msg :: ds ∧ rest = ds ++ List.replicate k quit_msg) ∨
    (msg.quit ≠ 0 ∧ datas = [] ∧ ∃ k1, k = k1 + 1 ∧ rest = List.replicate k1 quit_msg) := by
  cases datas with
  | nil =>
    right
    cases k with
    | zero => simp at h
    | succ k1 =>
      simp only [List.nil_append, List.replicate_succ, List.cons.injEq] at h
      refine ⟨?_, rfl, k1, rfl, h.2⟩
      rw [h.1]
      decide
  | cons d ds =>
    left
    simp only [List.cons_append, List.cons.injEq] at h
    refine ⟨?_, ds, by rw [h.1], h.2⟩
    rw [h.1]
    exact hd d (List.mem_cons_self _ _)

theorem value_sum_cons (m : message_t) (l : List message_t) :
    value_sum (m :: l) = m.value + value_sum l := by
  simp [value_sum]

theorem value_sum_nil : value_sum [] = 0 := rfl

theorem returned_flag_le (c : Next) : returned_flag c ≤ 1 := by
  cases c <;> simp [returned_flag]

/-- The effect of a consumer step on the part of the invariant that speaks about the
pending messages and the sums: `rc` and `other` are the returned count and the held
sum of the other consumer. -/
theorem consumer_step_inv (cap : Nat) (id : Int) (c n : Next) (b b1 : RingBuf)
    (out : List Output) (rest : List message_t) (datas : List message_t) (k q rc : Nat)
    (other total : Int) (P : Prop) (hi : Inv cap b)
    (h : consumer_step cap id c b = some (b1, out, n))
    (hp : contents b ++ rest = datas ++ List.replicate k quit_msg)
    (hd : ∀ d ∈ datas, d.quit = 0)
    (hrc : returned_flag c + rc + k = q)
    (hempty : 0 < returned_flag c + rc → datas = [])
    (hsum : alive c → P → wrap32 (held_sum c + other + value_sum datas) = wrap32 total) :
    Inv cap b1 ∧ n ≠ Next.left_loop ∧ (∀ x, Output.total x ∉ out) ∧
    returned_flag c = 0 ∧
    (status_after n = none ∨ status_after n = some 1) ∧
    ∃ datas1 k1, contents b1 ++ rest = datas1 ++ List.replicate k1 quit_msg ∧
      (∀ d ∈ datas1, d.quit = 0) ∧
      returned_flag n + rc + k1 = q ∧
      (0 < returned_flag n + rc → datas1 = []) ∧
      (alive n → P → wrap32 (held_sum n + other + value_sum datas1) = wrap32 total) := by
  obtain ⟨sum, msg, hc, hcont, hi1, hout, hcases⟩ := consumer_step_spec cap id c n b b1 out hi h
  subst hc
  rw [hcont, List.cons_append] at hp
  simp only [returned_flag, Nat.zero_add] at hrc hempty
  have hs := hsum trivial
  simp only [held_sum] at hs
  rcases pending_pop datas _ k msg hp hd with ⟨hq0, ds, hds, hrest⟩ | ⟨hq1, hdn, k1, hk, hrest⟩
  · -- a data message was dequeued
    subst hds
    have hrc0 : rc = 0 := by
      rcases Nat.eq_zero_or_pos rc with h0 | h0
      · exact h0
      · exact absurd (hempty h0) (by simp)
    rw [value_sum_cons] at hs
    rcases hcases with ⟨hne, _⟩ | ⟨_, hn⟩ | ⟨_, hn⟩
    · exact absurd hq0 hne
    · subst hn
      refine ⟨hi1, by simp, hout, rfl, Or.inr rfl, ds, k, hrest, ?_, by simpa [returned_flag] using hrc, ?_, ?_⟩
      · exact fun d hd1 => hd d (List.mem_cons_of_mem _ hd1)
      · intro h0
        simp only [returned_flag, Nat.zero_add] at h0
        omega
      · intro ha
        exact absurd ha (by simp [alive])
    · subst hn
      refine ⟨hi1, by simp, hout, rfl, Or.inl rfl, ds, k, hrest, ?_, by simpa [returned_flag] using hrc, ?_, ?_⟩
      · exact fun d hd1 => hd d (List.mem_cons_of_mem _ hd1)
      · intro h0
        simp only [returned_flag, Nat.zero_add] at h0
        omega
      · intro _ hP
        simp only [held_sum]
        rw [← hs hP]
        unfold wrap32
        omega
  · -- a quit message was dequeued
    subst hdn
    rcases hcases with ⟨_, hn⟩ | ⟨hq0, _⟩ | ⟨hq0, _⟩
    · subst hn
      refine ⟨hi1, by simp, hout, rfl, Or.inl rfl, [], k1, by simpa using hrest, by simp, ?_,
        fun _ => rfl, ?_⟩
      · simp only [returned_flag]
        omega
      · intro _ hP
        simpa [held_sum] using hs hP
    · exact absurd hq0 hq1
    · exact absurd hq0 hq1

theorem sys_step_inv (cap : Nat) (hc : 0 < cap) (total : Int) (q : Nat) (s s1 : Sys) (t : Tid)
    (hinv : SysInv cap total q s) (h : sys_step cap s t = some s1) :
    SysInv cap total q s1 := by
  obtain ⟨hi, hend, hq, hz, ho, hscr, ⟨datas, k, hp, hd, hrc, hempty, hsum⟩, hout, hex⟩ := hinv
  unfold sys_step at h
  split at h
  · exact absurd h (by simp)
  rename_i hlive
  have hnone : s.exit_status = none := by
    cases he : s.exit_status with
    | none => rfl
    | some x => simp [he] at hlive
  cases t with
  | producer =>
    simp only at h
    split at h
    · exact absurd h (by simp)
    split at h
    · -- a printf of the producer
      rename_i o es hs
      simp only [Option.some.injEq] at h
      subst h
      have hno : ∀ x, Output.total x ≠ o := by
        intro x hx
        apply hscr x
        rw [hs, outputs, hx]
        exact List.mem_cons_self _ _
      refine ⟨hi, hend, hq, hz, ho, ?_, ⟨datas, k, ?_, hd, hrc, hempty, hsum⟩, ?_, ?_⟩
      · intro x hx
        apply hscr x
        rw [hs, outputs]
        exact List.mem_cons_of_mem _ hx
      · simpa [pending, hs, enqueues] using hp
      · intro x hx
        simp only [List.mem_append, List.mem_singleton] at hx
        rcases hx with hx | hx
        · exact hout x hx
        · exact absurd hx (hno x)
      · exact hex
    · -- an enqueue of the producer
      rename_i m es hs
      split at h
      · rename_i b he
        simp only [Option.some.injEq] at h
        subst h
        obtain ⟨hw, _⟩ := enqueue_shape cap s.buf b m he
        obtain ⟨b2, he2, hi2, hc2⟩ := enqueue_spec cap s.buf m hc hi hw
        rw [he] at he2
        simp only [Outcome.ok.injEq] at he2
        subst he2
        refine ⟨hi2, hend, hq, hz, ho, ?_, ⟨datas, k, ?_, hd, hrc, hempty, hsum⟩, hout, ?_⟩
        · intro x hx
          apply hscr x
          rw [hs, outputs]
          exact hx
        · simp only [pending, hs, enqueues] at hp
          simp only [pending, hc2]
          rw [← hp]
          simp
        · exact hex
      · exact absurd h (by simp)
    · -- the end of the producer
      rename_i hs
      split at h
      · simp only [Option.some.injEq] at h
        subst h
        exact ⟨hi, hend, hq, hz, ho, hscr, ⟨datas, k, hp, hd, hrc, hempty, hsum⟩, hout,
          hex⟩
      · rename_i k1 hk1
        simp only [Option.some.injEq] at h
        subst h
        refine ⟨hi, hend, hq, hz, ho, hscr, ⟨datas, k, hp, hd, hrc, hempty, hsum⟩, hout, ?_⟩
        intro k2 hk2
        simp only [Option.some.injEq] at hk2
        rcases hend with he | he
        · rw [he] at hk1
          exact absurd hk1 (by simp)
        · rw [he] at hk1
          simp only [Ending.exited.injEq] at hk1
          left
          omega
      · exact absurd h (by simp)
  | consumer_zero =>
    simp only at h
    split at h
    · rename_i b out n hstep
      simp only [Option.some.injEq] at h
      subst h
      obtain ⟨hi1, hn, hno, hc0, hst, datas1, k1, hp1, hd1, hrc1, hempty1, hsum1⟩ :=
        consumer_step_inv cap 0 s.consumer_zero n s.buf b out (enqueues s.script) datas k q
          (returned_flag s.consumer_one)
          (held_sum s.consumer_one) total (alive s.consumer_one) hi hstep hp hd hrc hempty hsum
      refine ⟨hi1, hend, hq, hn, ho, hscr, ⟨datas1, k1, hp1, hd1, hrc1, hempty1, hsum1⟩, ?_, ?_⟩
      · intro x hx
        simp only [List.mem_append] at hx
        rcases hx with hx | hx
        · have := (hout x hx).1
          simp only [returned_count, hc0] at this
          have hle1 := returned_flag_le s.consumer_one
          have hle0 := returned_flag_le s.consumer_zero
          omega
        · exact absurd hx (hno x)
      · intro k2 hk2
        simp only at hk2
        rcases hst with hst | hst
        · rw [hst] at hk2
          exact absurd hk2 (by simp)
        · rw [hst] at hk2
          simp only [Option.some.injEq] at hk2
          left
          omega
    · exact absurd h (by simp)
  | consumer_one =>
    simp only at h
    split at h
    · rename_i b out n hstep
      simp only [Option.some.injEq] at h
      subst h
      obtain ⟨hi1, hn, hno, hc0, hst, datas1, k1, hp1, hd1, hrc1, hempty1, hsum1⟩ :=
        consumer_step_inv cap 1 s.consumer_one n s.buf b out (enqueues s.script) datas k q
          (returned_flag s.consumer_zero)
          (held_sum s.consumer_zero) total (alive s.consumer_zero) hi hstep hp hd
          (by simp only [returned_count] at hrc; omega)
          (fun h0 => hempty (by simp only [returned_count]; omega))
          (fun h1 h0 => by rw [add_comm (held_sum s.consumer_one)]; exact hsum h0 h1)
      refine ⟨hi1, hend, hq, hz, hn, hscr, ⟨datas1, k1, hp1, hd1, ?_, ?_, ?_⟩, ?_, ?_⟩
      · simp only [returned_count]
        omega
      · intro h0
        apply hempty1
        simp only [returned_count] at h0
        omega
      · intro h0 h1
        rw [add_comm (held_sum s.consumer_zero)]
        exact hsum1 h1 h0
      · intro x hx
        simp only [List.mem_append] at hx
        rcases hx with hx | hx
        · have := (hout x hx).1
          simp only [returned_count, hc0] at this
          have hle1 := returned_flag_le s.consumer_one
          have hle0 := returned_flag_le s.consumer_zero
          omega
        · exact absurd hx (hno x)
      · intro k2 hk2
        simp only at hk2
        rcases hst with hst | hst
        · rw [hst] at hk2
          exact absurd hk2 (by simp)
        · rw [hst] at hk2
          simp only [Option.some.injEq] at hk2
          left
          omega
    · exact absurd h (by simp)
  | main =>
    simp only at h
    split at h
    · rename_i hjoin
      simp only [Option.some.injEq] at h
      subst h
      simp only [Bool.and_eq_true] at hjoin
      obtain ⟨⟨hj0, hj1⟩, _⟩ := hjoin
      obtain ⟨z, hz1⟩ : ∃ z, s.consumer_zero = Next.returned z := by
        cases hc0 : s.consumer_zero with
        | returned z => exact ⟨z, rfl⟩
        | left_loop => exact absurd hc0 hz
        | again x => simp [hc0, joined] at hj0
        | exited x => simp [hc0, joined] at hj0
      obtain ⟨o, ho1⟩ : ∃ o, s.consumer_one = Next.returned o := by
        cases hc1 : s.consumer_one with
        | returned o => exact ⟨o, rfl⟩
        | left_loop => exact absurd hc1 ho
        | again x => simp [hc1, joined] at hj1
        | exited x => simp [hc1, joined] at hj1
      have hrc2 : returned_count s = 2 := by simp [returned_count, returned_flag, hz1, ho1]
      have hdatas : datas = [] := hempty (by omega)
      have hs := hsum (by simp [hz1, alive]) (by simp [ho1, alive])
      rw [hdatas, value_sum_nil, hz1, ho1] at hs
      simp only [held_sum, add_zero] at hs
      refine ⟨hi, hend, hq, hz, ho, hscr, ⟨datas, k, hp, hd, hrc, hempty, hsum⟩, ?_, ?_⟩
      · intro x hx
        simp only [List.mem_append, List.mem_singleton, Output.total.injEq] at hx
        rcases hx with hx | hx
        · exact hout x hx
        · refine ⟨hrc2, ?_⟩
          rw [hx, hz1, ho1]
          simp only [sum_var]
          rw [add_comm]
          exact hs
      · intro k2 hk2
        simp only [Option.some.injEq] at hk2
        right
        exact ⟨hk2.symm, hrc2⟩
    · exact absurd h (by simp)

theorem sys_run_inv (cap : Nat) (hc : 0 < cap) (total : Int) (q : Nat) (sched : List Tid) :
    ∀ s s1, SysInv cap total q s → sys_run cap sched s = some s1 → SysInv cap total q s1 := by
  induction sched with
  | nil =>
    intro s s1 hinv h
    simp only [sys_run, Option.some.injEq] at h
    rw [← h]
    exact hinv
  | cons t ts ih =>
    intro s s1 hinv h
    simp only [sys_run] at h
    cases hs : sys_step cap s t with
    | none => simp [hs] at h
    | some s2 =>
      simp only [hs] at h
      exact ih s2 s1 (sys_step_inv cap hc total q s s2 t hinv hs) h

theorem sys_init_inv (cap : Nat) (inp : List Token) (q : Nat) (datas : List message_t)
    (h : ScriptOk q datas (producer_thread inp).1 (producer_thread inp).2) :
    SysInv cap (value_sum datas) q (sys_init cap inp) := by
  obtain ⟨h1, h2, h3, h4⟩ := h
  refine ⟨inv_init cap, ?_, ?_, by simp [sys_init], by simp [sys_init], h4,
    ⟨datas, q, ?_, h2, by simp [returned_count, returned_flag, sys_init], ?_, ?_⟩, ?_, ?_⟩
  · rcases h3 with h3 | h3
    · exact Or.inl h3.1
    · exact Or.inr h3.1
  · rcases h3 with h3 | h3
    · exact Or.inl h3.2
    · exact Or.inr ⟨h3.2, h3.1⟩
  · simp only [pending, sys_init, contents_init, List.nil_append]
    exact h1
  · intro h0
    simp [returned_count, returned_flag, sys_init] at h0
  · intro _ _
    simp [sys_init, held_sum]
  · intro x hx
    simp [sys_init] at hx
  · intro k hk
    simp [sys_init] at hk

/-- The invariant holds in every state the program reaches on the input `inp`. -/
theorem sys_reach_inv (cap : Nat) (hc : 0 < cap) (inp : List Token) (sched : List Tid)
    (s : Sys) (h : sys_run cap sched (sys_init cap inp) = some s) :
    ∃ q datas, ScriptOk q datas (producer_thread inp).1 (producer_thread inp).2 ∧
      SysInv cap (value_sum datas) q s := by
  obtain ⟨q, datas, hok⟩ := producer_thread_ok inp
  exact ⟨q, datas, hok, sys_run_inv cap hc _ q sched _ s (sys_init_inv cap inp q datas hok) h⟩

/-- The producer on a list of records ended by a clean end of input: it enqueues a
message per record and two quit messages and returns, or a delay fails and it exits. -/
theorem producer_loop_encode (rs : List Record) :
    ∀ (fuel : Nat) (line : Int), rs.length < fuel →
      ((producer_loop fuel line (encode rs)).2 = Ending.returned ∧
        enqueues (producer_loop fuel line (encode rs)).1 =
          messages_from line rs ++ [quit_msg, quit_msg] ∧
        ∀ r ∈ rs, sleep_fails r = false) ∨
      ((producer_loop fuel line (encode rs)).2 = Ending.exited 1 ∧
        ∃ r ∈ rs, sleep_fails r = true) := by
  induction rs with
  | nil =>
    intro fuel line h
    left
    cases fuel with
    | zero => exact absurd h (Nat.not_lt_zero _)
    | succ fuel =>
      simp [encode, producer_loop, scanf_nil, EOF, enqueues, messages_from]
  | cons r rs ih =>
    intro fuel line h
    cases fuel with
    | zero => exact absurd h (Nat.not_lt_zero _)
    | succ fuel =>
      simp only [encode]
      rw [producer_loop_four]
      by_cases hs : (r.producer_sleep != 0 && !sleep_wrapper r.producer_sleep) = true
      · right
        rw [if_pos hs]
        exact ⟨rfl, r, List.mem_cons_self _ _, hs⟩
      · rw [if_neg hs]
        have hlen : rs.length < fuel := by
          simp only [List.length_cons] at h
          omega
        rcases ih fuel (wrap32 (line + 1)) hlen with ⟨h1, h2, h3⟩ | ⟨h1, r1, hr1, hf⟩
        · left
          refine ⟨h1, ?_, ?_⟩
          · simp only [enqueues, enqueues_append, messages_from, message_of]
            split <;> simp [enqueues, h2]
          · intro r1 hr1
            rcases List.mem_cons.1 hr1 with hr1 | hr1
            · rw [hr1]
              simpa [sleep_fails] using hs
            · exact h3 r1 hr1
        · right
          exact ⟨h1, r1, List.mem_cons_of_mem _ hr1, hf⟩

theorem messages_from_length (rs : List Record) : ∀ line, (messages_from line rs).length = rs.length := by
  induction rs with
  | nil => intro line; rfl
  | cons r rs ih => intro line; simp [messages_from, ih]

theorem messages_from_quit (rs : List Record) : ∀ line, ∀ m ∈ messages_from line rs, m.quit = 0 := by
  induction rs with
  | nil => intro line m hm; simp [messages_from] at hm
  | cons r rs ih =>
    intro line m hm
    simp only [messages_from, List.mem_cons] at hm
    rcases hm with hm | hm
    · rw [hm]; rfl
    · exact ih _ m hm

theorem value_sum_messages_from (rs : List Record) :
    ∀ line, value_sum (messages_from line rs) = record_sum rs := by
  induction rs with
  | nil => intro line; rfl
  | cons r rs ih =>
    intro line
    simp only [messages_from, value_sum_cons, ih]
    simp [record_sum, message_of]

/-- The message for record `i` carries the line number `i + 1` as an `int`. -/
theorem messages_from_get (rs : List Record) :
    ∀ (x : Int) (i : Nat) (r : Record), rs[i]? = some r →
      (messages_from (wrap32 x) rs)[i]? = some (message_of r (wrap32 (x + i))) := by
  induction rs with
  | nil => intro x i r h; simp at h
  | cons r0 rs ih =>
    intro x i r h
    cases i with
    | zero =>
      simp only [List.getElem?_cons_zero, Option.some.injEq] at h
      simp [messages_from, h]
    | succ i =>
      simp only [List.getElem?_cons_succ] at h
      simp only [messages_from, List.getElem?_cons_succ, wrap32_add_left]
      rw [ih (x + 1) i r h]
      congr 3
      push_cast
      ring

theorem encode_length (rs : List Record) : (encode rs).length = 4 * rs.length := by
  induction rs with
  | nil => rfl
  | cons r rs ih =>
    simp only [encode, List.length_cons, ih]
    omega

/-- The producer on records ended by a clean end of input, with the fuel that
`producer_thread` supplies. -/
theorem producer_thread_encode (rs : List Record) :
    ((producer_thread (encode rs)).2 = Ending.returned ∧
      enqueues (producer_thread (encode rs)).1 = messages_from 1 rs ++ [quit_msg, quit_msg] ∧
      ∀ r ∈ rs, sleep_fails r = false) ∨
    ((producer_thread (encode rs)).2 = Ending.exited 1 ∧ ∃ r ∈ rs, sleep_fails r = true) :=
  producer_loop_encode rs ((encode rs).length + 1) 1 (by rw [encode_length]; omega)

theorem consumer_loop_quit (id : Int) (pre post : List message_t) (q : message_t)
    (hq : q.quit ≠ 0) :
    ∀ x : Int, (∀ m ∈ pre, m.quit = 0) → (∀ m ∈ pre, 0 ≤ m.consumer_sleep) →
      (consumer_loop id (wrap32 x) (pre ++ q :: post)).next =
        Next.returned (wrap32 (x + value_sum pre)) ∧
      (consumer_loop id (wrap32 x) (pre ++ q :: post)).dequeued = pre.length + 1 := by
  induction pre with
  | nil =>
    intro x _ _
    simp [consumer_loop, consumer_body_quit id _ q hq, value_sum_nil]
  | cons m pre ih =>
    intro x hpre hs
    have hm0 : m.quit = 0 := hpre m (List.mem_cons_self _ _)
    have hsl : ¬ (m.consumer_sleep != 0 && !sleep_wrapper m.consumer_sleep) = true := by
      have := sleep_wrapper_of_nonneg m.consumer_sleep (hs m (List.mem_cons_self _ _))
      simp [this]
    obtain ⟨h1, h2⟩ := ih (x + m.value) (fun d hd => hpre d (List.mem_cons_of_mem _ hd))
      (fun d hd => hs d (List.mem_cons_of_mem _ hd))
    have e : (m :: pre) ++ q :: post = m :: (pre ++ q :: post) := rfl
    rw [e]
    simp only [consumer_loop, consumer_body_data id _ m hm0 hsl, wrap32_add_left]
    rw [h1, h2, value_sum_cons, add_assoc]
    exact ⟨rfl, rfl⟩

/-- A consumer returns only after dequeuing a message with `quit != 0`, the first such
message of its stream, and never leaves its loop through the loop condition. -/
theorem consumer_loop_exit (id : Int) (stream : List message_t) :
    ∀ sum : Int, (consumer_loop id sum stream).next ≠ Next.left_loop ∧
      ∀ p, (consumer_loop id sum stream).next = Next.returned p →
        ∃ pre q post, stream = pre ++ q :: post ∧ (∀ m ∈ pre, m.quit = 0) ∧ q.quit ≠ 0 ∧
          (consumer_loop id sum stream).dequeued = pre.length + 1 := by
  induction stream with
  | nil =>
    intro sum
    simp [consumer_loop]
  | cons m rest ih =>
    intro sum
    obtain ⟨_, hcases⟩ := consumer_body_cases id sum m
    rcases hcases with ⟨hq, hn⟩ | ⟨hq, hn⟩ | ⟨hq, hn⟩
    · have hb : consumer_body id sum m = ((consumer_body id sum m).1, Next.returned sum) := by
        rw [← hn]
      simp only [consumer_loop]
      rw [hb]
      refine ⟨by simp, ?_⟩
      intro p _
      exact ⟨[], m, rest, rfl, by simp, hq, rfl⟩
    · have hb : consumer_body id sum m = ((consumer_body id sum m).1, Next.exited 1) := by
        rw [← hn]
      simp only [consumer_loop]
      rw [hb]
      exact ⟨by simp, by simp⟩
    · have hb : consumer_body id sum m =
          ((consumer_body id sum m).1, Next.again (wrap32 (sum + m.value))) := by
        rw [← hn]
      obtain ⟨h1, h2⟩ := ih (wrap32 (sum + m.value))
      simp only [consumer_loop]
      rw [hb]
      refine ⟨h1, ?_⟩
      intro p hp
      obtain ⟨pre, q, post, hst, hpre, hq1, hdq⟩ := h2 p hp
      refine ⟨m :: pre, q, post, by rw [hst]; rfl, ?_, hq1, ?_⟩
      · intro d hd
        rcases List.mem_cons.1 hd with hd | hd
        · rw [hd]; exact hq
        · exact hpre d hd
      · simp only [List.length_cons]
        exact congrArg (· + 1) hdq

theorem unreadable_tail (t : Token) (r : List Token) (ht : t ≠ Token.junk)
    (h : unreadable (t :: r)) : r ≠ [] ∧ (t ≠ Token.sign → unreadable r) := by
  rcases h with h | ⟨pre, rest, h, hne⟩
  · have hr : Token.junk ∈ r := by
      rcases List.mem_cons.1 h with e | e
      · exact absurd e.symm ht
      · exact e
    exact ⟨List.ne_nil_of_mem hr, fun _ => Or.inl hr⟩
  · cases pre with
    | nil =>
      simp only [List.nil_append, List.cons.injEq] at h
      refine ⟨by rw [h.2]; exact hne, fun hs => absurd h.1 hs⟩
    | cons x pre =>
      simp only [List.cons_append, List.cons.injEq] at h
      refine ⟨by rw [h.2]; simp, fun _ => Or.inr ⟨pre, rest, h.2, hne⟩⟩

/-- On an unreadable stream `n` conversions either all succeed and leave an unreadable
stream, or stop early and leave a stream that is not empty. -/
theorem scan_ints_unreadable (n : Nat) :
    ∀ inp : List Token, unreadable inp →
      ((scan_ints n inp).1.length = n ∧ unreadable (scan_ints n inp).2) ∨
      ((scan_ints n inp).1.length < n ∧ (scan_ints n inp).2 ≠ []) := by
  induction n with
  | zero =>
    intro inp h
    exact Or.inl ⟨by simp [scan_ints], by simpa [scan_ints] using h⟩
  | succ n ih =>
    intro inp h
    match inp with
    | [] =>
      rcases h with h | ⟨pre, rest, h, _⟩
      · simp at h
      · simp at h
    | Token.junk :: r => exact Or.inr ⟨by simp [scan_ints], by simp [scan_ints]⟩
    | Token.sign :: r =>
      exact Or.inr ⟨by simp [scan_ints],
        by simpa [scan_ints] using (unreadable_tail Token.sign r (by simp) h).1⟩
    | Token.int v :: r =>
      have hr := (unreadable_tail (Token.int v) r (by simp) h).2 (by simp)
      rcases ih r hr with ⟨h1, h2⟩ | ⟨h1, h2⟩
      · exact Or.inl ⟨by simp [scan_ints, h1], by simpa [scan_ints] using h2⟩
      · exact Or.inr ⟨by simp [scan_ints, h1], by simpa [scan_ints] using h2⟩

/-- On an unreadable stream, when `scanf` does not return 4 the next call of `scanf`
does not return `EOF`. -/
theorem scanf_unreadable (inp : List Token) (hj : unreadable inp) (h : (scanf inp).1 ≠ 4) :
    (scanf (scanf inp).2.2).1 ≠ EOF := by
  have hne : (scanf inp).2.2 ≠ [] := by
    rcases scan_ints_unreadable 4 inp hj with ⟨h1, _⟩ | ⟨_, h2⟩
    · exfalso
      apply h
      have hi : inp ≠ [] := by
        intro e
        rw [e] at h1
        simp [scan_ints] at h1
      simp [scanf, hi, h1]
    · exact h2
  show (if (scanf inp).2.2 = [] then EOF
    else ((scan_ints 4 (scanf inp).2.2).1.length : Int)) ≠ EOF
  rw [if_neg hne]
  simp only [EOF]
  omega

/-- On an unreadable stream the producer ends in `exit(1)`, after printing one of the
two error lines. -/
theorem producer_loop_junk (fuel : Nat) :
    ∀ (line : Int) (inp : List Token), inp.length < fuel → unreadable inp →
      (producer_loop fuel line inp).2 = Ending.exited 1 ∧
      (Output.input_error ∈ outputs (producer_loop fuel line inp).1 ∨
        Output.sleep_error ∈ outputs (producer_loop fuel line inp).1) := by
  induction fuel with
  | zero =>
    intro line inp h
    exact absurd h (Nat.not_lt_zero _)
  | succ fuel ih =>
    intro line inp h hj
    by_cases h4 : (scanf inp).1 = 4
    · obtain ⟨a, b, c, d, hinp, _⟩ := scanf_eq_four inp h4
      generalize (scanf inp).2.2 = rest at hinp
      subst hinp
      have hjr : unreadable rest := by
        have h1 := (unreadable_tail _ _ (by simp) hj).2 (by simp)
        have h2 := (unreadable_tail _ _ (by simp) h1).2 (by simp)
        have h3 := (unreadable_tail _ _ (by simp) h2).2 (by simp)
        exact (unreadable_tail _ _ (by simp) h3).2 (by simp)
      rw [producer_loop_four]
      by_cases hs : (b != 0 && !sleep_wrapper b) = true
      · rw [if_pos hs]
        exact ⟨rfl, Or.inr (by simp [outputs])⟩
      · rw [if_neg hs]
        obtain ⟨h1, h2⟩ := ih (wrap32 (line + 1)) rest (by
          simp only [List.length_cons] at h
          omega) hjr
        refine ⟨h1, ?_⟩
        have happ : ∀ (x : Output) (e : Event) (l1 l2 : List Event), x ∈ outputs l2 →
            x ∈ outputs (e :: l1 ++ l2) := by
          intro x e l1 l2 hx
          have e1 : e :: l1 ++ l2 = (e :: l1) ++ l2 := rfl
          rw [e1, outputs_append]
          exact List.mem_append_right _ hx
        rcases h2 with h2 | h2
        · exact Or.inl (happ _ _ _ _ h2)
        · exact Or.inr (happ _ _ _ _ h2)
    · have h4b : ((scanf inp).1 == 4) = false := by simpa using h4
      have h0 := scanf_unreadable inp hj h4
      have h0b : ((scanf (scanf inp).2.2).1 == EOF) = false := by simpa using h0
      simp [producer_loop, h4b, h0b, outputs]

/-! ## The claims on the threads and on the program -/

/-- C3 (accounting).  The program is one producer that enqueues the data messages of
the input records followed by two quit messages, and two consumers that dequeue and
accumulate until they dequeue a quit message.  For every list of input records (with
any values and any delays) and every interleaving of the atomic steps that ends with
both consumers returned, the total that `main` computes from `consumer_one_sum` and
`consumer_zero_sum` is the sum of the `value` fields of all records as a 32-bit `int`;
it is that sum itself whenever the sum fits an `int` (int arithmetic exact); every
total line printed shows this value; and the records `(5,0,0,0)`, `(3,0,0,0)` give 8. -/
theorem accounting (rs : List Record) (sched : List Tid) (s : Sys) (z o : Int)
    (h : sys_run BUFFER_SIZE sched (sys_init BUFFER_SIZE (encode rs)) = some s)
    (hz : s.consumer_zero = Next.returned z) (ho : s.consumer_one = Next.returned o) :
    wrap32 (o + z) = wrap32 (record_sum rs) ∧
    (INT_MIN ≤ record_sum rs → record_sum rs ≤ INT_MAX → wrap32 (o + z) = record_sum rs) ∧
    (∀ x, Output.total x ∈ s.output → x = wrap32 (record_sum rs)) ∧
    (rs = sample_records → wrap32 (o + z) = 8) := by
  obtain ⟨q, datas, hok, hinv⟩ := sys_reach_inv BUFFER_SIZE (by decide) (encode rs) sched s h
  obtain ⟨_, _, _, _, _, _, ⟨datas1, k, hp, hd, hrc, hempty, hsum⟩, hout, _⟩ := hinv
  have hrc2 : returned_count s = 2 := by simp [returned_count, returned_flag, hz, ho]
  have hq2 : q = 2 := by
    obtain ⟨_, _, h3, _⟩ := hok
    rcases h3 with h3 | h3
    · exact h3.2
    · omega
  have hdatas : datas = messages_from 1 rs := by
    obtain ⟨h1, h2, h3, _⟩ := hok
    rcases producer_thread_encode rs with ⟨_, he, _⟩ | ⟨he, _⟩
    · rw [he, hq2] at h1
      have e : List.replicate 2 quit_msg = [quit_msg, quit_msg] := rfl
      rw [e] at h1
      exact (List.append_left_inj _).1 h1.symm
    · rcases h3 with h3 | h3
      · rw [h3.1] at he
        exact absurd he (by simp)
      · omega
  have htotal : value_sum datas = record_sum rs := by
    rw [hdatas, value_sum_messages_from]
  have hd1 : datas1 = [] := hempty (by omega)
  have hs := hsum (by simp [hz, alive]) (by simp [ho, alive])
  rw [hd1, value_sum_nil, hz, ho, htotal] at hs
  simp only [held_sum, add_zero] at hs
  have hmain : wrap32 (o + z) = wrap32 (record_sum rs) := by
    rw [add_comm]
    exact hs
  refine ⟨hmain, ?_, ?_, ?_⟩
  · intro h1 h2
    rw [hmain, wrap32_id _ h1 h2]
  · intro x hx
    rw [(hout x hx).2, htotal]
  · intro hrs
    rw [hmain, hrs]
    decide

/-- Witness for C3: the scenario `(5,0,0,0)`, `(3,0,0,0)` under one interleaving. -/
theorem accounting_witness :
    sys_run BUFFER_SIZE sample_schedule (sys_init BUFFER_SIZE (encode sample_records)) =
      some sample_final ∧
    sample_final.consumer_zero = Next.returned 3 ∧
    sample_final.consumer_one = Next.returned 5 ∧
    (wrap32 (5 + 3) = wrap32 (record_sum sample_records) ∧
    (INT_MIN ≤ record_sum sample_records → record_sum sample_records ≤ INT_MAX →
      wrap32 (5 + 3) = record_sum sample_records) ∧
    (∀ x, Output.total x ∈ sample_final.output → x = wrap32 (record_sum sample_records)) ∧
    (sample_records = sample_records → wrap32 (5 + 3) = 8)) :=
  ⟨by decide, rfl, rfl,
    accounting sample_records sample_schedule sample_final 3 5 (by decide) rfl rfl⟩

/-- C9, amended (producer output stream).  For every input of `n >= 0` records followed
by a clean end of input in which every producer delay is non-negative,
`producer_thread` returns after enqueueing exactly `n + 2` messages: for `i = 1..n` the
message with `value`, `consumer_sleep` and `print_code` of record `i`, `line = i` as a
32-bit `int` (`i` itself up to `INT_MAX`) and `quit = 0`, then exactly two messages
with `quit = 1`, and nothing after them.  With a negative producer delay in the input
the producer ends in `exit(1)` instead. -/
theorem producer_output (rs : List Record) (h : ∀ r ∈ rs, 0 ≤ r.producer_sleep) :
    (producer_thread (encode rs)).2 = Ending.returned ∧
    enqueues (producer_thread (encode rs)).1 = messages_from 1 rs ++ [quit_msg, quit_msg] ∧
    (enqueues (producer_thread (encode rs)).1).length = rs.length + 2 ∧
    (∀ (i : Nat) (r : Record), rs[i]? = some r →
      (enqueues (producer_thread (encode rs)).1)[i]? =
        some { value := r.value, consumer_sleep := r.consumer_sleep,
               line := wrap32 ((i : Int) + 1), print_code := r.print_code, quit := 0 } ∧
      ((i : Int) + 1 ≤ INT_MAX → wrap32 ((i : Int) + 1) = (i : Int) + 1)) ∧
    (enqueues (producer_thread (encode rs)).1)[rs.length]? = some quit_msg ∧
    (enqueues (producer_thread (encode rs)).1)[rs.length + 1]? = some quit_msg ∧
    quit_msg.quit = 1 ∧
    (∀ rs1 : List Record, (∃ r ∈ rs1, r.producer_sleep < 0) →
      (producer_thread (encode rs1)).2 = Ending.exited 1) := by
  have hok : ∀ r ∈ rs, sleep_fails r = false := by
    intro r hr
    simp [sleep_fails, sleep_wrapper_of_nonneg r.producer_sleep (h r hr)]
  rcases producer_thread_encode rs with ⟨h1, h2, _⟩ | ⟨_, r, hr, hf⟩
  · have hlen := messages_from_length rs 1
    refine ⟨h1, h2, ?_, ?_, ?_, ?_, rfl, ?_⟩
    · rw [h2, List.length_append, hlen]
      rfl
    · intro i r hi
      have hlt : i < rs.length := by
        rcases Nat.lt_or_ge i rs.length with hl | hl
        · exact hl
        · rw [List.getElem?_eq_none hl] at hi
          exact absurd hi (by simp)
      refine ⟨?_, ?_⟩
      · rw [h2, List.getElem?_append_left (by rw [hlen]; exact hlt)]
        have hg := messages_from_get rs 1 i r hi
        have e1 : wrap32 1 = 1 := by decide
        rw [e1] at hg
        rw [hg, add_comm]
        rfl
      · intro hmax
        apply wrap32_id
        · simp only [INT_MIN]
          omega
        · exact hmax
    · rw [h2, List.getElem?_append_right (by rw [hlen]), hlen]
      simp
    · rw [h2, List.getElem?_append_right (by rw [hlen]; omega), hlen]
      simp
    · intro rs1 hneg
      obtain ⟨r, hr, hlt⟩ := hneg
      rcases producer_thread_encode rs1 with ⟨_, _, h3⟩ | ⟨h3, _⟩
      · have hf := h3 r hr
        have hw : sleep_wrapper r.producer_sleep = false := by
          cases hsw : sleep_wrapper r.producer_sleep with
          | false => rfl
          | true =>
            have := (sleep_wrapper_iff r.producer_sleep).1 hsw
            omega
        have hne : r.producer_sleep ≠ 0 := by omega
        simp [sleep_fails, hw, hne] at hf
      · exact h3
  · rw [hok r hr] at hf
    exact absurd hf (by simp)

/-- Witness for C9: the records `(5,0,0,0)` and `(3,0,0,0)`. -/
theorem producer_output_witness :
    (∀ r ∈ sample_records, 0 ≤ r.producer_sleep) ∧
    enqueues (producer_thread (encode sample_records)).1 =
      messages_from 1 sample_records ++ [quit_msg, quit_msg] ∧
    (enqueues (producer_thread (encode sample_records)).1).length =
      sample_records.length + 2 :=
  ⟨by decide, (producer_output sample_records (by decide)).2.1,
    (producer_output sample_records (by decide)).2.2.1⟩

/-- Counterexample to C9 as stated.  For the single well-formed record `(1,-1,0,0)` the
producer calls `sleep_wrapper(-1)`, `nanosleep` rejects the negative `tv_nsec`, and the
producer prints the error line and exits without enqueueing any message.  And on an
input of `2147483648` records `(0,0,0,0)` the message of the last record does not
carry `line = 2147483648`: the counter is a 32-bit `int`. -/
theorem producer_output_counterexample :
    producer_thread (encode [negative_delay_record]) =
      ([Event.out Output.sleep_error], Ending.exited 1) ∧
    enqueues (producer_thread (encode [negative_delay_record])).1 = [] ∧
    sleep_timespec (-1) = { tv_sec := 0, tv_nsec := -1000000 } ∧
    (enqueues (producer_thread (encode (List.replicate 2147483648 zero_record))).1)[2147483647]? =
      some { value := 0, consumer_sleep := 0, line := -2147483648, print_code := 0,
             quit := 0 } := by
  refine ⟨by decide, by decide, by decide, ?_⟩
  rcases producer_thread_encode (List.replicate 2147483648 zero_record) with
    ⟨_, h2, _⟩ | ⟨_, r, hr, hf⟩
  · have hlen := messages_from_length (List.replicate 2147483648 zero_record) 1
    rw [List.length_replicate] at hlen
    have hget : (List.replicate 2147483648 zero_record)[2147483647]? = some zero_record := by
      rw [List.getElem?_replicate]
      exact if_pos (by decide)
    have e1 : wrap32 1 = 1 := by decide
    have hg := messages_from_get (List.replicate 2147483648 zero_record) 1 2147483647
      zero_record hget
    rw [e1] at hg
    rw [h2, List.getElem?_append_left (by rw [hlen]; decide), hg]
    decide
  · have hz : r = zero_record := List.eq_of_mem_replicate hr
    rw [hz] at hf
    exact absurd hf (by decide)

/-- C10, amended (consumer loop).  For every stream of messages handed to one consumer
by `dequeue` in which the messages before the first message with `quit != 0` have
non-negative `consumer_sleep`, the consumer stops at that message, has made exactly one
`dequeue` per message up to and including it and none after it, and publishes through
its argument the sum of the `value` fields of the messages before it as a 32-bit `int`
(the sum itself when it fits an `int`); the quit message's own value is not added.  On
every stream the loop is left only by dequeuing a message with `quit != 0`, never
through the loop condition; a data message with a negative `consumer_sleep` ends the
process in `exit(1)`. -/
theorem consumer_loop_sum (id : Int) (pre post : List message_t) (q : message_t)
    (hpre : ∀ m ∈ pre, m.quit = 0) (hq : q.quit ≠ 0)
    (hs : ∀ m ∈ pre, 0 ≤ m.consumer_sleep) :
    (consumer_thread id (pre ++ q :: post)).next = Next.returned (wrap32 (value_sum pre)) ∧
    (consumer_thread id (pre ++ q :: post)).dequeued = pre.length + 1 ∧
    (INT_MIN ≤ value_sum pre → value_sum pre ≤ INT_MAX →
      (consumer_thread id (pre ++ q :: post)).next = Next.returned (value_sum pre)) ∧
    (∀ stream, (consumer_thread id stream).next ≠ Next.left_loop) ∧
    (∀ stream p, (consumer_thread id stream).next = Next.returned p →
      ∃ pre1 q1 post1, stream = pre1 ++ q1 :: post1 ∧ (∀ m ∈ pre1, m.quit = 0) ∧
        q1.quit ≠ 0 ∧ (consumer_thread id stream).dequeued = pre1.length + 1) ∧
    (∀ (sum : Int) (m : message_t), m.quit = 0 → m.consumer_sleep < 0 →
      consumer_body id sum m = ([Output.sleep_error], Next.exited 1)) := by
  have e0 : wrap32 0 = 0 := by decide
  obtain ⟨h1, h2⟩ := consumer_loop_quit id pre post q hq 0 hpre hs
  rw [e0, zero_add] at h1
  rw [e0] at h2
  refine ⟨h1, h2, ?_, ?_, ?_, ?_⟩
  · intro hlo hhi
    have h3 : (consumer_thread id (pre ++ q :: post)).next =
        Next.returned (wrap32 (value_sum pre)) := h1
    rw [h3, wrap32_id _ hlo hhi]
  · intro stream
    exact (consumer_loop_exit id stream 0).1
  · intro stream p hp
    exact (consumer_loop_exit id stream 0).2 p hp
  · intro sum m hm0 hneg
    have hw : sleep_wrapper m.consumer_sleep = false := by
      cases hsw : sleep_wrapper m.consumer_sleep with
      | false => rfl
      | true =>
        have := (sleep_wrapper_iff m.consumer_sleep).1 hsw
        omega
    have hne : m.consumer_sleep ≠ 0 := by omega
    exact consumer_body_exit id sum m hm0 (by simp [hw, hne])

/-- Witness for C10: two data messages, a quit message and one more message. -/
theorem consumer_loop_sum_witness :
    (∀ m ∈ [data_msg 5 1, data_msg 3 2], m.quit = 0) ∧ quit_msg.quit ≠ 0 ∧
    (∀ m ∈ [data_msg 5 1, data_msg 3 2], 0 ≤ m.consumer_sleep) ∧
    (consumer_thread 0 ([data_msg 5 1, data_msg 3 2] ++ quit_msg :: [data_msg 9 3])).next =
      Next.returned (wrap32 (value_sum [data_msg 5 1, data_msg 3 2])) ∧
    (consumer_thread 0 ([data_msg 5 1, data_msg 3 2] ++ quit_msg :: [data_msg 9 3])).dequeued =
      [data_msg 5 1, data_msg 3 2].length + 1 :=
  ⟨by decide, by decide, by decide,
    (consumer_loop_sum 0 [data_msg 5 1, data_msg 3 2] [data_msg 9 3] quit_msg
      (by decide) (by decide) (by decide)).1,
    (consumer_loop_sum 0 [data_msg 5 1, data_msg 3 2] [data_msg 9 3] quit_msg
      (by decide) (by decide) (by decide)).2.1⟩

/-- Counterexample to C10 as stated.  On the stream of a data message with
`consumer_sleep = -1` followed by a quit message, the consumer does not reach the quit
message: `sleep_wrapper(-1)` fails and the process exits with status 1, nothing is
published.  On the stream of the values `2147483647` and `1` followed by a quit message
the published `int` is `-2147483648`, not the sum `2147483648`. -/
theorem consumer_loop_counterexample :
    consumer_thread 0 [negative_delay_msg, quit_msg] =
      { output := [Output.sleep_error], dequeued := 1, next := Next.exited 1 } ∧
    (consumer_thread 0 [data_msg 2147483647 1, data_msg 1 2, quit_msg]).next =
      Next.returned (-2147483648) ∧
    value_sum [data_msg 2147483647 1, data_msg 1 2] = 2147483648 := by
  decide

/-! ## Further claims on the ring buffer -/

/-- C15 (capacity-1 boundary).  With the capacity constant taken as a parameter and set
to 1, every sequence of `enqueue` and `dequeue` calls from the empty buffer in which no
call meets its wait condition completes without an out-of-range access and returns the
messages in the order enqueued; in the state reached the full test is true exactly
when one message is resident, `front == -1` exactly when none is, and never more than
one message is resident. -/
theorem capacity_one (ops : List Op)
    (h : run 1 ops (init_buf 1) ≠ Outcome.blocked) :
    ∃ t outs, run 1 ops (init_buf 1) = Outcome.ok (t, outs) ∧
      outs.length = dequeues ops ∧
      outs = (enqueued ops).take (dequeues ops) ∧
      dequeues ops ≤ (enqueued ops).length ∧
      (enqueued ops).length - dequeues ops ≤ 1 ∧
      (enqueue_wait 1 t = true ↔ (enqueued ops).length - dequeues ops = 1) ∧
      (t.front = -1 ↔ (enqueued ops).length - dequeues ops = 0) := by
  rcases run_sim 1 (by decide) ops (init_buf 1) (inv_init _) with
    hb | ⟨t, outs, hr, hi, hq, hlen⟩
  · exact absurd hb h
  · rw [contents_init, List.nil_append] at hq
    have hpre : outs = (enqueued ops).take (dequeues ops) := by
      rw [hq, ← hlen, List.take_left]
    have hcount : (enqueued ops).length = dequeues ops + (contents t).length := by
      rw [hq, List.length_append, hlen]
    have hfull := enqueue_wait_iff 1 t (by decide) hi
    have hl := contents_length 1 t hi
    have hbound : (contents t).length ≤ 1 ∧ (t.front = -1 ↔ (contents t).length = 0) := by
      obtain ⟨_, hi2 | hi2⟩ := hi
      · simp only [hi2.1, if_true] at hl
        exact ⟨by omega, by constructor <;> intro _ <;> omega⟩
      · simp only [Nat.cast_one] at hi2 hl
        split_ifs at hl <;> exact ⟨by omega, by constructor <;> intro _ <;> omega⟩
    refine ⟨t, outs, hr, hlen, hpre, by omega, by omega, ?_, ?_⟩
    · rw [hfull]
      omega
    · rw [hbound.2]
      omega

/-- Witness for C15: enqueue, dequeue, enqueue, dequeue on a one-slot buffer. -/
theorem capacity_one_witness :
    run 1 [Op.enq (data_msg 5 1), Op.deq, Op.enq (data_msg 3 2), Op.deq] (init_buf 1) ≠
      Outcome.blocked ∧
    ∃ t outs,
      run 1 [Op.enq (data_msg 5 1), Op.deq, Op.enq (data_msg 3 2), Op.deq] (init_buf 1) =
        Outcome.ok (t, outs) ∧
      outs = [data_msg 5 1, data_msg 3 2] := by
  refine ⟨by decide, ?_⟩
  obtain ⟨t, outs, h1, _, h3, _⟩ :=
    capacity_one [Op.enq (data_msg 5 1), Op.deq, Op.enq (data_msg 3 2), Op.deq] (by decide)
  exact ⟨t, outs, h1, by rw [h3]; rfl⟩

/-- C16 (index invariant).  In every state reached from `front = rear = -1` by calls
that were not blocked, either `front == -1` and `rear == -1`, or both indices lie in
`[0, BUFFER_SIZE)`; a state with exactly one of the two equal to `-1` is never reached;
and whenever `front != -1` the number of resident messages is
`((rear - front) mod BUFFER_SIZE) + 1`. -/
theorem index_invariant (ops : List Op) (t : RingBuf) (outs : List message_t)
    (h : run BUFFER_SIZE ops (init_buf BUFFER_SIZE) = Outcome.ok (t, outs)) :
    ((t.front = -1 ∧ t.rear = -1) ∨
      (0 ≤ t.front ∧ t.front < (BUFFER_SIZE : Int) ∧ 0 ≤ t.rear ∧
        t.rear < (BUFFER_SIZE : Int))) ∧
    ¬ (t.front = -1 ∧ t.rear ≠ -1) ∧
    ¬ (t.front ≠ -1 ∧ t.rear = -1) ∧
    (t.front ≠ -1 →
      (((enqueued ops).length - dequeues ops : Nat) : Int) =
        (t.rear - t.front) % (BUFFER_SIZE : Int) + 1) := by
  obtain ⟨hi, hq, hlen⟩ := reach_facts BUFFER_SIZE (by decide) ops t outs h
  have hcount : (enqueued ops).length = dequeues ops + (contents t).length := by
    rw [hq, List.length_append, hlen]
  have hl := contents_length BUFFER_SIZE t hi
  have hcap : (BUFFER_SIZE : Int) = 10 := rfl
  obtain ⟨_, hi2⟩ := hi
  rw [hcap] at hi2 hl ⊢
  refine ⟨hi2, by omega, by omega, ?_⟩
  intro hne
  rcases hi2 with hi2 | hi2
  · exact absurd hi2.1 hne
  · split_ifs at hl <;> omega

/-- Witness for C16: the state after two enqueues and one dequeue. -/
theorem index_invariant_witness :
    run BUFFER_SIZE sample_ops (init_buf BUFFER_SIZE) =
      Outcome.ok (sample_state, [data_msg 5 1]) ∧
    (sample_state.front ≠ -1 →
      (((enqueued sample_ops).length - dequeues sample_ops : Nat) : Int) =
        (sample_state.rear - sample_state.front) % (BUFFER_SIZE : Int) + 1) :=
  ⟨by decide,
    (index_invariant sample_ops sample_state [data_msg 5 1] (by decide)).2.2.2⟩

/-- C17 (in-bounds access).  In every state reached from the empty buffer by calls that
were not blocked, a call of `enqueue` or `dequeue` never takes the out-of-range branch
of the array access: once its wait loop has exited, `enqueue` writes `buffer[rear]`
with the new `rear` in `[0, BUFFER_SIZE)` and `dequeue` reads `buffer[front]` with
`front` in `[0, BUFFER_SIZE)`, and both accesses succeed.  No sequence of calls from
the empty buffer ends in an out-of-range access. -/
theorem in_bounds (ops : List Op) (t : RingBuf) (outs : List message_t)
    (h : run BUFFER_SIZE ops (init_buf BUFFER_SIZE) = Outcome.ok (t, outs)) :
    (∀ m, enqueue BUFFER_SIZE t m ≠ Outcome.out_of_bounds) ∧
    dequeue BUFFER_SIZE t ≠ Outcome.out_of_bounds ∧
    (∀ m, enqueue_wait BUFFER_SIZE t = false →
      ∃ t1, enqueue BUFFER_SIZE t m = Outcome.ok t1 ∧
        0 ≤ t1.rear ∧ t1.rear < (BUFFER_SIZE : Int) ∧
        array_set t.buffer t1.rear m = some t1.buffer) ∧
    (dequeue_wait t = false →
      0 ≤ t.front ∧ t.front < (BUFFER_SIZE : Int) ∧
      ∃ m t1, array_get t.buffer t.front = some m ∧
        dequeue BUFFER_SIZE t = Outcome.ok (m, t1)) ∧
    t.buffer.length = BUFFER_SIZE ∧
    (∀ more, run BUFFER_SIZE more t ≠ Outcome.out_of_bounds) := by
  obtain ⟨hi, _, _⟩ := reach_facts BUFFER_SIZE (by decide) ops t outs h
  have henq : ∀ m, enqueue_wait BUFFER_SIZE t = false →
      ∃ t1, enqueue BUFFER_SIZE t m = Outcome.ok t1 ∧
        0 ≤ t1.rear ∧ t1.rear < (BUFFER_SIZE : Int) ∧
        array_set t.buffer t1.rear m = some t1.buffer := by
    intro m hw
    obtain ⟨t1, he, hi1, _⟩ := enqueue_spec BUFFER_SIZE t m (by decide) hi hw
    obtain ⟨_, _, _, h0, hlt, hb⟩ := enqueue_shape BUFFER_SIZE t t1 m he
    refine ⟨t1, he, h0, ?_, ?_⟩
    · rw [hi.1] at hlt
      omega
    · simp [array_set, h0, hlt, hb]
  have hdeq : dequeue_wait t = false →
      0 ≤ t.front ∧ t.front < (BUFFER_SIZE : Int) ∧
      ∃ m t1, array_get t.buffer t.front = some m ∧
        dequeue BUFFER_SIZE t = Outcome.ok (m, t1) := by
    intro hw
    obtain ⟨m, t1, hd, _, _, hget⟩ := dequeue_spec BUFFER_SIZE t hi hw
    have hne : t.front ≠ -1 := by simpa [dequeue_wait] using hw
    obtain ⟨_, hi2 | hi2⟩ := hi
    · exact absurd hi2.1 hne
    · exact ⟨hi2.1, hi2.2.1, m, t1, hget, hd⟩
  refine ⟨?_, ?_, henq, hdeq, hi.1, ?_⟩
  · intro m
    cases hw : enqueue_wait BUFFER_SIZE t with
    | true => simp [enqueue, hw]
    | false =>
      obtain ⟨t1, he, _⟩ := henq m hw
      rw [he]
      simp
  · cases hw : dequeue_wait t with
    | true => simp [dequeue, hw]
    | false =>
      obtain ⟨_, _, m, t1, _, hd⟩ := hdeq hw
      rw [hd]
      simp
  · intro more
    rcases run_sim BUFFER_SIZE (by decide) more t hi with hb | ⟨t2, o2, hr, _⟩
    · rw [hb]
      simp
    · rw [hr]
      simp

/-- Witness for C17: the state after two enqueues and one dequeue. -/
theorem in_bounds_witness :
    run BUFFER_SIZE sample_ops (init_buf BUFFER_SIZE) =
      Outcome.ok (sample_state, [data_msg 5 1]) ∧
    (∀ m, enqueue BUFFER_SIZE sample_state m ≠ Outcome.out_of_bounds) ∧
    dequeue BUFFER_SIZE sample_state ≠ Outcome.out_of_bounds :=
  ⟨by decide, (in_bounds sample_ops sample_state [data_msg 5 1] (by decide)).1,
    (in_bounds sample_ops sample_state [data_msg 5 1] (by decide)).2.1⟩

/-- C18 (frame of the buffer operations).  In every state reached from the empty
buffer, a completed `enqueue` stores the message in the slot of the new `rear`, leaves
every other slot and the number of slots unchanged, and changes `front` exactly when
the buffer was empty (`front == -1`); a completed `dequeue` leaves the whole array
unchanged and changes `rear` exactly when it removes the last resident message. -/
theorem frame (ops : List Op) (t : RingBuf) (outs : List message_t)
    (h : run BUFFER_SIZE ops (init_buf BUFFER_SIZE) = Outcome.ok (t, outs)) :
    (∀ m t1, enqueue BUFFER_SIZE t m = Outcome.ok t1 →
      array_get t1.buffer t1.rear = some m ∧
      (∀ i, i ≠ t1.rear → array_get t1.buffer i = array_get t.buffer i) ∧
      t1.buffer.length = t.buffer.length ∧
      (t1.front ≠ t.front ↔ t.front = -1)) ∧
    (∀ m t1, dequeue BUFFER_SIZE t = Outcome.ok (m, t1) →
      t1.buffer = t.buffer ∧
      (t1.rear ≠ t.rear ↔ (contents t).length = 1) ∧
      (t1.rear ≠ t.rear ↔ (enqueued ops).length - dequeues ops = 1)) := by
  obtain ⟨hi, hq, hlen⟩ := reach_facts BUFFER_SIZE (by decide) ops t outs h
  have hcount : (enqueued ops).length = dequeues ops + (contents t).length := by
    rw [hq, List.length_append, hlen]
  have hl := contents_length BUFFER_SIZE t hi
  have hcap : (BUFFER_SIZE : Int) = 10 := rfl
  constructor
  · intro m t1 he
    obtain ⟨_, hf1, _, h0, hlt, hb⟩ := enqueue_shape BUFFER_SIZE t t1 m he
    have e : ((t1.rear.toNat : Nat) : Int) = t1.rear := Int.toNat_of_nonneg h0
    refine ⟨?_, ?_, ?_, ?_⟩
    · rw [hb]
      have := array_get_set_eq t.buffer t1.rear.toNat m hlt
      rw [e] at this
      exact this
    · intro i hne
      rw [hb]
      exact array_get_set_ne t.buffer t1.rear.toNat i m (by rw [e]; exact hne)
    · rw [hb, List.length_set]
    · rw [hf1]
      split_ifs with hf
      · rw [hf]
        simp
      · simp [hf]
  · intro m t1 hd
    obtain ⟨hne, _, hb1, _, hr1⟩ := dequeue_shape BUFFER_SIZE t t1 m hd
    have hone : t1.rear ≠ t.rear ↔ (contents t).length = 1 := by
      rw [hr1]
      obtain ⟨_, hi2 | hi2⟩ := hi
      · exact absurd hi2.1 hne
      · rw [hcap] at hi2 hl
        split_ifs at hl ⊢ <;> constructor <;> intro hx <;> omega
    refine ⟨hb1, hone, ?_⟩
    rw [hone]
    omega

/-- Witness for C18: the state after two enqueues and one dequeue. -/
theorem frame_witness :
    run BUFFER_SIZE sample_ops (init_buf BUFFER_SIZE) =
      Outcome.ok (sample_state, [data_msg 5 1]) ∧
    (∀ m t1, dequeue BUFFER_SIZE sample_state = Outcome.ok (m, t1) →
      t1.buffer = sample_state.buffer ∧
      (t1.rear ≠ sample_state.rear ↔ (contents sample_state).length = 1) ∧
      (t1.rear ≠ sample_state.rear ↔
        (enqueued sample_ops).length - dequeues sample_ops = 1)) :=
  ⟨by decide, (frame sample_ops sample_state [data_msg 5 1] (by decide)).2⟩

/-- C19 (delay conversion).  For every `sleep_time` with `0 <= sleep_time <= INT_MAX`,
`sleep_wrapper` builds a `timespec` with `tv_sec = sleep_time / 1000` and
`tv_nsec = (sleep_time % 1000) * 1000000`; the product stays inside the `int` range,
`0 <= tv_nsec <= 999000000`, and `tv_sec * 1000000000 + tv_nsec` is
`sleep_time * 1000000`, so the duration is `sleep_time` milliseconds and the call
returns.  For every negative `sleep_time` that is not a multiple of 1000,
`tv_nsec` is negative. -/
theorem delay_conversion (sleep_time : Int) (h0 : 0 ≤ sleep_time)
    (_h1 : sleep_time ≤ INT_MAX) :
    (sleep_timespec sleep_time).tv_sec = sleep_time / 1000 ∧
    (sleep_timespec sleep_time).tv_nsec = (sleep_time % 1000) * 1000000 ∧
    INT_MIN ≤ Int.tmod sleep_time 1000 * 1000000 ∧
    Int.tmod sleep_time 1000 * 1000000 ≤ INT_MAX ∧
    0 ≤ (sleep_timespec sleep_time).tv_nsec ∧
    (sleep_timespec sleep_time).tv_nsec ≤ 999000000 ∧
    (sleep_timespec sleep_time).tv_sec * 1000000000 + (sleep_timespec sleep_time).tv_nsec =
      sleep_time * 1000000 ∧
    sleep_wrapper sleep_time = true ∧
    (∀ t : Int, t < 0 → t % 1000 ≠ 0 → (sleep_timespec t).tv_nsec < 0) := by
  obtain ⟨hd, hm⟩ := c_div_mod_1000 sleep_time
  rw [if_pos h0] at hd hm
  have hw : wrap32 (Int.tmod sleep_time 1000 * 1000000) =
      Int.tmod sleep_time 1000 * 1000000 := by
    apply wrap32_id <;> simp only [INT_MIN, INT_MAX] <;> omega
  have hsec : (sleep_timespec sleep_time).tv_sec = sleep_time / 1000 := hd
  have hnsec : (sleep_timespec sleep_time).tv_nsec = (sleep_time % 1000) * 1000000 := by
    show wrap32 (Int.tmod sleep_time 1000 * 1000000) = _
    rw [hw, hm]
  refine ⟨hsec, hnsec, ?_, ?_, ?_, ?_, ?_, sleep_wrapper_of_nonneg sleep_time h0, ?_⟩
  · simp only [INT_MIN]
    omega
  · simp only [INT_MAX]
    omega
  · rw [hnsec]
    omega
  · rw [hnsec]
    omega
  · rw [hsec, hnsec]
    omega
  · intro t hneg hmul
    obtain ⟨_, hm2⟩ := c_div_mod_1000 t
    rw [if_neg (by omega)] at hm2
    have hw2 : wrap32 (Int.tmod t 1000 * 1000000) = Int.tmod t 1000 * 1000000 := by
      apply wrap32_id <;> simp only [INT_MIN, INT_MAX] <;> omega
    show wrap32 (Int.tmod t 1000 * 1000000) < 0
    rw [hw2, hm2]
    omega

/-- Witness for C19: a delay of 2500 milliseconds. -/
theorem delay_conversion_witness :
    (0 : Int) ≤ 2500 ∧ (2500 : Int) ≤ INT_MAX ∧
    sleep_timespec 2500 = { tv_sec := 2, tv_nsec := 500000000 } ∧
    (sleep_timespec 2500).tv_sec * 1000000000 + (sleep_timespec 2500).tv_nsec =
      2500 * 1000000 :=
  ⟨by decide, by decide, by decide,
    (delay_conversion 2500 (by decide) (by decide)).2.2.2.2.2.2.1⟩

/-! ## The mutex -/

theorem callee_code_eq (t : Tid) :
    callee_code t =
      [Instr.lock, Instr.wait_while, Instr.shared, Instr.shared, Instr.unlock, Instr.signal] := by
  cases t <;> rfl

theorem loc_set_loc (s : MState) (t u : Tid) (l : Loc) (ht : t ≠ Tid.main) :
    loc (set_loc s t l) u = if u = t then l else loc s u := by
  cases t <;> cases u <;> simp_all [loc, set_loc]

theorem owner_set_loc (s : MState) (t : Tid) (l : Loc) : (set_loc s t l).owner = s.owner := by
  cases t <;> rfl

theorem main_pc_set_loc (s : MState) (t : Tid) (l : Loc) :
    (set_loc s t l).main_pc = s.main_pc := by
  cases t <;> rfl

theorem body_code_kinds (t : Tid) (ht : t ≠ Tid.main) (c : Nat) (i : Instr)
    (h : (body_code t)[c]? = some i) : i = Instr.io ∨ i = Instr.plain ∨ i = Instr.call := by
  have hm : i ∈ body_code t := List.getElem?_mem h
  cases t
  · simp only [body_code, producer_code, List.mem_cons, List.mem_singleton] at hm
    tauto
  · simp only [body_code, consumer_code, List.mem_cons, List.mem_singleton] at hm
    tauto
  · simp only [body_code, consumer_code, List.mem_cons, List.mem_singleton] at hm
    tauto
  · exact absurd rfl ht

theorem set_loc_self (s : MState) (t : Tid) : set_loc s t (loc s t) = s := by
  cases t <;> rfl

theorem holds_callee (t : Tid) (pc : Nat) :
    holds (callee_code t) pc = decide (1 ≤ pc ∧ pc ≤ 4) := by
  rw [callee_code_eq]
  rcases pc with _ | _ | _ | _ | _ | _ | pc
  · rfl
  · rfl
  · rfl
  · rfl
  · rfl
  · rfl
  · have e : decide (1 ≤ pc + 1 + 1 + 1 + 1 + 1 + 1 ∧ pc + 1 + 1 + 1 + 1 + 1 + 1 ≤ 4) = false := by
      simp
    rw [e]
    simp [holds, held_after]

/-- The shape of a step of a created thread: it moves that thread only, the thread
owns the mutex afterwards exactly when it is then between lock and unlock, and the
owner changes only between that thread and nobody. -/
theorem worker_step_shape (s s1 : MState) (t : Tid) (c : Nat) (i : Instr) (ht : t ≠ Tid.main)
    (hown : s.owner = some t ↔ in_critical s t = true)
    (hsl : sleeps_well t (loc s t) = true)
    (h : worker_step s t c = some (s1, i)) :
    ∃ o l, s1 = set_loc { s with owner := o } t l ∧
      (o = some t ↔ critical_at t l = true) ∧ sleeps_well t l = true ∧
      (o = s.owner ∨ ((s.owner = none ∨ s.owner = some t) ∧ (o = none ∨ o = some t))) ∧
      (accesses i = true → s.owner = some t) ∧
      (i = Instr.io → s.owner ≠ some t) ∧
      loc s t ≠ Loc.idle ∧ l ≠ Loc.idle := by
  unfold worker_step at h
  unfold in_critical at hown
  cases hl : loc s t with
  | idle => rw [hl] at h; simp at h
  | finished => rw [hl] at h; simp at h
  | body =>
    rw [hl] at h hown
    have hno : s.owner ≠ some t := fun hx => by
      have hc := hown.1 hx
      simp [critical_at] at hc
    simp only at h
    cases hb : (body_code t)[c]? with
    | none =>
      rw [hb] at h
      simp only [Option.some.injEq, Prod.mk.injEq] at h
      refine ⟨s.owner, Loc.finished, h.1.symm, ?_, rfl, Or.inl rfl, ?_, ?_, by simp, by simp⟩
      · simp [critical_at, hno]
      · rw [← h.2]; simp [accesses]
      · rw [← h.2]; simp
    | some j =>
      rw [hb] at h
      rcases body_code_kinds t ht c j hb with e | e | e
      · subst e
        simp only [Option.some.injEq, Prod.mk.injEq] at h
        refine ⟨s.owner, Loc.body, ?_, ?_, rfl, Or.inl rfl, ?_, fun _ => hno, by simp, by simp⟩
        · rw [← h.1, ← hl]; exact (set_loc_self s t).symm
        · simp [critical_at, hno]
        · rw [← h.2]; simp [accesses]
      · subst e
        simp only [Option.some.injEq, Prod.mk.injEq] at h
        refine ⟨s.owner, Loc.body, ?_, ?_, rfl, Or.inl rfl, ?_, fun _ => hno, by simp, by simp⟩
        · rw [← h.1, ← hl]; exact (set_loc_self s t).symm
        · simp [critical_at, hno]
        · rw [← h.2]; simp [accesses]
      · subst e
        simp only [Option.some.injEq, Prod.mk.injEq] at h
        refine ⟨s.owner, Loc.inside 0, h.1.symm, ?_, rfl, Or.inl rfl, ?_, fun _ => hno, by simp,
          by simp⟩
        · simp [critical_at, holds_callee, hno]
        · rw [← h.2]; simp [accesses]
  | asleep pc =>
    rw [hl] at h hown hsl
    simp only [sleeps_well] at hsl
    simp only at h
    by_cases ho : s.owner = none
    · rw [if_pos ho] at h
      simp only [Option.some.injEq, Prod.mk.injEq] at h
      refine ⟨some t, Loc.inside pc, h.1.symm, ?_, rfl, Or.inr ⟨Or.inl ho, Or.inr rfl⟩, ?_, ?_,
        by simp, by simp⟩
      · simp [critical_at, hsl]
      · rw [← h.2]; simp [accesses]
      · rw [← h.2]; simp
    · rw [if_neg ho] at h
      simp at h
  | inside pc =>
    rw [hl] at h hown
    simp only [critical_at, holds_callee, decide_eq_true_eq] at hown
    simp only at h
    rw [callee_code_eq] at h
    rcases pc with _ | _ | _ | _ | _ | _ | pc
    · -- the lock
      simp only [List.getElem?_cons_zero, inside_step] at h
      by_cases ho : s.owner = none
      · rw [if_pos ho] at h
        simp only [Option.some.injEq, Prod.mk.injEq] at h
        refine ⟨some t, Loc.inside 1, h.1.symm, ?_, rfl, Or.inr ⟨Or.inl ho, Or.inr rfl⟩, ?_, ?_,
          by simp, by simp⟩
        · simp [critical_at, holds_callee]
        · rw [← h.2]; simp [accesses]
        · rw [← h.2]; simp
      · rw [if_neg ho] at h
        simp at h
    · -- the wait loop
      have hmine : s.owner = some t := hown.2 (by omega)
      simp only [List.getElem?_cons_succ, List.getElem?_cons_zero, inside_step] at h
      by_cases hc : c = 0
      · rw [if_pos hc] at h
        simp only [Option.some.injEq, Prod.mk.injEq] at h
        refine ⟨s.owner, Loc.inside 2, h.1.symm, ?_, rfl, Or.inl rfl, fun _ => hmine, ?_,
          by simp, by simp⟩
        · simp [critical_at, holds_callee, hmine]
        · rw [← h.2]; simp
      · rw [if_neg hc] at h
        simp only [Option.some.injEq, Prod.mk.injEq] at h
        refine ⟨none, Loc.asleep 1, h.1.symm, ?_, ?_, Or.inr ⟨Or.inr hmine, Or.inl rfl⟩,
          fun _ => hmine, ?_, by simp, by simp⟩
        · simp [critical_at]
        · simp [sleeps_well, holds_callee]
        · rw [← h.2]; simp
    · -- the first access
      have hmine : s.owner = some t := hown.2 (by omega)
      simp only [List.getElem?_cons_succ, List.getElem?_cons_zero, inside_step] at h
      simp only [Option.some.injEq, Prod.mk.injEq] at h
      refine ⟨s.owner, Loc.inside 3, h.1.symm, ?_, rfl, Or.inl rfl, fun _ => hmine, ?_,
        by simp, by simp⟩
      · simp [critical_at, holds_callee, hmine]
      · rw [← h.2]; simp
    · -- the second access
      have hmine : s.owner = some t := hown.2 (by omega)
      simp only [List.getElem?_cons_succ, List.getElem?_cons_zero, inside_step] at h
      simp only [Option.some.injEq, Prod.mk.injEq] at h
      refine ⟨s.owner, Loc.inside 4, h.1.symm, ?_, rfl, Or.inl rfl, fun _ => hmine, ?_,
        by simp, by simp⟩
      · simp [critical_at, holds_callee, hmine]
      · rw [← h.2]; simp
    · -- the unlock
      have hmine : s.owner = some t := hown.2 (by omega)
      simp only [List.getElem?_cons_succ, List.getElem?_cons_zero, inside_step] at h
      simp only [Option.some.injEq, Prod.mk.injEq] at h
      refine ⟨none, Loc.inside 5, h.1.symm, ?_, rfl, Or.inr ⟨Or.inr hmine, Or.inl rfl⟩, ?_, ?_,
        by simp, by simp⟩
      · simp [critical_at, holds_callee]
      · rw [← h.2]; simp [accesses]
      · rw [← h.2]; simp
    · -- the signal
      have hno : s.owner ≠ some t := fun hx => by have := hown.1 hx; omega
      simp only [List.getElem?_cons_succ, List.getElem?_cons_zero, inside_step] at h
      simp only [Option.some.injEq, Prod.mk.injEq] at h
      refine ⟨s.owner, Loc.inside 6, h.1.symm, ?_, rfl, Or.inl rfl, ?_, ?_, by simp, by simp⟩
      · simp [critical_at, holds_callee, hno]
      · rw [← h.2]; simp [accesses]
      · rw [← h.2]; simp
    · -- the return
      have hno : s.owner ≠ some t := fun hx => by have := hown.1 hx; omega
      simp only [List.getElem?_cons_succ, List.getElem?_nil] at h
      simp only [Option.some.injEq, Prod.mk.injEq] at h
      refine ⟨s.owner, Loc.body, h.1.symm, ?_, rfl, Or.inl rfl, ?_, ?_, by simp, by simp⟩
      · simp [critical_at, hno]
      · rw [← h.2]; simp [accesses]
      · rw [← h.2]; simp

theorem mx_step_worker (s : MState) (t : Tid) (c : Nat) (ht : t ≠ Tid.main) :
    mx_step s t c = worker_step s t c := by
  cases t
  · rfl
  · rfl
  · rfl
  · exact absurd rfl ht

theorem loc_of_idle (s : MState) (t : Tid) (ht : t ≠ Tid.main)
    (h : s.producer = Loc.idle ∧ s.consumer_zero = Loc.idle ∧ s.consumer_one = Loc.idle) :
    loc s t = Loc.idle := by
  cases t
  · exact h.1
  · exact h.2.1
  · exact h.2.2
  · exact absurd rfl ht

/-- A step of a created thread keeps the invariant; a statement that accesses the
shared variables is executed by the owner of the mutex, and a call of `scanf`,
`sleep_wrapper` or `printf` by a thread that does not own it. -/
theorem mx_inv_worker (s s1 : MState) (t : Tid) (c : Nat) (i : Instr) (ht : t ≠ Tid.main)
    (hinv : MxInv s) (h : worker_step s t c = some (s1, i)) :
    MxInv s1 ∧ (accesses i = true → s.owner = some t) ∧ (i = Instr.io → s.owner ≠ some t) := by
  obtain ⟨h1, h2, h3, h4⟩ := hinv
  obtain ⟨o, l, hs1, hol, hsl, hch, hacc, hio, hnid, hlid⟩ :=
    worker_step_shape s s1 t c i ht (h1 t ht) (h2 t ht) h
  refine ⟨⟨?_, ?_, ?_, ?_⟩, hacc, hio⟩
  · intro u hu
    unfold in_critical
    rw [hs1, owner_set_loc, loc_set_loc _ _ _ _ ht]
    by_cases hut : u = t
    · rw [if_pos hut, hut]
      exact hol
    · rw [if_neg hut]
      have hu1 := h1 u hu
      unfold in_critical at hu1
      have hloc : loc { s with owner := o } u = loc s u := by cases u <;> rfl
      rw [hloc]
      rcases hch with e | ⟨hs, ho⟩
      · show o = some u ↔ _
        rw [e]; exact hu1
      · show o = some u ↔ _
        constructor
        · intro hx
          rcases ho with ho | ho
          · rw [ho] at hx; cases hx
          · rw [ho] at hx
            exact absurd (Option.some.inj hx).symm hut
        · intro hx
          have hx1 := hu1.2 hx
          rcases hs with hs | hs
          · rw [hs] at hx1; cases hx1
          · rw [hs] at hx1
            exact absurd (Option.some.inj hx1).symm hut
  · intro u hu
    rw [hs1, loc_set_loc _ _ _ _ ht]
    by_cases hut : u = t
    · rw [if_pos hut, hut]
      exact hsl
    · rw [if_neg hut]
      have hloc : loc { s with owner := o } u = loc s u := by cases u <;> rfl
      rw [hloc]
      exact h2 u hu
  · rw [hs1, owner_set_loc]
    show o ≠ some Tid.main
    rcases hch with e | ⟨_, ho⟩
    · rw [e]; exact h3
    · rcases ho with ho | ho
      · rw [ho]; simp
      · rw [ho]
        intro hx
        exact ht (Option.some.inj hx)
  · intro hpc
    rw [hs1, main_pc_set_loc] at hpc
    exact absurd (loc_of_idle s t ht (h4 hpc)) hnid

/-- A step of `main` keeps the invariant; `main` accesses the shared variables only
before it has created a thread, and it never owns the mutex. -/
theorem mx_inv_main (s s1 : MState) (i : Instr) (hinv : MxInv s)
    (h : main_step s = some (s1, i)) :
    MxInv s1 ∧
      (accesses i = true →
        s.producer = Loc.idle ∧ s.consumer_zero = Loc.idle ∧ s.consumer_one = Loc.idle) ∧
      (i = Instr.io → s.owner ≠ some Tid.main) := by
  obtain ⟨h1, h2, h3, h4⟩ := hinv
  have keep : ∀ n : Nat, (n ≤ 5 → s.main_pc ≤ 5) → MxInv { s with main_pc := n } := by
    intro n hn
    refine ⟨fun u hu => ?_, fun u hu => ?_, h3, fun hx => h4 (hn hx)⟩
    · have hloc : loc { s with main_pc := n } u = loc s u := by cases u <;> rfl
      unfold in_critical
      rw [hloc]
      exact h1 u hu
    · have hloc : loc { s with main_pc := n } u = loc s u := by cases u <;> rfl
      rw [hloc]
      exact h2 u hu
  have start : ∀ t : Tid, t ≠ Tid.main → loc s t = Loc.idle → 5 ≤ s.main_pc →
      MxInv { set_loc s t Loc.body with main_pc := s.main_pc + 1 } := by
    intro t ht hidle hpc
    have hloc : ∀ u, loc { set_loc s t Loc.body with main_pc := s.main_pc + 1 } u =
        if u = t then Loc.body else loc s u := by
      intro u
      rw [← loc_set_loc s t u Loc.body ht]
      cases u <;> rfl
    have hown : ({ set_loc s t Loc.body with main_pc := s.main_pc + 1 } : MState).owner = s.owner :=
      owner_set_loc s t Loc.body
    refine ⟨fun u hu => ?_, fun u hu => ?_, ?_, fun hx => ?_⟩
    · unfold in_critical
      rw [hloc, hown]
      by_cases hut : u = t
      · rw [if_pos hut, hut]
        have hb := h1 t ht
        unfold in_critical at hb
        rw [hidle] at hb
        simp only [critical_at] at hb ⊢
        exact hb
      · rw [if_neg hut]
        exact h1 u hu
    · rw [hloc]
      by_cases hut : u = t
      · rw [if_pos hut]; rfl
      · rw [if_neg hut]; exact h2 u hu
    · rw [hown]; exact h3
    · have hx1 : s.main_pc + 1 ≤ 5 := hx
      omega
  unfold main_step at h
  rcases hpc : s.main_pc with _ | _ | _ | _ | _ | _ | _ | _ | _ | _ | _ | _ | n
  all_goals rw [hpc] at h
  all_goals simp only [main_code, List.getElem?_cons_succ, List.getElem?_cons_zero,
    List.getElem?_nil] at h
  · simp only [Option.some.injEq, Prod.mk.injEq] at h
    rw [← h.1, ← h.2]
    exact ⟨keep _ (by omega), by simp [accesses], by simp⟩
  · simp only [Option.some.injEq, Prod.mk.injEq] at h
    rw [← h.1, ← h.2]
    exact ⟨keep _ (by omega), by simp [accesses], by simp⟩
  · simp only [Option.some.injEq, Prod.mk.injEq] at h
    rw [← h.1, ← h.2]
    exact ⟨keep _ (by omega), by simp [accesses], by simp⟩
  · simp only [Option.some.injEq, Prod.mk.injEq] at h
    rw [← h.1, ← h.2]
    exact ⟨keep _ (by omega), fun _ => h4 (by omega), by simp⟩
  · simp only [Option.some.injEq, Prod.mk.injEq] at h
    rw [← h.1, ← h.2]
    exact ⟨keep _ (by omega), fun _ => h4 (by omega), by simp⟩
  · by_cases hi : loc s Tid.consumer_zero = Loc.idle
    · rw [if_pos hi] at h
      simp only [Option.some.injEq, Prod.mk.injEq] at h
      rw [← h.1, ← h.2, ← hpc]
      exact ⟨start _ (by simp) hi (by omega), by simp [accesses], by simp⟩
    · rw [if_neg hi] at h; simp at h
  · by_cases hi : loc s Tid.consumer_one = Loc.idle
    · rw [if_pos hi] at h
      simp only [Option.some.injEq, Prod.mk.injEq] at h
      rw [← h.1, ← h.2, ← hpc]
      exact ⟨start _ (by simp) hi (by omega), by simp [accesses], by simp⟩
    · rw [if_neg hi] at h; simp at h
  · by_cases hi : loc s Tid.producer = Loc.idle
    · rw [if_pos hi] at h
      simp only [Option.some.injEq, Prod.mk.injEq] at h
      rw [← h.1, ← h.2, ← hpc]
      exact ⟨start _ (by simp) hi (by omega), by simp [accesses], by simp⟩
    · rw [if_neg hi] at h; simp at h
  · by_cases hi : loc s Tid.consumer_zero = Loc.finished
    · rw [if_pos hi] at h
      simp only [Option.some.injEq, Prod.mk.injEq] at h
      rw [← h.1, ← h.2]
      exact ⟨keep _ (by omega), by simp [accesses], by simp⟩
    · rw [if_neg hi] at h; simp at h
  · by_cases hi : loc s Tid.consumer_one = Loc.finished
    · rw [if_pos hi] at h
      simp only [Option.some.injEq, Prod.mk.injEq] at h
      rw [← h.1, ← h.2]
      exact ⟨keep _ (by omega), by simp [accesses], by simp⟩
    · rw [if_neg hi] at h; simp at h
  · by_cases hi : loc s Tid.producer = Loc.finished
    · rw [if_pos hi] at h
      simp only [Option.some.injEq, Prod.mk.injEq] at h
      rw [← h.1, ← h.2]
      exact ⟨keep _ (by omega), by simp [accesses], by simp⟩
    · rw [if_neg hi] at h; simp at h
  · simp only [Option.some.injEq, Prod.mk.injEq] at h
    rw [← h.1, ← h.2]
    exact ⟨keep _ (by omega), by simp [accesses], fun _ => h3⟩
  · simp at h

theorem mx_inv_init : MxInv mx_init := by
  refine ⟨fun t _ => ?_, fun t _ => ?_, by simp [mx_init], fun _ => ⟨rfl, rfl, rfl⟩⟩
  · cases t <;> simp [mx_init, in_critical, critical_at, loc]
  · cases t <;> rfl

theorem mx_inv_step (s s1 : MState) (t : Tid) (c : Nat) (i : Instr) (hinv : MxInv s)
    (h : mx_step s t c = some (s1, i)) : MxInv s1 := by
  by_cases ht : t = Tid.main
  · subst ht
    exact (mx_inv_main s s1 i hinv h).1
  · rw [mx_step_worker s t c ht] at h
    exact (mx_inv_worker s s1 t c i ht hinv h).1

theorem mx_inv_run (sched : List (Tid × Nat)) :
    ∀ s s1 : MState, MxInv s → mx_run sched s = some s1 → MxInv s1 := by
  induction sched with
  | nil =>
    intro s s1 hinv h
    simp only [mx_run, Option.some.injEq] at h
    rw [← h]; exact hinv
  | cons x rest ih =>
    intro s s1 hinv h
    obtain ⟨t, c⟩ := x
    simp only [mx_run] at h
    cases hstep : mx_step s t c with
    | none => rw [hstep] at h; simp at h
    | some r =>
      obtain ⟨s2, i⟩ := r
      rw [hstep] at h
      exact ih s2 s1 (mx_inv_step s s2 t c i hinv hstep) h

theorem in_critical_main (s : MState) : in_critical s Tid.main = false := rfl

theorem critical_unique (s : MState) (hinv : MxInv s) (t u : Tid)
    (ht : in_critical s t = true) (hu : in_critical s u = true) : t = u := by
  have htm : t ≠ Tid.main := fun e => by rw [e, in_critical_main] at ht; cases ht
  have hum : u ≠ Tid.main := fun e => by rw [e, in_critical_main] at hu; cases hu
  have h1 := (hinv.1 t htm).2 ht
  have h2 := (hinv.1 u hum).2 hu
  rw [h1] at h2
  exact Option.some.inj h2

/-- C14 (mutual exclusion).  In every state that the threads reach under any
interleaving: at most one thread is between `pthread_mutex_lock` and
`pthread_mutex_unlock`, and it is the owner of the mutex; a statement that reads or
writes `front`, `rear` or `buffer` is executed either by a thread that owns the mutex
and is in `enqueue` or `dequeue` between lock and unlock, while no other thread is in
that region, or by `main` before it has created any thread; a call of `scanf`,
`sleep_wrapper` or `printf` is executed only by a thread that does not hold the mutex.
In the listings of `enqueue` and `dequeue` every access stands between the lock and the
unlock, and the thread functions contain no access of their own. -/
theorem mutual_exclusion (sched : List (Tid × Nat)) (s : MState)
    (h : mx_run sched mx_init = some s) :
    (∀ t u, in_critical s t = true → in_critical s u = true → t = u) ∧
    (∀ t, in_critical s t = true → s.owner = some t) ∧
    (∀ t c s1 i, mx_step s t c = some (s1, i) → accesses i = true →
      (s.owner = some t ∧ in_critical s t = true ∧
          ∀ u, u ≠ t → in_critical s u = false) ∨
        (t = Tid.main ∧ s.producer = Loc.idle ∧ s.consumer_zero = Loc.idle ∧
          s.consumer_one = Loc.idle)) ∧
    (∀ t c s1, mx_step s t c = some (s1, Instr.io) →
      s.owner ≠ some t ∧ in_critical s t = false) ∧
    (well_locked enqueue_code = true ∧ well_locked dequeue_code = true) ∧
    (∀ i, i ∈ producer_code ∨ i ∈ consumer_code →
      accesses i = false ∧ i ≠ Instr.lock ∧ i ≠ Instr.unlock) := by
  have hinv : MxInv s := mx_inv_run sched mx_init s mx_inv_init h
  refine ⟨critical_unique s hinv, ?_, ?_, ?_, ⟨by decide, by decide⟩, ?_⟩
  · intro t ht
    have htm : t ≠ Tid.main := fun e => by rw [e, in_critical_main] at ht; cases ht
    exact (hinv.1 t htm).2 ht
  · intro t c s1 i hstep hacc
    by_cases ht : t = Tid.main
    · subst ht
      exact Or.inr ⟨rfl, (mx_inv_main s s1 i hinv hstep).2.1 hacc⟩
    · rw [mx_step_worker s t c ht] at hstep
      have hown := (mx_inv_worker s s1 t c i ht hinv hstep).2.1 hacc
      have hcrit := (hinv.1 t ht).1 hown
      refine Or.inl ⟨hown, hcrit, fun u hu => ?_⟩
      cases hcu : in_critical s u with
      | false => rfl
      | true => exact absurd (critical_unique s hinv u t hcu hcrit) hu
  · intro t c s1 hstep
    have hno : s.owner ≠ some t := by
      by_cases ht : t = Tid.main
      · subst ht
        exact (mx_inv_main s s1 Instr.io hinv hstep).2.2 rfl
      · rw [mx_step_worker s t c ht] at hstep
        exact (mx_inv_worker s s1 t c Instr.io ht hinv hstep).2.2 rfl
    refine ⟨hno, ?_⟩
    cases hct : in_critical s t with
    | false => rfl
    | true =>
      have htm : t ≠ Tid.main := fun e => by rw [e, in_critical_main] at hct; cases hct
      exact absurd ((hinv.1 t htm).2 hct) hno
  · intro i hi
    simp only [producer_code, consumer_code, List.mem_cons, List.mem_singleton,
      List.not_mem_nil, or_false] at hi
    rcases hi with (hi | hi | hi | hi | hi | hi | hi | hi | hi | hi | hi) |
      (hi | hi | hi | hi | hi | hi)
    all_goals subst hi
    all_goals exact ⟨rfl, by decide, by decide⟩

/-- Witness for C14: `main` has created the threads, the producer has taken the mutex in
`enqueue` and consumer zero, which has entered `dequeue`, cannot take it. -/
theorem mutual_exclusion_witness :
    mx_run mx_sample_schedule mx_init = some mx_sample_state ∧
    mx_sample_state.owner = some Tid.producer ∧
    in_critical mx_sample_state Tid.producer = true ∧
    mx_step mx_sample_state Tid.consumer_zero 0 = none ∧
    (∀ t u, in_critical mx_sample_state t = true → in_critical mx_sample_state u = true →
      t = u) :=
  ⟨by decide, rfl, by decide, by decide,
    (mutual_exclusion mx_sample_schedule mx_sample_state (by decide)).1⟩

/-! ## The program at the level of statements: basic facts -/

@[simp] theorem set_consumer_false (s : Prog) (c : ConsumerState) :
    set_consumer s false c = { s with consumer_zero := c } := rfl

@[simp] theorem set_consumer_true (s : Prog) (c : ConsumerState) :
    set_consumer s true c = { s with consumer_one := c } := rfl

@[simp] theorem consumer_false (s : Prog) : consumer s false = s.consumer_zero := rfl

@[simp] theorem consumer_true (s : Prog) : consumer s true = s.consumer_one := rfl

@[simp] theorem consumer_set_consumer (s : Prog) (one b : Bool) (c : ConsumerState) :
    consumer (set_consumer s one c) b = if b = one then c else consumer s b := by
  cases one <;> cases b <;> rfl

@[simp] theorem set_consumer_input (s : Prog) (one : Bool) (c : ConsumerState) :
    (set_consumer s one c).input = s.input := by cases one <;> rfl

@[simp] theorem set_consumer_output (s : Prog) (one : Bool) (c : ConsumerState) :
    (set_consumer s one c).output = s.output := by cases one <;> rfl

@[simp] theorem set_consumer_buf (s : Prog) (one : Bool) (c : ConsumerState) :
    (set_consumer s one c).buf = s.buf := by cases one <;> rfl

@[simp] theorem set_consumer_mutex (s : Prog) (one : Bool) (c : ConsumerState) :
    (set_consumer s one c).mutex = s.mutex := by cases one <;> rfl

@[simp] theorem set_consumer_producer (s : Prog) (one : Bool) (c : ConsumerState) :
    (set_consumer s one c).producer = s.producer := by cases one <;> rfl

@[simp] theorem set_consumer_main (s : Prog) (one : Bool) (c : ConsumerState) :
    (set_consumer s one c).main = s.main := by cases one <;> rfl

@[simp] theorem set_consumer_exit_code (s : Prog) (one : Bool) (c : ConsumerState) :
    (set_consumer s one c).exit_code = s.exit_code := by cases one <;> rfl

@[simp] theorem set_consumer_halted (s : Prog) (one : Bool) (c : ConsumerState) :
    (set_consumer s one c).halted = s.halted := by cases one <;> rfl

@[simp] theorem call_exit_consumer (s : Prog) (k : Int) (b : Bool) :
    consumer (call_exit s k) b = consumer s b := rfl

@[simp] theorem signal_has_space_consumer (s : Prog) (b : Bool) :
    consumer (signal_has_space s) b = consumer s b := rfl

theorem consumer_tid_ne_producer (one : Bool) : consumer_tid one ≠ Tid.producer := by
  cases one <;> simp [consumer_tid]

theorem consumer_tid_ne_main (one : Bool) : consumer_tid one ≠ Tid.main := by
  cases one <;> simp [consumer_tid]

theorem consumer_tid_inj (a b : Bool) (h : consumer_tid a = consumer_tid b) : a = b := by
  cases a <;> cases b <;> simp [consumer_tid] at h ⊢

/-- The statements of the producer, one case for each. -/
theorem producer_stmt_cases (cap : Nat) (s s1 : Prog) (pick : Bool)
    (h : producer_stmt cap s pick = some s1) :
    (∃ c q, s.producer.pc = ProducerPc.enq c q ∧ enqueue_stmt cap s c pick q = some s1) ∨
    (s.producer.pc = ProducerPc.scan ∧ (scanf s.input).1 = 4 ∧
      s1 = { s with
        input := (scanf s.input).2.2,
        producer :=
          { pc := if (scanf s.input).2.1.getD 1 0 != 0 then ProducerPc.nap
                  else ProducerPc.enq EnqueueCall.data CallPc.lock,
            line := s.producer.line,
            consumer_val := (scanf s.input).2.1.getD 0 0,
            producer_sleep := (scanf s.input).2.1.getD 1 0,
            consumer_sleep := (scanf s.input).2.1.getD 2 0,
            print_code := (scanf s.input).2.1.getD 3 0 } }) ∨
    (s.producer.pc = ProducerPc.scan ∧ (scanf s.input).1 ≠ 4 ∧
      s1 = { s with input := (scanf s.input).2.2,
                    producer := { s.producer with pc := ProducerPc.scan_end } }) ∨
    (s.producer.pc = ProducerPc.nap ∧
      s1 = { s with producer := { s.producer with
        pc := if sleep_wrapper s.producer.producer_sleep then
                ProducerPc.enq EnqueueCall.data CallPc.lock
              else ProducerPc.nap_error } }) ∨
    (s.producer.pc = ProducerPc.nap_error ∧
      s1 = { s with output := s.output ++ [Output.sleep_error],
                    producer := { s.producer with pc := ProducerPc.exit_call } }) ∨
    (s.producer.pc = ProducerPc.report ∧
      s1 = { s with
        output := s.output ++
          [Output.producer_value s.producer.consumer_val s.producer.line],
        producer := { s.producer with pc := ProducerPc.incr } }) ∨
    (s.producer.pc = ProducerPc.incr ∧
      s1 = { s with producer := { s.producer with
        pc := ProducerPc.scan, line := wrap32 (s.producer.line + 1) } }) ∨
    (s.producer.pc = ProducerPc.scan_end ∧
      s1 = { s with
        input := (scanf s.input).2.2,
        producer := { s.producer with
          pc := if (scanf s.input).1 == EOF then
                  ProducerPc.enq EnqueueCall.first_quit CallPc.lock
                else ProducerPc.input_error } }) ∨
    (s.producer.pc = ProducerPc.input_error ∧
      s1 = { s with output := s.output ++ [Output.input_error],
                    producer := { s.producer with pc := ProducerPc.exit_call } }) ∨
    (s.producer.pc = ProducerPc.exit_call ∧
      s1 = call_exit { s with producer := { s.producer with pc := ProducerPc.exiting } } 1) := by
  unfold producer_stmt at h
  cases hpc : s.producer.pc with
  | enq c q =>
    rw [hpc] at h
    exact Or.inl ⟨c, q, rfl, h⟩
  | scan =>
    rw [hpc] at h
    simp only at h
    split at h
    · rename_i h4
      exact Or.inr (Or.inl ⟨rfl, by simpa using h4, (Option.some.inj h).symm⟩)
    · rename_i h4
      exact Or.inr (Or.inr (Or.inl ⟨rfl, by simpa using h4, (Option.some.inj h).symm⟩))
  | nap =>
    rw [hpc] at h
    exact Or.inr (Or.inr (Or.inr (Or.inl ⟨rfl, (Option.some.inj h).symm⟩)))
  | nap_error =>
    rw [hpc] at h
    exact Or.inr (Or.inr (Or.inr (Or.inr (Or.inl ⟨rfl, (Option.some.inj h).symm⟩))))
  | report =>
    rw [hpc] at h
    exact Or.inr (Or.inr (Or.inr (Or.inr (Or.inr (Or.inl ⟨rfl, (Option.some.inj h).symm⟩)))))
  | incr =>
    rw [hpc] at h
    exact Or.inr (Or.inr (Or.inr (Or.inr (Or.inr (Or.inr (Or.inl
      ⟨rfl, (Option.some.inj h).symm⟩))))))
  | scan_end =>
    rw [hpc] at h
    exact Or.inr (Or.inr (Or.inr (Or.inr (Or.inr (Or.inr (Or.inr (Or.inl
      ⟨rfl, (Option.some.inj h).symm⟩)))))))
  | input_error =>
    rw [hpc] at h
    exact Or.inr (Or.inr (Or.inr (Or.inr (Or.inr (Or.inr (Or.inr (Or.inr (Or.inl
      ⟨rfl, (Option.some.inj h).symm⟩))))))))
  | exit_call =>
    rw [hpc] at h
    exact Or.inr (Or.inr (Or.inr (Or.inr (Or.inr (Or.inr (Or.inr (Or.inr (Or.inr
      ⟨rfl, (Option.some.inj h).symm⟩))))))))
  | exiting => rw [hpc] at h; cases h
  | done => rw [hpc] at h; cases h

/-- A statement of the producer outside `enqueue` leaves the buffer, the mutex and the
other threads alone and ends outside `enqueue` or at the start of a call. -/
theorem producer_stmt_frame (cap : Nat) (s s1 : Prog) (pick : Bool)
    (h : producer_stmt cap s pick = some s1) (hq : ∀ c q, s.producer.pc ≠ ProducerPc.enq c q) :
    s1.buf = s.buf ∧ s1.mutex = s.mutex ∧ s1.consumer_zero = s.consumer_zero ∧
    s1.consumer_one = s.consumer_one ∧ s1.main = s.main ∧ s1.halted = s.halted ∧
    (∀ c q, s1.producer.pc = ProducerPc.enq c q → q = CallPc.lock) := by
  rcases producer_stmt_cases cap s s1 pick h with ⟨c, q, hpc, _⟩ | ⟨_, _, rfl⟩ | ⟨_, _, rfl⟩ |
    ⟨_, rfl⟩ | ⟨_, rfl⟩ | ⟨_, rfl⟩ | ⟨_, rfl⟩ | ⟨_, rfl⟩ | ⟨_, rfl⟩ | ⟨_, rfl⟩
  · exact absurd hpc (hq c q)
  · refine ⟨rfl, rfl, rfl, rfl, rfl, rfl, ?_⟩
    intro c q
    dsimp only
    split <;> simp
    exact fun _ e => e.symm
  · exact ⟨rfl, rfl, rfl, rfl, rfl, rfl, fun c q hx => nomatch hx⟩
  · refine ⟨rfl, rfl, rfl, rfl, rfl, rfl, ?_⟩
    intro c q
    dsimp only
    split <;> simp
    exact fun _ e => e.symm
  · exact ⟨rfl, rfl, rfl, rfl, rfl, rfl, fun c q hx => nomatch hx⟩
  · exact ⟨rfl, rfl, rfl, rfl, rfl, rfl, fun c q hx => nomatch hx⟩
  · exact ⟨rfl, rfl, rfl, rfl, rfl, rfl, fun c q hx => nomatch hx⟩
  · refine ⟨rfl, rfl, rfl, rfl, rfl, rfl, ?_⟩
    intro c q
    dsimp only
    split <;> simp
    exact fun _ e => e.symm
  · exact ⟨rfl, rfl, rfl, rfl, rfl, rfl, fun c q hx => nomatch hx⟩
  · exact ⟨rfl, rfl, rfl, rfl, rfl, rfl, fun c q hx => nomatch hx⟩

/-- The statements of a consumer, one case for each. -/
theorem consumer_stmt_cases (cap : Nat) (s s1 : Prog) (one : Bool)
    (h : consumer_stmt cap s one = some s1) :
    (∃ q, (consumer s one).pc = ConsumerPc.deq q ∧ dequeue_stmt cap s one q = some s1) ∨
    ((consumer s one).pc = ConsumerPc.final_line ∧
      s1 = set_consumer
        { s with output := s.output ++
            [Output.consumer_final (consumer s one).consumer_sum (consumer s one).sum] }
        one { consumer s one with pc := ConsumerPc.publish }) ∨
    ((consumer s one).pc = ConsumerPc.publish ∧
      s1 = set_consumer s one
        { consumer s one with pc := ConsumerPc.done, consumer_sum := (consumer s one).sum }) ∨
    ((consumer s one).pc = ConsumerPc.nap ∧
      s1 = set_consumer s one { consumer s one with
        pc := if sleep_wrapper (consumer s one).msg.consumer_sleep then ConsumerPc.add
              else ConsumerPc.nap_error }) ∨
    ((consumer s one).pc = ConsumerPc.nap_error ∧
      s1 = set_consumer { s with output := s.output ++ [Output.sleep_error] } one
        { consumer s one with pc := ConsumerPc.exit_call }) ∨
    ((consumer s one).pc = ConsumerPc.exit_call ∧
      s1 = call_exit
        (set_consumer s one { consumer s one with pc := ConsumerPc.exiting }) 1) ∨
    ((consumer s one).pc = ConsumerPc.add ∧
      s1 = set_consumer s one { consumer s one with
        pc := if (consumer s one).msg.print_code == 2 ||
                  (consumer s one).msg.print_code == 3
              then ConsumerPc.report else loop_back (consumer s one).msg,
        sum := wrap32 ((consumer s one).sum + (consumer s one).msg.value) }) ∨
    ((consumer s one).pc = ConsumerPc.report ∧
      s1 = set_consumer
        { s with output := s.output ++
            [Output.consumer_value (consumer s one).consumer_sum (consumer s one).msg.value
              (consumer s one).msg.line (consumer s one).sum] }
        one { consumer s one with pc := loop_back (consumer s one).msg }) := by
  unfold consumer_stmt at h
  cases hpc : (consumer s one).pc with
  | deq q =>
    rw [hpc] at h
    exact Or.inl ⟨q, rfl, h⟩
  | final_line =>
    rw [hpc] at h
    exact Or.inr (Or.inl ⟨rfl, (Option.some.inj h).symm⟩)
  | publish =>
    rw [hpc] at h
    exact Or.inr (Or.inr (Or.inl ⟨rfl, (Option.some.inj h).symm⟩))
  | nap =>
    rw [hpc] at h
    exact Or.inr (Or.inr (Or.inr (Or.inl ⟨rfl, (Option.some.inj h).symm⟩)))
  | nap_error =>
    rw [hpc] at h
    exact Or.inr (Or.inr (Or.inr (Or.inr (Or.inl ⟨rfl, (Option.some.inj h).symm⟩))))
  | exit_call =>
    rw [hpc] at h
    exact Or.inr (Or.inr (Or.inr (Or.inr (Or.inr (Or.inl ⟨rfl, (Option.some.inj h).symm⟩)))))
  | add =>
    rw [hpc] at h
    exact Or.inr (Or.inr (Or.inr (Or.inr (Or.inr (Or.inr (Or.inl
      ⟨rfl, (Option.some.inj h).symm⟩))))))
  | report =>
    rw [hpc] at h
    exact Or.inr (Or.inr (Or.inr (Or.inr (Or.inr (Or.inr (Or.inr
      ⟨rfl, (Option.some.inj h).symm⟩))))))
  | exiting => rw [hpc] at h; cases h
  | done => rw [hpc] at h; cases h

/-- The statements of `main`, one case for each. -/
theorem main_stmt_cases (s s1 : Prog) (h : main_stmt s = some s1) :
    (s.main = MainPc.join_zero ∧ s.consumer_zero.pc = ConsumerPc.done ∧
      s1 = { s with main := MainPc.join_one }) ∨
    (s.main = MainPc.join_one ∧ s.consumer_one.pc = ConsumerPc.done ∧
      s1 = { s with main := MainPc.join_producer }) ∨
    (s.main = MainPc.join_producer ∧ s.producer.pc = ProducerPc.done ∧
      s1 = { s with main := MainPc.total }) ∨
    (s.main = MainPc.total ∧
      s1 = { s with
        output := s.output ++
          [Output.total (wrap32 (s.consumer_one.consumer_sum + s.consumer_zero.consumer_sum))],
        main := MainPc.exit_call }) ∨
    (s.main = MainPc.exit_call ∧ s1 = call_exit { s with main := MainPc.exiting } 0) := by
  unfold main_stmt at h
  cases hpc : s.main with
  | join_zero =>
    rw [hpc] at h
    simp only at h
    split at h
    · rename_i hd
      exact Or.inl ⟨rfl, hd, (Option.some.inj h).symm⟩
    · cases h
  | join_one =>
    rw [hpc] at h
    simp only at h
    split at h
    · rename_i hd
      exact Or.inr (Or.inl ⟨rfl, hd, (Option.some.inj h).symm⟩)
    · cases h
  | join_producer =>
    rw [hpc] at h
    simp only at h
    split at h
    · rename_i hd
      exact Or.inr (Or.inr (Or.inl ⟨rfl, hd, (Option.some.inj h).symm⟩))
    · cases h
  | total =>
    rw [hpc] at h
    exact Or.inr (Or.inr (Or.inr (Or.inl ⟨rfl, (Option.some.inj h).symm⟩)))
  | exit_call =>
    rw [hpc] at h
    exact Or.inr (Or.inr (Or.inr (Or.inr ⟨rfl, (Option.some.inj h).symm⟩)))
  | exiting => rw [hpc] at h; cases h

/-- A spurious wake-up, one case for each thread that can be blocked. -/
theorem spurious_wake_cases (s s1 : Prog) (t : Tid) (h : spurious_wake s t = some s1) :
    (∃ c, t = Tid.producer ∧ s.producer.pc = ProducerPc.enq c CallPc.waiting ∧
      s1 = { s with producer := { s.producer with pc := ProducerPc.enq c CallPc.woken } }) ∨
    (∃ one, t = consumer_tid one ∧ (consumer s one).pc = ConsumerPc.deq CallPc.waiting ∧
      s1 = set_consumer s one { consumer s one with pc := ConsumerPc.deq CallPc.woken }) := by
  cases t with
  | producer =>
    simp only [spurious_wake] at h
    split at h
    · rename_i c hc
      exact Or.inl ⟨c, rfl, hc, (Option.some.inj h).symm⟩
    · cases h
  | consumer_zero =>
    simp only [spurious_wake] at h
    split at h
    · rename_i hc
      exact Or.inr ⟨false, rfl, hc, (Option.some.inj h).symm⟩
    · cases h
  | consumer_one =>
    simp only [spurious_wake] at h
    split at h
    · rename_i hc
      exact Or.inr ⟨true, rfl, hc, (Option.some.inj h).symm⟩
    · cases h
  | main => simp [spurious_wake] at h

/-- The steps of the process, one case for each kind of action. -/
theorem prog_step_cases (cap : Nat) (s s1 : Prog) (a : Action)
    (h : prog_step cap s a = some s1) :
    s.halted = false ∧
    ((∃ pick, a = Action.run Tid.producer pick ∧ producer_stmt cap s pick = some s1) ∨
     (∃ one pick, a = Action.run (consumer_tid one) pick ∧
        consumer_stmt cap s one = some s1) ∨
     (∃ pick, a = Action.run Tid.main pick ∧ main_stmt s = some s1) ∨
     (∃ t, a = Action.wake t ∧ spurious_wake s t = some s1) ∨
     (a = Action.halt ∧ s.exit_code.isSome = true ∧ s1 = { s with halted := true })) := by
  unfold prog_step at h
  cases hh : s.halted with
  | true => rw [hh] at h; simp at h
  | false =>
    rw [hh] at h
    simp only [Bool.false_eq_true, if_false] at h
    refine ⟨rfl, ?_⟩
    cases a with
    | run t pick =>
      cases t with
      | producer => exact Or.inl ⟨pick, rfl, h⟩
      | consumer_zero => exact Or.inr (Or.inl ⟨false, pick, rfl, h⟩)
      | consumer_one => exact Or.inr (Or.inl ⟨true, pick, rfl, h⟩)
      | main => exact Or.inr (Or.inr (Or.inl ⟨pick, rfl, h⟩))
    | wake t => exact Or.inr (Or.inr (Or.inr (Or.inl ⟨t, rfl, h⟩)))
    | halt =>
      simp only at h
      split at h
      · rename_i he
        exact Or.inr (Or.inr (Or.inr (Or.inr ⟨rfl, he, (Option.some.inj h).symm⟩)))
      · cases h

/-- A completed `dequeue` removes the oldest resident message. -/
theorem dequeue_ok_contents (cap : Nat) (b b1 : RingBuf) (msg : message_t) (hi : Inv cap b)
    (h : dequeue cap b = Outcome.ok (msg, b1)) :
    contents b = msg :: contents b1 ∧ Inv cap b1 := by
  have hw : dequeue_wait b = false := by
    cases hdw : dequeue_wait b with
    | false => rfl
    | true => simp [dequeue, hdw] at h
  obtain ⟨m, s1, hd, hi1, hc, _⟩ := dequeue_spec cap b hi hw
  rw [h] at hd
  simp only [Outcome.ok.injEq, Prod.mk.injEq] at hd
  obtain ⟨rfl, rfl⟩ := hd
  exact ⟨hc, hi1⟩

/-- A completed `enqueue` appends the message to the resident ones. -/
theorem enqueue_ok_contents (cap : Nat) (hc : 0 < cap) (b b1 : RingBuf) (m : message_t)
    (hi : Inv cap b) (h : enqueue cap b m = Outcome.ok b1) :
    contents b1 = contents b ++ [m] ∧ Inv cap b1 := by
  obtain ⟨hw, _⟩ := enqueue_shape cap b b1 m h
  obtain ⟨b2, he2, hi2, hc2⟩ := enqueue_spec cap b m hc hi hw
  rw [h] at he2
  simp only [Outcome.ok.injEq] at he2
  subst he2
  exact ⟨hc2, hi2⟩

/-- The statements of `enqueue`, one case for each. -/
theorem enqueue_stmt_cases (cap : Nat) (s s1 : Prog) (c : EnqueueCall) (pick : Bool)
    (q : CallPc) (h : enqueue_stmt cap s c pick q = some s1) :
    (q = CallPc.lock ∧ s.mutex = none ∧
      s1 = { s with mutex := some Tid.producer,
                    producer := { s.producer with pc := ProducerPc.enq c CallPc.test } }) ∨
    (q = CallPc.test ∧ enqueue_wait cap s.buf = true ∧
      s1 = { s with mutex := none,
                    producer := { s.producer with pc := ProducerPc.enq c CallPc.waiting } }) ∨
    (q = CallPc.test ∧ enqueue_wait cap s.buf = false ∧
      s1 = { s with producer := { s.producer with pc := ProducerPc.enq c CallPc.body } }) ∨
    (q = CallPc.woken ∧ s.mutex = none ∧
      s1 = { s with mutex := some Tid.producer,
                    producer := { s.producer with pc := ProducerPc.enq c CallPc.test } }) ∨
    (q = CallPc.body ∧ ∃ b, enqueue cap s.buf (enqueue_arg s.producer c) = Outcome.ok b ∧
      s1 = { s with buf := b,
                    producer := { s.producer with pc := ProducerPc.enq c CallPc.unlock } }) ∨
    (q = CallPc.unlock ∧
      s1 = { s with mutex := none,
                    producer := { s.producer with pc := ProducerPc.enq c CallPc.signal } }) ∨
    (q = CallPc.signal ∧
      s1 = signal_has_value
        { s with producer := { s.producer with pc := after_enqueue s.producer c } } pick) := by
  cases q with
  | lock =>
    simp only [enqueue_stmt] at h
    split at h
    · rename_i hm
      exact Or.inl ⟨rfl, hm, (Option.some.inj h).symm⟩
    · cases h
  | test =>
    simp only [enqueue_stmt] at h
    split at h
    · rename_i hw
      exact Or.inr (Or.inl ⟨rfl, hw, (Option.some.inj h).symm⟩)
    · rename_i hw
      exact Or.inr (Or.inr (Or.inl ⟨rfl, by simpa using hw, (Option.some.inj h).symm⟩))
  | waiting => simp [enqueue_stmt] at h
  | woken =>
    simp only [enqueue_stmt] at h
    split at h
    · rename_i hm
      exact Or.inr (Or.inr (Or.inr (Or.inl ⟨rfl, hm, (Option.some.inj h).symm⟩)))
    · cases h
  | body =>
    simp only [enqueue_stmt] at h
    split at h
    · rename_i b hb
      exact Or.inr (Or.inr (Or.inr (Or.inr (Or.inl ⟨rfl, b, hb, (Option.some.inj h).symm⟩))))
    · cases h
  | unlock =>
    simp only [enqueue_stmt] at h
    exact Or.inr (Or.inr (Or.inr (Or.inr (Or.inr (Or.inl ⟨rfl, (Option.some.inj h).symm⟩)))))
  | signal =>
    simp only [enqueue_stmt] at h
    exact Or.inr (Or.inr (Or.inr (Or.inr (Or.inr (Or.inr ⟨rfl, (Option.some.inj h).symm⟩)))))

/-- The statements of `dequeue`, one case for each. -/
theorem dequeue_stmt_cases (cap : Nat) (s s1 : Prog) (one : Bool) (q : CallPc)
    (h : dequeue_stmt cap s one q = some s1) :
    (q = CallPc.lock ∧ s.mutex = none ∧
      s1 = set_consumer { s with mutex := some (consumer_tid one) } one
        { consumer s one with pc := ConsumerPc.deq CallPc.test }) ∨
    (q = CallPc.test ∧ dequeue_wait s.buf = true ∧
      s1 = set_consumer { s with mutex := none } one
        { consumer s one with pc := ConsumerPc.deq CallPc.waiting }) ∨
    (q = CallPc.test ∧ dequeue_wait s.buf = false ∧
      s1 = set_consumer s one { consumer s one with pc := ConsumerPc.deq CallPc.body }) ∨
    (q = CallPc.woken ∧ s.mutex = none ∧
      s1 = set_consumer { s with mutex := some (consumer_tid one) } one
        { consumer s one with pc := ConsumerPc.deq CallPc.test }) ∨
    (q = CallPc.body ∧ ∃ msg b, dequeue cap s.buf = Outcome.ok (msg, b) ∧
      s1 = set_consumer { s with buf := b } one
        { consumer s one with pc := ConsumerPc.deq CallPc.unlock, msg := msg }) ∨
    (q = CallPc.unlock ∧
      s1 = set_consumer { s with mutex := none } one
        { consumer s one with pc := ConsumerPc.deq CallPc.signal }) ∨
    (q = CallPc.signal ∧
      s1 = signal_has_space (set_consumer s one
        { consumer s one with pc := after_dequeue (consumer s one).msg })) := by
  cases q with
  | lock =>
    simp only [dequeue_stmt] at h
    split at h
    · rename_i hm
      exact Or.inl ⟨rfl, hm, (Option.some.inj h).symm⟩
    · cases h
  | test =>
    simp only [dequeue_stmt] at h
    split at h
    · rename_i hw
      exact Or.inr (Or.inl ⟨rfl, hw, (Option.some.inj h).symm⟩)
    · rename_i hw
      exact Or.inr (Or.inr (Or.inl ⟨rfl, by simpa using hw, (Option.some.inj h).symm⟩))
  | waiting => simp [dequeue_stmt] at h
  | woken =>
    simp only [dequeue_stmt] at h
    split at h
    · rename_i hm
      exact Or.inr (Or.inr (Or.inr (Or.inl ⟨rfl, hm, (Option.some.inj h).symm⟩)))
    · cases h
  | body =>
    simp only [dequeue_stmt] at h
    split at h
    · rename_i msg b hb
      exact Or.inr (Or.inr (Or.inr (Or.inr (Or.inl
        ⟨rfl, msg, b, hb, (Option.some.inj h).symm⟩))))
    · cases h
  | unlock =>
    simp only [dequeue_stmt] at h
    exact Or.inr (Or.inr (Or.inr (Or.inr (Or.inr (Or.inl ⟨rfl, (Option.some.inj h).symm⟩)))))
  | signal =>
    simp only [dequeue_stmt] at h
    exact Or.inr (Or.inr (Or.inr (Or.inr (Or.inr (Or.inr ⟨rfl, (Option.some.inj h).symm⟩)))))

/-- What `pthread_cond_signal(&has_value)` does: nothing when no consumer is blocked,
and otherwise it unblocks one blocked consumer. -/
theorem signal_has_value_cases (s : Prog) (pick : Bool) :
    ((∀ b, (consumer s b).pc ≠ ConsumerPc.deq CallPc.waiting) ∧ signal_has_value s pick = s) ∨
    ∃ b, (consumer s b).pc = ConsumerPc.deq CallPc.waiting ∧
      signal_has_value s pick =
        set_consumer s b { consumer s b with pc := ConsumerPc.deq CallPc.woken } := by
  unfold signal_has_value
  by_cases h1 : (consumer s pick).pc = ConsumerPc.deq CallPc.waiting
  · right
    refine ⟨pick, h1, ?_⟩
    rw [if_pos h1]
    simp [wake_consumer, h1]
  · rw [if_neg h1]
    by_cases h2 : (consumer s (!pick)).pc = ConsumerPc.deq CallPc.waiting
    · right
      refine ⟨!pick, h2, ?_⟩
      simp [wake_consumer, h2]
    · left
      constructor
      · intro b
        by_cases hb : b = pick
        · rw [hb]; exact h1
        · have hb2 : b = !pick := by cases b <;> cases pick <;> simp at hb ⊢
          rw [hb2]; exact h2
      · simp only [wake_consumer, if_neg h2]
        cases pick <;> rfl

/-- What `pthread_cond_signal(&has_space)` does: it unblocks the producer when it is
blocked, and nothing otherwise. -/
theorem wake_producer_cases (p : ProducerState) :
    ((∀ c, p.pc ≠ ProducerPc.enq c CallPc.waiting) ∧ wake_producer p = p) ∨
    ∃ c, p.pc = ProducerPc.enq c CallPc.waiting ∧
      wake_producer p = { p with pc := ProducerPc.enq c CallPc.woken } := by
  unfold wake_producer
  split
  · rename_i c hc
    exact Or.inr ⟨c, hc, rfl⟩
  · rename_i hne
    exact Or.inl ⟨fun c hc => hne c hc, rfl⟩

/-- What `pthread_cond_signal(&has_value)` changes: at most the place of one consumer
that was blocked. -/
theorem signal_has_value_proj (s : Prog) (pick : Bool) :
    (signal_has_value s pick).input = s.input ∧
    (signal_has_value s pick).output = s.output ∧
    (signal_has_value s pick).buf = s.buf ∧
    (signal_has_value s pick).mutex = s.mutex ∧
    (signal_has_value s pick).producer = s.producer ∧
    (signal_has_value s pick).main = s.main ∧
    (signal_has_value s pick).exit_code = s.exit_code ∧
    (signal_has_value s pick).halted = s.halted ∧
    ((s.consumer_zero.pc ≠ ConsumerPc.deq CallPc.waiting ∧
      s.consumer_one.pc ≠ ConsumerPc.deq CallPc.waiting ∧
      (signal_has_value s pick).consumer_zero = s.consumer_zero ∧
      (signal_has_value s pick).consumer_one = s.consumer_one) ∨
     (s.consumer_zero.pc = ConsumerPc.deq CallPc.waiting ∧
      (signal_has_value s pick).consumer_zero =
        { s.consumer_zero with pc := ConsumerPc.deq CallPc.woken } ∧
      (signal_has_value s pick).consumer_one = s.consumer_one) ∨
     (s.consumer_one.pc = ConsumerPc.deq CallPc.waiting ∧
      (signal_has_value s pick).consumer_one =
        { s.consumer_one with pc := ConsumerPc.deq CallPc.woken } ∧
      (signal_has_value s pick).consumer_zero = s.consumer_zero)) := by
  rcases signal_has_value_cases s pick with ⟨hno, e⟩ | ⟨b, hb, e⟩
  · rw [e]
    exact ⟨rfl, rfl, rfl, rfl, rfl, rfl, rfl, rfl, Or.inl ⟨hno false, hno true, rfl, rfl⟩⟩
  · rw [e]
    cases b
    · exact ⟨rfl, rfl, rfl, rfl, rfl, rfl, rfl, rfl, Or.inr (Or.inl ⟨hb, rfl, rfl⟩)⟩
    · exact ⟨rfl, rfl, rfl, rfl, rfl, rfl, rfl, rfl, Or.inr (Or.inr ⟨hb, rfl, rfl⟩)⟩

/-- What `pthread_cond_signal(&has_space)` changes: at most the place of the producer
when it was blocked. -/
theorem signal_has_space_proj (s : Prog) :
    (signal_has_space s).input = s.input ∧
    (signal_has_space s).output = s.output ∧
    (signal_has_space s).buf = s.buf ∧
    (signal_has_space s).mutex = s.mutex ∧
    (signal_has_space s).consumer_zero = s.consumer_zero ∧
    (signal_has_space s).consumer_one = s.consumer_one ∧
    (signal_has_space s).main = s.main ∧
    (signal_has_space s).exit_code = s.exit_code ∧
    (signal_has_space s).halted = s.halted ∧
    (((∀ c, s.producer.pc ≠ ProducerPc.enq c CallPc.waiting) ∧
      (signal_has_space s).producer = s.producer) ∨
     ∃ c, s.producer.pc = ProducerPc.enq c CallPc.waiting ∧
      (signal_has_space s).producer =
        { s.producer with pc := ProducerPc.enq c CallPc.woken }) := by
  refine ⟨rfl, rfl, rfl, rfl, rfl, rfl, rfl, rfl, rfl, ?_⟩
  rcases wake_producer_cases s.producer with ⟨hno, e⟩ | ⟨c, hc, e⟩
  · exact Or.inl ⟨hno, e⟩
  · exact Or.inr ⟨c, hc, e⟩

theorem after_enqueue_outside (p : ProducerState) (c : EnqueueCall) (c1 : EnqueueCall)
    (q1 : CallPc) (h : after_enqueue p c = ProducerPc.enq c1 q1) : q1 = CallPc.lock := by
  cases c
  · simp only [after_enqueue] at h
    split at h <;> cases h
  · simp only [after_enqueue] at h
    cases h
    rfl
  · simp only [after_enqueue] at h
    cases h

theorem after_dequeue_outside (msg : message_t) (q : CallPc) :
    after_dequeue msg ≠ ConsumerPc.deq q := by
  simp only [after_dequeue]
  split
  · simp
  · split <;> simp

/-! ## The mutex and the buffer in the program -/

theorem base_inv_congr (cap : Nat) (s s1 : Prog) (hinv : BaseInv cap s)
    (hb : s1.buf = s.buf) (hm : s1.mutex = s.mutex)
    (hp : producer_view s1.producer = producer_view s.producer)
    (hc : ∀ one, consumer_view (consumer s1 one) = consumer_view (consumer s one)) :
    BaseInv cap s1 := by
  obtain ⟨h1, h2, h3, h4, h5, h6⟩ := hinv
  refine ⟨by rw [hb]; exact h1, by rw [hm, hp]; exact h2, fun one => by rw [hm, hc]; exact h3 one,
    by rw [hm]; exact h4, by rw [hb, hp]; exact h5, fun one => by rw [hb, hc]; exact h6 one⟩

theorem consumer_eq_of_fields (s s1 : Prog) (h0 : s1.consumer_zero = s.consumer_zero)
    (h1 : s1.consumer_one = s.consumer_one) (one : Bool) : consumer s1 one = consumer s one := by
  cases one
  · exact h0
  · exact h1

theorem consumer_view_set (s : Prog) (one b : Bool) (c : ConsumerState)
    (h : consumer_view c = consumer_view (consumer s one)) :
    consumer_view (consumer (set_consumer s one c) b) = consumer_view (consumer s b) := by
  rw [consumer_set_consumer]
  by_cases hb : b = one
  · rw [if_pos hb, hb]; exact h
  · rw [if_neg hb]

/-- A statement of a consumer outside `dequeue` leaves the buffer, the mutex, the
producer and `main` alone, moves only this consumer, and ends outside `dequeue` or at
the start of a call. -/
theorem consumer_stmt_frame (cap : Nat) (s s1 : Prog) (one : Bool)
    (h : consumer_stmt cap s one = some s1)
    (hq : ∀ q, (consumer s one).pc ≠ ConsumerPc.deq q) :
    s1.buf = s.buf ∧ s1.mutex = s.mutex ∧ s1.producer = s.producer ∧ s1.main = s.main ∧
    s1.halted = s.halted ∧ s1.input = s.input ∧
    (∀ b, b ≠ one → consumer s1 b = consumer s b) ∧
    (∀ q, (consumer s1 one).pc = ConsumerPc.deq q → q = CallPc.lock) := by
  cases one
  all_goals
    rcases consumer_stmt_cases cap s s1 _ h with ⟨q, hpc, _⟩ | ⟨_, rfl⟩ | ⟨_, rfl⟩ | ⟨_, rfl⟩ |
      ⟨_, rfl⟩ | ⟨_, rfl⟩ | ⟨_, rfl⟩ | ⟨_, rfl⟩
    · exact absurd hpc (hq q)
    all_goals
      refine ⟨rfl, rfl, rfl, rfl, rfl, rfl, ?_, ?_⟩
      · intro b hb
        cases b
        · first | rfl | exact absurd rfl hb
        · first | rfl | exact absurd rfl hb
      · intro q
        simp only [set_consumer_false, set_consumer_true, consumer_false, consumer_true,
          call_exit, loop_back]
        try split
        all_goals try split
        all_goals simp
        all_goals try exact fun e => e.symm

theorem producer_view_none (p : ProducerState)
    (h : ∀ c q, p.pc = ProducerPc.enq c q → q = CallPc.lock) : producer_view p = none := by
  unfold producer_view
  split
  · rename_i c q hpc
    rw [h c q hpc]
    rfl
  · rfl

theorem consumer_view_none (c : ConsumerState)
    (h : ∀ q, c.pc = ConsumerPc.deq q → q = CallPc.lock) : consumer_view c = none := by
  unfold consumer_view
  split
  · rename_i q hpc
    rw [h q hpc]
    rfl
  · rfl

theorem producer_view_enq (p : ProducerState) (c : EnqueueCall) (q : CallPc)
    (h : p.pc = ProducerPc.enq c q) : producer_view p = critical_pc q := by
  simp [producer_view, h]

theorem consumer_view_deq (c : ConsumerState) (q : CallPc)
    (h : c.pc = ConsumerPc.deq q) : consumer_view c = critical_pc q := by
  simp [consumer_view, h]

/-- A step of the producer inside `enqueue` keeps the invariant of the mutex and the
buffer. -/
theorem base_inv_enqueue (cap : Nat) (hc : 0 < cap) (s s1 : Prog) (c : EnqueueCall)
    (pick : Bool) (q : CallPc) (hinv : BaseInv cap s) (hpc : s.producer.pc = ProducerPc.enq c q)
    (h : enqueue_stmt cap s c pick q = some s1) : BaseInv cap s1 := by
  obtain ⟨h1, h2, h3, h4, h5, h6⟩ := hinv
  have hv := producer_view_enq s.producer c q hpc
  rw [hv] at h2 h5
  rcases enqueue_stmt_cases cap s s1 c pick q h with ⟨rfl, hm, rfl⟩ | ⟨rfl, hw, rfl⟩ |
    ⟨rfl, hw, rfl⟩ | ⟨rfl, hm, rfl⟩ | ⟨rfl, b, hb, rfl⟩ | ⟨rfl, rfl⟩ | ⟨rfl, rfl⟩
  · -- lock
    have hcv : ∀ one, (consumer_view (consumer s one)).isSome = false := by
      intro one
      have := h3 one
      rw [hm] at this
      cases hx : (consumer_view (consumer s one)).isSome with
      | false => rfl
      | true => exact absurd (this.2 hx) (by simp)
    refine ⟨h1, by simp [producer_view, critical_pc, holds_mutex], ?_, by simp, ?_, ?_⟩
    · intro one
      show (some Tid.producer : Option Tid) = some (consumer_tid one) ↔
        (consumer_view (consumer s one)).isSome = true
      rw [hcv one]
      simp only [Bool.false_eq_true, iff_false]
      intro hx
      exact consumer_tid_ne_producer one (Option.some.inj hx).symm
    · simp [producer_view, critical_pc, holds_mutex]
    · exact h6
  · -- test, the buffer is full
    have hmine : s.mutex = some Tid.producer := h2.2 rfl
    have hcv : ∀ one, (consumer_view (consumer s one)).isSome = false := by
      intro one
      have := h3 one
      rw [hmine] at this
      cases hx : (consumer_view (consumer s one)).isSome with
      | false => rfl
      | true => exact absurd (Option.some.inj (this.2 hx)).symm (consumer_tid_ne_producer one)
    refine ⟨h1, by simp [producer_view, critical_pc, holds_mutex], ?_, by simp, ?_, ?_⟩
    · intro one
      show (none : Option Tid) = some (consumer_tid one) ↔
        (consumer_view (consumer s one)).isSome = true
      rw [hcv one]
      simp
    · simp [producer_view, critical_pc, holds_mutex]
    · exact h6
  · -- test, there is space
    refine ⟨h1, ?_, ?_, h4, fun _ => hw, ?_⟩
    · simp only [producer_view, critical_pc, holds_mutex]
      exact h2
    · exact h3
    · exact h6
  · -- woken
    have hcv : ∀ one, (consumer_view (consumer s one)).isSome = false := by
      intro one
      have := h3 one
      rw [hm] at this
      cases hx : (consumer_view (consumer s one)).isSome with
      | false => rfl
      | true => exact absurd (this.2 hx) (by simp)
    refine ⟨h1, by simp [producer_view, critical_pc, holds_mutex], ?_, by simp, ?_, ?_⟩
    · intro one
      show (some Tid.producer : Option Tid) = some (consumer_tid one) ↔
        (consumer_view (consumer s one)).isSome = true
      rw [hcv one]
      simp only [Bool.false_eq_true, iff_false]
      intro hx
      exact consumer_tid_ne_producer one (Option.some.inj hx).symm
    · simp [producer_view, critical_pc, holds_mutex]
    · exact h6
  · -- body
    have hmine : s.mutex = some Tid.producer := h2.2 rfl
    have hcv : ∀ one, (consumer_view (consumer s one)).isSome = false := by
      intro one
      have := h3 one
      rw [hmine] at this
      cases hx : (consumer_view (consumer s one)).isSome with
      | false => rfl
      | true => exact absurd (Option.some.inj (this.2 hx)).symm (consumer_tid_ne_producer one)
    refine ⟨(enqueue_ok_contents cap hc s.buf b _ h1 hb).2, ?_, ?_, h4, ?_, ?_⟩
    · simp only [producer_view, critical_pc, holds_mutex]
      exact h2
    · exact h3
    · simp [producer_view, critical_pc, holds_mutex]
    · intro one hx
      have hx1 : consumer_view (consumer s one) = some CallPc.body := hx
      have := hcv one
      rw [hx1] at this
      cases this
  · -- unlock
    have hmine : s.mutex = some Tid.producer := h2.2 rfl
    have hcv : ∀ one, (consumer_view (consumer s one)).isSome = false := by
      intro one
      have := h3 one
      rw [hmine] at this
      cases hx : (consumer_view (consumer s one)).isSome with
      | false => rfl
      | true => exact absurd (Option.some.inj (this.2 hx)).symm (consumer_tid_ne_producer one)
    refine ⟨h1, by simp [producer_view, critical_pc, holds_mutex], ?_, by simp, ?_, ?_⟩
    · intro one
      show (none : Option Tid) = some (consumer_tid one) ↔
        (consumer_view (consumer s one)).isSome = true
      rw [hcv one]
      simp
    · simp [producer_view, critical_pc, holds_mutex]
    · exact h6
  · -- signal
    have hpv : producer_view { s.producer with pc := after_enqueue s.producer c } = none := by
      apply producer_view_none
      intro c1 q1
      cases c <;> simp [after_enqueue]
      · split <;> simp
      · exact fun _ e => e.symm
    have hbase : BaseInv cap
        { s with producer := { s.producer with pc := after_enqueue s.producer c } } := by
      refine ⟨h1, ?_, ?_, h4, ?_, ?_⟩
      · rw [hpv]
        simpa [critical_pc, holds_mutex] using h2
      · exact h3
      · rw [hpv]
        simp
      · exact h6
    rcases signal_has_value_cases
      { s with producer := { s.producer with pc := after_enqueue s.producer c } } pick with
      ⟨_, e⟩ | ⟨b, hb, e⟩
    · rw [e]; exact hbase
    · rw [e]
      apply base_inv_congr cap _ _ hbase (by simp) (by simp) (by simp)
      intro one
      apply consumer_view_set
      rw [consumer_view_deq _ _ hb, consumer_view_deq _ CallPc.woken rfl]
      rfl

theorem isSome_false_of_not (o : Option CallPc) (h : ¬ o.isSome = true) : o.isSome = false := by
  cases hx : o.isSome with
  | false => rfl
  | true => exact absurd hx h

/-- When the mutex is free no thread stands between a lock and an unlock. -/
theorem views_of_free (cap : Nat) (s : Prog) (hinv : BaseInv cap s) (hm : s.mutex = none) :
    (producer_view s.producer).isSome = false ∧
    ∀ b, (consumer_view (consumer s b)).isSome = false := by
  obtain ⟨_, h2, h3, _, _, _⟩ := hinv
  constructor
  · apply isSome_false_of_not
    intro hx
    have := h2.2 hx
    rw [hm] at this
    cases this
  · intro b
    apply isSome_false_of_not
    intro hx
    have := (h3 b).2 hx
    rw [hm] at this
    cases this

/-- When the producer owns the mutex no consumer stands between a lock and an unlock. -/
theorem views_of_producer (cap : Nat) (s : Prog) (hinv : BaseInv cap s)
    (hm : s.mutex = some Tid.producer) :
    ∀ b, (consumer_view (consumer s b)).isSome = false := by
  obtain ⟨_, _, h3, _, _, _⟩ := hinv
  intro b
  apply isSome_false_of_not
  intro hx
  have := (h3 b).2 hx
  rw [hm] at this
  exact consumer_tid_ne_producer b (Option.some.inj this).symm

/-- When a consumer owns the mutex no other thread stands between a lock and an
unlock. -/
theorem views_of_consumer (cap : Nat) (s : Prog) (one : Bool) (hinv : BaseInv cap s)
    (hm : s.mutex = some (consumer_tid one)) :
    (producer_view s.producer).isSome = false ∧
    ∀ b, b ≠ one → (consumer_view (consumer s b)).isSome = false := by
  obtain ⟨_, h2, h3, _, _, _⟩ := hinv
  constructor
  · apply isSome_false_of_not
    intro hx
    have := h2.2 hx
    rw [hm] at this
    exact consumer_tid_ne_producer one (Option.some.inj this)
  · intro b hb
    apply isSome_false_of_not
    intro hx
    have := (h3 b).2 hx
    rw [hm] at this
    exact hb (consumer_tid_inj _ _ (Option.some.inj this)).symm

/-- A step of a consumer inside `dequeue` keeps the invariant of the mutex and the
buffer. -/
theorem base_inv_dequeue (cap : Nat) (s s1 : Prog) (one : Bool) (q : CallPc)
    (hinv : BaseInv cap s) (hpc : (consumer s one).pc = ConsumerPc.deq q)
    (h : dequeue_stmt cap s one q = some s1) : BaseInv cap s1 := by
  have hinv0 := hinv
  obtain ⟨h1, h2, h3, h4, h5, h6⟩ := hinv
  have hv := consumer_view_deq (consumer s one) q hpc
  have h3o := h3 one
  have h6o := h6 one
  rw [hv] at h3o h6o
  have acquire : ∀ c1 : ConsumerState, s.mutex = none → consumer_view c1 = some CallPc.test →
      BaseInv cap (set_consumer { s with mutex := some (consumer_tid one) } one c1) := by
    intro c1 hm hc1
    obtain ⟨hp, hcv⟩ := views_of_free cap s hinv0 hm
    refine ⟨by simpa using h1, ?_, ?_, ?_, ?_, ?_⟩
    · simp only [set_consumer_mutex, set_consumer_producer]
      show some (consumer_tid one) = some Tid.producer ↔ (producer_view s.producer).isSome = true
      rw [hp]
      simp only [Bool.false_eq_true, iff_false]
      intro hx
      exact consumer_tid_ne_producer one (Option.some.inj hx)
    · intro b
      simp only [set_consumer_mutex, consumer_set_consumer]
      show some (consumer_tid one) = some (consumer_tid b) ↔ _
      by_cases hb : b = one
      · rw [if_pos hb, hc1, hb]
        simp
      · rw [if_neg hb]
        show _ ↔ (consumer_view (consumer s b)).isSome = true
        rw [hcv b]
        simp only [Bool.false_eq_true, iff_false]
        intro hx
        exact hb (consumer_tid_inj _ _ (Option.some.inj hx)).symm
    · simp only [set_consumer_mutex]
      intro hx
      exact consumer_tid_ne_main one (Option.some.inj hx)
    · simp only [set_consumer_producer, set_consumer_buf]
      exact h5
    · intro b
      simp only [consumer_set_consumer, set_consumer_buf]
      by_cases hb : b = one
      · rw [if_pos hb, hc1]
        intro hx
        cases hx
      · rw [if_neg hb]
        exact h6 b
  have release : ∀ c1 : ConsumerState, s.mutex = some (consumer_tid one) →
      consumer_view c1 = none →
      BaseInv cap (set_consumer { s with mutex := none } one c1) := by
    intro c1 hm hc1
    obtain ⟨hp, hcv⟩ := views_of_consumer cap s one hinv0 hm
    refine ⟨by simpa using h1, ?_, ?_, ?_, ?_, ?_⟩
    · simp only [set_consumer_mutex, set_consumer_producer]
      show none = some Tid.producer ↔ (producer_view s.producer).isSome = true
      rw [hp]
      simp
    · intro b
      simp only [set_consumer_mutex, consumer_set_consumer]
      show none = some (consumer_tid b) ↔ _
      by_cases hb : b = one
      · rw [if_pos hb, hc1]
        simp
      · rw [if_neg hb]
        show _ ↔ (consumer_view (consumer s b)).isSome = true
        rw [hcv b hb]
        simp
    · simp only [set_consumer_mutex]
      intro hx
      cases hx
    · simp only [set_consumer_producer, set_consumer_buf]
      exact h5
    · intro b
      simp only [consumer_set_consumer, set_consumer_buf]
      by_cases hb : b = one
      · rw [if_pos hb, hc1]
        intro hx
        cases hx
      · rw [if_neg hb]
        exact h6 b
  rcases dequeue_stmt_cases cap s s1 one q h with ⟨rfl, hm, rfl⟩ | ⟨rfl, hw, rfl⟩ |
    ⟨rfl, hw, rfl⟩ | ⟨rfl, hm, rfl⟩ | ⟨rfl, msg, b, hb, rfl⟩ | ⟨rfl, rfl⟩ | ⟨rfl, rfl⟩
  · exact acquire _ hm rfl
  · exact release _ (h3o.2 rfl) rfl
  · -- test, the buffer is not empty
    refine ⟨by simpa using h1, by simpa using h2, ?_, by simpa using h4, by simpa using h5, ?_⟩
    · intro b
      simp only [set_consumer_mutex, consumer_set_consumer]
      by_cases hb : b = one
      · rw [if_pos hb, hb]
        simpa [consumer_view, critical_pc, holds_mutex] using h3o
      · rw [if_neg hb]
        exact h3 b
    · intro b
      simp only [consumer_set_consumer, set_consumer_buf]
      by_cases hb : b = one
      · rw [if_pos hb]
        exact fun _ => hw
      · rw [if_neg hb]
        exact h6 b
  · exact acquire _ hm rfl
  · -- body
    have hmine : s.mutex = some (consumer_tid one) := h3o.2 rfl
    obtain ⟨hp, hcv⟩ := views_of_consumer cap s one hinv0 hmine
    have hib := (dequeue_ok_contents cap s.buf b msg h1 hb).2
    refine ⟨by simpa using hib, by simpa using h2, ?_, by simpa using h4, ?_, ?_⟩
    · intro b1
      simp only [set_consumer_mutex, consumer_set_consumer]
      by_cases hb1 : b1 = one
      · rw [if_pos hb1, hb1]
        show s.mutex = some (consumer_tid one) ↔ _
        simp [consumer_view, critical_pc, holds_mutex, hmine]
      · rw [if_neg hb1]
        exact h3 b1
    · simp only [set_consumer_producer, set_consumer_buf]
      intro hx
      rw [hx] at hp
      cases hp
    · intro b1
      simp only [consumer_set_consumer, set_consumer_buf]
      by_cases hb1 : b1 = one
      · rw [if_pos hb1]
        intro hx
        simp [consumer_view, critical_pc, holds_mutex] at hx
      · rw [if_neg hb1]
        intro hx
        have hx1 : consumer_view (consumer s b1) = some CallPc.body := hx
        have := hcv b1 hb1
        rw [hx1] at this
        cases this
  · exact release _ (h3o.2 rfl) rfl
  · -- signal
    have hcv1 : consumer_view { consumer s one with pc := after_dequeue (consumer s one).msg } =
        consumer_view (consumer s one) := by
      rw [hv]
      have hn : consumer_view
          { consumer s one with pc := after_dequeue (consumer s one).msg } = none := by
        apply consumer_view_none
        intro q1
        simp only [after_dequeue]
        split
        · simp
        · split <;> simp
      rw [hn]
      rfl
    have hbase : BaseInv cap (set_consumer s one
        { consumer s one with pc := after_dequeue (consumer s one).msg }) := by
      apply base_inv_congr cap s _ hinv0 (by simp) (by simp) (by simp)
      intro b
      exact consumer_view_set s one b _ hcv1
    unfold signal_has_space
    rcases wake_producer_cases (set_consumer s one
      { consumer s one with pc := after_dequeue (consumer s one).msg }).producer with
      ⟨_, e⟩ | ⟨c, hc, e⟩
    · rw [e]
      exact hbase
    · rw [e]
      refine base_inv_congr cap _ _ hbase ?_ ?_ ?_ ?_
      · rfl
      · rfl
      · show producer_view _ = _
        rw [producer_view_enq _ c CallPc.woken rfl, producer_view_enq _ c CallPc.waiting hc]
        rfl
      · intro b
        rfl

/-- Every step of the process keeps the invariant of the mutex and the buffer. -/
theorem base_inv_step (cap : Nat) (hc : 0 < cap) (s s1 : Prog) (a : Action)
    (hinv : BaseInv cap s) (h : prog_step cap s a = some s1) : BaseInv cap s1 := by
  obtain ⟨_, hcases⟩ := prog_step_cases cap s s1 a h
  rcases hcases with ⟨pick, _, hp⟩ | ⟨one, pick, _, hcs⟩ | ⟨pick, _, hm⟩ | ⟨t, _, hw⟩ |
    ⟨_, _, rfl⟩
  · by_cases hq : ∃ c q, s.producer.pc = ProducerPc.enq c q
    · obtain ⟨c, q, hpc⟩ := hq
      rcases producer_stmt_cases cap s s1 pick hp with ⟨c1, q1, hpc1, he⟩ | hx | hx | hx | hx |
        hx | hx | hx | hx | hx
      · exact base_inv_enqueue cap hc s s1 c1 pick q1 hinv hpc1 he
      all_goals
        have := hx.1
        rw [hpc] at this
        cases this
    · have hq1 : ∀ c q, s.producer.pc ≠ ProducerPc.enq c q := fun c q hx => hq ⟨c, q, hx⟩
      obtain ⟨f1, f2, f3, f4, _, _, f7⟩ := producer_stmt_frame cap s s1 pick hp hq1
      refine base_inv_congr cap s s1 hinv f1 f2 ?_ ?_
      · rw [producer_view_none s1.producer f7, producer_view_none s.producer]
        intro c q hx
        exact absurd hx (hq1 c q)
      · intro one
        rw [consumer_eq_of_fields s s1 f3 f4 one]
  · by_cases hq : ∃ q, (consumer s one).pc = ConsumerPc.deq q
    · obtain ⟨q, hpc⟩ := hq
      rcases consumer_stmt_cases cap s s1 one hcs with ⟨q1, hpc1, he⟩ | hx | hx | hx | hx |
        hx | hx | hx
      · exact base_inv_dequeue cap s s1 one q1 hinv hpc1 he
      all_goals
        have := hx.1
        rw [hpc] at this
        cases this
    · have hq1 : ∀ q, (consumer s one).pc ≠ ConsumerPc.deq q := fun q hx => hq ⟨q, hx⟩
      obtain ⟨f1, f2, f3, _, _, _, f7, f8⟩ := consumer_stmt_frame cap s s1 one hcs hq1
      refine base_inv_congr cap s s1 hinv f1 f2 (by rw [f3]) ?_
      intro b
      by_cases hb : b = one
      · rw [hb, consumer_view_none _ f8, consumer_view_none (consumer s one)]
        intro q hx
        exact absurd hx (hq1 q)
      · rw [f7 b hb]
  · rcases main_stmt_cases s s1 hm with ⟨_, _, rfl⟩ | ⟨_, _, rfl⟩ | ⟨_, _, rfl⟩ | ⟨_, rfl⟩ |
      ⟨_, rfl⟩
    all_goals exact hinv
  · rcases spurious_wake_cases s s1 t hw with ⟨c, _, hpc, rfl⟩ | ⟨one, _, hpc, rfl⟩
    · refine base_inv_congr cap s _ hinv rfl rfl ?_ (fun _ => rfl)
      show producer_view _ = _
      rw [producer_view_enq _ c CallPc.woken rfl, producer_view_enq _ c CallPc.waiting hpc]
      rfl
    · refine base_inv_congr cap s _ hinv (by simp) (by simp) (by simp) ?_
      intro b
      apply consumer_view_set
      rw [consumer_view_deq _ CallPc.woken rfl, consumer_view_deq _ CallPc.waiting hpc]
      rfl
  · exact hinv

theorem base_inv_init (cap : Nat) (inp : List Token) : BaseInv cap (prog_init cap inp) := by
  refine ⟨inv_init cap, by simp [prog_init, producer_view], ?_, by simp [prog_init],
    by simp [prog_init, producer_view], ?_⟩
  · intro one
    cases one <;> simp [prog_init, consumer_view, critical_pc, holds_mutex]
  · intro one
    cases one <;> simp [prog_init, consumer_view, critical_pc, holds_mutex]

/-- An invariant of the steps holds after every schedule. -/
theorem prog_run_induct (cap : Nat) (P : Prog → Prop)
    (hstep : ∀ s s1 a, P s → prog_step cap s a = some s1 → P s1) :
    ∀ (sched : List Action) (s s1 : Prog), P s → prog_run cap sched s = some s1 → P s1 := by
  intro sched
  induction sched with
  | nil =>
    intro s s1 hp h
    simp only [prog_run, Option.some.injEq] at h
    rw [← h]; exact hp
  | cons a rest ih =>
    intro s s1 hp h
    simp only [prog_run] at h
    cases hs : prog_step cap s a with
    | none => rw [hs] at h; cases h
    | some s2 =>
      rw [hs] at h
      exact ih s2 s1 (hstep s s2 a hp hs) h

theorem base_inv_run (cap : Nat) (hc : 0 < cap) (inp : List Token) (sched : List Action)
    (s : Prog) (h : prog_run cap sched (prog_init cap inp) = some s) : BaseInv cap s :=
  prog_run_induct cap (BaseInv cap) (fun s s1 a hp hs => base_inv_step cap hc s s1 a hp hs)
    sched _ s (base_inv_init cap inp) h

/-! ## The condition variables -/

theorem contents_of_dequeue_wait (b : RingBuf) (h : dequeue_wait b = true) : contents b = [] := by
  have hf : b.front = -1 := by simpa [dequeue_wait] using h
  simp [contents, hf]

theorem stored_of_outside (p : ProducerState)
    (h : ∀ c q, p.pc = ProducerPc.enq c q → q = CallPc.lock) : stored p = 0 ∧ blocked p = 0 := by
  constructor
  · unfold stored
    split
    · rename_i c hpc
      cases h c _ hpc
    · rename_i c hpc
      cases h c _ hpc
    · rfl
  · unfold blocked
    split
    · rename_i c hpc
      cases h c _ hpc
    · rfl

theorem waits_of_outside (c : ConsumerState)
    (h : ∀ q, c.pc = ConsumerPc.deq q → q = CallPc.lock) : waits c = 0 ∧ took c = 0 := by
  constructor
  · unfold waits
    split
    · rename_i hpc
      cases h _ hpc
    · rfl
  · unfold took
    split
    · rename_i hpc
      cases h _ hpc
    · rename_i hpc
      cases h _ hpc
    · rfl

theorem takes_of_outside (c : ConsumerState) (h : ∀ q, c.pc ≠ ConsumerPc.deq q) :
    takes c = 0 := by
  unfold takes
  split
  · rename_i hpc; exact absurd hpc (h _)
  · rename_i hpc; exact absurd hpc (h _)
  · rename_i hpc; exact absurd hpc (h _)
  · rename_i hpc; exact absurd hpc (h _)
  · rfl

theorem waits_not_waiting (c : ConsumerState) (h : c.pc ≠ ConsumerPc.deq CallPc.waiting) :
    waits c = 0 := by
  unfold waits
  split
  · rename_i hpc; exact absurd hpc h
  · rfl

theorem blocked_not_waiting (p : ProducerState)
    (h : ∀ c, p.pc ≠ ProducerPc.enq c CallPc.waiting) : blocked p = 0 := by
  unfold blocked
  split
  · rename_i c hpc; exact absurd hpc (h c)
  · rfl

/-- A step of the producer keeps the invariant of the condition variables. -/
theorem cond_inv_producer (cap : Nat) (hc : 0 < cap) (s s1 : Prog) (pick : Bool)
    (hb : BaseInv cap s) (hinv : CondInv cap s) (hp : producer_stmt cap s pick = some s1) :
    CondInv cap s1 := by
  unfold CondInv at hinv ⊢
  by_cases hq : ∃ c q, s.producer.pc = ProducerPc.enq c q
  · obtain ⟨c0, q0, hpc0⟩ := hq
    rcases producer_stmt_cases cap s s1 pick hp with ⟨c, q, hpc, he⟩ | hx | hx | hx | hx |
      hx | hx | hx | hx | hx
    · rcases enqueue_stmt_cases cap s s1 c pick q he with ⟨rfl, hm, hs1⟩ | ⟨rfl, hw, hs1⟩ |
        ⟨rfl, hw, hs1⟩ | ⟨rfl, hm, hs1⟩ | ⟨rfl, b, hbq, hs1⟩ | ⟨rfl, hs1⟩ | ⟨rfl, hs1⟩
      · have e1 : s1.buf = s.buf := by rw [hs1]
        have e2 : s1.consumer_zero = s.consumer_zero := by rw [hs1]
        have e3 : s1.consumer_one = s.consumer_one := by rw [hs1]
        have e4 : s1.producer.pc = ProducerPc.enq c CallPc.test := by rw [hs1]
        rw [e1, e2, e3]
        simp only [stored, blocked, hpc, e4] at hinv ⊢
        exact hinv
      · have e1 : s1.buf = s.buf := by rw [hs1]
        have e2 : s1.consumer_zero = s.consumer_zero := by rw [hs1]
        have e3 : s1.consumer_one = s.consumer_one := by rw [hs1]
        have e4 : s1.producer.pc = ProducerPc.enq c CallPc.waiting := by rw [hs1]
        have hfull := (enqueue_wait_iff cap s.buf hc hb.1).1 hw
        rw [e1, e2, e3]
        simp only [stored, blocked, hpc, e4] at hinv ⊢
        exact ⟨hinv.1, fun _ => by omega⟩
      · have e1 : s1.buf = s.buf := by rw [hs1]
        have e2 : s1.consumer_zero = s.consumer_zero := by rw [hs1]
        have e3 : s1.consumer_one = s.consumer_one := by rw [hs1]
        have e4 : s1.producer.pc = ProducerPc.enq c CallPc.body := by rw [hs1]
        rw [e1, e2, e3]
        simp only [stored, blocked, hpc, e4] at hinv ⊢
        exact hinv
      · have e1 : s1.buf = s.buf := by rw [hs1]
        have e2 : s1.consumer_zero = s.consumer_zero := by rw [hs1]
        have e3 : s1.consumer_one = s.consumer_one := by rw [hs1]
        have e4 : s1.producer.pc = ProducerPc.enq c CallPc.test := by rw [hs1]
        rw [e1, e2, e3]
        simp only [stored, blocked, hpc, e4] at hinv ⊢
        exact hinv
      · have e1 : s1.buf = b := by rw [hs1]
        have e2 : s1.consumer_zero = s.consumer_zero := by rw [hs1]
        have e3 : s1.consumer_one = s.consumer_one := by rw [hs1]
        have e4 : s1.producer.pc = ProducerPc.enq c CallPc.unlock := by rw [hs1]
        have hlen := (enqueue_ok_contents cap hc s.buf b _ hb.1 hbq).1
        rw [e1, e2, e3, hlen]
        simp only [stored, blocked, hpc, e4] at hinv ⊢
        simp only [List.length_append, List.length_singleton]
        refine ⟨fun hx => ?_, fun hx => absurd hx (by omega)⟩
        have := hinv.1 hx
        omega
      · have e1 : s1.buf = s.buf := by rw [hs1]
        have e2 : s1.consumer_zero = s.consumer_zero := by rw [hs1]
        have e3 : s1.consumer_one = s.consumer_one := by rw [hs1]
        have e4 : s1.producer.pc = ProducerPc.enq c CallPc.signal := by rw [hs1]
        rw [e1, e2, e3]
        simp only [stored, blocked, hpc, e4] at hinv ⊢
        exact hinv
      · obtain ⟨_, _, e1, _, e5, _, _, _, hcons⟩ := signal_has_value_proj
          { s with producer := { s.producer with pc := after_enqueue s.producer c } } pick
        rw [← hs1] at e1 e5 hcons
        have e1b : s1.buf = s.buf := e1
        have e4 : s1.producer.pc = after_enqueue s.producer c := by rw [e5]
        obtain ⟨a1, a2⟩ := stored_of_outside s1.producer (fun c1 q1 hx => by
          rw [e4] at hx
          exact after_enqueue_outside _ _ _ _ hx)
        have hst : stored s.producer = 1 := by simp [stored, hpc]
        rw [e1b, a1, a2]
        rw [hst] at hinv
        refine ⟨fun hx => ?_, fun hx => absurd hx (by omega)⟩
        rcases hcons with ⟨n0, n1, z, o⟩ | ⟨w0, z, o⟩ | ⟨w1, o, z⟩
        · have n0b : s.consumer_zero.pc ≠ ConsumerPc.deq CallPc.waiting := n0
          have n1b : s.consumer_one.pc ≠ ConsumerPc.deq CallPc.waiting := n1
          have zb : s1.consumer_zero = s.consumer_zero := z
          have ob : s1.consumer_one = s.consumer_one := o
          rw [zb, ob] at hx ⊢
          rw [waits_not_waiting _ n0b, waits_not_waiting _ n1b] at hx
          omega
        · have w0b : s.consumer_zero.pc = ConsumerPc.deq CallPc.waiting := w0
          have zb : s1.consumer_zero =
              { s.consumer_zero with pc := ConsumerPc.deq CallPc.woken } := z
          have ob : s1.consumer_one = s.consumer_one := o
          rw [zb, ob] at hx ⊢
          simp only [waits, takes, w0b] at hx hinv ⊢
          have := hinv.1 (by omega)
          omega
        · have w1b : s.consumer_one.pc = ConsumerPc.deq CallPc.waiting := w1
          have zb : s1.consumer_zero = s.consumer_zero := z
          have ob : s1.consumer_one =
              { s.consumer_one with pc := ConsumerPc.deq CallPc.woken } := o
          rw [zb, ob] at hx ⊢
          simp only [waits, takes, w1b] at hx hinv ⊢
          have := hinv.1 (by omega)
          omega
    all_goals
      have := hx.1
      rw [hpc0] at this
      cases this
  · have hq1 : ∀ c q, s.producer.pc ≠ ProducerPc.enq c q := fun c q hx => hq ⟨c, q, hx⟩
    obtain ⟨f1, _, f3, f4, _, _, f7⟩ := producer_stmt_frame cap s s1 pick hp hq1
    obtain ⟨a1, a2⟩ := stored_of_outside s1.producer f7
    obtain ⟨b1, b2⟩ := stored_of_outside s.producer (fun c q hx => absurd hx (hq1 c q))
    rw [f1, f3, f4, a1, a2]
    rw [b1, b2] at hinv
    exact hinv

theorem both_split (f : ConsumerState → Nat) (s : Prog) (one : Bool) :
    f s.consumer_zero + f s.consumer_one = f (consumer s one) + f (consumer s (!one)) := by
  cases one
  · rfl
  · exact Nat.add_comm _ _

theorem consumer_other_set (s : Prog) (one : Bool) (c : ConsumerState) :
    consumer (set_consumer s one c) (!one) = consumer s (!one) := by
  cases one <;> rfl

theorem consumer_same_set (s : Prog) (one : Bool) (c : ConsumerState) :
    consumer (set_consumer s one c) one = c := by
  cases one <;> rfl

/-- The form of the invariant of the condition variables that names the consumer that
moves. -/
theorem cond_inv_iff (cap : Nat) (s : Prog) (one : Bool) :
    CondInv cap s ↔
      ((0 < waits (consumer s one) + waits (consumer s (!one)) →
        (contents s.buf).length ≤
          stored s.producer + (takes (consumer s one) + takes (consumer s (!one)))) ∧
      (0 < blocked s.producer →
        cap ≤ (contents s.buf).length + (took (consumer s one) + took (consumer s (!one))))) := by
  unfold CondInv
  rw [← both_split waits s one, ← both_split takes s one, ← both_split took s one]
  simp only [Nat.add_assoc]

/-- A step of a consumer keeps the invariant of the condition variables. -/
theorem cond_inv_consumer (cap : Nat) (s s1 : Prog) (one : Bool)
    (hb : BaseInv cap s) (hinv : CondInv cap s) (hcs : consumer_stmt cap s one = some s1) :
    CondInv cap s1 := by
  rw [cond_inv_iff cap s one] at hinv
  rw [cond_inv_iff cap s1 one]
  by_cases hq : ∃ q, (consumer s one).pc = ConsumerPc.deq q
  · obtain ⟨q0, hpc0⟩ := hq
    rcases consumer_stmt_cases cap s s1 one hcs with ⟨q, hpc, he⟩ | hx | hx | hx | hx |
      hx | hx | hx
    · rcases dequeue_stmt_cases cap s s1 one q he with ⟨rfl, hm, hs1⟩ | ⟨rfl, hw, hs1⟩ |
        ⟨rfl, hw, hs1⟩ | ⟨rfl, hm, hs1⟩ | ⟨rfl, msg, b, hbq, hs1⟩ | ⟨rfl, hs1⟩ | ⟨rfl, hs1⟩
      · have e1 : s1.buf = s.buf := by rw [hs1]; simp
        have e2 : s1.producer = s.producer := by rw [hs1]; simp
        have e3 : consumer s1 (!one) = consumer s (!one) := by
          rw [hs1, consumer_other_set]; rfl
        have e4 : (consumer s1 one).pc = ConsumerPc.deq CallPc.test := by
          rw [hs1, consumer_same_set]
        rw [e1, e2, e3]
        simp only [waits, takes, took, hpc, e4] at hinv ⊢
        exact hinv
      · have e1 : s1.buf = s.buf := by rw [hs1]; simp
        have e2 : s1.producer = s.producer := by rw [hs1]; simp
        have e3 : consumer s1 (!one) = consumer s (!one) := by
          rw [hs1, consumer_other_set]; rfl
        have e4 : (consumer s1 one).pc = ConsumerPc.deq CallPc.waiting := by
          rw [hs1, consumer_same_set]
        have hemp := contents_of_dequeue_wait s.buf hw
        rw [e1, e2, e3, hemp]
        simp only [waits, takes, took, hpc, e4] at hinv ⊢
        rw [hemp] at hinv
        exact ⟨fun _ => by simp, hinv.2⟩
      · have e1 : s1.buf = s.buf := by rw [hs1]; simp
        have e2 : s1.producer = s.producer := by rw [hs1]; simp
        have e3 : consumer s1 (!one) = consumer s (!one) := by
          rw [hs1, consumer_other_set]
        have e4 : (consumer s1 one).pc = ConsumerPc.deq CallPc.body := by
          rw [hs1, consumer_same_set]
        rw [e1, e2, e3]
        simp only [waits, takes, took, hpc, e4] at hinv ⊢
        exact hinv
      · have e1 : s1.buf = s.buf := by rw [hs1]; simp
        have e2 : s1.producer = s.producer := by rw [hs1]; simp
        have e3 : consumer s1 (!one) = consumer s (!one) := by
          rw [hs1, consumer_other_set]; rfl
        have e4 : (consumer s1 one).pc = ConsumerPc.deq CallPc.test := by
          rw [hs1, consumer_same_set]
        rw [e1, e2, e3]
        simp only [waits, takes, took, hpc, e4] at hinv ⊢
        exact hinv
      · have e1 : s1.buf = b := by rw [hs1]; simp
        have e2 : s1.producer = s.producer := by rw [hs1]; simp
        have e3 : consumer s1 (!one) = consumer s (!one) := by
          rw [hs1, consumer_other_set]; rfl
        have e4 : (consumer s1 one).pc = ConsumerPc.deq CallPc.unlock := by
          rw [hs1, consumer_same_set]
        have hlen := (dequeue_ok_contents cap s.buf b msg hb.1 hbq).1
        rw [e1, e2, e3]
        rw [hlen] at hinv
        simp only [waits, takes, took, hpc, e4, List.length_cons] at hinv ⊢
        refine ⟨fun hx => ?_, fun hx => ?_⟩
        · have := hinv.1 (by omega)
          omega
        · have := hinv.2 hx
          omega
      · have e1 : s1.buf = s.buf := by rw [hs1]; simp
        have e2 : s1.producer = s.producer := by rw [hs1]; simp
        have e3 : consumer s1 (!one) = consumer s (!one) := by
          rw [hs1, consumer_other_set]; rfl
        have e4 : (consumer s1 one).pc = ConsumerPc.deq CallPc.signal := by
          rw [hs1, consumer_same_set]
        rw [e1, e2, e3]
        simp only [waits, takes, took, hpc, e4] at hinv ⊢
        exact hinv
      · obtain ⟨_, _, e1, _, e5, e6, _, _, _, hprod⟩ := signal_has_space_proj
          (set_consumer s one { consumer s one with pc := after_dequeue (consumer s one).msg })
        rw [← hs1] at e1 e5 e6 hprod
        have e1b : s1.buf = s.buf := by rw [e1]; simp
        have e3 : consumer s1 (!one) = consumer s (!one) := by
          rw [consumer_eq_of_fields _ s1 e5 e6, consumer_other_set]
        have e4 : (consumer s1 one).pc = after_dequeue (consumer s one).msg := by
          rw [consumer_eq_of_fields _ s1 e5 e6, consumer_same_set]
        have hout : ∀ q, (consumer s1 one).pc ≠ ConsumerPc.deq q := by
          intro q
          rw [e4]
          exact after_dequeue_outside _ q
        obtain ⟨a1, a2⟩ := waits_of_outside (consumer s1 one) (fun q hx => absurd hx (hout q))
        have a3 := takes_of_outside (consumer s1 one) hout
        rw [e1b, e3, a1, a2, a3]
        simp only [waits, takes, took, hpc] at hinv
        rcases hprod with ⟨hno, ep⟩ | ⟨c, hcw, ep⟩
        · have ep1 : s1.producer = s.producer := by rw [ep]; simp
          rw [ep1]
          refine ⟨hinv.1, fun hx => ?_⟩
          have hno1 : ∀ c, s.producer.pc ≠ ProducerPc.enq c CallPc.waiting := by
            intro c
            have := hno c
            simpa using this
          rw [blocked_not_waiting _ hno1] at hx
          omega
        · have hcw1 : s.producer.pc = ProducerPc.enq c CallPc.waiting := by simpa using hcw
          have ep1 : s1.producer.pc = ProducerPc.enq c CallPc.woken := by rw [ep]
          simp only [stored, blocked, hcw1, ep1] at hinv ⊢
          exact ⟨hinv.1, fun hx => absurd hx (by omega)⟩
    all_goals
      have := hx.1
      rw [hpc0] at this
      cases this
  · have hq1 : ∀ q, (consumer s one).pc ≠ ConsumerPc.deq q := fun q hx => hq ⟨q, hx⟩
    obtain ⟨f1, _, f3, _, _, _, f7, f8⟩ := consumer_stmt_frame cap s s1 one hcs hq1
    obtain ⟨a1, a2⟩ := waits_of_outside (consumer s1 one) f8
    obtain ⟨b1, b2⟩ := waits_of_outside (consumer s one) (fun q hx => absurd hx (hq1 q))
    have b3 := takes_of_outside (consumer s one) hq1
    have f7b : consumer s1 (!one) = consumer s (!one) := f7 (!one) (by cases one <;> simp)
    rw [f1, f3, f7b, a1, a2]
    rw [b1, b2, b3] at hinv
    refine ⟨fun hx => ?_, hinv.2⟩
    have := hinv.1 hx
    omega

/-- Every step of the process keeps the invariant of the condition variables. -/
theorem cond_inv_step (cap : Nat) (hc : 0 < cap) (s s1 : Prog) (a : Action)
    (hb : BaseInv cap s) (hinv : CondInv cap s) (h : prog_step cap s a = some s1) :
    CondInv cap s1 := by
  obtain ⟨_, hcases⟩ := prog_step_cases cap s s1 a h
  rcases hcases with ⟨pick, _, hp⟩ | ⟨one, pick, _, hcs⟩ | ⟨pick, _, hm⟩ | ⟨t, _, hw⟩ |
    ⟨_, _, rfl⟩
  · exact cond_inv_producer cap hc s s1 pick hb hinv hp
  · exact cond_inv_consumer cap s s1 one hb hinv hcs
  · rcases main_stmt_cases s s1 hm with ⟨_, _, rfl⟩ | ⟨_, _, rfl⟩ | ⟨_, _, rfl⟩ | ⟨_, rfl⟩ |
      ⟨_, rfl⟩
    all_goals exact hinv
  · rcases spurious_wake_cases s s1 t hw with ⟨c, _, hpc, hs1⟩ | ⟨one, _, hpc, hs1⟩
    · unfold CondInv at hinv ⊢
      have e1 : s1.buf = s.buf := by rw [hs1]
      have e2 : s1.consumer_zero = s.consumer_zero := by rw [hs1]
      have e3 : s1.consumer_one = s.consumer_one := by rw [hs1]
      have e4 : s1.producer.pc = ProducerPc.enq c CallPc.woken := by rw [hs1]
      rw [e1, e2, e3]
      simp only [stored, blocked, hpc, e4] at hinv ⊢
      exact ⟨hinv.1, fun hx => absurd hx (by omega)⟩
    · rw [cond_inv_iff cap s one] at hinv
      rw [cond_inv_iff cap s1 one]
      have e1 : s1.buf = s.buf := by rw [hs1]; simp
      have e2 : s1.producer = s.producer := by rw [hs1]; simp
      have e3 : consumer s1 (!one) = consumer s (!one) := by
        rw [hs1, consumer_other_set]
      have e4 : (consumer s1 one).pc = ConsumerPc.deq CallPc.woken := by
        rw [hs1, consumer_same_set]
      rw [e1, e2, e3]
      simp only [waits, takes, took, hpc, e4] at hinv ⊢
      refine ⟨fun hx => ?_, hinv.2⟩
      have := hinv.1 (by omega)
      omega
  · exact hinv

theorem cond_inv_init (cap : Nat) (inp : List Token) : CondInv cap (prog_init cap inp) := by
  simp [CondInv, prog_init, waits, blocked]

/-! ## The quit messages in the program -/

theorem quits_stored_outside (cap : Nat) (s s1 : Prog) (pick : Bool)
    (hp : producer_stmt cap s pick = some s1)
    (hq : ∀ c q, s.producer.pc ≠ ProducerPc.enq c q) :
    quits_stored s.producer.pc = 0 ∧ quits_stored s1.producer.pc = 0 := by
  rcases producer_stmt_cases cap s s1 pick hp with ⟨c, q, hpc, _⟩ | ⟨hpc, _, hs1⟩ |
    ⟨hpc, _, hs1⟩ | ⟨hpc, hs1⟩ | ⟨hpc, hs1⟩ | ⟨hpc, hs1⟩ | ⟨hpc, hs1⟩ | ⟨hpc, hs1⟩ |
    ⟨hpc, hs1⟩ | ⟨hpc, hs1⟩
  · exact absurd hpc (hq c q)
  all_goals
    rw [hpc, hs1]
    refine ⟨rfl, ?_⟩
    first
      | rfl
      | (dsimp only; split <;> rfl)

theorem quit_msg_quit : quit_msg.quit = 1 := rfl

/-- A step of the producer keeps the invariant of the quit messages. -/
theorem quit_inv_producer (cap : Nat) (hc : 0 < cap) (s s1 : Prog) (pick : Bool)
    (hb : BaseInv cap s) (hinv : QuitInv s) (hp : producer_stmt cap s pick = some s1) :
    QuitInv s1 := by
  obtain ⟨ds, k, h1, h2, h3, h4, h5, h6⟩ := hinv
  by_cases hq : ∃ c q, s.producer.pc = ProducerPc.enq c q
  · obtain ⟨c0, q0, hpc0⟩ := hq
    rcases producer_stmt_cases cap s s1 pick hp with ⟨c, q, hpc, he⟩ | hx | hx | hx | hx |
      hx | hx | hx | hx | hx
    · rcases enqueue_stmt_cases cap s s1 c pick q he with ⟨rfl, hm, hs1⟩ | ⟨rfl, hw, hs1⟩ |
        ⟨rfl, hw, hs1⟩ | ⟨rfl, hm, hs1⟩ | ⟨rfl, b, hbq, hs1⟩ | ⟨rfl, hs1⟩ | ⟨rfl, hs1⟩
      · refine ⟨ds, k, by rw [hs1]; exact h1, h2, ?_, by rw [hs1]; exact h4,
          by rw [hs1]; exact h5, by rw [hs1]; exact h6⟩
        rw [hs1]
        rw [hpc] at h3
        cases c <;> exact h3
      · refine ⟨ds, k, by rw [hs1]; exact h1, h2, ?_, by rw [hs1]; exact h4,
          by rw [hs1]; exact h5, by rw [hs1]; exact h6⟩
        rw [hs1]
        rw [hpc] at h3
        cases c <;> exact h3
      · refine ⟨ds, k, by rw [hs1]; exact h1, h2, ?_, by rw [hs1]; exact h4,
          by rw [hs1]; exact h5, by rw [hs1]; exact h6⟩
        rw [hs1]
        rw [hpc] at h3
        cases c <;> exact h3
      · refine ⟨ds, k, by rw [hs1]; exact h1, h2, ?_, by rw [hs1]; exact h4,
          by rw [hs1]; exact h5, by rw [hs1]; exact h6⟩
        rw [hs1]
        rw [hpc] at h3
        cases c <;> exact h3
      · have hcon := (enqueue_ok_contents cap hc s.buf b _ hb.1 hbq).1
        rw [hpc] at h3
        cases c
        · -- a data message
          have hk : k = 0 := by
            have : quits_stored (ProducerPc.enq EnqueueCall.data CallPc.body) = 0 := rfl
            omega
          have hh : holds_quit s.consumer_zero + holds_quit s.consumer_one = 0 := by
            have : quits_stored (ProducerPc.enq EnqueueCall.data CallPc.body) = 0 := rfl
            omega
          refine ⟨ds ++ [enqueue_arg s.producer EnqueueCall.data], 0, ?_, ?_, ?_, ?_,
            by rw [hs1]; exact h5, by rw [hs1]; exact h6⟩
          · rw [hs1]
            show contents b = _
            rw [hcon, h1, hk]
            simp
          · intro d hd
            rcases List.mem_append.1 hd with hd | hd
            · exact h2 d hd
            · rw [List.mem_singleton.1 hd]
              rfl
          · rw [hs1]
            show 0 + (holds_quit s.consumer_zero + holds_quit s.consumer_one) = 0
            omega
          · rw [hs1]
            intro hx
            have hx1 : 0 < holds_quit s.consumer_zero + holds_quit s.consumer_one := hx
            omega
        · -- the first quit message
          have hk : k = 0 := by
            have : quits_stored (ProducerPc.enq EnqueueCall.first_quit CallPc.body) = 0 := rfl
            omega
          have hh : holds_quit s.consumer_zero + holds_quit s.consumer_one = 0 := by
            have : quits_stored (ProducerPc.enq EnqueueCall.first_quit CallPc.body) = 0 := rfl
            omega
          refine ⟨ds, 1, ?_, h2, ?_, ?_, by rw [hs1]; exact h5, by rw [hs1]; exact h6⟩
          · rw [hs1]
            show contents b = _
            rw [hcon, h1, hk]
            simp [enqueue_arg]
          · rw [hs1]
            show 1 + (holds_quit s.consumer_zero + holds_quit s.consumer_one) = 1
            omega
          · rw [hs1]
            intro hx
            have hx1 : 0 < holds_quit s.consumer_zero + holds_quit s.consumer_one := hx
            omega
        · -- the second quit message
          have h3b : k + (holds_quit s.consumer_zero + holds_quit s.consumer_one) = 1 := h3
          refine ⟨ds, k + 1, ?_, h2, ?_, by rw [hs1]; exact h4, by rw [hs1]; exact h5,
            by rw [hs1]; exact h6⟩
          · rw [hs1]
            show contents b = _
            rw [hcon, h1, List.append_assoc]
            congr 1
            simp [enqueue_arg, List.replicate_succ']
          · rw [hs1]
            show k + 1 + (holds_quit s.consumer_zero + holds_quit s.consumer_one) = 2
            omega
      · refine ⟨ds, k, by rw [hs1]; exact h1, h2, ?_, by rw [hs1]; exact h4,
          by rw [hs1]; exact h5, by rw [hs1]; exact h6⟩
        rw [hs1]
        rw [hpc] at h3
        cases c <;> exact h3
      · obtain ⟨_, _, e1, _, e5, _, _, _, hcons⟩ := signal_has_value_proj
          { s with producer := { s.producer with pc := after_enqueue s.producer c } } pick
        rw [← hs1] at e1 e5 hcons
        have e1b : s1.buf = s.buf := e1
        have e4 : s1.producer.pc = after_enqueue s.producer c := by rw [e5]
        have hqs : quits_stored s1.producer.pc = quits_stored s.producer.pc := by
          rw [e4, hpc]
          cases c
          · simp only [after_enqueue]
            split <;> rfl
          · rfl
          · rfl
        have hmsg : s1.consumer_zero.msg = s.consumer_zero.msg ∧
            s1.consumer_one.msg = s.consumer_one.msg ∧
            (msg_fits s1.consumer_zero ↔ msg_fits s.consumer_zero) ∧
            (msg_fits s1.consumer_one ↔ msg_fits s.consumer_one) := by
          rcases hcons with ⟨_, _, z, o⟩ | ⟨w0, z, o⟩ | ⟨w1, o, z⟩
          · have zb : s1.consumer_zero = s.consumer_zero := z
            have ob : s1.consumer_one = s.consumer_one := o
            rw [zb, ob]
            exact ⟨rfl, rfl, Iff.rfl, Iff.rfl⟩
          · have w0b : s.consumer_zero.pc = ConsumerPc.deq CallPc.waiting := w0
            have zb : s1.consumer_zero =
                { s.consumer_zero with pc := ConsumerPc.deq CallPc.woken } := z
            have ob : s1.consumer_one = s.consumer_one := o
            rw [zb, ob]
            refine ⟨rfl, rfl, ?_, Iff.rfl⟩
            simp [msg_fits, w0b]
          · have w1b : s.consumer_one.pc = ConsumerPc.deq CallPc.waiting := w1
            have zb : s1.consumer_zero = s.consumer_zero := z
            have ob : s1.consumer_one =
                { s.consumer_one with pc := ConsumerPc.deq CallPc.woken } := o
            rw [zb, ob]
            refine ⟨rfl, rfl, Iff.rfl, ?_⟩
            simp [msg_fits, w1b]
        obtain ⟨m0, m1, f0, f1⟩ := hmsg
        have hh0 : holds_quit s1.consumer_zero = holds_quit s.consumer_zero := by
          simp only [holds_quit, m0]
        have hh1 : holds_quit s1.consumer_one = holds_quit s.consumer_one := by
          simp only [holds_quit, m1]
        exact ⟨ds, k, by rw [e1b]; exact h1, h2, by rw [hh0, hh1, hqs]; exact h3,
          by rw [hh0, hh1]; exact h4, f0.2 h5, f1.2 h6⟩
    all_goals
      have := hx.1
      rw [hpc0] at this
      cases this
  · have hq1 : ∀ c q, s.producer.pc ≠ ProducerPc.enq c q := fun c q hx => hq ⟨c, q, hx⟩
    obtain ⟨f1, _, f3, f4, _, _, _⟩ := producer_stmt_frame cap s s1 pick hp hq1
    obtain ⟨a1, a2⟩ := quits_stored_outside cap s s1 pick hp hq1
    exact ⟨ds, k, by rw [f1]; exact h1, h2, by rw [f3, f4, a2, ← a1]; exact h3,
      by rw [f3, f4]; exact h4, by rw [f3]; exact h5, by rw [f4]; exact h6⟩

/-- The form of the invariant of the quit messages that names the consumer that moves. -/
theorem quit_inv_iff (s : Prog) (one : Bool) :
    QuitInv s ↔
      ∃ ds k, contents s.buf = ds ++ List.replicate k quit_msg ∧ (∀ d ∈ ds, d.quit = 0) ∧
        k + (holds_quit (consumer s one) + holds_quit (consumer s (!one))) =
          quits_stored s.producer.pc ∧
        (0 < holds_quit (consumer s one) + holds_quit (consumer s (!one)) → ds = []) ∧
        msg_fits (consumer s one) ∧ msg_fits (consumer s (!one)) := by
  cases one
  · exact Iff.rfl
  · unfold QuitInv
    simp only [consumer_true, Bool.not_true, consumer_false]
    constructor
    · rintro ⟨ds, k, h1, h2, h3, h4, h5, h6⟩
      exact ⟨ds, k, h1, h2, by omega, fun hx => h4 (by omega), h6, h5⟩
    · rintro ⟨ds, k, h1, h2, h3, h4, h5, h6⟩
      exact ⟨ds, k, h1, h2, by omega, fun hx => h4 (by omega), h6, h5⟩

/-- A statement of a consumer outside `dequeue` leaves its `msg` alone and keeps it
fitting. -/
theorem consumer_stmt_msg (cap : Nat) (s s1 : Prog) (one : Bool)
    (h : consumer_stmt cap s one = some s1)
    (hq : ∀ q, (consumer s one).pc ≠ ConsumerPc.deq q) (hf : msg_fits (consumer s one)) :
    (consumer s1 one).msg = (consumer s one).msg ∧ msg_fits (consumer s1 one) := by
  rcases consumer_stmt_cases cap s s1 one h with ⟨q, hpc, _⟩ | ⟨hpc, hs1⟩ | ⟨hpc, hs1⟩ |
    ⟨hpc, hs1⟩ | ⟨hpc, hs1⟩ | ⟨hpc, hs1⟩ | ⟨hpc, hs1⟩ | ⟨hpc, hs1⟩
  · exact absurd hpc (hq q)
  all_goals
    simp only [msg_fits, hpc] at hf
    rw [hs1]
    simp only [call_exit_consumer, consumer_same_set, true_and]
  · simpa [msg_fits] using hf
  · simpa [msg_fits] using hf
  · by_cases hsw : sleep_wrapper (consumer s one).msg.consumer_sleep = true
    · rw [if_pos hsw]
      simpa [msg_fits] using hf
    · rw [if_neg hsw]
      simpa [msg_fits] using hf
  · simpa [msg_fits] using hf
  · simpa [msg_fits] using hf
  · have hl : loop_back (consumer s one).msg = ConsumerPc.deq CallPc.lock := by
      simp [loop_back, hf]
    rw [hl]
    by_cases hcd : ((consumer s one).msg.print_code == 2 ||
        (consumer s one).msg.print_code == 3) = true
    · rw [if_pos hcd]
      simpa [msg_fits] using hf
    · rw [if_neg hcd]
      simpa [msg_fits] using hf
  · have hl : loop_back (consumer s one).msg = ConsumerPc.deq CallPc.lock := by
      simp [loop_back, hf]
    rw [hl]
    simpa [msg_fits] using hf

theorem holds_quit_of_fits (c : ConsumerState) (q : CallPc) (hpc : c.pc = ConsumerPc.deq q)
    (hq : q ≠ CallPc.unlock) (hs : q ≠ CallPc.signal) (hf : msg_fits c) : holds_quit c = 0 := by
  have h0 : c.msg.quit = 0 := by
    cases q
    all_goals first
      | exact absurd rfl hq
      | exact absurd rfl hs
      | simpa [msg_fits, hpc] using hf
  simp [holds_quit, h0]

theorem quits_stored_wake (c : EnqueueCall) :
    quits_stored (ProducerPc.enq c CallPc.woken) = quits_stored (ProducerPc.enq c CallPc.waiting) := by
  cases c <;> rfl

/-- A step of a consumer keeps the invariant of the quit messages. -/
theorem quit_inv_consumer (cap : Nat) (s s1 : Prog) (one : Bool)
    (hb : BaseInv cap s) (hinv : QuitInv s) (hcs : consumer_stmt cap s one = some s1) :
    QuitInv s1 := by
  rw [quit_inv_iff s one] at hinv
  rw [quit_inv_iff s1 one]
  obtain ⟨ds, k, h1, h2, h3, h4, h5, h6⟩ := hinv
  by_cases hq : ∃ q, (consumer s one).pc = ConsumerPc.deq q
  · obtain ⟨q0, hpc0⟩ := hq
    rcases consumer_stmt_cases cap s s1 one hcs with ⟨q, hpc, he⟩ | hx | hx | hx | hx |
      hx | hx | hx
    · have same : ∀ q1 : CallPc, q ≠ CallPc.unlock → q ≠ CallPc.signal →
          q1 ≠ CallPc.unlock → q1 ≠ CallPc.signal →
          s1.buf = s.buf → s1.producer = s.producer →
          consumer s1 (!one) = consumer s (!one) →
          (consumer s1 one).pc = ConsumerPc.deq q1 →
          (consumer s1 one).msg = (consumer s one).msg →
          ∃ ds k, contents s1.buf = ds ++ List.replicate k quit_msg ∧ (∀ d ∈ ds, d.quit = 0) ∧
            k + (holds_quit (consumer s1 one) + holds_quit (consumer s1 (!one))) =
              quits_stored s1.producer.pc ∧
            (0 < holds_quit (consumer s1 one) + holds_quit (consumer s1 (!one)) → ds = []) ∧
            msg_fits (consumer s1 one) ∧ msg_fits (consumer s1 (!one)) := by
        intro q1 n1 n2 n3 n4 e1 e2 e3 e4 e5
        have hz := holds_quit_of_fits _ q hpc n1 n2 h5
        have hm0 : (consumer s one).msg.quit = 0 := by
          simp only [holds_quit] at hz
          split at hz
          · assumption
          · cases hz
        have hf1 : msg_fits (consumer s1 one) := by
          have : (consumer s1 one).msg.quit = 0 := by rw [e5]; exact hm0
          cases q1
          all_goals first
            | exact absurd rfl n3
            | exact absurd rfl n4
            | simpa [msg_fits, e4] using this
        have hh : holds_quit (consumer s1 one) = holds_quit (consumer s one) := by
          simp only [holds_quit, e5]
        exact ⟨ds, k, by rw [e1]; exact h1, h2, by rw [hh, e3, e2]; exact h3,
          by rw [hh, e3]; exact h4, hf1, by rw [e3]; exact h6⟩
      rcases dequeue_stmt_cases cap s s1 one q he with ⟨rfl, hm, hs1⟩ | ⟨rfl, hw, hs1⟩ |
        ⟨rfl, hw, hs1⟩ | ⟨rfl, hm, hs1⟩ | ⟨rfl, msg, b, hbq, hs1⟩ | ⟨rfl, hs1⟩ | ⟨rfl, hs1⟩
      · exact same CallPc.test (by simp) (by simp) (by simp) (by simp)
          (by rw [hs1]; simp) (by rw [hs1]; simp)
          (by rw [hs1, consumer_other_set]; rfl) (by rw [hs1, consumer_same_set])
          (by rw [hs1, consumer_same_set])
      · exact same CallPc.waiting (by simp) (by simp) (by simp) (by simp)
          (by rw [hs1]; simp) (by rw [hs1]; simp)
          (by rw [hs1, consumer_other_set]; rfl) (by rw [hs1, consumer_same_set])
          (by rw [hs1, consumer_same_set])
      · exact same CallPc.body (by simp) (by simp) (by simp) (by simp)
          (by rw [hs1]; simp) (by rw [hs1]; simp)
          (by rw [hs1, consumer_other_set]) (by rw [hs1, consumer_same_set])
          (by rw [hs1, consumer_same_set])
      · exact same CallPc.test (by simp) (by simp) (by simp) (by simp)
          (by rw [hs1]; simp) (by rw [hs1]; simp)
          (by rw [hs1, consumer_other_set]; rfl) (by rw [hs1, consumer_same_set])
          (by rw [hs1, consumer_same_set])
      · -- body
        have e1 : s1.buf = b := by rw [hs1]; simp
        have e2 : s1.producer = s.producer := by rw [hs1]; simp
        have e3 : consumer s1 (!one) = consumer s (!one) := by
          rw [hs1, consumer_other_set]; rfl
        have e4 : (consumer s1 one).pc = ConsumerPc.deq CallPc.unlock := by
          rw [hs1, consumer_same_set]
        have e5 : (consumer s1 one).msg = msg := by rw [hs1, consumer_same_set]
        have hcon := (dequeue_ok_contents cap s.buf b msg hb.1 hbq).1
        have hz := holds_quit_of_fits _ CallPc.body hpc (by simp) (by simp) h5
        have hf1 : msg_fits (consumer s1 one) := by simp [msg_fits, e4]
        rw [hz] at h3 h4
        rw [h1] at hcon
        cases ds with
        | cons d ds =>
          simp only [List.cons_append, List.cons.injEq] at hcon
          have hd0 : msg.quit = 0 := by
            rw [← hcon.1]
            exact h2 d (List.mem_cons_self _ _)
          have hother : holds_quit (consumer s (!one)) = 0 := by
            cases hx : holds_quit (consumer s (!one)) with
            | zero => rfl
            | succ n =>
              have := h4 (by omega)
              cases this
          have hh : holds_quit (consumer s1 one) = 0 := by simp [holds_quit, e5, hd0]
          refine ⟨ds, k, by rw [e1]; exact hcon.2.symm,
            fun x hx => h2 x (List.mem_cons_of_mem _ hx), by rw [hh, e3, e2]; exact h3, ?_,
            hf1, by rw [e3]; exact h6⟩
          rw [hh, e3, hother]
          intro hx
          omega
        | nil =>
          cases k with
          | zero => simp at hcon
          | succ k =>
            simp only [List.nil_append, List.replicate_succ, List.cons.injEq] at hcon
            have hd1 : msg.quit ≠ 0 := by
              rw [← hcon.1]
              decide
            have hh : holds_quit (consumer s1 one) = 1 := by simp [holds_quit, e5, hd1]
            refine ⟨[], k, by rw [e1, ← hcon.2]; simp, by simp, by rw [hh, e3, e2]; omega,
              fun _ => rfl, hf1, by rw [e3]; exact h6⟩
      · -- unlock
        have e1 : s1.buf = s.buf := by rw [hs1]; simp
        have e2 : s1.producer = s.producer := by rw [hs1]; simp
        have e3 : consumer s1 (!one) = consumer s (!one) := by
          rw [hs1, consumer_other_set]; rfl
        have e4 : (consumer s1 one).pc = ConsumerPc.deq CallPc.signal := by
          rw [hs1, consumer_same_set]
        have e5 : (consumer s1 one).msg = (consumer s one).msg := by
          rw [hs1, consumer_same_set]
        have hh : holds_quit (consumer s1 one) = holds_quit (consumer s one) := by
          simp only [holds_quit, e5]
        exact ⟨ds, k, by rw [e1]; exact h1, h2, by rw [hh, e3, e2]; exact h3,
          by rw [hh, e3]; exact h4, by simp [msg_fits, e4], by rw [e3]; exact h6⟩
      · -- signal
        obtain ⟨_, _, e1, _, e5, e6, _, _, _, hprod⟩ := signal_has_space_proj
          (set_consumer s one { consumer s one with pc := after_dequeue (consumer s one).msg })
        rw [← hs1] at e1 e5 e6 hprod
        have e1b : s1.buf = s.buf := by rw [e1]; simp
        have e3 : consumer s1 (!one) = consumer s (!one) := by
          rw [consumer_eq_of_fields _ s1 e5 e6, consumer_other_set]
        have e4 : (consumer s1 one).pc = after_dequeue (consumer s one).msg := by
          rw [consumer_eq_of_fields _ s1 e5 e6, consumer_same_set]
        have e7 : (consumer s1 one).msg = (consumer s one).msg := by
          rw [consumer_eq_of_fields _ s1 e5 e6, consumer_same_set]
        have hh : holds_quit (consumer s1 one) = holds_quit (consumer s one) := by
          simp only [holds_quit, e7]
        have hqs : quits_stored s1.producer.pc = quits_stored s.producer.pc := by
          rcases hprod with ⟨_, ep⟩ | ⟨c, hcw, ep⟩
          · rw [ep]; simp
          · have hcw1 : s.producer.pc = ProducerPc.enq c CallPc.waiting := by simpa using hcw
            rw [ep, hcw1]
            exact quits_stored_wake c
        have hf1 : msg_fits (consumer s1 one) := by
          by_cases hq0 : (consumer s one).msg.quit = 0
          · by_cases hs0 : (consumer s one).msg.consumer_sleep = 0
            · have hp1 : (consumer s1 one).pc = ConsumerPc.add := by
                rw [e4]; simp [after_dequeue, hq0, hs0]
              simp [msg_fits, hp1, e7, hq0]
            · have hp1 : (consumer s1 one).pc = ConsumerPc.nap := by
                rw [e4]; simp [after_dequeue, hq0, hs0]
              simp [msg_fits, hp1, e7, hq0]
          · have hp1 : (consumer s1 one).pc = ConsumerPc.final_line := by
              rw [e4]; simp [after_dequeue, hq0]
            simp [msg_fits, hp1, e7, hq0]
        exact ⟨ds, k, by rw [e1b]; exact h1, h2, by rw [hh, e3, hqs]; exact h3,
          by rw [hh, e3]; exact h4, hf1, by rw [e3]; exact h6⟩
    all_goals
      have := hx.1
      rw [hpc0] at this
      cases this
  · have hq1 : ∀ q, (consumer s one).pc ≠ ConsumerPc.deq q := fun q hx => hq ⟨q, hx⟩
    obtain ⟨f1, _, f3, _, _, _, f7, _⟩ := consumer_stmt_frame cap s s1 one hcs hq1
    obtain ⟨m1, m2⟩ := consumer_stmt_msg cap s s1 one hcs hq1 h5
    have f7b : consumer s1 (!one) = consumer s (!one) := f7 (!one) (by cases one <;> simp)
    have hh : holds_quit (consumer s1 one) = holds_quit (consumer s one) := by
      simp only [holds_quit, m1]
    exact ⟨ds, k, by rw [f1]; exact h1, h2, by rw [hh, f7b, f3]; exact h3,
      by rw [hh, f7b]; exact h4, m2, by rw [f7b]; exact h6⟩

/-- Every step of the process keeps the invariant of the quit messages. -/
theorem quit_inv_step (cap : Nat) (hc : 0 < cap) (s s1 : Prog) (a : Action)
    (hb : BaseInv cap s) (hinv : QuitInv s) (h : prog_step cap s a = some s1) :
    QuitInv s1 := by
  obtain ⟨_, hcases⟩ := prog_step_cases cap s s1 a h
  rcases hcases with ⟨pick, _, hp⟩ | ⟨one, pick, _, hcs⟩ | ⟨pick, _, hm⟩ | ⟨t, _, hw⟩ |
    ⟨_, _, rfl⟩
  · exact quit_inv_producer cap hc s s1 pick hb hinv hp
  · exact quit_inv_consumer cap s s1 one hb hinv hcs
  · rcases main_stmt_cases s s1 hm with ⟨_, _, rfl⟩ | ⟨_, _, rfl⟩ | ⟨_, _, rfl⟩ | ⟨_, rfl⟩ |
      ⟨_, rfl⟩
    all_goals exact hinv
  · rcases spurious_wake_cases s s1 t hw with ⟨c, _, hpc, hs1⟩ | ⟨one, _, hpc, hs1⟩
    · obtain ⟨ds, k, h1, h2, h3, h4, h5, h6⟩ := hinv
      refine ⟨ds, k, by rw [hs1]; exact h1, h2, ?_, by rw [hs1]; exact h4,
        by rw [hs1]; exact h5, by rw [hs1]; exact h6⟩
      rw [hs1]
      rw [hpc] at h3
      rw [← quits_stored_wake c] at h3
      exact h3
    · rw [quit_inv_iff s one] at hinv
      rw [quit_inv_iff s1 one]
      obtain ⟨ds, k, h1, h2, h3, h4, h5, h6⟩ := hinv
      have e1 : s1.buf = s.buf := by rw [hs1]; simp
      have e2 : s1.producer = s.producer := by rw [hs1]; simp
      have e3 : consumer s1 (!one) = consumer s (!one) := by
        rw [hs1, consumer_other_set]
      have e4 : (consumer s1 one).pc = ConsumerPc.deq CallPc.woken := by
        rw [hs1, consumer_same_set]
      have e5 : (consumer s1 one).msg = (consumer s one).msg := by
        rw [hs1, consumer_same_set]
      have hh : holds_quit (consumer s1 one) = holds_quit (consumer s one) := by
        simp only [holds_quit, e5]
      have hf : msg_fits (consumer s1 one) := by
        simp only [msg_fits, hpc] at h5
        simp only [msg_fits, e4, e5]
        exact h5
      exact ⟨ds, k, by rw [e1]; exact h1, h2, by rw [hh, e3, e2]; exact h3,
        by rw [hh, e3]; exact h4, hf, by rw [e3]; exact h6⟩
  · exact hinv

theorem quit_inv_init (cap : Nat) (inp : List Token) : QuitInv (prog_init cap inp) := by
  refine ⟨[], 0, ?_, by simp, rfl, fun _ => rfl, ?_, ?_⟩
  · simp [prog_init, contents_init]
  · simp [msg_fits, prog_init, zero_msg]
  · simp [msg_fits, prog_init, zero_msg]

/-! ## Termination of the process -/

/-- A step that is not a step of `main` and does not end the process keeps the
invariant of termination when it leaves the returned threads alone. -/
theorem exit_inv_of (s s1 : Prog) (hinv : ExitInv s)
    (hh : s1.halted = s.halted) (hm : s1.main = s.main)
    (he : s.exit_code.isSome = true → s1.exit_code.isSome = true)
    (he0 : s1.exit_code = some 0 → s.exit_code = some 0)
    (hp : s1.producer.pc = ProducerPc.exiting →
      s.producer.pc = ProducerPc.exiting ∨ s1.exit_code.isSome = true)
    (hc0 : s1.consumer_zero.pc = ConsumerPc.exiting →
      s.consumer_zero.pc = ConsumerPc.exiting ∨ s1.exit_code.isSome = true)
    (hc1 : s1.consumer_one.pc = ConsumerPc.exiting →
      s.consumer_one.pc = ConsumerPc.exiting ∨ s1.exit_code.isSome = true)
    (hpd : s.producer.pc = ProducerPc.done → s1.producer.pc = ProducerPc.done)
    (hcd0 : s.consumer_zero.pc = ConsumerPc.done → s1.consumer_zero = s.consumer_zero)
    (hcd1 : s.consumer_one.pc = ConsumerPc.done → s1.consumer_one = s.consumer_one)
    (hout : ∀ o ∈ s.output, o ∈ s1.output) : ExitInv s1 := by
  obtain ⟨h1, h2, h3, h4, h5, h6, h7, h8, h9, h10⟩ := hinv
  refine ⟨?_, ?_, ?_, ?_, ?_, ?_, ?_, ?_, ?_, ?_⟩
  · rw [hh]
    exact fun hx => he (h1 hx)
  · intro hx
    rcases hp hx with hy | hy
    · exact he (h2 hy)
    · exact hy
  · intro hx
    rcases hc0 hx with hy | hy
    · exact he (h3 hy)
    · exact hy
  · intro hx
    rcases hc1 hx with hy | hy
    · exact he (h4 hy)
    · exact hy
  · rw [hm]
    exact fun hx => he (h5 hx)
  · rw [hm]
    exact fun hx => h6 (he0 hx)
  · rw [hm]
    intro hx
    rw [hcd0 (h7 hx)]
    exact h7 hx
  · rw [hm]
    intro hx
    rw [hcd1 (h8 hx)]
    exact h8 hx
  · rw [hm]
    exact fun hx => hpd (h9 hx)
  · rw [hm]
    intro hx
    rw [hcd0 (h7 (by omega)), hcd1 (h8 (by omega))]
    exact hout _ (h10 hx)

theorem call_exit_isSome (s : Prog) (k : Int) : (call_exit s k).exit_code.isSome = true := by
  unfold call_exit
  dsimp only
  split
  · assumption
  · rfl

theorem call_exit_zero (s : Prog) (k : Int) (hk : k ≠ 0)
    (h : (call_exit s k).exit_code = some 0) : s.exit_code = some 0 := by
  unfold call_exit at h
  dsimp only at h
  split at h
  · exact h
  · exact absurd (Option.some.inj h) hk

/-- A step of the producer keeps the invariant of termination. -/
theorem exit_inv_producer (cap : Nat) (s s1 : Prog) (pick : Bool)
    (hinv : ExitInv s) (hp : producer_stmt cap s pick = some s1) : ExitInv s1 := by
  rcases producer_stmt_cases cap s s1 pick hp with ⟨c, q, hpc, he⟩ | ⟨hpc, _, hs1⟩ |
    ⟨hpc, _, hs1⟩ | ⟨hpc, hs1⟩ | ⟨hpc, hs1⟩ | ⟨hpc, hs1⟩ | ⟨hpc, hs1⟩ | ⟨hpc, hs1⟩ |
    ⟨hpc, hs1⟩ | ⟨hpc, hs1⟩
  · rcases enqueue_stmt_cases cap s s1 c pick q he with ⟨rfl, hm, hs1⟩ | ⟨rfl, hw, hs1⟩ |
      ⟨rfl, hw, hs1⟩ | ⟨rfl, hm, hs1⟩ | ⟨rfl, b, hbq, hs1⟩ | ⟨rfl, hs1⟩ | ⟨rfl, hs1⟩
    · subst hs1
      apply exit_inv_of s _ hinv
      all_goals simp +contextual [hpc]
    · subst hs1
      apply exit_inv_of s _ hinv
      all_goals simp +contextual [hpc]
    · subst hs1
      apply exit_inv_of s _ hinv
      all_goals simp +contextual [hpc]
    · subst hs1
      apply exit_inv_of s _ hinv
      all_goals simp +contextual [hpc]
    · subst hs1
      apply exit_inv_of s _ hinv
      all_goals simp +contextual [hpc]
    · subst hs1
      apply exit_inv_of s _ hinv
      all_goals simp +contextual [hpc]
    · obtain ⟨_, e2, _, _, e5, e6, e7, e8, hcons⟩ := signal_has_value_proj
        { s with producer := { s.producer with pc := after_enqueue s.producer c } } pick
      rw [← hs1] at e2 e5 e6 e7 e8 hcons
      have e4 : s1.producer.pc = after_enqueue s.producer c := by rw [e5]
      have hne : s1.producer.pc ≠ ProducerPc.exiting := by
        rw [e4]
        cases c
        · simp only [after_enqueue]
          split <;> simp
        · simp [after_enqueue]
        · simp [after_enqueue]
      have hz : (s1.consumer_zero.pc = ConsumerPc.exiting →
            s.consumer_zero.pc = ConsumerPc.exiting) ∧
          (s.consumer_zero.pc = ConsumerPc.done → s1.consumer_zero = s.consumer_zero) ∧
          (s1.consumer_one.pc = ConsumerPc.exiting →
            s.consumer_one.pc = ConsumerPc.exiting) ∧
          (s.consumer_one.pc = ConsumerPc.done → s1.consumer_one = s.consumer_one) := by
        rcases hcons with ⟨_, _, z, o⟩ | ⟨w0, z, o⟩ | ⟨w1, o, z⟩
        · have zb : s1.consumer_zero = s.consumer_zero := z
          have ob : s1.consumer_one = s.consumer_one := o
          rw [zb, ob]
          exact ⟨id, fun _ => rfl, id, fun _ => rfl⟩
        · have w0b : s.consumer_zero.pc = ConsumerPc.deq CallPc.waiting := w0
          have zb : s1.consumer_zero =
              { s.consumer_zero with pc := ConsumerPc.deq CallPc.woken } := z
          have ob : s1.consumer_one = s.consumer_one := o
          rw [zb, ob]
          refine ⟨fun hx => (nomatch hx), fun hx => ?_, id, fun _ => rfl⟩
          rw [w0b] at hx
          cases hx
        · have w1b : s.consumer_one.pc = ConsumerPc.deq CallPc.waiting := w1
          have zb : s1.consumer_zero = s.consumer_zero := z
          have ob : s1.consumer_one =
              { s.consumer_one with pc := ConsumerPc.deq CallPc.woken } := o
          rw [zb, ob]
          refine ⟨id, fun _ => rfl, fun hx => (nomatch hx), fun hx => ?_⟩
          rw [w1b] at hx
          cases hx
      have e7b : s1.exit_code = s.exit_code := e7
      apply exit_inv_of s s1 hinv e8 e6
      · rw [e7b]; exact id
      · rw [e7b]; exact id
      · exact fun hx => absurd hx hne
      · exact fun hx => Or.inl (hz.1 hx)
      · exact fun hx => Or.inl (hz.2.2.1 hx)
      · intro hx
        rw [hpc] at hx
        cases hx
      · exact hz.2.1
      · exact hz.2.2.2
      · rw [e2]
        exact fun o ho => ho
  all_goals
    subst hs1
    apply exit_inv_of s _ hinv
    all_goals simp +contextual [hpc, call_exit]
    all_goals split <;> simp_all

/-- A step of a consumer keeps the invariant of termination. -/
theorem exit_inv_consumer (cap : Nat) (s s1 : Prog) (one : Bool)
    (hinv : ExitInv s) (hcs : consumer_stmt cap s one = some s1) : ExitInv s1 := by
  rcases consumer_stmt_cases cap s s1 one hcs with ⟨q, hpc, he⟩ | ⟨hpc, hs1⟩ | ⟨hpc, hs1⟩ |
    ⟨hpc, hs1⟩ | ⟨hpc, hs1⟩ | ⟨hpc, hs1⟩ | ⟨hpc, hs1⟩ | ⟨hpc, hs1⟩
  · rcases dequeue_stmt_cases cap s s1 one q he with ⟨rfl, hm, hs1⟩ | ⟨rfl, hw, hs1⟩ |
      ⟨rfl, hw, hs1⟩ | ⟨rfl, hm, hs1⟩ | ⟨rfl, msg, b, hbq, hs1⟩ | ⟨rfl, hs1⟩ | ⟨rfl, hs1⟩
    · subst hs1
      cases one
      all_goals
        simp only [consumer_false, consumer_true] at hpc
        apply exit_inv_of s _ hinv
        all_goals simp +contextual [hpc]
    · subst hs1
      cases one
      all_goals
        simp only [consumer_false, consumer_true] at hpc
        apply exit_inv_of s _ hinv
        all_goals simp +contextual [hpc]
    · subst hs1
      cases one
      all_goals
        simp only [consumer_false, consumer_true] at hpc
        apply exit_inv_of s _ hinv
        all_goals simp +contextual [hpc]
    · subst hs1
      cases one
      all_goals
        simp only [consumer_false, consumer_true] at hpc
        apply exit_inv_of s _ hinv
        all_goals simp +contextual [hpc]
    · subst hs1
      cases one
      all_goals
        simp only [consumer_false, consumer_true] at hpc
        apply exit_inv_of s _ hinv
        all_goals simp +contextual [hpc]
    · subst hs1
      cases one
      all_goals
        simp only [consumer_false, consumer_true] at hpc
        apply exit_inv_of s _ hinv
        all_goals simp +contextual [hpc]
    · obtain ⟨_, e2, _, _, e5, e6, e7, e8, e9, hprod⟩ := signal_has_space_proj
        (set_consumer s one { consumer s one with pc := after_dequeue (consumer s one).msg })
      rw [← hs1] at e2 e5 e6 e7 e8 e9 hprod
      have hpr : (s1.producer.pc = ProducerPc.exiting → s.producer.pc = ProducerPc.exiting) ∧
          (s.producer.pc = ProducerPc.done → s1.producer.pc = ProducerPc.done) := by
        rcases hprod with ⟨_, ep⟩ | ⟨c, hcw, ep⟩
        · have ep1 : s1.producer = s.producer := by rw [ep]; simp
          rw [ep1]
          exact ⟨id, id⟩
        · have hcw1 : s.producer.pc = ProducerPc.enq c CallPc.waiting := by simpa using hcw
          rw [ep, hcw1]
          exact ⟨fun hx => (nomatch hx), fun hx => (nomatch hx)⟩
      have hne : ∀ m : message_t, after_dequeue m ≠ ConsumerPc.exiting := by
        intro m
        simp only [after_dequeue]
        split
        · simp
        · split <;> simp
      apply exit_inv_of s s1 hinv
      · rw [e9]; simp
      · rw [e7]; simp
      · rw [e8]; simp
      · rw [e8]; simp
      · exact fun hx => Or.inl (hpr.1 hx)
      · rw [e5]
        cases one
        · intro hx
          exact absurd hx (hne _)
        · exact fun hx => Or.inl hx
      · rw [e6]
        cases one
        · exact fun hx => Or.inl hx
        · intro hx
          exact absurd hx (hne _)
      · exact hpr.2
      · rw [e5]
        cases one
        · intro hx
          have hpc1 : s.consumer_zero.pc = ConsumerPc.deq CallPc.signal := hpc
          rw [hpc1] at hx
          cases hx
        · exact fun _ => rfl
      · rw [e6]
        cases one
        · exact fun _ => rfl
        · intro hx
          have hpc1 : s.consumer_one.pc = ConsumerPc.deq CallPc.signal := hpc
          rw [hpc1] at hx
          cases hx
      · rw [e2]
        simp
  all_goals
    subst hs1
    cases one
    all_goals
      simp only [consumer_false, consumer_true] at hpc
      apply exit_inv_of s _ hinv
      all_goals simp +contextual [hpc, call_exit, loop_back]
      all_goals try (split <;> simp_all)
      all_goals try (split <;> simp_all)

/-- Every step of the process keeps the invariant of termination. -/
theorem exit_inv_step (cap : Nat) (s s1 : Prog) (a : Action)
    (hinv : ExitInv s) (h : prog_step cap s a = some s1) : ExitInv s1 := by
  obtain ⟨hnh, hcases⟩ := prog_step_cases cap s s1 a h
  rcases hcases with ⟨pick, _, hp⟩ | ⟨one, pick, _, hcs⟩ | ⟨pick, _, hm⟩ | ⟨t, _, hw⟩ |
    ⟨_, hsome, rfl⟩
  · exact exit_inv_producer cap s s1 pick hinv hp
  · exact exit_inv_consumer cap s s1 one hinv hcs
  · obtain ⟨h1, h2, h3, h4, h5, h6, h7, h8, h9, h10⟩ := hinv
    rcases main_stmt_cases s s1 hm with ⟨hpc, hd, rfl⟩ | ⟨hpc, hd, rfl⟩ | ⟨hpc, hd, rfl⟩ |
      ⟨hpc, rfl⟩ | ⟨hpc, rfl⟩
    · rw [hpc] at h6
      refine ⟨h1, h2, h3, h4, fun hx => (nomatch hx), fun hx => (nomatch (h6 hx)), fun _ => hd,
        fun hx => ?_, fun hx => ?_, fun hx => ?_⟩
      all_goals simp [main_rank] at hx
    · rw [hpc] at h6 h7
      refine ⟨h1, h2, h3, h4, fun hx => (nomatch hx), fun hx => (nomatch (h6 hx)),
        fun _ => h7 (by simp [main_rank]), fun _ => hd, fun hx => ?_, fun hx => ?_⟩
      all_goals simp [main_rank] at hx
    · rw [hpc] at h6 h7 h8
      refine ⟨h1, h2, h3, h4, fun hx => (nomatch hx), fun hx => (nomatch (h6 hx)),
        fun _ => h7 (by simp [main_rank]), fun _ => h8 (by simp [main_rank]), fun _ => hd,
        fun hx => ?_⟩
      all_goals simp [main_rank] at hx
    · rw [hpc] at h6 h7 h8 h9
      refine ⟨h1, h2, h3, h4, fun hx => (nomatch hx), fun hx => (nomatch (h6 hx)),
        fun _ => h7 (by simp [main_rank]), fun _ => h8 (by simp [main_rank]),
        fun _ => h9 (by simp [main_rank]), fun _ => ?_⟩
      exact List.mem_append_right _ (List.mem_singleton.2 rfl)
    · rw [hpc] at h7 h8 h9 h10
      have hs := call_exit_isSome { s with main := MainPc.exiting } 0
      refine ⟨fun _ => hs, fun _ => hs, fun _ => hs, fun _ => hs, fun _ => hs, fun _ => rfl,
        fun _ => h7 (by simp [main_rank]), fun _ => h8 (by simp [main_rank]),
        fun _ => h9 (by simp [main_rank]), fun _ => h10 (by simp [main_rank])⟩
  · rcases spurious_wake_cases s s1 t hw with ⟨c, _, hpc, hs1⟩ | ⟨one, _, hpc, hs1⟩
    · subst hs1
      apply exit_inv_of s _ hinv
      all_goals simp +contextual [hpc]
    · subst hs1
      cases one
      all_goals
        simp only [consumer_false, consumer_true] at hpc
        apply exit_inv_of s _ hinv
        all_goals simp +contextual [hpc]
  · obtain ⟨h1, h2, h3, h4, h5, h6, h7, h8, h9, h10⟩ := hinv
    exact ⟨fun _ => hsome, h2, h3, h4, h5, h6, h7, h8, h9, h10⟩

theorem exit_inv_init (cap : Nat) (inp : List Token) : ExitInv (prog_init cap inp) := by
  simp [ExitInv, prog_init, main_rank]

/-! ## No reachable state is stuck -/

theorem prog_step_run (cap : Nat) (s : Prog) (hh : s.halted = false) :
    (∀ pick, prog_step cap s (Action.run Tid.producer pick) = producer_stmt cap s pick) ∧
    (∀ one pick, prog_step cap s (Action.run (consumer_tid one) pick) =
      consumer_stmt cap s one) ∧
    (∀ pick, prog_step cap s (Action.run Tid.main pick) = main_stmt s) := by
  refine ⟨fun pick => ?_, fun one pick => ?_, fun pick => ?_⟩
  · simp [prog_step, hh]
  · cases one <;> simp [prog_step, hh, consumer_tid]
  · simp [prog_step, hh]

theorem critical_pc_isSome (q : CallPc) (h : (critical_pc q).isSome = true) :
    q = CallPc.test ∨ q = CallPc.body ∨ q = CallPc.unlock := by
  cases q <;> simp [critical_pc, holds_mutex] at h ⊢

/-- The thread that owns the mutex can make a step. -/
theorem owner_can_step (cap : Nat) (hc : 0 < cap) (s : Prog) (hb : BaseInv cap s) (t : Tid)
    (hm : s.mutex = some t) :
    (∃ s1, producer_stmt cap s false = some s1) ∨
    ∃ one s1, consumer_stmt cap s one = some s1 := by
  obtain ⟨h1, h2, h3, h4, h5, h6⟩ := hb
  cases t with
  | main => exact absurd hm h4
  | producer =>
    left
    have hv := h2.1 hm
    unfold producer_view at hv h5
    cases hpc : s.producer.pc with
    | enq c q =>
      rw [hpc] at hv h5
      simp only at hv h5
      unfold producer_stmt
      rw [hpc]
      simp only
      rcases critical_pc_isSome q hv with rfl | rfl | rfl
      · simp only [enqueue_stmt]
        split <;> exact ⟨_, rfl⟩
      · obtain ⟨b, hbq, _⟩ := enqueue_spec cap s.buf (enqueue_arg s.producer c) hc h1 (h5 rfl)
        simp only [enqueue_stmt, hbq]
        exact ⟨_, rfl⟩
      · simp only [enqueue_stmt]
        exact ⟨_, rfl⟩
    | _ => rw [hpc] at hv; simp at hv
  | consumer_zero =>
    right
    refine ⟨false, ?_⟩
    have hv := (h3 false).1 hm
    have h6f := h6 false
    unfold consumer_view at hv h6f
    cases hpc : (consumer s false).pc with
    | deq q =>
      rw [hpc] at hv h6f
      simp only at hv h6f
      unfold consumer_stmt
      rw [hpc]
      simp only
      rcases critical_pc_isSome q hv with rfl | rfl | rfl
      · simp only [dequeue_stmt]
        split <;> exact ⟨_, rfl⟩
      · obtain ⟨m, b, hbq, _⟩ := dequeue_spec cap s.buf h1 (h6f rfl)
        simp only [dequeue_stmt, hbq]
        exact ⟨_, rfl⟩
      · simp only [dequeue_stmt]
        exact ⟨_, rfl⟩
    | _ => rw [hpc] at hv; simp at hv
  | consumer_one =>
    right
    refine ⟨true, ?_⟩
    have hv := (h3 true).1 hm
    have h6f := h6 true
    unfold consumer_view at hv h6f
    cases hpc : (consumer s true).pc with
    | deq q =>
      rw [hpc] at hv h6f
      simp only at hv h6f
      unfold consumer_stmt
      rw [hpc]
      simp only
      rcases critical_pc_isSome q hv with rfl | rfl | rfl
      · simp only [dequeue_stmt]
        split <;> exact ⟨_, rfl⟩
      · obtain ⟨m, b, hbq, _⟩ := dequeue_spec cap s.buf h1 (h6f rfl)
        simp only [dequeue_stmt, hbq]
        exact ⟨_, rfl⟩
      · simp only [dequeue_stmt]
        exact ⟨_, rfl⟩
    | _ => rw [hpc] at hv; simp at hv

/-- With the mutex free, the producer can make a step unless it has returned, is inside
`exit`, or is blocked in `pthread_cond_wait`. -/
theorem producer_can_step (cap : Nat) (s : Prog) (hb : BaseInv cap s) (hm : s.mutex = none) :
    (∃ s1, producer_stmt cap s false = some s1) ∨ s.producer.pc = ProducerPc.done ∨
    s.producer.pc = ProducerPc.exiting ∨ ∃ c, s.producer.pc = ProducerPc.enq c CallPc.waiting := by
  have hv := (views_of_free cap s hb hm).1
  unfold producer_view at hv
  cases hpc : s.producer.pc with
  | enq c q =>
    rw [hpc] at hv
    simp only at hv
    cases q with
    | waiting => exact Or.inr (Or.inr (Or.inr ⟨c, rfl⟩))
    | lock =>
      left
      unfold producer_stmt
      rw [hpc]
      simp only [enqueue_stmt, hm, if_true]
      exact ⟨_, rfl⟩
    | woken =>
      left
      unfold producer_stmt
      rw [hpc]
      simp only [enqueue_stmt, hm, if_true]
      exact ⟨_, rfl⟩
    | signal =>
      left
      unfold producer_stmt
      rw [hpc]
      simp only [enqueue_stmt]
      exact ⟨_, rfl⟩
    | test => simp [critical_pc, holds_mutex] at hv
    | body => simp [critical_pc, holds_mutex] at hv
    | unlock => simp [critical_pc, holds_mutex] at hv
  | done => exact Or.inr (Or.inl rfl)
  | exiting => exact Or.inr (Or.inr (Or.inl rfl))
  | scan =>
    left
    unfold producer_stmt
    rw [hpc]
    simp only
    split <;> exact ⟨_, rfl⟩
  | nap => left; unfold producer_stmt; rw [hpc]; exact ⟨_, rfl⟩
  | nap_error => left; unfold producer_stmt; rw [hpc]; exact ⟨_, rfl⟩
  | report => left; unfold producer_stmt; rw [hpc]; exact ⟨_, rfl⟩
  | incr => left; unfold producer_stmt; rw [hpc]; exact ⟨_, rfl⟩
  | scan_end => left; unfold producer_stmt; rw [hpc]; exact ⟨_, rfl⟩
  | input_error => left; unfold producer_stmt; rw [hpc]; exact ⟨_, rfl⟩
  | exit_call => left; unfold producer_stmt; rw [hpc]; exact ⟨_, rfl⟩

/-- With the mutex free, a consumer can make a step unless it has returned, is inside
`exit`, or is blocked in `pthread_cond_wait`. -/
theorem consumer_can_step (cap : Nat) (s : Prog) (one : Bool) (hb : BaseInv cap s)
    (hm : s.mutex = none) :
    (∃ s1, consumer_stmt cap s one = some s1) ∨ (consumer s one).pc = ConsumerPc.done ∨
    (consumer s one).pc = ConsumerPc.exiting ∨
    (consumer s one).pc = ConsumerPc.deq CallPc.waiting := by
  have hv := (views_of_free cap s hb hm).2 one
  unfold consumer_view at hv
  cases hpc : (consumer s one).pc with
  | deq q =>
    rw [hpc] at hv
    simp only at hv
    cases q with
    | waiting => exact Or.inr (Or.inr (Or.inr rfl))
    | lock =>
      left
      unfold consumer_stmt
      rw [hpc]
      simp only [dequeue_stmt, hm, if_true]
      exact ⟨_, rfl⟩
    | woken =>
      left
      unfold consumer_stmt
      rw [hpc]
      simp only [dequeue_stmt, hm, if_true]
      exact ⟨_, rfl⟩
    | signal =>
      left
      unfold consumer_stmt
      rw [hpc]
      simp only [dequeue_stmt]
      exact ⟨_, rfl⟩
    | test => simp [critical_pc, holds_mutex] at hv
    | body => simp [critical_pc, holds_mutex] at hv
    | unlock => simp [critical_pc, holds_mutex] at hv
  | done => exact Or.inr (Or.inl rfl)
  | exiting => exact Or.inr (Or.inr (Or.inl rfl))
  | final_line => left; unfold consumer_stmt; rw [hpc]; exact ⟨_, rfl⟩
  | publish => left; unfold consumer_stmt; rw [hpc]; exact ⟨_, rfl⟩
  | nap => left; unfold consumer_stmt; rw [hpc]; exact ⟨_, rfl⟩
  | nap_error => left; unfold consumer_stmt; rw [hpc]; exact ⟨_, rfl⟩
  | exit_call => left; unfold consumer_stmt; rw [hpc]; exact ⟨_, rfl⟩
  | add => left; unfold consumer_stmt; rw [hpc]; exact ⟨_, rfl⟩
  | report => left; unfold consumer_stmt; rw [hpc]; exact ⟨_, rfl⟩

theorem holds_quit_le (c : ConsumerState) : holds_quit c ≤ 1 := by
  unfold holds_quit
  split <;> omega

theorem quits_stored_waiting (c : EnqueueCall) :
    quits_stored (ProducerPc.enq c CallPc.waiting) ≤ 1 := by
  cases c <;> simp [quits_stored]

/-- No state that the invariants admit is stuck before the process has ended: a thread
can execute its next statement, or `exit` has been called and the process can end.
Spurious wake-ups are not needed. -/
theorem prog_can_step (cap : Nat) (hc : 0 < cap) (s : Prog) (hb : BaseInv cap s)
    (hcnd : CondInv cap s) (hq : QuitInv s) (he : ExitInv s) (hh : s.halted = false) :
    (∃ t pick s1, prog_step cap s (Action.run t pick) = some s1) ∨
    ∃ s1, prog_step cap s Action.halt = some s1 := by
  obtain ⟨hrp, hrc, hrm⟩ := prog_step_run cap s hh
  by_cases hex : s.exit_code.isSome = true
  · right
    exact ⟨{ s with halted := true }, by simp [prog_step, hh, hex]⟩
  left
  obtain ⟨_, x2, x3, x4, x5, _, _, _, _, _⟩ := he
  cases hm : s.mutex with
  | some t =>
    rcases owner_can_step cap hc s hb t hm with ⟨s1, h1⟩ | ⟨one, s1, h1⟩
    · exact ⟨Tid.producer, false, s1, by rw [hrp]; exact h1⟩
    · exact ⟨consumer_tid one, false, s1, by rw [hrc]; exact h1⟩
  | none =>
    rcases producer_can_step cap s hb hm with ⟨s1, h1⟩ | hp
    · exact ⟨Tid.producer, false, s1, by rw [hrp]; exact h1⟩
    rcases consumer_can_step cap s false hb hm with ⟨s1, h1⟩ | hc0
    · exact ⟨consumer_tid false, false, s1, by rw [hrc]; exact h1⟩
    rcases consumer_can_step cap s true hb hm with ⟨s1, h1⟩ | hc1
    · exact ⟨consumer_tid true, false, s1, by rw [hrc]; exact h1⟩
    simp only [consumer_false, consumer_true] at hc0 hc1
    have hp1 : s.producer.pc = ProducerPc.done ∨
        ∃ c, s.producer.pc = ProducerPc.enq c CallPc.waiting := by
      rcases hp with h | h | h
      · exact Or.inl h
      · exact absurd (x2 h) hex
      · exact Or.inr h
    have hz : s.consumer_zero.pc = ConsumerPc.done ∨
        s.consumer_zero.pc = ConsumerPc.deq CallPc.waiting := by
      rcases hc0 with h | h | h
      · exact Or.inl h
      · exact absurd (x3 h) hex
      · exact Or.inr h
    have ho : s.consumer_one.pc = ConsumerPc.done ∨
        s.consumer_one.pc = ConsumerPc.deq CallPc.waiting := by
      rcases hc1 with h | h | h
      · exact Or.inl h
      · exact absurd (x4 h) hex
      · exact Or.inr h
    obtain ⟨ds, k, q1, q2, q3, q4, q5, q6⟩ := hq
    have hl0 := holds_quit_le s.consumer_zero
    have hl1 := holds_quit_le s.consumer_one
    have hst : stored s.producer = 0 := by
      rcases hp1 with h | ⟨c, h⟩ <;> simp [stored, h]
    have htk0 : takes s.consumer_zero = 0 := by
      rcases hz with h | h <;> simp [takes, h]
    have htk1 : takes s.consumer_one = 0 := by
      rcases ho with h | h <;> simp [takes, h]
    have hto0 : took s.consumer_zero = 0 := by
      rcases hz with h | h <;> simp [took, h]
    have hto1 : took s.consumer_one = 0 := by
      rcases ho with h | h <;> simp [took, h]
    -- a blocked consumer holds no quit message and finds the buffer empty
    have hwait : ∀ c : ConsumerState, c.pc = ConsumerPc.deq CallPc.waiting → msg_fits c →
        holds_quit c = 0 := by
      intro c hpc hf
      exact holds_quit_of_fits c CallPc.waiting hpc (by simp) (by simp) hf
    have hdone : ∀ c : ConsumerState, c.pc = ConsumerPc.done → msg_fits c →
        holds_quit c = 1 := by
      intro c hpc hf
      simp only [msg_fits, hpc] at hf
      simp [holds_quit, hf]
    have hempty : 0 < waits s.consumer_zero + waits s.consumer_one → False := by
      intro hw
      have hB := hcnd.1 hw
      rw [hst, htk0, htk1] at hB
      have hB0 : (contents s.buf).length = 0 := by omega
      rcases hp1 with hpd | ⟨c, hpw⟩
      · rw [hpd] at q3
        have hk : k = 0 := by
          rw [q1] at hB0
          simp only [List.length_append, List.length_replicate] at hB0
          omega
        have h2 : holds_quit s.consumer_zero + holds_quit s.consumer_one = 2 := by
          have : quits_stored ProducerPc.done = 2 := rfl
          omega
        rcases hz with h | h
        · rcases ho with h' | h'
          · simp [waits, h, h'] at hw
          · have := hwait _ h' q6
            omega
        · have := hwait _ h q5
          omega
      · have hbl : 0 < blocked s.producer := by simp [blocked, hpw]
        have := hcnd.2 hbl
        omega
    rcases hz with hzd | hzw
    · rcases ho with hod | how
      · -- both consumers have returned
        have h0 := hdone _ hzd q5
        have h1 := hdone _ hod q6
        rcases hp1 with hpd | ⟨c, hpw⟩
        · refine ⟨Tid.main, false, ?_⟩
          rw [hrm]
          unfold main_stmt
          cases hmn : s.main with
          | join_zero => simp [hzd]
          | join_one => simp [hod]
          | join_producer => simp [hpd]
          | total => simp
          | exit_call => simp
          | exiting => exact absurd (x5 hmn) hex
        · rw [hpw] at q3
          have := quits_stored_waiting c
          omega
      · exact absurd (hempty (by simp [waits, how])) id
    · exact absurd (hempty (by simp [waits, hzw])) id

/-! ## Every execution is finite -/

theorem scan_ints_length (n : Nat) :
    ∀ inp : List Token, (scan_ints n inp).2.length ≤ inp.length := by
  induction n with
  | zero => intro inp; simp [scan_ints]
  | succ n ih =>
    intro inp
    match inp with
    | [] => simp [scan_ints]
    | Token.junk :: r => simp [scan_ints]
    | Token.sign :: r => simp [scan_ints]
    | Token.int v :: r =>
      have := ih r
      simp only [scan_ints, List.length_cons]
      omega

theorem scanf_length (inp : List Token) : (scanf inp).2.2.length ≤ inp.length :=
  scan_ints_length 4 inp

theorem scanf_length_four (inp : List Token) (h : (scanf inp).1 = 4) :
    (scanf inp).2.2.length + 4 = inp.length := by
  obtain ⟨a, b, c, d, hinp, _⟩ := scanf_eq_four inp h
  have := congrArg List.length hinp
  simp only [List.length_cons] at this
  omega

theorem consumer_weight_woken :
    consumer_weight (ConsumerPc.deq CallPc.woken) =
      consumer_weight (ConsumerPc.deq CallPc.waiting) + 2 := rfl

theorem producer_weight_woken (c : EnqueueCall) :
    producer_weight (ProducerPc.enq c CallPc.woken) =
      producer_weight (ProducerPc.enq c CallPc.waiting) + 2 := by
  cases c <;> rfl

/-- A statement of the producer uses up at least one of the `steps_left`. -/
theorem steps_left_producer (cap : Nat) (hc : 0 < cap) (s s1 : Prog) (pick : Bool)
    (hb : BaseInv cap s) (hp : producer_stmt cap s pick = some s1) :
    steps_left s1 + 1 ≤ steps_left s := by
  unfold steps_left
  rcases producer_stmt_cases cap s s1 pick hp with ⟨c, q, hpc, he⟩ | ⟨hpc, h4, hs1⟩ |
    ⟨hpc, _, hs1⟩ | ⟨hpc, hs1⟩ | ⟨hpc, hs1⟩ | ⟨hpc, hs1⟩ | ⟨hpc, hs1⟩ | ⟨hpc, hs1⟩ |
    ⟨hpc, hs1⟩ | ⟨hpc, hs1⟩
  · rcases enqueue_stmt_cases cap s s1 c pick q he with ⟨rfl, hm, hs1⟩ | ⟨rfl, hw, hs1⟩ |
      ⟨rfl, hw, hs1⟩ | ⟨rfl, hm, hs1⟩ | ⟨rfl, b, hbq, hs1⟩ | ⟨rfl, hs1⟩ | ⟨rfl, hs1⟩
    · rw [hs1, hpc]
      cases c <;> simp only [producer_weight, call_weight, store_weight] <;> omega
    · rw [hs1, hpc]
      cases c <;> simp only [producer_weight, call_weight, store_weight] <;> omega
    · rw [hs1, hpc]
      cases c <;> simp only [producer_weight, call_weight, store_weight] <;> omega
    · rw [hs1, hpc]
      cases c <;> simp only [producer_weight, call_weight, store_weight] <;> omega
    · have hlen := (enqueue_ok_contents cap hc s.buf b _ hb.1 hbq).1
      rw [hs1, hpc]
      simp only
      rw [hlen]
      simp only [List.length_append, List.length_singleton]
      cases c <;> simp only [producer_weight, call_weight, store_weight] <;> omega
    · rw [hs1, hpc]
      cases c <;> simp only [producer_weight, call_weight, store_weight] <;> omega
    · obtain ⟨e1, _, e3, _, e5, e6, _, e8, hcons⟩ := signal_has_value_proj
        { s with producer := { s.producer with pc := after_enqueue s.producer c } } pick
      rw [← hs1] at e1 e3 e5 e6 e8 hcons
      have e4 : s1.producer.pc = after_enqueue s.producer c := by rw [e5]
      have e1b : s1.input = s.input := e1
      have e3b : s1.buf = s.buf := e3
      have e6b : s1.main = s.main := e6
      have e8b : s1.halted = s.halted := e8
      have hw : producer_weight s1.producer.pc + 3 ≤ producer_weight s.producer.pc := by
        rw [e4, hpc]
        cases c
        · simp only [after_enqueue]
          split <;> simp only [producer_weight, call_weight, store_weight] <;> omega
        · simp only [after_enqueue, producer_weight, call_weight, store_weight]
          omega
        · simp only [after_enqueue, producer_weight, call_weight, store_weight]
          omega
      have hcw : consumer_weight s1.consumer_zero.pc + consumer_weight s1.consumer_one.pc ≤
          consumer_weight s.consumer_zero.pc + consumer_weight s.consumer_one.pc + 2 := by
        rcases hcons with ⟨_, _, z, o⟩ | ⟨w0, z, o⟩ | ⟨w1, o, z⟩
        · have zb : s1.consumer_zero = s.consumer_zero := z
          have ob : s1.consumer_one = s.consumer_one := o
          rw [zb, ob]
          omega
        · have w0b : s.consumer_zero.pc = ConsumerPc.deq CallPc.waiting := w0
          have zb : s1.consumer_zero =
              { s.consumer_zero with pc := ConsumerPc.deq CallPc.woken } := z
          have ob : s1.consumer_one = s.consumer_one := o
          rw [zb, ob, w0b]
          simp only [consumer_weight_woken]
          omega
        · have w1b : s.consumer_one.pc = ConsumerPc.deq CallPc.waiting := w1
          have zb : s1.consumer_zero = s.consumer_zero := z
          have ob : s1.consumer_one =
              { s.consumer_one with pc := ConsumerPc.deq CallPc.woken } := o
          rw [zb, ob, w1b]
          simp only [consumer_weight_woken]
          omega
      rw [e1b, e3b, e6b, e8b]
      omega
  · have hl := scanf_length_four s.input h4
    rw [hs1, hpc]
    dsimp only
    split <;> simp only [producer_weight, call_weight, store_weight] <;> omega
  · have hl := scanf_length s.input
    rw [hs1, hpc]
    simp only [producer_weight]
    omega
  · rw [hs1, hpc]
    dsimp only
    split <;> simp only [producer_weight, call_weight, store_weight] <;> omega
  · rw [hs1, hpc]
    simp only [producer_weight]
    omega
  · rw [hs1, hpc]
    simp only [producer_weight]
    omega
  · rw [hs1, hpc]
    simp only [producer_weight]
    omega
  · have hl := scanf_length s.input
    rw [hs1, hpc]
    dsimp only
    split <;> simp only [producer_weight, call_weight, store_weight] <;> omega
  · rw [hs1, hpc]
    simp only [producer_weight]
    omega
  · rw [hs1, hpc]
    simp only [producer_weight, call_exit]
    omega

/-- The form of `steps_left` that names the consumer that moves. -/
theorem steps_left_eq (s : Prog) (one : Bool) :
    steps_left s =
      6 * s.input.length + 10 * (contents s.buf).length + producer_weight s.producer.pc +
        (consumer_weight (consumer s one).pc + consumer_weight (consumer s (!one)).pc) +
        (5 - main_rank s.main) + (if s.halted then 0 else 1) := by
  unfold steps_left
  rw [both_split (fun c => consumer_weight c.pc) s one]

theorem consumer_weight_after (msg : message_t) :
    consumer_weight (after_dequeue msg) ≤ 10 := by
  simp only [after_dequeue]
  split
  · simp [consumer_weight]
  · split <;> simp [consumer_weight]

theorem consumer_weight_loop (msg : message_t) :
    consumer_weight (loop_back msg) ≤ 7 := by
  simp only [loop_back]
  split <;> simp [consumer_weight, call_weight]

theorem steps_left_call_exit (s : Prog) (k : Int) :
    steps_left (call_exit s k) = steps_left s := rfl

/-- A statement of a consumer uses up at least one of the `steps_left`. -/
theorem steps_left_consumer (cap : Nat) (s s1 : Prog) (one : Bool)
    (hb : BaseInv cap s) (hcs : consumer_stmt cap s one = some s1) :
    steps_left s1 + 1 ≤ steps_left s := by
  rw [steps_left_eq s one, steps_left_eq s1 one]
  rcases consumer_stmt_cases cap s s1 one hcs with ⟨q, hpc, he⟩ | ⟨hpc, hs1⟩ | ⟨hpc, hs1⟩ |
    ⟨hpc, hs1⟩ | ⟨hpc, hs1⟩ | ⟨hpc, hs1⟩ | ⟨hpc, hs1⟩ | ⟨hpc, hs1⟩
  · rcases dequeue_stmt_cases cap s s1 one q he with ⟨rfl, hm, hs1⟩ | ⟨rfl, hw, hs1⟩ |
      ⟨rfl, hw, hs1⟩ | ⟨rfl, hm, hs1⟩ | ⟨rfl, msg, b, hbq, hs1⟩ | ⟨rfl, hs1⟩ | ⟨rfl, hs1⟩
    · rw [hs1, consumer_same_set, consumer_other_set, hpc]
      simp only [set_consumer_input, set_consumer_buf, set_consumer_producer,
        set_consumer_main, set_consumer_halted, consumer_weight, call_weight]
      have e : consumer { s with mutex := some (consumer_tid one) } (!one) =
          consumer s (!one) := rfl
      rw [e]
      omega
    · rw [hs1, consumer_same_set, consumer_other_set, hpc]
      simp only [set_consumer_input, set_consumer_buf, set_consumer_producer,
        set_consumer_main, set_consumer_halted, consumer_weight, call_weight]
      have e : consumer { s with mutex := none } (!one) = consumer s (!one) := rfl
      rw [e]
      omega
    · rw [hs1, consumer_same_set, consumer_other_set, hpc]
      simp only [set_consumer_input, set_consumer_buf, set_consumer_producer,
        set_consumer_main, set_consumer_halted, consumer_weight, call_weight]
      omega
    · rw [hs1, consumer_same_set, consumer_other_set, hpc]
      simp only [set_consumer_input, set_consumer_buf, set_consumer_producer,
        set_consumer_main, set_consumer_halted, consumer_weight, call_weight]
      have e : consumer { s with mutex := some (consumer_tid one) } (!one) =
          consumer s (!one) := rfl
      rw [e]
      omega
    · have hlen := (dequeue_ok_contents cap s.buf b msg hb.1 hbq).1
      rw [hs1, consumer_same_set, consumer_other_set, hpc, hlen]
      simp only [set_consumer_input, set_consumer_buf, set_consumer_producer,
        set_consumer_main, set_consumer_halted, consumer_weight, call_weight,
        List.length_cons]
      have e : consumer { s with buf := b } (!one) = consumer s (!one) := rfl
      rw [e]
      omega
    · rw [hs1, consumer_same_set, consumer_other_set, hpc]
      simp only [set_consumer_input, set_consumer_buf, set_consumer_producer,
        set_consumer_main, set_consumer_halted, consumer_weight, call_weight]
      have e : consumer { s with mutex := none } (!one) = consumer s (!one) := rfl
      rw [e]
      omega
    · obtain ⟨e1, _, e3, _, e5, e6, e7, _, e9, hprod⟩ := signal_has_space_proj
        (set_consumer s one { consumer s one with pc := after_dequeue (consumer s one).msg })
      rw [← hs1] at e1 e3 e5 e6 e7 e9 hprod
      have e1b : s1.input = s.input := by rw [e1]; simp
      have e3b : s1.buf = s.buf := by rw [e3]; simp
      have e7b : s1.main = s.main := by rw [e7]; simp
      have e9b : s1.halted = s.halted := by rw [e9]; simp
      have eo : consumer s1 (!one) = consumer s (!one) := by
        rw [consumer_eq_of_fields _ s1 e5 e6, consumer_other_set]
      have e4 : (consumer s1 one).pc = after_dequeue (consumer s one).msg := by
        rw [consumer_eq_of_fields _ s1 e5 e6, consumer_same_set]
      have hcw := consumer_weight_after (consumer s one).msg
      have hpw : producer_weight s1.producer.pc ≤ producer_weight s.producer.pc + 2 := by
        rcases hprod with ⟨_, ep⟩ | ⟨c, hcw, ep⟩
        · have ep1 : s1.producer = s.producer := by rw [ep]; simp
          rw [ep1]
          omega
        · have hcw1 : s.producer.pc = ProducerPc.enq c CallPc.waiting := by simpa using hcw
          rw [ep, hcw1]
          simp only [producer_weight_woken]
          omega
      rw [e1b, e3b, e7b, e9b, eo, e4, hpc]
      generalize consumer_weight (after_dequeue (consumer s one).msg) = a at hcw ⊢
      simp only [consumer_weight]
      omega
  · rw [hs1, consumer_same_set, consumer_other_set, hpc]
    simp only [set_consumer_input, set_consumer_buf, set_consumer_producer,
      set_consumer_main, set_consumer_halted, consumer_weight]
    have e : consumer { s with output := s.output ++
        [Output.consumer_final (consumer s one).consumer_sum (consumer s one).sum] } (!one) =
        consumer s (!one) := rfl
    rw [e]
    omega
  · rw [hs1, consumer_same_set, consumer_other_set, hpc]
    simp only [set_consumer_input, set_consumer_buf, set_consumer_producer,
      set_consumer_main, set_consumer_halted, consumer_weight]
    omega
  · rw [hs1, consumer_same_set, consumer_other_set, hpc]
    simp only [set_consumer_input, set_consumer_buf, set_consumer_producer,
      set_consumer_main, set_consumer_halted]
    split <;> simp only [consumer_weight] <;> omega
  · rw [hs1, consumer_same_set, consumer_other_set, hpc]
    simp only [set_consumer_input, set_consumer_buf, set_consumer_producer,
      set_consumer_main, set_consumer_halted, consumer_weight]
    have e : consumer { s with output := s.output ++ [Output.sleep_error] } (!one) =
        consumer s (!one) := rfl
    rw [e]
    omega
  · rw [← steps_left_eq s one, ← steps_left_eq s1 one, hs1, steps_left_call_exit,
      steps_left_eq _ one, steps_left_eq s one, consumer_same_set, consumer_other_set, hpc]
    simp only [set_consumer_input, set_consumer_buf, set_consumer_producer,
      set_consumer_main, set_consumer_halted, consumer_weight]
    omega
  · have hl := consumer_weight_loop (consumer s one).msg
    rw [hs1, consumer_same_set, consumer_other_set, hpc]
    simp only [set_consumer_input, set_consumer_buf, set_consumer_producer,
      set_consumer_main, set_consumer_halted]
    split
    · simp only [consumer_weight]
      omega
    · generalize consumer_weight (loop_back (consumer s one).msg) = a at hl ⊢
      simp only [consumer_weight]
      omega
  · have hl := consumer_weight_loop (consumer s one).msg
    rw [hs1, consumer_same_set, consumer_other_set, hpc]
    generalize consumer_weight (loop_back (consumer s one).msg) = a at hl ⊢
    simp only [set_consumer_input, set_consumer_buf, set_consumer_producer,
      set_consumer_main, set_consumer_halted, consumer_weight]
    have e : consumer { s with output := s.output ++
        [Output.consumer_value (consumer s one).consumer_sum (consumer s one).msg.value
          (consumer s one).msg.line (consumer s one).sum] } (!one) =
        consumer s (!one) := rfl
    rw [e]
    omega

/-- A statement of `main` uses up one of the `steps_left`. -/
theorem steps_left_main (s s1 : Prog) (h : main_stmt s = some s1) :
    steps_left s1 + 1 ≤ steps_left s := by
  rcases main_stmt_cases s s1 h with ⟨hm, _, hs1⟩ | ⟨hm, _, hs1⟩ | ⟨hm, _, hs1⟩ | ⟨hm, hs1⟩ |
    ⟨hm, hs1⟩
  all_goals
    rw [hs1]
    simp only [steps_left, call_exit, hm, main_rank]
    omega

/-- A spurious wake-up gives back at most two of the `steps_left`. -/
theorem steps_left_wake (s s1 : Prog) (t : Tid) (h : spurious_wake s t = some s1) :
    steps_left s1 ≤ steps_left s + 2 := by
  rcases spurious_wake_cases s s1 t h with ⟨c, _, hpc, hs1⟩ | ⟨one, _, hpc, hs1⟩
  · rw [hs1]
    simp only [steps_left, hpc, producer_weight_woken]
    omega
  · rw [steps_left_eq s one, steps_left_eq s1 one, hs1, consumer_same_set,
      consumer_other_set, hpc]
    simp only [set_consumer_input, set_consumer_buf, set_consumer_producer,
      set_consumer_main, set_consumer_halted, consumer_weight, call_weight]
    omega

/-- Every action other than a spurious wake-up uses up one of the `steps_left`, and a
spurious wake-up gives back at most two. -/
theorem steps_left_step (cap : Nat) (hc : 0 < cap) (s s1 : Prog) (a : Action)
    (hb : BaseInv cap s) (h : prog_step cap s a = some s1) :
    steps_left s1 + 1 ≤ steps_left s + 3 * wakes [a] := by
  obtain ⟨hh, hcase⟩ := prog_step_cases cap s s1 a h
  rcases hcase with ⟨pick, ha, hp⟩ | ⟨one, pick, ha, hp⟩ | ⟨pick, ha, hp⟩ | ⟨t, ha, hp⟩ |
    ⟨ha, _, hs1⟩
  · have := steps_left_producer cap hc s s1 pick hb hp
    omega
  · have := steps_left_consumer cap s s1 one hb hp
    omega
  · have := steps_left_main s s1 hp
    omega
  · have := steps_left_wake s s1 t hp
    rw [ha]
    simp only [wakes]
    omega
  · rw [hs1]
    simp only [steps_left, hh]
    simp

theorem wakes_cons (a : Action) (rest : List Action) :
    wakes (a :: rest) = wakes [a] + wakes rest := by
  cases a <;> simp [wakes, Nat.add_comm]

/-- The length of an execution is bounded: it has at most `steps_left` actions more
than three times its number of spurious wake-ups. -/
theorem steps_left_run (cap : Nat) (hc : 0 < cap) :
    ∀ (sched : List Action) (s s1 : Prog), BaseInv cap s →
      prog_run cap sched s = some s1 →
      sched.length + steps_left s1 ≤ steps_left s + 3 * wakes sched := by
  intro sched
  induction sched with
  | nil =>
    intro s s1 _ h
    simp only [prog_run, Option.some.injEq] at h
    rw [← h]
    simp [wakes]
  | cons a rest ih =>
    intro s s1 hb h
    simp only [prog_run] at h
    cases hs : prog_step cap s a with
    | none => rw [hs] at h; cases h
    | some s2 =>
      rw [hs] at h
      have h1 := steps_left_step cap hc s s2 a hb hs
      have h2 := ih s2 s1 (base_inv_step cap hc s s2 a hb hs) h
      rw [wakes_cons, List.length_cons]
      omega

/-! ## Reachable states -/

theorem sound_init (cap : Nat) (inp : List Token) : Sound cap (prog_init cap inp) :=
  ⟨base_inv_init cap inp, cond_inv_init cap inp, quit_inv_init cap inp, exit_inv_init cap inp⟩

theorem sound_step (cap : Nat) (hc : 0 < cap) (s s1 : Prog) (a : Action)
    (h : Sound cap s) (hs : prog_step cap s a = some s1) : Sound cap s1 :=
  ⟨base_inv_step cap hc s s1 a h.1 hs, cond_inv_step cap hc s s1 a h.1 h.2.1 hs,
    quit_inv_step cap hc s s1 a h.1 h.2.2.1 hs, exit_inv_step cap s s1 a h.2.2.2 hs⟩

theorem sound_run (cap : Nat) (hc : 0 < cap) (sched : List Action) (s s1 : Prog)
    (h : Sound cap s) (hr : prog_run cap sched s = some s1) : Sound cap s1 :=
  prog_run_induct cap (Sound cap) (fun s s1 a => sound_step cap hc s s1 a) sched s s1 h hr

theorem prog_run_append (cap : Nat) (pre : List Action) :
    ∀ (post : List Action) (s s1 : Prog), prog_run cap pre s = some s1 →
      prog_run cap (pre ++ post) s = prog_run cap post s1 := by
  induction pre with
  | nil =>
    intro post s s1 h
    simp only [prog_run, Option.some.injEq] at h
    rw [← h]
    rfl
  | cons a pre ih =>
    intro post s s1 h
    simp only [prog_run, List.cons_append] at h ⊢
    cases hs : prog_step cap s a with
    | none => rw [hs] at h; cases h
    | some s2 =>
      rw [hs] at h
      exact ih post s2 s1 h

theorem prog_run_snoc (cap : Nat) (sched : List Action) (a : Action) (s s2 : Prog)
    (h : prog_run cap (sched ++ [a]) s = some s2) :
    ∃ s1, prog_run cap sched s = some s1 ∧ prog_step cap s1 a = some s2 := by
  cases hr : prog_run cap sched s with
  | none =>
    exfalso
    revert h hr
    induction sched generalizing s with
    | nil => intro h hr; simp [prog_run] at hr
    | cons b sched ih =>
      intro h hr
      simp only [prog_run, List.cons_append] at h hr
      cases hs : prog_step cap s b with
      | none => rw [hs] at h; cases h
      | some s3 =>
        rw [hs] at h hr
        exact ih s3 h hr
  | some s1 =>
    refine ⟨s1, rfl, ?_⟩
    rw [prog_run_append cap sched [a] s s1 hr] at h
    simp only [prog_run] at h
    cases hs : prog_step cap s1 a with
    | none => rw [hs] at h; cases h
    | some s3 =>
      rw [hs] at h
      exact h

theorem dequeue_log_snoc (cap : Nat) (sched : List Action) (a : Action) :
    ∀ (s s1 s2 : Prog), prog_run cap sched s = some s1 → prog_step cap s1 a = some s2 →
      dequeue_log cap (sched ++ [a]) s = dequeue_log cap sched s ++ dequeued_by cap s1 a := by
  induction sched with
  | nil =>
    intro s s1 s2 h hs
    simp only [prog_run, Option.some.injEq] at h
    subst h
    simp [dequeue_log, hs]
  | cons b sched ih =>
    intro s s1 s2 h hs
    simp only [prog_run] at h
    cases hb : prog_step cap s b with
    | none => rw [hb] at h; cases h
    | some s3 =>
      rw [hb] at h
      simp only [List.cons_append, dequeue_log, hb]
      show dequeued_by cap s b ++ dequeue_log cap (sched ++ [a]) s3 = _
      rw [ih s3 s1 s2 h hs, List.append_assoc]

/-- Induction over an execution for a property of the state and of the messages
dequeued so far. -/
theorem traced_induct (cap : Nat) (P : List (Bool × message_t) → Prog → Prop) (s0 : Prog)
    (h0 : P [] s0)
    (hstep : ∀ log s a s1, P log s → prog_step cap s a = some s1 →
      P (log ++ dequeued_by cap s a) s1) :
    ∀ (sched : List Action) (s : Prog), prog_run cap sched s0 = some s →
      P (dequeue_log cap sched s0) s := by
  intro sched
  induction sched using List.reverseRecOn with
  | nil =>
    intro s h
    simp only [prog_run, Option.some.injEq] at h
    rw [← h]
    exact h0
  | append_singleton sched a ih =>
    intro s2 h
    obtain ⟨s1, hr, hs⟩ := prog_run_snoc cap sched a s0 s2 h
    rw [dequeue_log_snoc cap sched a s0 s1 s2 hr hs]
    exact hstep _ s1 a s2 (ih s1 hr) hs

/-! ## Every reachable state can be run on to the end of the process -/

theorem completes_aux (cap : Nat) (hc : 0 < cap) :
    ∀ (n : Nat) (s : Prog), Sound cap s → steps_left s ≤ n →
      ∃ rest s1, prog_run cap rest s = some s1 ∧ s1.halted = true ∧ wakes rest = 0 := by
  intro n
  induction n with
  | zero =>
    intro s _ hn
    cases hh : s.halted with
    | true => exact ⟨[], s, rfl, hh, rfl⟩
    | false =>
      exfalso
      simp only [steps_left, hh] at hn
      simp at hn
  | succ n ih =>
    intro s hs hn
    cases hh : s.halted with
    | true => exact ⟨[], s, rfl, hh, rfl⟩
    | false =>
      rcases prog_can_step cap hc s hs.1 hs.2.1 hs.2.2.1 hs.2.2.2 hh with
        ⟨t, pick, s1, h1⟩ | ⟨s1, h1⟩
      · have hd := steps_left_step cap hc s s1 _ hs.1 h1
        simp only [wakes] at hd
        obtain ⟨rest, s2, hr, hh2, hw⟩ :=
          ih s1 (sound_step cap hc s s1 _ hs h1) (by omega)
        refine ⟨Action.run t pick :: rest, s2, ?_, hh2, ?_⟩
        · simp only [prog_run, h1]
          exact hr
        · simp only [wakes]
          exact hw
      · have hd := steps_left_step cap hc s s1 _ hs.1 h1
        simp only [wakes] at hd
        obtain ⟨rest, s2, hr, hh2, hw⟩ :=
          ih s1 (sound_step cap hc s s1 _ hs h1) (by omega)
        refine ⟨Action.halt :: rest, s2, ?_, hh2, ?_⟩
        · simp only [prog_run, h1]
          exact hr
        · simp only [wakes]
          exact hw

/-! ## What a statement of one thread changes for the others -/

theorem filter_snoc_false (f : Output → Bool) (l : List Output) (o : Output)
    (h : f o = false) : (l ++ [o]).filter f = l.filter f := by
  simp [List.filter_append, h]

theorem filter_snoc_true (f : Output → Bool) (l : List Output) (o : Output)
    (h : f o = true) : (l ++ [o]).filter f = l.filter f ++ [o] := by
  simp [List.filter_append, h]

/-- A statement of the producer leaves `main` and the lines of the consumers alone, and
changes a consumer only by unblocking it. -/
theorem producer_effect (cap : Nat) (s s1 : Prog) (pick : Bool)
    (h : producer_stmt cap s pick = some s1) :
    s1.main = s.main ∧ s1.halted = s.halted ∧
    (∀ one, consumer s1 one = consumer s one ∨
      ((consumer s one).pc = ConsumerPc.deq CallPc.waiting ∧
        consumer s1 one = { consumer s one with pc := ConsumerPc.deq CallPc.woken })) ∧
    (∀ id, s1.output.filter (consumer_line id) = s.output.filter (consumer_line id)) ∧
    (s1.exit_code = s.exit_code ∨ s.producer.pc = ProducerPc.exit_call) := by
  rcases producer_stmt_cases cap s s1 pick h with ⟨c, q, hpc, he⟩ | ⟨hpc, _, hs1⟩ |
    ⟨hpc, _, hs1⟩ | ⟨hpc, hs1⟩ | ⟨hpc, hs1⟩ | ⟨hpc, hs1⟩ | ⟨hpc, hs1⟩ | ⟨hpc, hs1⟩ |
    ⟨hpc, hs1⟩ | ⟨hpc, hs1⟩
  · rcases enqueue_stmt_cases cap s s1 c pick q he with ⟨rfl, hm, hs1⟩ | ⟨rfl, hw, hs1⟩ |
      ⟨rfl, hw, hs1⟩ | ⟨rfl, hm, hs1⟩ | ⟨rfl, b, hbq, hs1⟩ | ⟨rfl, hs1⟩ | ⟨rfl, hs1⟩
    · rw [hs1]
      exact ⟨rfl, rfl, fun one => Or.inl (by cases one <;> rfl), fun _ => rfl, Or.inl rfl⟩
    · rw [hs1]
      exact ⟨rfl, rfl, fun one => Or.inl (by cases one <;> rfl), fun _ => rfl, Or.inl rfl⟩
    · rw [hs1]
      exact ⟨rfl, rfl, fun one => Or.inl (by cases one <;> rfl), fun _ => rfl, Or.inl rfl⟩
    · rw [hs1]
      exact ⟨rfl, rfl, fun one => Or.inl (by cases one <;> rfl), fun _ => rfl, Or.inl rfl⟩
    · rw [hs1]
      exact ⟨rfl, rfl, fun one => Or.inl (by cases one <;> rfl), fun _ => rfl, Or.inl rfl⟩
    · rw [hs1]
      exact ⟨rfl, rfl, fun one => Or.inl (by cases one <;> rfl), fun _ => rfl, Or.inl rfl⟩
    · obtain ⟨_, e2, _, _, _, e6, e7, e8, hcons⟩ := signal_has_value_proj
        { s with producer := { s.producer with pc := after_enqueue s.producer c } } pick
      rw [← hs1] at e2 e6 e7 e8 hcons
      refine ⟨e6, e8, ?_, fun id => by rw [e2], Or.inl e7⟩
      intro one
      rcases hcons with ⟨_, _, h0, h1⟩ | ⟨hw, h0, h1⟩ | ⟨hw, h1, h0⟩
      · left
        cases one
        · exact h0
        · exact h1
      · cases one
        · exact Or.inr ⟨hw, h0⟩
        · exact Or.inl h1
      · cases one
        · exact Or.inl h0
        · exact Or.inr ⟨hw, h1⟩
  all_goals
    rw [hs1]
    refine ⟨rfl, rfl, fun one => Or.inl (by cases one <;> rfl), fun id => ?_, ?_⟩
    · first
        | rfl
        | exact filter_snoc_false _ _ _ rfl
    · first
        | exact Or.inl rfl
        | exact Or.inr hpc

theorem taken_outside (cap : Nat) (s : Prog) (one : Bool)
    (h : (consumer s one).pc ≠ ConsumerPc.deq CallPc.body) : taken cap s one = [] := by
  unfold taken
  split
  · rename_i hpc _
    exact absurd hpc h
  · rfl

theorem taken_body (cap : Nat) (s : Prog) (one : Bool) (msg : message_t) (b : RingBuf)
    (hpc : (consumer s one).pc = ConsumerPc.deq CallPc.body)
    (hd : dequeue cap s.buf = Outcome.ok (msg, b)) : taken cap s one = [(one, msg)] := by
  unfold taken
  rw [hpc, hd]

theorem dequeued_by_consumer (cap : Nat) (s : Prog) (one pick : Bool) :
    dequeued_by cap s (Action.run (consumer_tid one) pick) = taken cap s one := by
  cases one <;> rfl

/-- A statement of a consumer leaves `main`, the input, the lines of the producer and the
other consumer alone, changes the producer only by unblocking it, prints lines with its
own identity only, and takes from the buffer what `taken` says. -/
theorem consumer_effect (cap : Nat) (s s1 : Prog) (one : Bool) (hb : BaseInv cap s)
    (h : consumer_stmt cap s one = some s1) :
    s1.main = s.main ∧ s1.halted = s.halted ∧ s1.input = s.input ∧
    (s1.producer = s.producer ∨
      ∃ c, s.producer.pc = ProducerPc.enq c CallPc.waiting ∧
        s1.producer = { s.producer with pc := ProducerPc.enq c CallPc.woken }) ∧
    s1.output.filter producer_line = s.output.filter producer_line ∧
    (taken cap s one).map (fun e => e.2) ++ contents s1.buf = contents s.buf ∧
    consumer s1 (!one) = consumer s (!one) ∧
    (s1.exit_code = s.exit_code ∨ (consumer s one).pc = ConsumerPc.exit_call) ∧
    (∀ id, id ≠ (consumer s one).consumer_sum →
      s1.output.filter (consumer_line id) = s.output.filter (consumer_line id)) := by
  rcases consumer_stmt_cases cap s s1 one h with ⟨q, hpc, he⟩ | ⟨hpc, hs1⟩ | ⟨hpc, hs1⟩ |
    ⟨hpc, hs1⟩ | ⟨hpc, hs1⟩ | ⟨hpc, hs1⟩ | ⟨hpc, hs1⟩ | ⟨hpc, hs1⟩
  · rcases dequeue_stmt_cases cap s s1 one q he with ⟨rfl, hm, hs1⟩ | ⟨rfl, hw, hs1⟩ |
      ⟨rfl, hw, hs1⟩ | ⟨rfl, hm, hs1⟩ | ⟨rfl, msg, b, hbq, hs1⟩ | ⟨rfl, hs1⟩ | ⟨rfl, hs1⟩
    · have ht := taken_outside cap s one (by rw [hpc]; simp)
      rw [ht, hs1]
      refine ⟨by simp, by simp, by simp, Or.inl (by simp), by simp, by simp, ?_,
        Or.inl (by simp), fun id _ => by simp⟩
      rw [consumer_other_set]
      cases one <;> rfl
    · have ht := taken_outside cap s one (by rw [hpc]; simp)
      rw [ht, hs1]
      refine ⟨by simp, by simp, by simp, Or.inl (by simp), by simp, by simp, ?_,
        Or.inl (by simp), fun id _ => by simp⟩
      rw [consumer_other_set]
      cases one <;> rfl
    · have ht := taken_outside cap s one (by rw [hpc]; simp)
      rw [ht, hs1]
      refine ⟨by simp, by simp, by simp, Or.inl (by simp), by simp, by simp, ?_,
        Or.inl (by simp), fun id _ => by simp⟩
      rw [consumer_other_set]
    · have ht := taken_outside cap s one (by rw [hpc]; simp)
      rw [ht, hs1]
      refine ⟨by simp, by simp, by simp, Or.inl (by simp), by simp, by simp, ?_,
        Or.inl (by simp), fun id _ => by simp⟩
      rw [consumer_other_set]
      cases one <;> rfl
    · have ht := taken_body cap s one msg b hpc hbq
      have hcon := (dequeue_ok_contents cap s.buf b msg hb.1 hbq).1
      rw [ht, hs1]
      refine ⟨by simp, by simp, by simp, Or.inl (by simp), by simp, ?_, ?_,
        Or.inl (by simp), fun id _ => by simp⟩
      · simp only [set_consumer_buf, List.map_cons, List.map_nil, List.singleton_append]
        exact hcon.symm
      · rw [consumer_other_set]
        cases one <;> rfl
    · have ht := taken_outside cap s one (by rw [hpc]; simp)
      rw [ht, hs1]
      refine ⟨by simp, by simp, by simp, Or.inl (by simp), by simp, by simp, ?_,
        Or.inl (by simp), fun id _ => by simp⟩
      rw [consumer_other_set]
      cases one <;> rfl
    · have ht := taken_outside cap s one (by rw [hpc]; simp)
      obtain ⟨e1, e2, e3, _, e5, e6, e7, e8, e9, hprod⟩ := signal_has_space_proj
        (set_consumer s one { consumer s one with pc := after_dequeue (consumer s one).msg })
      rw [← hs1] at e1 e2 e3 e5 e6 e7 e8 e9 hprod
      rw [ht]
      refine ⟨by rw [e7]; simp, by rw [e9]; simp, by rw [e1]; simp, ?_, by rw [e2]; simp,
        by rw [e3]; simp, ?_, Or.inl (by rw [e8]; simp), fun id _ => by rw [e2]; simp⟩
      · rcases hprod with ⟨_, ep⟩ | ⟨c, hcw, ep⟩
        · left
          rw [ep]
          simp
        · right
          refine ⟨c, by simpa using hcw, ?_⟩
          rw [ep]
          simp
      · rw [consumer_eq_of_fields _ s1 e5 e6, consumer_other_set]
  · have ht := taken_outside cap s one (by rw [hpc]; simp)
    rw [ht, hs1]
    refine ⟨by simp, by simp, by simp, Or.inl (by simp), ?_, by simp, ?_,
      Or.inl (by simp), fun id hid => ?_⟩
    · simp only [set_consumer_output]
      exact filter_snoc_false _ _ _ rfl
    · rw [consumer_other_set]
      cases one <;> rfl
    · simp only [set_consumer_output]
      apply filter_snoc_false
      simp only [consumer_line, beq_eq_false_iff_ne, ne_eq]
      exact fun e => hid e.symm
  · have ht := taken_outside cap s one (by rw [hpc]; simp)
    rw [ht, hs1]
    refine ⟨by simp, by simp, by simp, Or.inl (by simp), by simp, by simp, ?_,
      Or.inl (by simp), fun id _ => by simp⟩
    rw [consumer_other_set]
  · have ht := taken_outside cap s one (by rw [hpc]; simp)
    rw [ht, hs1]
    refine ⟨by simp, by simp, by simp, Or.inl (by simp), by simp, by simp, ?_,
      Or.inl (by simp), fun id _ => by simp⟩
    rw [consumer_other_set]
  · have ht := taken_outside cap s one (by rw [hpc]; simp)
    rw [ht, hs1]
    refine ⟨by simp, by simp, by simp, Or.inl (by simp), ?_, by simp, ?_,
      Or.inl (by simp), fun id hid => ?_⟩
    · simp only [set_consumer_output]
      exact filter_snoc_false _ _ _ rfl
    · rw [consumer_other_set]
      cases one <;> rfl
    · simp only [set_consumer_output]
      exact filter_snoc_false _ _ _ rfl
  · have ht := taken_outside cap s one (by rw [hpc]; simp)
    rw [ht, hs1]
    refine ⟨by simp [call_exit], by simp [call_exit], by simp [call_exit],
      Or.inl (by simp [call_exit]), by simp [call_exit], by simp [call_exit], ?_,
      Or.inr hpc, fun id _ => by simp [call_exit]⟩
    rw [call_exit_consumer, consumer_other_set]
  · have ht := taken_outside cap s one (by rw [hpc]; simp)
    rw [ht, hs1]
    refine ⟨by simp, by simp, by simp, Or.inl (by simp), by simp, by simp, ?_,
      Or.inl (by simp), fun id _ => by simp⟩
    rw [consumer_other_set]
  · have ht := taken_outside cap s one (by rw [hpc]; simp)
    rw [ht, hs1]
    refine ⟨by simp, by simp, by simp, Or.inl (by simp), ?_, by simp, ?_,
      Or.inl (by simp), fun id hid => ?_⟩
    · simp only [set_consumer_output]
      exact filter_snoc_false _ _ _ rfl
    · rw [consumer_other_set]
      cases one <;> rfl
    · simp only [set_consumer_output]
      apply filter_snoc_false
      simp only [consumer_line, beq_eq_false_iff_ne, ne_eq]
      exact fun e => hid e.symm

/-! ## The progress of the producer -/

theorem events_from_append (pre post : List Record) :
    ∀ x : Int, events_from (wrap32 x) (pre ++ post) =
      events_from (wrap32 x) pre ++ events_from (wrap32 (x + pre.length)) post := by
  induction pre with
  | nil =>
    intro x
    simp [events_from]
  | cons r pre ih =>
    intro x
    have e1 : (r :: pre) ++ post = r :: (pre ++ post) := rfl
    have e2 : x + ((r :: pre).length : Int) = x + 1 + (pre.length : Int) := by
      simp only [List.length_cons]
      push_cast
      ring
    rw [e1, e2]
    simp only [events_from, wrap32_add_left]
    rw [ih (x + 1), List.append_assoc]

theorem messages_from_append (pre post : List Record) :
    ∀ x : Int, messages_from (wrap32 x) (pre ++ post) =
      messages_from (wrap32 x) pre ++ messages_from (wrap32 (x + pre.length)) post := by
  induction pre with
  | nil =>
    intro x
    simp [messages_from]
  | cons r pre ih =>
    intro x
    have e1 : (r :: pre) ++ post = r :: (pre ++ post) := rfl
    have e2 : x + ((r :: pre).length : Int) = x + 1 + (pre.length : Int) := by
      simp only [List.length_cons]
      push_cast
      ring
    rw [e1, e2]
    simp only [messages_from, wrap32_add_left]
    rw [ih (x + 1)]
    rfl

theorem wrap32_one : wrap32 1 = 1 := by decide

theorem messages_from_snoc (pre : List Record) (r : Record) :
    messages_from 1 (pre ++ [r]) =
      messages_from 1 pre ++ [message_of r (wrap32 ((pre.length : Int) + 1))] := by
  have h := messages_from_append pre [r] 1
  rw [wrap32_one] at h
  rw [h]
  simp only [messages_from]
  rw [Int.add_comm 1]

theorem outputs_events_snoc (pre : List Record) (r : Record) :
    outputs (events_from 1 (pre ++ [r])) =
      outputs (events_from 1 pre) ++
        (if r.print_code = 1 ∨ r.print_code = 3 then
          [Output.producer_value r.value (wrap32 ((pre.length : Int) + 1))]
        else []) := by
  have h := events_from_append pre [r] 1
  rw [wrap32_one] at h
  rw [h, outputs_append, Int.add_comm 1]
  congr 1
  simp only [events_from, record_events, List.append_nil]
  split <;> simp [outputs]

theorem length_zero_or_one {α : Type} (cur : List α) (b : Bool)
    (h : cur.length = (if b = true then 1 else 0)) :
    (b = false ∧ cur = []) ∨ (b = true ∧ ∃ r, cur = [r]) := by
  cases b with
  | false =>
    left
    simp only [Bool.false_eq_true, if_false] at h
    exact ⟨rfl, List.length_eq_zero.1 h⟩
  | true =>
    right
    simp only [if_true] at h
    exact ⟨rfl, List.length_eq_one.1 h⟩

/-- The progress of the producer does not depend on where the producer stands as long
as the new place tells the same about the record in hand. -/
theorem producer_inv_pc (rs : List Record) (sent : List message_t) (lines : List Output)
    (inp : List Token) (p : ProducerState) (pc1 : ProducerPc)
    (hinv : ProducerInv rs sent lines inp p)
    (h : in_record pc1 = in_record p.pc ∧ data_stored pc1 = data_stored p.pc ∧
      reported pc1 = reported p.pc ∧ past_loop pc1 = past_loop p.pc ∧
      failing pc1 = failing p.pc ∧ quits_stored pc1 = quits_stored p.pc ∧
      pc1 ≠ ProducerPc.report) :
    ProducerInv rs sent lines inp { p with pc := pc1 } := by
  obtain ⟨pre, cur, post, hrs, hcur, hpast, hin, hline, hloc, _, hsent, hlines, hfail⟩ := hinv
  obtain ⟨h1, h2, h3, h4, h5, h6, h7⟩ := h
  refine ⟨pre, cur, post, hrs, ?_, ?_, hin, hline, hloc, ?_, ?_, ?_, ?_⟩
  · show cur.length = if in_record pc1 = true then 1 else 0
    rw [h1]
    exact hcur
  · show past_loop pc1 = true → post = []
    rw [h4]
    exact hpast
  · intro hx
    exact absurd hx h7
  · show sent = messages_from 1 (pre ++ if data_stored pc1 = true then cur else []) ++
      List.replicate (quits_stored pc1) quit_msg
    rw [h2, h6]
    exact hsent
  · show lines = outputs (events_from 1 (pre ++ if reported pc1 = true then cur else []))
    rw [h3]
    exact hlines
  · show failing pc1 = false
    rw [h5]
    exact hfail

theorem scanf_encode_cons (r : Record) (rs : List Record) :
    scanf (encode (r :: rs)) =
      (4, [r.value, r.producer_sleep, r.consumer_sleep, r.print_code], encode rs) := by
  simp only [encode]
  exact scanf_four _ _ _ _ _

/-- A statement of the producer keeps the progress of the producer. -/
theorem producer_inv_step (cap : Nat) (hc : 0 < cap) (rs : List Record)
    (hp : ∀ r ∈ rs, 0 ≤ r.producer_sleep) (l : List message_t) (s s1 : Prog) (pick : Bool)
    (hb : BaseInv cap s)
    (hinv : ProducerInv rs (l ++ contents s.buf) (s.output.filter producer_line) s.input
      s.producer)
    (h : producer_stmt cap s pick = some s1) :
    ProducerInv rs (l ++ contents s1.buf) (s1.output.filter producer_line) s1.input
      s1.producer := by
  rcases producer_stmt_cases cap s s1 pick h with ⟨c, q, hpc, he⟩ | ⟨hpc, h4, hs1⟩ |
    ⟨hpc, h4, hs1⟩ | ⟨hpc, hs1⟩ | ⟨hpc, hs1⟩ | ⟨hpc, hs1⟩ | ⟨hpc, hs1⟩ | ⟨hpc, hs1⟩ |
    ⟨hpc, hs1⟩ | ⟨hpc, hs1⟩
  · rcases enqueue_stmt_cases cap s s1 c pick q he with ⟨rfl, hm, hs1⟩ | ⟨rfl, hw, hs1⟩ |
      ⟨rfl, hw, hs1⟩ | ⟨rfl, hm, hs1⟩ | ⟨rfl, b, hbq, hs1⟩ | ⟨rfl, hs1⟩ | ⟨rfl, hs1⟩
    · rw [hs1]
      exact producer_inv_pc rs _ _ _ s.producer _ hinv
        (by rw [hpc]; cases c <;> simp [in_record, data_stored, reported, past_loop, failing,
          quits_stored])
    · rw [hs1]
      exact producer_inv_pc rs _ _ _ s.producer _ hinv
        (by rw [hpc]; cases c <;> simp [in_record, data_stored, reported, past_loop, failing,
          quits_stored])
    · rw [hs1]
      exact producer_inv_pc rs _ _ _ s.producer _ hinv
        (by rw [hpc]; cases c <;> simp [in_record, data_stored, reported, past_loop, failing,
          quits_stored])
    · rw [hs1]
      exact producer_inv_pc rs _ _ _ s.producer _ hinv
        (by rw [hpc]; cases c <;> simp [in_record, data_stored, reported, past_loop, failing,
          quits_stored])
    · have hcon := (enqueue_ok_contents cap hc s.buf b _ hb.1 hbq).1
      obtain ⟨pre, cur, post, hrs, hcur, hpast, hin, hline, hloc, hrep, hsent, hlines, hfail⟩ :=
        hinv
      rw [hpc] at hcur hpast hsent hlines
      rw [hs1]
      show ProducerInv rs (l ++ contents b) (s.output.filter producer_line) s.input
        { s.producer with pc := ProducerPc.enq c CallPc.unlock }
      rw [hcon, ← List.append_assoc, hsent]
      cases c with
      | data =>
        obtain ⟨r, hr⟩ : ∃ r, cur = [r] :=
          List.length_eq_one.1 (by simpa [in_record] using hcur)
        obtain ⟨e1, _, e3, e4⟩ := hloc r (by rw [hr]; exact List.mem_singleton_self r)
        refine ⟨pre, cur, post, hrs, by rw [hr]; rfl, by simp [past_loop], hin, hline, hloc,
          by simp, ?_, hlines, rfl⟩
        show _ = messages_from 1 (pre ++ cur) ++ []
        rw [hr, messages_from_snoc]
        simp [data_stored, quits_stored, enqueue_arg, message_of, e1, e3, e4, hline]
      | first_quit =>
        refine ⟨pre, cur, post, hrs, hcur, hpast, hin, hline, hloc, by simp, ?_, hlines, rfl⟩
        show _ = messages_from 1 (pre ++ []) ++ [quit_msg]
        simp [data_stored, quits_stored, enqueue_arg]
      | second_quit =>
        refine ⟨pre, cur, post, hrs, hcur, hpast, hin, hline, hloc, by simp, ?_, hlines, rfl⟩
        show _ = messages_from 1 (pre ++ []) ++ [quit_msg, quit_msg]
        simp [data_stored, quits_stored, enqueue_arg]
    · rw [hs1]
      exact producer_inv_pc rs _ _ _ s.producer _ hinv
        (by rw [hpc]; cases c <;> simp [in_record, data_stored, reported, past_loop, failing,
          quits_stored])
    · obtain ⟨e1, e2, e3, _, e5, _, _, _, _⟩ := signal_has_value_proj
        { s with producer := { s.producer with pc := after_enqueue s.producer c } } pick
      rw [← hs1] at e1 e2 e3 e5
      rw [e1, e2, e3, e5]
      show ProducerInv rs (l ++ contents s.buf) (s.output.filter producer_line) s.input
        { s.producer with pc := after_enqueue s.producer c }
      cases c with
      | data =>
        obtain ⟨pre, cur, post, hrs, hcur, hpast, hin, hline, hloc, hrep, hsent, hlines,
          hfail⟩ := hinv
        rw [hpc] at hcur hpast hsent hlines
        obtain ⟨r, hr⟩ : ∃ r, cur = [r] :=
          List.length_eq_one.1 (by simpa [in_record] using hcur)
        obtain ⟨_, _, _, e4⟩ := hloc r (by rw [hr]; exact List.mem_singleton_self r)
        by_cases hcode : s.producer.print_code = 1 ∨ s.producer.print_code = 3
        · have hb1 : (s.producer.print_code == 1 || s.producer.print_code == 3) = true := by
            simpa using hcode
          simp only [after_enqueue, hb1, if_true]
          exact ⟨pre, cur, post, hrs, by rw [hr]; rfl, by simp [past_loop], hin, hline, hloc,
            fun _ => hcode, hsent, hlines, rfl⟩
        · have hb1 : ¬ (s.producer.print_code == 1 || s.producer.print_code == 3) = true := by
            simpa using hcode
          simp only [after_enqueue, hb1, if_false]
          refine ⟨pre, cur, post, hrs, by rw [hr]; rfl, by simp [past_loop], hin, hline, hloc,
            by simp, hsent, ?_, rfl⟩
          show _ = outputs (events_from 1 (pre ++ cur))
          rw [hr, outputs_events_snoc, ← e4, if_neg hcode, List.append_nil, hlines]
          simp [reported]
      | first_quit =>
        exact producer_inv_pc rs _ _ _ s.producer _ hinv
          (by rw [hpc]; simp [after_enqueue, in_record, data_stored, reported, past_loop,
            failing, quits_stored])
      | second_quit =>
        exact producer_inv_pc rs _ _ _ s.producer _ hinv
          (by rw [hpc]; simp [after_enqueue, in_record, data_stored, reported, past_loop,
            failing, quits_stored])
  · -- the `scanf` of line 139 reads a record
    obtain ⟨pre, cur, post, hrs, hcur, hpast, hin, hline, hloc, hrep, hsent, hlines, hfail⟩ :=
      hinv
    rw [hpc] at hcur hsent hlines
    have hcur0 : cur = [] := List.length_eq_zero.1 (by simpa [in_record] using hcur)
    cases post with
    | nil =>
      rw [hin] at h4
      simp [encode, scanf_nil, EOF] at h4
    | cons r post =>
      rw [hs1, hin, scanf_encode_cons]
      have key : ∀ pc1, in_record pc1 = true → data_stored pc1 = false →
          reported pc1 = false → past_loop pc1 = false → failing pc1 = false →
          quits_stored pc1 = 0 → pc1 ≠ ProducerPc.report →
          ProducerInv rs (l ++ contents s.buf) (s.output.filter producer_line) (encode post)
            { pc := pc1, line := s.producer.line, consumer_val := r.value,
              producer_sleep := r.producer_sleep, consumer_sleep := r.consumer_sleep,
              print_code := r.print_code } := by
        intro pc1 k1 k2 k3 k4 k5 k6 k7
        refine ⟨pre, [r], post, by rw [hrs, hcur0]; simp, ?_, ?_, rfl, hline, ?_, ?_, ?_, ?_,
          k5⟩
        · show [r].length = if in_record pc1 = true then 1 else 0
          rw [k1]
          rfl
        · show past_loop pc1 = true → post = []
          rw [k4]
          intro hx
          cases hx
        · intro r1 hr1
          rw [List.mem_singleton.1 hr1]
          exact ⟨rfl, rfl, rfl, rfl⟩
        · intro hx
          exact absurd hx k7
        · show _ = messages_from 1 (pre ++ if data_stored pc1 = true then [r] else []) ++
            List.replicate (quits_stored pc1) quit_msg
          rw [k2, k6, hsent, hcur0]
          simp [data_stored, quits_stored]
        · show _ = outputs (events_from 1 (pre ++ if reported pc1 = true then [r] else []))
          rw [k3, hlines, hcur0]
          simp [reported]
      show ProducerInv rs (l ++ contents s.buf) (s.output.filter producer_line) (encode post)
        { pc := if [r.value, r.producer_sleep, r.consumer_sleep, r.print_code].getD 1 0 != 0
                then ProducerPc.nap else ProducerPc.enq EnqueueCall.data CallPc.lock,
          line := s.producer.line,
          consumer_val := r.value, producer_sleep := r.producer_sleep,
          consumer_sleep := r.consumer_sleep, print_code := r.print_code }
      split
      · exact key _ rfl rfl rfl rfl rfl rfl (by simp)
      · exact key _ rfl rfl rfl rfl rfl rfl (by simp)
  · -- the `scanf` of line 139 finds the end of the input
    obtain ⟨pre, cur, post, hrs, hcur, hpast, hin, hline, hloc, hrep, hsent, hlines, hfail⟩ :=
      hinv
    rw [hpc] at hcur hsent hlines
    cases post with
    | cons r post =>
      rw [hin, scanf_encode_cons] at h4
      exact absurd rfl h4
    | nil =>
      rw [hs1, hin]
      refine ⟨pre, cur, [], hrs, hcur, fun _ => rfl, ?_, hline, hloc, by simp, hsent, hlines,
        rfl⟩
      simp [encode, scanf_nil]
  · -- the `nanosleep` of line 144
    obtain ⟨pre, cur, post, hrs, hcur, hpast, hin, hline, hloc, hrep, hsent, hlines, hfail⟩ :=
      hinv
    rw [hpc] at hcur hpast hsent hlines
    obtain ⟨r, hr⟩ : ∃ r, cur = [r] :=
      List.length_eq_one.1 (by simpa [in_record] using hcur)
    obtain ⟨_, e2, _, _⟩ := hloc r (by rw [hr]; exact List.mem_singleton_self r)
    have hmem : r ∈ rs := by rw [hrs, hr]; simp
    have hok : sleep_wrapper s.producer.producer_sleep = true := by
      rw [e2]
      exact sleep_wrapper_of_nonneg _ (hp r hmem)
    rw [hs1]
    simp only [hok, if_true]
    exact ⟨pre, cur, post, hrs, by rw [hr]; rfl, by simp [past_loop], hin, hline, hloc,
      by simp, hsent, hlines, rfl⟩
  · obtain ⟨_, _, _, _, _, _, _, _, _, _, _, _, hfail⟩ := hinv
    rw [hpc] at hfail
    simp [failing] at hfail
  · -- the `printf` of line 154
    obtain ⟨pre, cur, post, hrs, hcur, hpast, hin, hline, hloc, hrep, hsent, hlines, hfail⟩ :=
      hinv
    rw [hpc] at hcur hpast hsent hlines
    obtain ⟨r, hr⟩ : ∃ r, cur = [r] :=
      List.length_eq_one.1 (by simpa [in_record] using hcur)
    obtain ⟨e1, _, _, e4⟩ := hloc r (by rw [hr]; exact List.mem_singleton_self r)
    have hcode := hrep hpc
    rw [hs1]
    refine ⟨pre, cur, post, hrs, by rw [hr]; rfl, by simp [past_loop], hin, hline, hloc,
      by simp, hsent, ?_, rfl⟩
    show (s.output ++ [Output.producer_value s.producer.consumer_val s.producer.line]).filter
      producer_line = outputs (events_from 1 (pre ++ cur))
    rw [filter_snoc_true _ _ _ rfl, hlines, hr, outputs_events_snoc, ← e4, if_pos hcode, e1,
      hline]
    simp [reported]
  · -- `line++`
    obtain ⟨pre, cur, post, hrs, hcur, hpast, hin, hline, hloc, hrep, hsent, hlines, hfail⟩ :=
      hinv
    rw [hpc] at hcur hpast hsent hlines
    rw [hs1]
    refine ⟨pre ++ cur, [], post, by rw [hrs]; simp, rfl, by simp [past_loop], hin, ?_,
      by simp, by simp, ?_, ?_, rfl⟩
    · show wrap32 (s.producer.line + 1) = _
      obtain ⟨r, hr⟩ : ∃ r, cur = [r] :=
        List.length_eq_one.1 (by simpa [in_record] using hcur)
      rw [hline, wrap32_add_left, hr]
      simp
    · rw [hsent]
      simp [data_stored, quits_stored]
    · rw [hlines]
      simp [reported]
  · -- the `scanf` of line 161
    obtain ⟨pre, cur, post, hrs, hcur, hpast, hin, hline, hloc, hrep, hsent, hlines, hfail⟩ :=
      hinv
    rw [hpc] at hcur hpast hsent hlines
    have hpost : post = [] := hpast rfl
    rw [hs1, hin, hpost]
    refine ⟨pre, cur, [], by rw [hrs, hpost], ?_, fun _ => rfl, ?_, hline, hloc, ?_, ?_, ?_, ?_⟩
    · simpa [encode, scanf_nil, in_record] using hcur
    · simp [encode, scanf_nil]
    · simp [encode, scanf_nil]
    · simpa [encode, scanf_nil, data_stored, quits_stored] using hsent
    · simpa [encode, scanf_nil, reported] using hlines
    · simp [encode, scanf_nil, failing]
  · obtain ⟨_, _, _, _, _, _, _, _, _, _, _, _, hfail⟩ := hinv
    rw [hpc] at hfail
    simp [failing] at hfail
  · obtain ⟨_, _, _, _, _, _, _, _, _, _, _, _, hfail⟩ := hinv
    rw [hpc] at hfail
    simp [failing] at hfail

/-! ## The progress of a consumer -/

theorem consumer_loop_snoc (id : Int) (m : message_t) (pre : List message_t) :
    ∀ sum s1, (consumer_loop id sum pre).next = Next.again s1 →
      (consumer_loop id sum (pre ++ [m])).output =
        (consumer_loop id sum pre).output ++ (consumer_body id s1 m).1 ∧
      (consumer_loop id sum (pre ++ [m])).next = (consumer_body id s1 m).2 := by
  induction pre with
  | nil =>
    intro sum s1 h
    simp only [consumer_loop, Next.again.injEq] at h
    subst h
    simp only [List.nil_append, consumer_loop]
    rcases hcb : consumer_body id sum m with ⟨out, n⟩
    cases n <;> simp
  | cons x pre ih =>
    intro sum s1 h
    simp only [List.cons_append, consumer_loop] at h ⊢
    rcases hcb : consumer_body id sum x with ⟨out, n⟩
    rw [hcb] at h
    cases n with
    | again sumx =>
      simp only at h ⊢
      obtain ⟨h1, h2⟩ := ih sumx s1 h
      have e : pre.append [m] = pre ++ [m] := rfl
      rw [e, h1, h2, List.append_assoc]
      exact ⟨rfl, rfl⟩
    | returned k => simp at h
    | exited k => simp at h
    | left_loop => simp at h

theorem stream_append (one : Bool) (a b : List (Bool × message_t)) :
    stream one (a ++ b) = stream one a ++ stream one b := by
  simp [stream, List.filter_append]

theorem stream_taken_same (cap : Nat) (s : Prog) (one : Bool) :
    stream one (taken cap s one) = (taken cap s one).map (fun e => e.2) := by
  unfold taken
  split <;> simp [stream]

theorem stream_taken_other (cap : Nat) (s : Prog) (one : Bool) :
    stream (!one) (taken cap s one) = [] := by
  unfold taken
  split
  · cases one <;> simp [stream]
  · simp [stream]

theorem sleep_ok (m : message_t) (h : 0 ≤ m.consumer_sleep) :
    ¬ (m.consumer_sleep != 0 && !sleep_wrapper m.consumer_sleep) = true := by
  simp [sleep_wrapper_of_nonneg m.consumer_sleep h]

/-- A statement of a consumer keeps the progress of that consumer. -/
theorem consumer_inv_step (cap : Nat) (id : Int) (ms : List message_t) (s s1 : Prog)
    (one : Bool) (hb : BaseInv cap s) (hfit : msg_fits (consumer s one))
    (hsl : ∀ m ∈ contents s.buf, 0 ≤ m.consumer_sleep)
    (hinv : ConsumerInv id ms (s.output.filter (consumer_line id)) (consumer s one))
    (h : consumer_stmt cap s one = some s1) :
    ConsumerInv id (ms ++ (taken cap s one).map (fun e => e.2))
      (s1.output.filter (consumer_line id)) (consumer s1 one) := by
  obtain ⟨pre, cur, hms, hcur, hmsg, hlines, hsum⟩ := hinv
  rcases consumer_stmt_cases cap s s1 one h with ⟨q, hpc, he⟩ | ⟨hpc, hs1⟩ | ⟨hpc, hs1⟩ |
    ⟨hpc, hs1⟩ | ⟨hpc, hs1⟩ | ⟨hpc, hs1⟩ | ⟨hpc, hs1⟩ | ⟨hpc, hs1⟩
  · rcases dequeue_stmt_cases cap s s1 one q he with ⟨rfl, hm, hs1⟩ | ⟨rfl, hw, hs1⟩ |
      ⟨rfl, hw, hs1⟩ | ⟨rfl, hm, hs1⟩ | ⟨rfl, msg, b, hbq, hs1⟩ | ⟨rfl, hs1⟩ | ⟨rfl, hs1⟩
    · have ht := taken_outside cap s one (by rw [hpc]; simp)
      rw [ht, hs1, consumer_same_set]
      simp only [List.map_nil, List.append_nil, set_consumer_output]
      refine ⟨pre, cur, hms, ?_, hmsg, hlines, ?_⟩
      · simpa [in_hand, hpc] using hcur
      · simpa [sum_fits, hpc] using hsum
    · have ht := taken_outside cap s one (by rw [hpc]; simp)
      rw [ht, hs1, consumer_same_set]
      simp only [List.map_nil, List.append_nil, set_consumer_output]
      refine ⟨pre, cur, hms, ?_, hmsg, hlines, ?_⟩
      · simpa [in_hand, hpc] using hcur
      · simpa [sum_fits, hpc] using hsum
    · have ht := taken_outside cap s one (by rw [hpc]; simp)
      rw [ht, hs1, consumer_same_set]
      simp only [List.map_nil, List.append_nil, set_consumer_output]
      refine ⟨pre, cur, hms, ?_, hmsg, hlines, ?_⟩
      · simpa [in_hand, hpc] using hcur
      · simpa [sum_fits, hpc] using hsum
    · have ht := taken_outside cap s one (by rw [hpc]; simp)
      rw [ht, hs1, consumer_same_set]
      simp only [List.map_nil, List.append_nil, set_consumer_output]
      refine ⟨pre, cur, hms, ?_, hmsg, hlines, ?_⟩
      · simpa [in_hand, hpc] using hcur
      · simpa [sum_fits, hpc] using hsum
    · have ht := taken_body cap s one msg b hpc hbq
      have hcon := (dequeue_ok_contents cap s.buf b msg hb.1 hbq).1
      have hcur0 : cur = [] := List.length_eq_zero.1 (by simpa [in_hand, hpc] using hcur)
      rw [ht, hs1, consumer_same_set]
      simp only [List.map_cons, List.map_nil, set_consumer_output]
      refine ⟨pre, [msg], ?_, rfl, ?_, hlines, ?_⟩
      · rw [hms, hcur0]
        simp
      · intro m hm
        rw [List.mem_singleton.1 hm]
        exact ⟨rfl, hsl msg (by rw [hcon]; exact List.mem_cons_self _ _)⟩
      · simpa [sum_fits, hpc] using hsum
    · have ht := taken_outside cap s one (by rw [hpc]; simp)
      rw [ht, hs1, consumer_same_set]
      simp only [List.map_nil, List.append_nil, set_consumer_output]
      refine ⟨pre, cur, hms, ?_, hmsg, hlines, ?_⟩
      · simpa [in_hand, hpc] using hcur
      · simpa [sum_fits, hpc] using hsum
    · have ht := taken_outside cap s one (by rw [hpc]; simp)
      obtain ⟨_, e2, _, _, e5, e6, _, _, _, _⟩ := signal_has_space_proj
        (set_consumer s one { consumer s one with pc := after_dequeue (consumer s one).msg })
      rw [← hs1] at e2 e5 e6
      rw [ht, e2, consumer_eq_of_fields _ s1 e5 e6, consumer_same_set]
      simp only [List.map_nil, List.append_nil, set_consumer_output]
      have hin : in_hand (after_dequeue (consumer s one).msg) = true := by
        simp only [after_dequeue]
        split
        · rfl
        · split <;> rfl
      refine ⟨pre, cur, hms, ?_, hmsg, hlines, ?_⟩
      · show cur.length = if in_hand (after_dequeue (consumer s one).msg) = true then 1 else 0
        rw [hin]
        simpa [in_hand, hpc] using hcur
      · simp only [sum_fits, hpc] at hsum
        simp only [after_dequeue]
        split
        · simpa [sum_fits] using hsum
        · split <;> simpa [sum_fits] using hsum
  · -- the `printf` of line 198
    have ht := taken_outside cap s one (by rw [hpc]; simp)
    obtain ⟨m, hm⟩ : ∃ m, cur = [m] :=
      List.length_eq_one.1 (by simpa [in_hand, hpc] using hcur)
    obtain ⟨em, _⟩ := hmsg m (by rw [hm]; exact List.mem_singleton_self m)
    subst em
    simp only [msg_fits, hpc] at hfit
    simp only [sum_fits, hpc] at hsum
    obtain ⟨hn, hid⟩ := hsum
    obtain ⟨h1, h2⟩ := consumer_loop_snoc id (consumer s one).msg pre 0 _ hn
    rw [consumer_body_quit id _ _ hfit] at h1 h2
    rw [ht, hs1, consumer_same_set]
    simp only [List.map_nil, List.append_nil, set_consumer_output]
    refine ⟨pre ++ [(consumer s one).msg], [], by rw [hms, hm]; simp, rfl, by simp, ?_, ?_⟩
    · rw [filter_snoc_true _ _ _ (by simp [consumer_line, hid]), hlines, h1, hid]
    · simp only [sum_fits]
      exact ⟨h2, hid⟩
  · -- the store of line 199
    have ht := taken_outside cap s one (by rw [hpc]; simp)
    rw [ht, hs1, consumer_same_set]
    simp only [List.map_nil, List.append_nil, set_consumer_output]
    simp only [sum_fits, hpc] at hsum
    refine ⟨pre, cur, hms, ?_, hmsg, hlines, ?_⟩
    · simpa [in_hand, hpc] using hcur
    · simp only [sum_fits]
      exact hsum.1
  · -- the `nanosleep` of line 206
    have ht := taken_outside cap s one (by rw [hpc]; simp)
    obtain ⟨m, hm⟩ : ∃ m, cur = [m] :=
      List.length_eq_one.1 (by simpa [in_hand, hpc] using hcur)
    obtain ⟨em, hnn⟩ := hmsg m (by rw [hm]; exact List.mem_singleton_self m)
    have hok : sleep_wrapper (consumer s one).msg.consumer_sleep = true := by
      rw [em]
      exact sleep_wrapper_of_nonneg _ hnn
    rw [ht, hs1, consumer_same_set]
    simp only [List.map_nil, List.append_nil, set_consumer_output, hok, if_true]
    refine ⟨pre, cur, hms, ?_, hmsg, hlines, ?_⟩
    · simpa [in_hand, hpc] using hcur
    · simpa [sum_fits, hpc] using hsum
  · simp [sum_fits, hpc] at hsum
  · simp [sum_fits, hpc] at hsum
  · -- `sum += msg.value`
    have ht := taken_outside cap s one (by rw [hpc]; simp)
    obtain ⟨m, hm⟩ : ∃ m, cur = [m] :=
      List.length_eq_one.1 (by simpa [in_hand, hpc] using hcur)
    obtain ⟨em, hnn⟩ := hmsg m (by rw [hm]; exact List.mem_singleton_self m)
    subst em
    simp only [msg_fits, hpc] at hfit
    simp only [sum_fits, hpc] at hsum
    obtain ⟨hn, hid⟩ := hsum
    rw [ht, hs1, consumer_same_set]
    simp only [List.map_nil, List.append_nil, set_consumer_output]
    by_cases hcode : ((consumer s one).msg.print_code == 2 ||
        (consumer s one).msg.print_code == 3) = true
    · rw [if_pos hcode]
      refine ⟨pre, cur, hms, by rw [hm]; rfl, hmsg, hlines, ?_⟩
      simp only [sum_fits]
      exact ⟨_, hn, rfl, by simpa using hcode, hid⟩
    · rw [if_neg hcode]
      obtain ⟨h1, h2⟩ := consumer_loop_snoc id (consumer s one).msg pre 0 _ hn
      rw [consumer_body_data id _ _ hfit (sleep_ok _ hnn)] at h1 h2
      rw [if_neg hcode, List.append_nil] at h1
      have hlb : loop_back (consumer s one).msg = ConsumerPc.deq CallPc.lock := by
        simp [loop_back, hfit]
      rw [hlb]
      refine ⟨pre ++ [(consumer s one).msg], [], by rw [hms, hm]; simp, rfl, by simp,
        by rw [h1]; exact hlines, ?_⟩
      simp only [sum_fits]
      rw [h2]
      exact ⟨rfl, hid⟩
  · -- the `printf` of line 215
    have ht := taken_outside cap s one (by rw [hpc]; simp)
    obtain ⟨m, hm⟩ : ∃ m, cur = [m] :=
      List.length_eq_one.1 (by simpa [in_hand, hpc] using hcur)
    obtain ⟨em, hnn⟩ := hmsg m (by rw [hm]; exact List.mem_singleton_self m)
    subst em
    simp only [msg_fits, hpc] at hfit
    simp only [sum_fits, hpc] at hsum
    obtain ⟨sum0, hn, hsum1, hcode, hid⟩ := hsum
    have hcb : ((consumer s one).msg.print_code == 2 ||
        (consumer s one).msg.print_code == 3) = true := by simpa using hcode
    obtain ⟨h1, h2⟩ := consumer_loop_snoc id (consumer s one).msg pre 0 _ hn
    rw [consumer_body_data id _ _ hfit (sleep_ok _ hnn)] at h1 h2
    rw [if_pos hcb, ← hsum1] at h1
    rw [← hsum1] at h2
    have hlb : loop_back (consumer s one).msg = ConsumerPc.deq CallPc.lock := by
      simp [loop_back, hfit]
    rw [ht, hs1, consumer_same_set, hlb]
    simp only [List.map_nil, List.append_nil, set_consumer_output]
    refine ⟨pre ++ [(consumer s one).msg], [], by rw [hms, hm]; simp, rfl, by simp, ?_, ?_⟩
    · rw [filter_snoc_true _ _ _ (by simp [consumer_line, hid]), hlines, h1, hid]
    · simp only [sum_fits]
      exact ⟨h2, hid⟩

/-! ## The invariant of the executions on records without a negative delay -/

theorem messages_from_sleep (rs : List Record) (h : ∀ r ∈ rs, 0 ≤ r.consumer_sleep) :
    ∀ line, ∀ m ∈ messages_from line rs, 0 ≤ m.consumer_sleep := by
  induction rs with
  | nil =>
    intro line m hm
    simp [messages_from] at hm
  | cons r rs ih =>
    intro line m hm
    simp only [messages_from, List.mem_cons] at hm
    rcases hm with hm | hm
    · rw [hm]
      exact h r (List.mem_cons_self _ _)
    · exact ih (fun r1 hr1 => h r1 (List.mem_cons_of_mem _ hr1)) _ m hm

/-- No message sent through the buffer has a negative delay. -/
theorem producer_inv_sleep (rs : List Record) (hcs : ∀ r ∈ rs, 0 ≤ r.consumer_sleep)
    (sent : List message_t) (lines : List Output) (inp : List Token) (p : ProducerState)
    (hinv : ProducerInv rs sent lines inp p) : ∀ m ∈ sent, 0 ≤ m.consumer_sleep := by
  obtain ⟨pre, cur, post, hrs, _, _, _, _, _, _, hsent, _, _⟩ := hinv
  intro m hm
  rw [hsent] at hm
  rcases List.mem_append.1 hm with hm | hm
  · refine messages_from_sleep _ ?_ 1 m hm
    intro r hr
    apply hcs r
    rw [hrs]
    rcases List.mem_append.1 hr with hr | hr
    · simp [hr]
    · split at hr
      · simp [hr]
      · cases hr
  · rw [(List.mem_replicate.1 hm).2]
    decide

theorem producer_inv_wake (rs : List Record) (sent : List message_t) (lines : List Output)
    (inp : List Token) (p : ProducerState) (c : EnqueueCall)
    (hinv : ProducerInv rs sent lines inp p) (hpc : p.pc = ProducerPc.enq c CallPc.waiting) :
    ProducerInv rs sent lines inp { p with pc := ProducerPc.enq c CallPc.woken } :=
  producer_inv_pc rs sent lines inp p _ hinv
    (by rw [hpc]; cases c <;> simp [in_record, data_stored, reported, past_loop, failing,
      quits_stored])

theorem consumer_inv_wake (id : Int) (ms : List message_t) (lines : List Output)
    (c : ConsumerState) (hinv : ConsumerInv id ms lines c)
    (hpc : c.pc = ConsumerPc.deq CallPc.waiting) :
    ConsumerInv id ms lines { c with pc := ConsumerPc.deq CallPc.woken } := by
  obtain ⟨pre, cur, hms, hcur, hmsg, hlines, hsum⟩ := hinv
  refine ⟨pre, cur, hms, ?_, hmsg, hlines, ?_⟩
  · simpa [in_hand, hpc] using hcur
  · simpa [sum_fits, hpc] using hsum

theorem sum_fits_id (id : Int) (c : ConsumerState) (n : Next) (h : sum_fits id c n)
    (hd : c.pc ≠ ConsumerPc.done) : c.consumer_sum = id := by
  unfold sum_fits at h
  split at h
  · obtain ⟨_, _, _, _, hid⟩ := h
    exact hid
  · exact h.2
  · rename_i hpc
    exact absurd hpc hd
  · exact h.elim
  · exact h.elim
  · exact h.elim
  · exact h.2

theorem consumer_stmt_not_done (cap : Nat) (s s1 : Prog) (one : Bool)
    (h : consumer_stmt cap s one = some s1) : (consumer s one).pc ≠ ConsumerPc.done := by
  intro hd
  simp [consumer_stmt, hd] at h

theorem consumer_id_ne (one : Bool) : consumer_id (!one) ≠ consumer_id one := by
  cases one <;> simp [consumer_id]

theorem bool_eq_or_not (b one : Bool) : b = one ∨ b = !one := by
  cases b <;> cases one <;> simp

/-- A statement of the producer keeps the invariant. -/
theorem line_inv_producer (cap : Nat) (hc : 0 < cap) (rs : List Record)
    (hp : ∀ r ∈ rs, 0 ≤ r.producer_sleep) (log : List (Bool × message_t)) (s s1 : Prog)
    (pick : Bool) (hs : Sound cap s) (hinv : LineInv rs log s)
    (h : producer_stmt cap s pick = some s1) : LineInv rs log s1 := by
  obtain ⟨hprod, hcons, hexit⟩ := hinv
  obtain ⟨_, _, e3, e4, e5⟩ := producer_effect cap s s1 pick h
  refine ⟨producer_inv_step cap hc rs hp _ s s1 pick hs.1 hprod h, ?_, ?_⟩
  · intro one
    rw [e4]
    rcases e3 one with e | ⟨hw, e⟩
    · rw [e]
      exact hcons one
    · rw [e]
      exact consumer_inv_wake _ _ _ _ (hcons one) hw
  · rcases e5 with e | e
    · rw [e]
      exact hexit
    · obtain ⟨_, _, _, _, _, _, _, _, _, _, _, _, hfail⟩ := hprod
      rw [e] at hfail
      simp [failing] at hfail

/-- A statement of a consumer keeps the invariant. -/
theorem line_inv_consumer (cap : Nat) (rs : List Record)
    (hcs : ∀ r ∈ rs, 0 ≤ r.consumer_sleep) (log : List (Bool × message_t)) (s s1 : Prog)
    (one : Bool) (hs : Sound cap s) (hinv : LineInv rs log s)
    (h : consumer_stmt cap s one = some s1) : LineInv rs (log ++ taken cap s one) s1 := by
  obtain ⟨hprod, hcons, hexit⟩ := hinv
  obtain ⟨_, _, e3, e4, e5, e6, e7, e8, e9⟩ := consumer_effect cap s s1 one hs.1 h
  have hfits : msg_fits (consumer s one) := by
    obtain ⟨_, _, _, _, _, _, f0, f1⟩ := hs.2.2.1
    cases one
    · exact f0
    · exact f1
  have hsl : ∀ m ∈ contents s.buf, 0 ≤ m.consumer_sleep := fun m hm =>
    producer_inv_sleep rs hcs _ _ _ _ hprod m (List.mem_append_right _ hm)
  have hmover := consumer_inv_step cap (consumer_id one) (stream one log) s s1 one hs.1 hfits
    hsl (hcons one) h
  have hid : (consumer s one).consumer_sum = consumer_id one := by
    obtain ⟨_, _, _, _, _, _, hsum⟩ := hcons one
    exact sum_fits_id _ _ _ hsum (consumer_stmt_not_done cap s s1 one h)
  refine ⟨?_, ?_, ?_⟩
  · have hsent : (log ++ taken cap s one).map (fun e => e.2) ++ contents s1.buf =
        log.map (fun e => e.2) ++ contents s.buf := by
      rw [List.map_append, List.append_assoc, e6]
    rw [hsent, e5, e3]
    rcases e4 with e | ⟨c, hw, e⟩
    · rw [e]
      exact hprod
    · rw [e]
      exact producer_inv_wake rs _ _ _ _ c hprod hw
  · intro b
    rcases bool_eq_or_not b one with hb | hb
    · rw [hb, stream_append, stream_taken_same]
      exact hmover
    · rw [hb, stream_append, stream_taken_other, List.append_nil, e7,
        e9 (consumer_id (!one)) (by rw [hid]; exact consumer_id_ne one)]
      exact hcons (!one)
  · rcases e8 with e | e
    · rw [e]
      exact hexit
    · obtain ⟨_, _, _, _, _, _, hsum⟩ := hcons one
      simp [sum_fits, e] at hsum

/-- A step of the process keeps the invariant. -/
theorem line_inv_step (cap : Nat) (hc : 0 < cap) (rs : List Record)
    (hp : ∀ r ∈ rs, 0 ≤ r.producer_sleep) (hcs : ∀ r ∈ rs, 0 ≤ r.consumer_sleep)
    (log : List (Bool × message_t)) (s : Prog) (a : Action) (s1 : Prog)
    (hs : Sound cap s) (hinv : LineInv rs log s) (h : prog_step cap s a = some s1) :
    LineInv rs (log ++ dequeued_by cap s a) s1 := by
  obtain ⟨_, hcases⟩ := prog_step_cases cap s s1 a h
  rcases hcases with ⟨pick, ha, hpr⟩ | ⟨one, pick, ha, hcn⟩ | ⟨pick, ha, hm⟩ | ⟨t, ha, hw⟩ |
    ⟨ha, _, hs1⟩
  · rw [ha]
    simp only [dequeued_by, List.append_nil]
    exact line_inv_producer cap hc rs hp log s s1 pick hs hinv hpr
  · rw [ha, dequeued_by_consumer]
    exact line_inv_consumer cap rs hcs log s s1 one hs hinv hcn
  · rw [ha]
    simp only [dequeued_by, List.append_nil]
    obtain ⟨hprod, hcons, hexit⟩ := hinv
    rcases main_stmt_cases s s1 hm with ⟨_, _, e⟩ | ⟨_, _, e⟩ | ⟨_, _, e⟩ | ⟨_, e⟩ | ⟨_, e⟩
    · rw [e]
      exact ⟨hprod, fun one => by cases one <;> exact hcons _, hexit⟩
    · rw [e]
      exact ⟨hprod, fun one => by cases one <;> exact hcons _, hexit⟩
    · rw [e]
      exact ⟨hprod, fun one => by cases one <;> exact hcons _, hexit⟩
    · rw [e]
      refine ⟨?_, fun one => ?_, hexit⟩
      · show ProducerInv rs _ ((s.output ++ [_]).filter producer_line) s.input s.producer
        rw [filter_snoc_false _ _ _ rfl]
        exact hprod
      · show ConsumerInv _ _ ((s.output ++ [_]).filter (consumer_line (consumer_id one)))
          (consumer s one)
        rw [filter_snoc_false _ _ _ rfl]
        exact hcons one
    · rw [e]
      refine ⟨hprod, fun one => by cases one <;> exact hcons _, ?_⟩
      intro k hk
      simp only [call_exit] at hk
      split at hk
      · exact hexit k hk
      · simp only [Option.some.injEq] at hk
        exact hk.symm
  · rw [ha]
    simp only [dequeued_by, List.append_nil]
    obtain ⟨hprod, hcons, hexit⟩ := hinv
    rcases spurious_wake_cases s s1 t hw with ⟨c, _, hpc, e⟩ | ⟨one, _, hpc, e⟩
    · rw [e]
      exact ⟨producer_inv_wake rs _ _ _ _ c hprod hpc,
        fun one => by cases one <;> exact hcons _, hexit⟩
    · rw [e]
      refine ⟨by simpa using hprod, fun b => ?_, by simpa using hexit⟩
      rcases bool_eq_or_not b one with hb | hb
      · rw [hb, consumer_same_set, set_consumer_output]
        exact consumer_inv_wake _ _ _ _ (hcons one) hpc
      · rw [hb, consumer_other_set, set_consumer_output]
        exact hcons (!one)
  · rw [ha, hs1]
    simp only [dequeued_by, List.append_nil]
    obtain ⟨hprod, hcons, hexit⟩ := hinv
    exact ⟨hprod, fun one => by cases one <;> exact hcons _, hexit⟩

theorem line_inv_init (cap : Nat) (rs : List Record) :
    LineInv rs [] (prog_init cap (encode rs)) := by
  refine ⟨?_, ?_, ?_⟩
  · refine ⟨[], [], rs, rfl, rfl, ?_, rfl, rfl, by simp, ?_, ?_, ?_, rfl⟩
    · intro hx
      cases hx
    · intro hx
      cases hx
    · simp [prog_init, contents_init, messages_from, data_stored, quits_stored]
    · simp [prog_init, events_from, outputs, reported]
  · intro one
    refine ⟨[], [], rfl, ?_, by simp, ?_, ?_⟩
    · cases one <;> rfl
    · cases one <;> rfl
    · cases one <;> exact ⟨rfl, rfl⟩
  · intro k hk
    cases hk

/-- The invariant holds along every execution on records without a negative delay. -/
theorem line_inv_run (cap : Nat) (hc : 0 < cap) (rs : List Record)
    (hp : ∀ r ∈ rs, 0 ≤ r.producer_sleep) (hcs : ∀ r ∈ rs, 0 ≤ r.consumer_sleep)
    (sched : List Action) (s : Prog)
    (h : prog_run cap sched (prog_init cap (encode rs)) = some s) :
    Sound cap s ∧ LineInv rs (dequeue_log cap sched (prog_init cap (encode rs))) s := by
  refine traced_induct cap (fun log s => Sound cap s ∧ LineInv rs log s) _
    ⟨sound_init cap _, line_inv_init cap rs⟩ ?_ sched s h
  intro log s a s1 hinv hstep
  exact ⟨sound_step cap hc s s1 a hinv.1 hstep,
    line_inv_step cap hc rs hp hcs log s a s1 hinv.1 hinv.2 hstep⟩

/-! ## The quit messages that the consumers dequeue -/

theorem quits_in_datas (datas : List message_t) (k : Nat) (hd : ∀ d ∈ datas, d.quit = 0) :
    quits_in (datas ++ List.replicate k quit_msg) = k := by
  induction datas with
  | nil =>
    simp only [List.nil_append, quits_in]
    induction k with
    | zero => rfl
    | succ k ih =>
      rw [List.replicate_succ, List.countP_cons, ih]
      simp [quit_msg]
  | cons d ds ih =>
    have hd0 : d.quit = 0 := hd d (List.mem_cons_self _ _)
    have ih1 := ih (fun x hx => hd x (List.mem_cons_of_mem _ hx))
    simp only [quits_in] at ih1 ⊢
    rw [List.cons_append, List.countP_cons, ih1]
    simp [hd0]

/-- What a statement of a consumer does to its local `msg`: only the statements of
`dequeue` on the buffer change it, to the message taken. -/
theorem consumer_msg_effect (cap : Nat) (s s1 : Prog) (one : Bool)
    (h : consumer_stmt cap s one = some s1) :
    (taken cap s one = [] ∧ (consumer s1 one).msg = (consumer s one).msg) ∨
    ∃ msg, taken cap s one = [(one, msg)] ∧ (consumer s1 one).msg = msg ∧
      (consumer s one).pc = ConsumerPc.deq CallPc.body := by
  rcases consumer_stmt_cases cap s s1 one h with ⟨q, hpc, he⟩ | ⟨hpc, hs1⟩ | ⟨hpc, hs1⟩ |
    ⟨hpc, hs1⟩ | ⟨hpc, hs1⟩ | ⟨hpc, hs1⟩ | ⟨hpc, hs1⟩ | ⟨hpc, hs1⟩
  · rcases dequeue_stmt_cases cap s s1 one q he with ⟨rfl, hm, hs1⟩ | ⟨rfl, hw, hs1⟩ |
      ⟨rfl, hw, hs1⟩ | ⟨rfl, hm, hs1⟩ | ⟨rfl, msg, b, hbq, hs1⟩ | ⟨rfl, hs1⟩ | ⟨rfl, hs1⟩
    · exact Or.inl ⟨taken_outside cap s one (by rw [hpc]; simp),
        by rw [hs1, consumer_same_set]⟩
    · exact Or.inl ⟨taken_outside cap s one (by rw [hpc]; simp),
        by rw [hs1, consumer_same_set]⟩
    · exact Or.inl ⟨taken_outside cap s one (by rw [hpc]; simp),
        by rw [hs1, consumer_same_set]⟩
    · exact Or.inl ⟨taken_outside cap s one (by rw [hpc]; simp),
        by rw [hs1, consumer_same_set]⟩
    · exact Or.inr ⟨msg, taken_body cap s one msg b hpc hbq,
        by rw [hs1, consumer_same_set], hpc⟩
    · exact Or.inl ⟨taken_outside cap s one (by rw [hpc]; simp),
        by rw [hs1, consumer_same_set]⟩
    · refine Or.inl ⟨taken_outside cap s one (by rw [hpc]; simp), ?_⟩
      obtain ⟨_, _, _, _, e5, e6, _, _, _, _⟩ := signal_has_space_proj
        (set_consumer s one { consumer s one with pc := after_dequeue (consumer s one).msg })
      rw [← hs1] at e5 e6
      rw [consumer_eq_of_fields _ s1 e5 e6, consumer_same_set]
  all_goals
    refine Or.inl ⟨taken_outside cap s one (by rw [hpc]; simp), ?_⟩
    rw [hs1]
    first
      | rw [consumer_same_set]
      | rw [call_exit_consumer, consumer_same_set]

theorem quits_in_append (a b : List message_t) : quits_in (a ++ b) = quits_in a + quits_in b := by
  simp [quits_in, List.countP_append]

theorem quits_in_single (m : message_t) : quits_in [m] = if m.quit = 0 then 0 else 1 := by
  by_cases h : m.quit = 0 <;> simp [quits_in, h]

/-- The number of quit messages that a consumer has dequeued is 1 when its local `msg`
holds a quit message and 0 otherwise. -/
theorem quits_taken_step (cap : Nat) (log : List (Bool × message_t)) (s : Prog) (a : Action)
    (s1 : Prog) (hs : Sound cap s)
    (hinv : ∀ one, quits_in (stream one log) = holds_quit (consumer s one))
    (h : prog_step cap s a = some s1) :
    ∀ one, quits_in (stream one (log ++ dequeued_by cap s a)) = holds_quit (consumer s1 one) := by
  obtain ⟨_, hcases⟩ := prog_step_cases cap s s1 a h
  rcases hcases with ⟨pick, ha, hpr⟩ | ⟨one, pick, ha, hcn⟩ | ⟨pick, ha, hm⟩ | ⟨t, ha, hw⟩ |
    ⟨ha, _, hs1⟩
  · rw [ha]
    simp only [dequeued_by, List.append_nil]
    obtain ⟨_, _, e3, _, _⟩ := producer_effect cap s s1 pick hpr
    intro b
    rw [hinv b]
    rcases e3 b with e | ⟨_, e⟩
    · rw [e]
    · rw [e]
      rfl
  · rw [ha, dequeued_by_consumer]
    obtain ⟨_, _, _, _, _, _, e7, _, _⟩ := consumer_effect cap s s1 one hs.1 hcn
    intro b
    rcases bool_eq_or_not b one with hb | hb
    · rw [hb, stream_append, stream_taken_same, quits_in_append, hinv one]
      rcases consumer_msg_effect cap s s1 one hcn with ⟨ht, hmsg⟩ | ⟨msg, ht, hmsg, hpc⟩
      · rw [ht]
        simp only [holds_quit, hmsg, quits_in, List.map_nil, List.countP_nil, Nat.add_zero]
      · have hfits : msg_fits (consumer s one) := by
          obtain ⟨_, _, _, _, _, _, f0, f1⟩ := hs.2.2.1
          cases one
          · exact f0
          · exact f1
        simp only [msg_fits, hpc] at hfits
        rw [ht]
        simp only [List.map_cons, List.map_nil, quits_in_single, holds_quit, hfits, hmsg,
          if_true, Nat.zero_add]
    · rw [hb, stream_append, stream_taken_other, List.append_nil, e7]
      exact hinv (!one)
  · rw [ha]
    simp only [dequeued_by, List.append_nil]
    intro b
    rw [hinv b]
    rcases main_stmt_cases s s1 hm with ⟨_, _, e⟩ | ⟨_, _, e⟩ | ⟨_, _, e⟩ | ⟨_, e⟩ | ⟨_, e⟩
    all_goals
      rw [e]
      cases b <;> rfl
  · rw [ha]
    simp only [dequeued_by, List.append_nil]
    intro b
    rw [hinv b]
    rcases spurious_wake_cases s s1 t hw with ⟨c, _, hpc, e⟩ | ⟨one, _, hpc, e⟩
    · rw [e]
      cases b <;> rfl
    · rw [e]
      rcases bool_eq_or_not b one with hb | hb
      · rw [hb, consumer_same_set]
        rfl
      · rw [hb, consumer_other_set]
  · rw [ha, hs1]
    simp only [dequeued_by, List.append_nil]
    intro b
    rw [hinv b]
    cases b <;> rfl

theorem quits_taken_run (cap : Nat) (hc : 0 < cap) (inp : List Token) (sched : List Action)
    (s : Prog) (h : prog_run cap sched (prog_init cap inp) = some s) :
    Sound cap s ∧
    ∀ one, quits_in (stream one (dequeue_log cap sched (prog_init cap inp))) =
      holds_quit (consumer s one) := by
  refine traced_induct cap (fun log s => Sound cap s ∧
    ∀ one, quits_in (stream one log) = holds_quit (consumer s one)) _
    ⟨sound_init cap _, ?_⟩ ?_ sched s h
  · intro one
    cases one <;> rfl
  · intro log s a s1 hinv hstep
    exact ⟨sound_step cap hc s s1 a hinv.1 hstep,
      quits_taken_step cap log s a s1 hinv.1 hinv.2 hstep⟩

/-- The place of a consumer whose local `msg` holds a quit message. -/
theorem holds_quit_place (c : ConsumerState) (hf : msg_fits c) (h : holds_quit c = 1) :
    c.pc = ConsumerPc.deq CallPc.unlock ∨ c.pc = ConsumerPc.deq CallPc.signal ∨
    c.pc = ConsumerPc.final_line ∨ c.pc = ConsumerPc.publish ∨ c.pc = ConsumerPc.done := by
  have hq : c.msg.quit ≠ 0 := by
    intro h0
    simp [holds_quit, h0] at h
  unfold msg_fits at hf
  split at hf
  · exact Or.inr (Or.inr (Or.inl (by assumption)))
  · exact Or.inr (Or.inr (Or.inr (Or.inl (by assumption))))
  · exact Or.inr (Or.inr (Or.inr (Or.inr (by assumption))))
  · exact Or.inl (by assumption)
  · exact Or.inr (Or.inl (by assumption))
  · exact absurd hf hq

theorem holds_quit_done (c : ConsumerState) (hf : msg_fits c) (h : c.pc = ConsumerPc.done) :
    holds_quit c = 1 := by
  simp only [msg_fits, h] at hf
  simp [holds_quit, hf]

theorem contents_nil_front (cap : Nat) (b : RingBuf) (hi : Inv cap b)
    (h : contents b = []) : b.front = -1 ∧ b.rear = -1 := by
  have hl := contents_length cap b hi
  rw [h] at hl
  obtain ⟨_, hx | ⟨h1, h2, h3, h4⟩⟩ := hi
  · exact hx
  · exfalso
    simp only [List.length_nil, Nat.cast_zero] at hl
    split at hl
    · omega
    · split at hl <;> omega

/-! ## The end of the process -/

theorem steps_left_init (cap : Nat) (rs : List Record) :
    steps_left (prog_init cap (encode rs)) = 24 * rs.length + 56 := by
  simp only [steps_left, prog_init, contents_init, encode_length, producer_weight,
    consumer_weight, call_weight, main_rank, List.length_nil]
  simp only [Bool.false_eq_true, if_false]
  omega

/-- Once `exit` has been called in an execution on records without a negative delay, it
was called by `main` with status 0 after the three threads had returned and the total
was printed. -/
theorem exit_final (cap : Nat) (rs : List Record) (log : List (Bool × message_t)) (s : Prog)
    (hs : Sound cap s) (hl : LineInv rs log s) (he : s.exit_code.isSome = true) :
    s.exit_code = some 0 ∧ s.main = MainPc.exiting ∧ s.producer.pc = ProducerPc.done ∧
    s.consumer_zero.pc = ConsumerPc.done ∧ s.consumer_one.pc = ConsumerPc.done ∧
    Output.total (wrap32 (s.consumer_one.consumer_sum + s.consumer_zero.consumer_sum)) ∈
      s.output := by
  obtain ⟨_, _, _, _, _, h6, h7, h8, h9, h10⟩ := hs.2.2.2
  have h0 : s.exit_code = some 0 := by
    cases hx : s.exit_code with
    | none => rw [hx] at he; cases he
    | some k => rw [hl.2.2 k hx]
  have hm := h6 h0
  have hr : main_rank s.main = 5 := by rw [hm]; rfl
  exact ⟨h0, hm, h9 (by omega), h7 (by omega), h8 (by omega), h10 (by omega)⟩

/-- C13, amended (shutdown liveness).  The program is run one statement at a time, with a
mutex that names its owner, `pthread_cond_wait` that blocks until a signal or a spurious
wake-up, and `exit` that lets the other threads run on until the process ends.  On an
input of records in which no producer delay and no consumer delay is negative, in every
execution: no thread reaches a call of `exit(1)` and an exit status, once set, is 0;
the execution is finite, with at most
`24 * n + 56` actions on `n` records plus three for every spurious wake-up; as long as
the process has not ended some thread can execute its next statement, or `main` has
called `exit(0)` and the process can end, without the help of a spurious wake-up; when
the process has ended its exit status is 0, the producer and both consumers have
returned, `main` has passed its three joins and has printed the total; and the
execution can always be continued to the end of the process.  On every input
whatsoever, a state in which the process has not ended has a thread that can execute
its next statement, or `exit` has been called and the process can end. -/
theorem shutdown_liveness (rs : List Record) (sched : List Action) (s : Prog)
    (hp : ∀ r ∈ rs, 0 ≤ r.producer_sleep) (hcs : ∀ r ∈ rs, 0 ≤ r.consumer_sleep)
    (h : prog_run BUFFER_SIZE sched (prog_init BUFFER_SIZE (encode rs)) = some s) :
    (∀ k, s.exit_code = some k → k = 0) ∧
    failing s.producer.pc = false ∧
    (∀ one, (consumer s one).pc ≠ ConsumerPc.nap_error ∧
      (consumer s one).pc ≠ ConsumerPc.exit_call ∧
      (consumer s one).pc ≠ ConsumerPc.exiting) ∧
    sched.length + steps_left s ≤ 24 * rs.length + 56 + 3 * wakes sched ∧
    (s.halted = false →
      (∃ t pick s1, prog_step BUFFER_SIZE s (Action.run t pick) = some s1) ∨
      (s.main = MainPc.exiting ∧ s.exit_code = some 0 ∧
        ∃ s1, prog_step BUFFER_SIZE s Action.halt = some s1)) ∧
    (s.halted = true →
      s.exit_code = some 0 ∧ s.main = MainPc.exiting ∧ s.producer.pc = ProducerPc.done ∧
      s.consumer_zero.pc = ConsumerPc.done ∧ s.consumer_one.pc = ConsumerPc.done ∧
      Output.total (wrap32 (s.consumer_one.consumer_sum + s.consumer_zero.consumer_sum)) ∈
        s.output) ∧
    (∃ rest s1, prog_run BUFFER_SIZE rest s = some s1 ∧ s1.halted = true ∧ wakes rest = 0) ∧
    (∀ (inp : List Token) (sched1 : List Action) (s2 : Prog),
      prog_run BUFFER_SIZE sched1 (prog_init BUFFER_SIZE inp) = some s2 → s2.halted = false →
      (∃ t pick s3, prog_step BUFFER_SIZE s2 (Action.run t pick) = some s3) ∨
      ∃ s3, prog_step BUFFER_SIZE s2 Action.halt = some s3) := by
  have hc : 0 < BUFFER_SIZE := by decide
  obtain ⟨hs, hl⟩ := line_inv_run BUFFER_SIZE hc rs hp hcs sched s h
  refine ⟨hl.2.2, ?_, ?_, ?_, ?_, ?_, ?_, ?_⟩
  · obtain ⟨_, _, _, _, _, _, _, _, _, _, _, _, hfail⟩ := hl.1
    exact hfail
  · intro one
    obtain ⟨_, _, _, _, _, _, hsum⟩ := hl.2.1 one
    refine ⟨?_, ?_, ?_⟩
    · intro hpc
      simp [sum_fits, hpc] at hsum
    · intro hpc
      simp [sum_fits, hpc] at hsum
    · intro hpc
      simp [sum_fits, hpc] at hsum
  · have hb := steps_left_run BUFFER_SIZE hc sched _ s (base_inv_init _ _) h
    rw [steps_left_init] at hb
    exact hb
  · intro hh
    rcases prog_can_step BUFFER_SIZE hc s hs.1 hs.2.1 hs.2.2.1 hs.2.2.2 hh with hr | ⟨s1, h1⟩
    · exact Or.inl hr
    · right
      have he : s.exit_code.isSome = true := by
        by_contra hx
        simp [prog_step, hh, hx] at h1
      obtain ⟨e0, em, _⟩ := exit_final BUFFER_SIZE rs _ s hs hl he
      exact ⟨em, e0, s1, h1⟩
  · intro hh
    exact exit_final BUFFER_SIZE rs _ s hs hl (hs.2.2.2.1 hh)
  · exact completes_aux BUFFER_SIZE hc (steps_left s) s hs (Nat.le_refl _)
  · intro inp sched1 s2 h2 hh
    have hs2 := sound_run BUFFER_SIZE hc sched1 _ s2 (sound_init _ inp) h2
    exact prog_can_step BUFFER_SIZE hc s2 hs2.1 hs2.2.1 hs2.2.2.1 hs2.2.2.2 hh

/-- Witness for C13: the execution `report_schedule` on `report_records` ends with exit
status 0 after the three threads have returned. -/
theorem shutdown_liveness_witness :
    (∀ r ∈ report_records, 0 ≤ r.producer_sleep) ∧
    (∀ r ∈ report_records, 0 ≤ r.consumer_sleep) ∧
    prog_run BUFFER_SIZE report_schedule (prog_init BUFFER_SIZE (encode report_records)) =
      some report_final ∧
    report_final.halted = true ∧
    (report_final.exit_code = some 0 ∧ report_final.main = MainPc.exiting ∧
      report_final.producer.pc = ProducerPc.done ∧
      report_final.consumer_zero.pc = ConsumerPc.done ∧
      report_final.consumer_one.pc = ConsumerPc.done ∧
      Output.total (wrap32 (report_final.consumer_one.consumer_sum +
        report_final.consumer_zero.consumer_sum)) ∈ report_final.output) ∧
    report_schedule.length + steps_left report_final ≤
      24 * report_records.length + 56 + 3 * wakes report_schedule :=
  ⟨by decide, by decide, by decide, rfl,
    (shutdown_liveness report_records report_schedule report_final (by decide) (by decide)
      (by decide)).2.2.2.2.2.1 rfl,
    (shutdown_liveness report_records report_schedule report_final (by decide) (by decide)
      (by decide)).2.2.2.1⟩

/-- Counterexample to C13 as stated.  On the well-formed record `(1,0,-1,0)` consumer
zero dequeues the data message, `sleep_wrapper(-1)` fails and `exit(1)` ends the
process: the execution has ended, no consumer and not the producer has returned, and
`main` stands before its first join.  In another execution on the same input the
producer and consumer one return before the process ends, consumer zero never does. -/
theorem shutdown_liveness_counterexample :
    shutdown_view (prog_run BUFFER_SIZE early_exit_schedule
      (prog_init BUFFER_SIZE (encode [negative_consumer_delay_record]))) =
      some (some 1, true, ProducerPc.scan, ConsumerPc.exiting, ConsumerPc.deq CallPc.lock,
        MainPc.join_zero, 0, 2) ∧
    shutdown_view (prog_run BUFFER_SIZE late_exit_schedule
      (prog_init BUFFER_SIZE (encode [negative_consumer_delay_record]))) =
      some (some 1, true, ProducerPc.done, ConsumerPc.exiting, ConsumerPc.done,
        MainPc.join_zero, 1, 1) :=
  ⟨rfl, rfl⟩

theorem msg_fits_consumer (s : Prog) (hq : QuitInv s) (one : Bool) :
    msg_fits (consumer s one) := by
  obtain ⟨_, _, _, _, _, _, f0, f1⟩ := hq
  cases one
  · exact f0
  · exact f1

/-- The quit messages in the buffer and those held by the consumers are the ones the
producer has stored; when both consumers hold one the buffer is empty. -/
theorem quit_account (cap : Nat) (s : Prog) (hs : Sound cap s) :
    quits_in (contents s.buf) + (holds_quit s.consumer_zero + holds_quit s.consumer_one) =
      quits_stored s.producer.pc ∧
    (holds_quit s.consumer_zero = 1 → holds_quit s.consumer_one = 1 →
      contents s.buf = [] ∧ s.buf.front = -1 ∧ s.buf.rear = -1) := by
  obtain ⟨ds, k, hcont, hds, hk, hds0, _, _⟩ := hs.2.2.1
  have hqk : quits_in (contents s.buf) = k := by
    rw [hcont]
    exact quits_in_datas ds k hds
  refine ⟨by rw [hqk]; exact hk, ?_⟩
  intro h0 h1
  have hle : quits_stored s.producer.pc ≤ 2 := by
    cases s.producer.pc with
    | enq c q => cases c <;> cases q <;> simp [quits_stored]
    | _ => simp [quits_stored]
  have hk0 : k = 0 := by omega
  have hd0 : ds = [] := hds0 (by omega)
  have hnil : contents s.buf = [] := by
    rw [hcont, hk0, hd0]
    rfl
  exact ⟨hnil, contents_nil_front cap s.buf hs.1.1 hnil⟩

/-- C12, amended (one sentinel per consumer).  The program is run one statement at a
time, and the other threads run on after a call of `exit` until the process ends.  For
every input and every execution: each consumer dequeues at most one quit message; a
consumer that has returned has dequeued exactly one, and a consumer that has dequeued
one stands between the statements of that `dequeue` call on the buffer and its return
(lines 101-106 and 196-200), so it never dequeues again; the quit messages in the
buffer and the quit messages dequeued are together the quit messages that the producer
has stored, hence two once the producer has returned; at a state in which the producer
has returned and every consumer that has dequeued a quit message has returned, the
number of quit messages in the buffer is the number of consumers that have not
returned; when both consumers have returned the buffer is empty (`front = rear = -1`).
When the exit status is 0, and, on an input of records without a negative delay,
whenever the process has ended, each consumer has dequeued exactly one quit message,
the producer has returned and the buffer is empty. -/
theorem one_sentinel_each (inp : List Token) (sched : List Action) (s : Prog)
    (h : prog_run BUFFER_SIZE sched (prog_init BUFFER_SIZE inp) = some s) :
    (∀ one,
      quits_in (stream one (dequeue_log BUFFER_SIZE sched (prog_init BUFFER_SIZE inp))) ≤ 1 ∧
      ((consumer s one).pc = ConsumerPc.done →
        quits_in (stream one (dequeue_log BUFFER_SIZE sched (prog_init BUFFER_SIZE inp))) =
          1) ∧
      (quits_in (stream one (dequeue_log BUFFER_SIZE sched (prog_init BUFFER_SIZE inp))) =
          1 →
        (consumer s one).pc = ConsumerPc.deq CallPc.unlock ∨
        (consumer s one).pc = ConsumerPc.deq CallPc.signal ∨
        (consumer s one).pc = ConsumerPc.final_line ∨
        (consumer s one).pc = ConsumerPc.publish ∨
        (consumer s one).pc = ConsumerPc.done)) ∧
    quits_in (contents s.buf) +
      (quits_in (stream false (dequeue_log BUFFER_SIZE sched (prog_init BUFFER_SIZE inp))) +
       quits_in (stream true (dequeue_log BUFFER_SIZE sched (prog_init BUFFER_SIZE inp)))) =
      quits_stored s.producer.pc ∧
    (s.producer.pc = ProducerPc.done →
      quits_in (contents s.buf) +
        (quits_in (stream false (dequeue_log BUFFER_SIZE sched (prog_init BUFFER_SIZE inp))) +
         quits_in (stream true (dequeue_log BUFFER_SIZE sched (prog_init BUFFER_SIZE inp)))) =
        2) ∧
    (s.producer.pc = ProducerPc.done →
      (∀ one,
        quits_in (stream one (dequeue_log BUFFER_SIZE sched (prog_init BUFFER_SIZE inp))) =
          1 →
        (consumer s one).pc = ConsumerPc.done) →
      quits_in (contents s.buf) = running_consumers s) ∧
    (s.consumer_zero.pc = ConsumerPc.done → s.consumer_one.pc = ConsumerPc.done →
      contents s.buf = [] ∧ s.buf.front = -1 ∧ s.buf.rear = -1) ∧
    (s.exit_code = some 0 →
      (∀ one,
        quits_in (stream one (dequeue_log BUFFER_SIZE sched (prog_init BUFFER_SIZE inp))) =
          1) ∧
      s.producer.pc = ProducerPc.done ∧ contents s.buf = []) ∧
    (∀ rs : List Record, inp = encode rs → (∀ r ∈ rs, 0 ≤ r.producer_sleep) →
      (∀ r ∈ rs, 0 ≤ r.consumer_sleep) → s.halted = true →
      (∀ one,
        quits_in (stream one (dequeue_log BUFFER_SIZE sched (prog_init BUFFER_SIZE inp))) =
          1) ∧
      s.producer.pc = ProducerPc.done ∧ contents s.buf = []) := by
  have hc : 0 < BUFFER_SIZE := by decide
  obtain ⟨hs, hq⟩ := quits_taken_run BUFFER_SIZE hc inp sched s h
  obtain ⟨hacc, hempty⟩ := quit_account BUFFER_SIZE s hs
  have hq0 := hq false
  have hq1 := hq true
  simp only [consumer_false, consumer_true] at hq0 hq1
  have hdone : ∀ one, (consumer s one).pc = ConsumerPc.done →
      holds_quit (consumer s one) = 1 := fun one hd =>
    holds_quit_done _ (msg_fits_consumer s hs.2.2.1 one) hd
  have hboth : s.consumer_zero.pc = ConsumerPc.done → s.consumer_one.pc = ConsumerPc.done →
      contents s.buf = [] ∧ s.buf.front = -1 ∧ s.buf.rear = -1 := fun h0 h1 =>
    hempty (hdone false h0) (hdone true h1)
  have hzero : s.exit_code = some 0 →
      (∀ one,
        quits_in (stream one (dequeue_log BUFFER_SIZE sched (prog_init BUFFER_SIZE inp))) =
          1) ∧
      s.producer.pc = ProducerPc.done ∧ contents s.buf = [] := by
    intro he
    obtain ⟨_, _, _, _, _, h6, h7, h8, h9, _⟩ := hs.2.2.2
    have hr : main_rank s.main = 5 := by rw [h6 he]; rfl
    have d0 := h7 (by omega)
    have d1 := h8 (by omega)
    refine ⟨fun one => ?_, h9 (by omega), (hboth d0 d1).1⟩
    rw [hq one]
    cases one
    · exact hdone false d0
    · exact hdone true d1
  refine ⟨fun one => ⟨?_, ?_, ?_⟩, ?_, ?_, ?_, hboth, hzero, ?_⟩
  · rw [hq one]
    exact holds_quit_le _
  · intro hd
    rw [hq one]
    exact hdone one hd
  · intro h1
    rw [hq one] at h1
    exact holds_quit_place _ (msg_fits_consumer s hs.2.2.1 one) h1
  · rw [hq0, hq1]
    exact hacc
  · intro hd
    rw [hq0, hq1, hacc, hd]
    rfl
  · intro hd hret
    have hr0 := hret false
    have hr1 := hret true
    rw [hq0] at hr0
    rw [hq1] at hr1
    simp only [consumer_false, consumer_true] at hr0 hr1
    have hd0 := hdone false
    have hd1 := hdone true
    simp only [consumer_false, consumer_true] at hd0 hd1
    have hl0 := holds_quit_le s.consumer_zero
    have hl1 := holds_quit_le s.consumer_one
    rw [hd] at hacc
    have h2 : quits_stored ProducerPc.done = 2 := rfl
    unfold running_consumers
    by_cases c0 : s.consumer_zero.pc = ConsumerPc.done
    · have := hd0 c0
      by_cases c1 : s.consumer_one.pc = ConsumerPc.done
      · have := hd1 c1
        rw [if_pos c0, if_pos c1]
        omega
      · have : holds_quit s.consumer_one = 0 := by
          have hne : holds_quit s.consumer_one ≠ 1 := fun hx => c1 (hr1 hx)
          omega
        rw [if_pos c0, if_neg c1]
        omega
    · have : holds_quit s.consumer_zero = 0 := by
        have hne : holds_quit s.consumer_zero ≠ 1 := fun hx => c0 (hr0 hx)
        omega
      by_cases c1 : s.consumer_one.pc = ConsumerPc.done
      · have := hd1 c1
        rw [if_neg c0, if_pos c1]
        omega
      · have : holds_quit s.consumer_one = 0 := by
          have hne : holds_quit s.consumer_one ≠ 1 := fun hx => c1 (hr1 hx)
          omega
        rw [if_neg c0, if_neg c1]
        omega
  · intro rs hin hp hcs hh
    subst hin
    obtain ⟨hs1, hl⟩ := line_inv_run BUFFER_SIZE hc rs hp hcs sched s h
    exact hzero (exit_final BUFFER_SIZE rs _ s hs1 hl (hs1.2.2.2.1 hh)).1

/-- Witness for C12: at the end of `report_schedule` on `report_records` each consumer
has dequeued exactly one quit message and the buffer is empty. -/
theorem one_sentinel_each_witness :
    prog_run BUFFER_SIZE report_schedule (prog_init BUFFER_SIZE (encode report_records)) =
      some report_final ∧
    report_final.exit_code = some 0 ∧
    ((∀ one,
        quits_in (stream one (dequeue_log BUFFER_SIZE report_schedule
          (prog_init BUFFER_SIZE (encode report_records)))) = 1) ∧
      report_final.producer.pc = ProducerPc.done ∧ contents report_final.buf = []) :=
  ⟨by decide, rfl,
    (one_sentinel_each (encode report_records) report_schedule report_final
      (by decide)).2.2.2.2.2.1 rfl⟩

/-- Counterexample to C12 as stated.  On the well-formed record `(1,0,-1,0)` consumer
zero calls `exit(1)` at line 121 and the process ends: over the whole execution no
consumer has dequeued a quit message.  And on the empty input, after the producer has
returned and `dequeue` has handed the first quit message to consumer zero, one quit
message is in the buffer while both consumers have still to return: consumer zero
stands before the `printf` of line 198. -/
theorem one_sentinel_counterexample :
    shutdown_view (prog_run BUFFER_SIZE early_exit_schedule
      (prog_init BUFFER_SIZE (encode [negative_consumer_delay_record]))) =
      some (some 1, true, ProducerPc.scan, ConsumerPc.exiting, ConsumerPc.deq CallPc.lock,
        MainPc.join_zero, 0, 2) ∧
    quits_in (stream false (dequeue_log BUFFER_SIZE early_exit_schedule
      (prog_init BUFFER_SIZE (encode [negative_consumer_delay_record])))) = 0 ∧
    quits_in (stream true (dequeue_log BUFFER_SIZE early_exit_schedule
      (prog_init BUFFER_SIZE (encode [negative_consumer_delay_record])))) = 0 ∧
    shutdown_view (prog_run BUFFER_SIZE quit_taken_schedule (prog_init BUFFER_SIZE [])) =
      some (none, false, ProducerPc.done, ConsumerPc.final_line, ConsumerPc.deq CallPc.lock,
        MainPc.join_zero, 1, 2) :=
  ⟨rfl, rfl, rfl, rfl⟩

/-! ## Status lines -/

/-- The whole trace of the producer on records whose delays let `sleep_wrapper` return. -/
theorem producer_loop_events (rs : List Record) :
    ∀ (fuel : Nat) (line : Int), rs.length < fuel → (∀ r ∈ rs, sleep_fails r = false) →
      producer_loop fuel line (encode rs) =
        (events_from line rs ++ [Event.enq quit_msg, Event.enq quit_msg], Ending.returned) := by
  induction rs with
  | nil =>
    intro fuel line h _
    cases fuel with
    | zero => exact absurd h (Nat.not_lt_zero _)
    | succ fuel => simp [encode, producer_loop, scanf_nil, EOF, events_from]
  | cons r rs ih =>
    intro fuel line h hs
    cases fuel with
    | zero => exact absurd h (Nat.not_lt_zero _)
    | succ fuel =>
      have hr : ¬ (r.producer_sleep != 0 && !sleep_wrapper r.producer_sleep) = true := by
        have := hs r (List.mem_cons_self _ _)
        simpa [sleep_fails] using this
      have hlen : rs.length < fuel := by
        simp only [List.length_cons] at h
        omega
      have ih1 := ih fuel (wrap32 (line + 1)) hlen
        (fun r1 hr1 => hs r1 (List.mem_cons_of_mem _ hr1))
      simp only [encode]
      rw [producer_loop_four, if_neg hr, ih1]
      simp only [events_from, record_events, message_of]
      by_cases hc : r.print_code = 1 ∨ r.print_code = 3
      · have hb : (r.print_code == 1 || r.print_code == 3) = true := by simpa using hc
        simp [hc, hb]
      · have hb : ¬ (r.print_code == 1 || r.print_code == 3) = true := by simpa using hc
        simp [hc, hb]

/-- The sum that a consumer has reached after data messages without a negative delay. -/
theorem consumer_loop_data (id : Int) (pre : List message_t) :
    ∀ x : Int, (∀ m ∈ pre, m.quit = 0) → (∀ m ∈ pre, 0 ≤ m.consumer_sleep) →
      (consumer_loop id (wrap32 x) pre).next = Next.again (wrap32 (x + value_sum pre)) := by
  induction pre with
  | nil =>
    intro x _ _
    simp [consumer_loop, value_sum_nil]
  | cons m pre ih =>
    intro x hq hs
    have hm0 : m.quit = 0 := hq m (List.mem_cons_self _ _)
    have hsl := sleep_ok m (hs m (List.mem_cons_self _ _))
    have h1 := ih (x + m.value) (fun d hd => hq d (List.mem_cons_of_mem _ hd))
      (fun d hd => hs d (List.mem_cons_of_mem _ hd))
    simp only [consumer_loop, consumer_body_data id _ m hm0 hsl, wrap32_add_left]
    rw [h1, value_sum_cons, add_assoc]

theorem quits_stored_past (pc : ProducerPc) (h : 0 < quits_stored pc) :
    past_loop pc = true ∧ in_record pc = false := by
  cases pc with
  | enq c q => cases c <;> cases q <;> simp [quits_stored, past_loop, in_record] at h ⊢
  | _ => simp [quits_stored, past_loop, in_record] at h ⊢

theorem quits_stored_le (pc : ProducerPc) : quits_stored pc ≤ 2 := by
  cases pc with
  | enq c q => cases c <;> cases q <;> simp [quits_stored]
  | _ => simp [quits_stored]

/-- What the invariant says of the lines printed and of the messages dequeued so far:
they are initial segments of what the whole execution prints and dequeues. -/
theorem line_inv_segments (rs : List Record) (log : List (Bool × message_t)) (s : Prog)
    (hl : LineInv rs log s) :
    (∃ pre post, rs = pre ++ post ∧
      s.output.filter producer_line = outputs (events_from 1 pre)) ∧
    (∃ rest, log.map (fun e => e.2) ++ rest = messages_from 1 rs ++ [quit_msg, quit_msg]) ∧
    (∀ one, ∃ pre cur, stream one log = pre ++ cur ∧ cur.length ≤ 1 ∧
      s.output.filter (consumer_line (consumer_id one)) =
        (consumer_thread (consumer_id one) pre).output) := by
  obtain ⟨hprod, hcons, _⟩ := hl
  obtain ⟨pre, cur, post, hrs, hcur, hpast, _, _, _, _, hsent, hlines, _⟩ := hprod
  refine ⟨?_, ?_, ?_⟩
  · by_cases hr : reported s.producer.pc = true
    · refine ⟨pre ++ cur, post, hrs, ?_⟩
      rw [hlines, if_pos hr]
    · refine ⟨pre, cur ++ post, by rw [hrs, List.append_assoc], ?_⟩
      rw [hlines, if_neg hr, List.append_nil]
  · by_cases hk : 0 < quits_stored s.producer.pc
    · obtain ⟨hpl, hir⟩ := quits_stored_past _ hk
      have hpost : post = [] := hpast hpl
      have hcur0 : cur = [] := by
        rw [hir] at hcur
        exact List.length_eq_zero.1 hcur
      have hle := quits_stored_le s.producer.pc
      refine ⟨contents s.buf ++ List.replicate (2 - quits_stored s.producer.pc) quit_msg, ?_⟩
      rw [← List.append_assoc, hsent, hrs, hpost, hcur0]
      simp only [List.append_nil, ite_self, List.append_assoc]
      congr 1
      rw [← List.replicate_add]
      have e : quits_stored s.producer.pc + (2 - quits_stored s.producer.pc) = 2 := by omega
      rw [e]
      rfl
    · have hk0 : quits_stored s.producer.pc = 0 := by omega
      have hsplit := messages_from_append (pre ++ if data_stored s.producer.pc = true then cur
        else []) ((if data_stored s.producer.pc = true then [] else cur) ++ post) 1
      rw [wrap32_one] at hsplit
      have hrs2 : rs = (pre ++ if data_stored s.producer.pc = true then cur else []) ++
          ((if data_stored s.producer.pc = true then [] else cur) ++ post) := by
        rw [hrs]
        split <;> simp
      refine ⟨contents s.buf ++ (messages_from (wrap32 (1 + ((pre ++
        if data_stored s.producer.pc = true then cur else []).length : Int)))
        ((if data_stored s.producer.pc = true then [] else cur) ++ post) ++
        [quit_msg, quit_msg]), ?_⟩
      rw [← List.append_assoc, hsent, hk0]
      conv_rhs => rw [hrs2, hsplit]
      simp only [List.replicate_zero, List.append_nil, List.append_assoc]
  · intro one
    obtain ⟨cpre, ccur, hms, hclen, _, hclines, _⟩ := hcons one
    refine ⟨cpre, ccur, hms, ?_, hclines⟩
    rw [hclen]
    split <;> omega

/-- What the invariant says at the end of the process: all the lines are printed and all
the messages are dequeued. -/
theorem line_inv_final (cap : Nat) (rs : List Record) (log : List (Bool × message_t))
    (s : Prog) (hs : Sound cap s) (hl : LineInv rs log s)
    (he : s.exit_code.isSome = true) :
    s.output.filter producer_line = outputs (events_from 1 rs) ∧
    log.map (fun e => e.2) = messages_from 1 rs ++ [quit_msg, quit_msg] ∧
    (∀ one,
      s.output.filter (consumer_line (consumer_id one)) =
        (consumer_thread (consumer_id one) (stream one log)).output ∧
      (consumer_thread (consumer_id one) (stream one log)).next =
        Next.returned (consumer s one).consumer_sum) := by
  obtain ⟨_, _, hpd, hd0, hd1, _⟩ := exit_final cap rs log s hs hl he
  obtain ⟨hprod, hcons, _⟩ := hl
  obtain ⟨pre, cur, post, hrs, hcur, hpast, _, _, _, _, hsent, hlines, _⟩ := hprod
  rw [hpd] at hcur hpast hsent hlines
  have hpost : post = [] := hpast rfl
  have hcur0 : cur = [] := List.length_eq_zero.1 (by simpa [in_record] using hcur)
  have hpre : pre = rs := by
    rw [hrs, hpost, hcur0]
    simp
  have hnil : contents s.buf = [] :=
    ((quit_account cap s hs).2
      (holds_quit_done _ (msg_fits_consumer s hs.2.2.1 false) hd0)
      (holds_quit_done _ (msg_fits_consumer s hs.2.2.1 true) hd1)).1
  refine ⟨?_, ?_, ?_⟩
  · rw [hlines, hcur0, hpre]
    simp
  · rw [hnil, List.append_nil] at hsent
    rw [hsent, hcur0, hpre]
    simp [quits_stored, List.replicate]
  · intro one
    have hd : (consumer s one).pc = ConsumerPc.done := by
      cases one
      · exact hd0
      · exact hd1
    obtain ⟨cpre, ccur, hms, hclen, _, hclines, hsum⟩ := hcons one
    rw [hd] at hclen
    have hc0 : ccur = [] := List.length_eq_zero.1 (by simpa [in_hand] using hclen)
    rw [hc0, List.append_nil] at hms
    simp only [sum_fits, hd] at hsum
    rw [hms]
    exact ⟨hclines, hsum⟩

theorem mem_outputs_events (o : Output) (rs : List Record) :
    ∀ x : Int, o ∈ outputs (events_from (wrap32 x) rs) →
      ∃ pre r post, rs = pre ++ r :: post ∧
        o = Output.producer_value r.value (wrap32 (x + pre.length)) ∧
        (r.print_code = 1 ∨ r.print_code = 3) := by
  induction rs with
  | nil =>
    intro x h
    simp [events_from, outputs] at h
  | cons r rs ih =>
    intro x h
    simp only [events_from, outputs_append] at h
    rcases List.mem_append.1 h with h | h
    · by_cases hc : r.print_code = 1 ∨ r.print_code = 3
      · refine ⟨[], r, rs, rfl, ?_, hc⟩
        simpa [record_events, outputs, hc] using h
      · simp [record_events, outputs, hc] at h
    · rw [wrap32_add_left] at h
      obtain ⟨pre, r1, post, e1, e2, e3⟩ := ih (x + 1) h
      refine ⟨r :: pre, r1, post, by rw [e1]; rfl, ?_, e3⟩
      rw [e2]
      congr 2
      simp only [List.length_cons]
      push_cast
      ring

theorem mem_messages_from (m : message_t) (rs : List Record) :
    ∀ x : Int, m ∈ messages_from (wrap32 x) rs →
      ∃ pre r post, rs = pre ++ r :: post ∧ m = message_of r (wrap32 (x + pre.length)) := by
  induction rs with
  | nil =>
    intro x h
    simp [messages_from] at h
  | cons r rs ih =>
    intro x h
    simp only [messages_from, List.mem_cons] at h
    rcases h with h | h
    · exact ⟨[], r, rs, rfl, by simpa using h⟩
    · rw [wrap32_add_left] at h
      obtain ⟨pre, r1, post, e1, e2⟩ := ih (x + 1) h
      refine ⟨r :: pre, r1, post, by rw [e1]; rfl, ?_⟩
      rw [e2]
      congr 2
      simp only [List.length_cons]
      push_cast
      ring

theorem mem_consumer_loop (id : Int) (o : Output) (ms : List message_t) :
    ∀ sum, o ∈ (consumer_loop id sum ms).output →
      ∃ m ∈ ms, ∃ sum1, o ∈ (consumer_body id sum1 m).1 := by
  induction ms with
  | nil =>
    intro sum h
    simp [consumer_loop] at h
  | cons m ms ih =>
    intro sum h
    simp only [consumer_loop] at h
    rcases hcb : consumer_body id sum m with ⟨out, n⟩
    rw [hcb] at h
    cases n with
    | again s1 =>
      simp only at h
      rcases List.mem_append.1 h with h | h
      · exact ⟨m, List.mem_cons_self _ _, sum, by rw [hcb]; exact h⟩
      · obtain ⟨m1, hm1, s2, h2⟩ := ih s1 h
        exact ⟨m1, List.mem_cons_of_mem _ hm1, s2, h2⟩
    | returned k => exact ⟨m, List.mem_cons_self _ _, sum, by rw [hcb]; exact h⟩
    | exited k => exact ⟨m, List.mem_cons_self _ _, sum, by rw [hcb]; exact h⟩
    | left_loop => exact ⟨m, List.mem_cons_self _ _, sum, by rw [hcb]; exact h⟩

theorem consumer_body_value (id sum : Int) (m : message_t) (c v k x : Int)
    (h : Output.consumer_value c v k x ∈ (consumer_body id sum m).1) :
    m.quit = 0 ∧ c = id ∧ v = m.value ∧ k = m.line ∧
      (m.print_code = 2 ∨ m.print_code = 3) := by
  by_cases hq : m.quit = 0
  · by_cases hs : (m.consumer_sleep != 0 && !sleep_wrapper m.consumer_sleep) = true
    · rw [consumer_body_exit id sum m hq hs] at h
      simp at h
    · rw [consumer_body_data id sum m hq hs] at h
      dsimp only at h
      split at h
      · rename_i hc
        simp only [List.mem_singleton, Output.consumer_value.injEq] at h
        exact ⟨hq, h.1, h.2.1, h.2.2.1, by simpa using hc⟩
      · simp at h
  · rw [consumer_body_quit id sum m hq] at h
    simp at h

theorem consumer_loop_extends (id : Int) (post : List message_t) (pre : List message_t) :
    ∀ sum, ∃ rest, (consumer_loop id sum (pre ++ post)).output =
      (consumer_loop id sum pre).output ++ rest := by
  induction pre with
  | nil =>
    intro sum
    exact ⟨(consumer_loop id sum post).output, by simp [consumer_loop]⟩
  | cons m pre ih =>
    intro sum
    simp only [List.cons_append, consumer_loop]
    rcases hcb : consumer_body id sum m with ⟨out, n⟩
    cases n with
    | again s1 =>
      obtain ⟨rest, hr⟩ := ih s1
      refine ⟨rest, ?_⟩
      have e : pre.append post = pre ++ post := rfl
      simp only
      rw [e, hr, List.append_assoc]
    | returned k => exact ⟨[], by simp⟩
    | exited k => exact ⟨[], by simp⟩
    | left_loop => exact ⟨[], by simp⟩

theorem mem_stream (one : Bool) (log : List (Bool × message_t)) (m : message_t)
    (h : m ∈ stream one log) : m ∈ log.map (fun e => e.2) := by
  simp only [stream, List.mem_map, List.mem_filter] at h ⊢
  obtain ⟨a, ⟨ha, _⟩, e⟩ := h
  exact ⟨a, ha, e⟩

/-- Every status line printed belongs to a record of the input with the matching report
code. -/
theorem line_inv_records (rs : List Record) (log : List (Bool × message_t)) (s : Prog)
    (hl : LineInv rs log s) :
    (∀ v k, Output.producer_value v k ∈ s.output →
      ∃ pre r post, rs = pre ++ r :: post ∧ v = r.value ∧
        k = wrap32 ((pre.length : Int) + 1) ∧ (r.print_code = 1 ∨ r.print_code = 3)) ∧
    (∀ one v k x, Output.consumer_value (consumer_id one) v k x ∈ s.output →
      ∃ pre r post, rs = pre ++ r :: post ∧ v = r.value ∧
        k = wrap32 ((pre.length : Int) + 1) ∧ (r.print_code = 2 ∨ r.print_code = 3)) := by
  obtain ⟨⟨ppre, ppost, hrs, hplines⟩, ⟨rest, hlog⟩, _⟩ := line_inv_segments rs log s hl
  refine ⟨?_, ?_⟩
  · intro v k h
    have hf : Output.producer_value v k ∈ s.output.filter producer_line :=
      List.mem_filter.2 ⟨h, rfl⟩
    rw [hplines] at hf
    have hf1 : Output.producer_value v k ∈ outputs (events_from (wrap32 1) ppre) := by
      rw [wrap32_one]
      exact hf
    obtain ⟨pre, r, post, e1, e2, e3⟩ := mem_outputs_events _ ppre 1 hf1
    simp only [Output.producer_value.injEq] at e2
    refine ⟨pre, r, post ++ ppost, by rw [hrs, e1]; simp, e2.1, ?_, e3⟩
    rw [e2.2, Int.add_comm]
  · intro one v k x h
    obtain ⟨cpre, ccur, hms, _, _, hclines, _⟩ := hl.2.1 one
    have hf : Output.consumer_value (consumer_id one) v k x ∈
        s.output.filter (consumer_line (consumer_id one)) :=
      List.mem_filter.2 ⟨h, by simp [consumer_line]⟩
    rw [hclines] at hf
    obtain ⟨m, hm, sum1, hb⟩ := mem_consumer_loop _ _ cpre 0 hf
    obtain ⟨hq, _, hv, hk, hcode⟩ := consumer_body_value _ _ m _ _ _ _ hb
    have hm1 : m ∈ log.map (fun e => e.2) :=
      mem_stream one log m (by rw [hms]; exact List.mem_append_left _ hm)
    have hm2 : m ∈ messages_from 1 rs ++ [quit_msg, quit_msg] := by
      rw [← hlog]
      exact List.mem_append_left _ hm1
    have hm3 : m ∈ messages_from (wrap32 1) rs := by
      rw [wrap32_one]
      rcases List.mem_append.1 hm2 with hx | hx
      · exact hx
      · exfalso
        simp only [List.mem_cons, List.mem_singleton, List.mem_nil_iff, or_false,
          or_self] at hx
        rw [hx] at hq
        simp [quit_msg] at hq
    obtain ⟨pre, r, post, e1, e2⟩ := mem_messages_from m rs 1 hm3
    refine ⟨pre, r, post, e1, by rw [hv, e2]; rfl, ?_, by rw [e2] at hcode; exact hcode⟩
    rw [hk, e2, Int.add_comm]
    rfl

theorem stream_cons_same (one : Bool) (m : message_t) (l : List (Bool × message_t)) :
    stream one ((one, m) :: l) = m :: stream one l := by
  simp [stream]

/-- At the end of the process every record has its lines: the producer line when the
report code is 1 or 3, and, when it is 2 or 3, the line of the consumer that dequeued
the message of the record, with the sum of the values that this consumer dequeued up to
it. -/
theorem final_records (rs : List Record) (hcs : ∀ r ∈ rs, 0 ≤ r.consumer_sleep)
    (log : List (Bool × message_t)) (s : Prog)
    (hp : s.output.filter producer_line = outputs (events_from 1 rs))
    (hlog : log.map (fun e => e.2) = messages_from 1 rs ++ [quit_msg, quit_msg])
    (hc : ∀ one, s.output.filter (consumer_line (consumer_id one)) =
      (consumer_thread (consumer_id one) (stream one log)).output)
    (pre post : List Record) (r : Record) (hrs : rs = pre ++ r :: post) :
    ((r.print_code = 1 ∨ r.print_code = 3) →
      Output.producer_value r.value (wrap32 ((pre.length : Int) + 1)) ∈ s.output) ∧
    ∃ one before after,
      log = before ++ (one, message_of r (wrap32 ((pre.length : Int) + 1))) :: after ∧
      before.map (fun e => e.2) = messages_from 1 pre ∧
      ((r.print_code = 2 ∨ r.print_code = 3) →
        Output.consumer_value (consumer_id one) r.value (wrap32 ((pre.length : Int) + 1))
          (wrap32 (value_sum (stream one before) + r.value)) ∈ s.output) := by
  refine ⟨?_, ?_⟩
  · intro hcode
    have hsplit := events_from_append pre (r :: post) 1
    rw [wrap32_one] at hsplit
    have hmem : Output.producer_value r.value (wrap32 ((pre.length : Int) + 1)) ∈
        outputs (events_from 1 rs) := by
      rw [hrs, hsplit, outputs_append]
      apply List.mem_append_right
      simp only [events_from, outputs_append]
      apply List.mem_append_left
      rw [Int.add_comm]
      simp [record_events, outputs, hcode]
    rw [← hp] at hmem
    exact (List.mem_filter.1 hmem).1
  · have hsplit := messages_from_append pre (r :: post) 1
    rw [wrap32_one] at hsplit
    rw [hrs, hsplit] at hlog
    simp only [messages_from, List.append_assoc, List.cons_append] at hlog
    obtain ⟨before, l2, e1, e2, e3⟩ := List.map_eq_append_iff.1 hlog
    obtain ⟨a, after, e4, e5, _⟩ := List.map_eq_cons_iff.1 e3
    have ea : a = (a.1, message_of r (wrap32 ((pre.length : Int) + 1))) := by
      rw [Int.add_comm, ← e5]
    refine ⟨a.1, before, after, by rw [e1, e4, ← ea], e2, ?_⟩
    intro hcode
    have hpre_mem : ∀ m ∈ stream a.1 before, m ∈ messages_from 1 pre := by
      intro m hm
      rw [← e2]
      exact mem_stream _ _ m hm
    have hq : ∀ m ∈ stream a.1 before, m.quit = 0 := fun m hm =>
      messages_from_quit pre 1 m (hpre_mem m hm)
    have hsl : ∀ m ∈ stream a.1 before, 0 ≤ m.consumer_sleep := fun m hm =>
      messages_from_sleep pre (fun r1 hr1 => hcs r1 (by rw [hrs]; simp [hr1])) 1 m
        (hpre_mem m hm)
    have hn := consumer_loop_data (consumer_id a.1) (stream a.1 before) 0 hq hsl
    have e0 : wrap32 0 = 0 := by decide
    rw [e0, Int.zero_add] at hn
    obtain ⟨h1, _⟩ := consumer_loop_snoc (consumer_id a.1)
      (message_of r (wrap32 ((pre.length : Int) + 1))) (stream a.1 before) 0 _ hn
    have hbody := consumer_body_data (consumer_id a.1)
      (wrap32 (value_sum (stream a.1 before)))
      (message_of r (wrap32 ((pre.length : Int) + 1))) rfl
      (sleep_ok _ (hcs r (by rw [hrs]; simp)))
    have hcb : ((message_of r (wrap32 ((pre.length : Int) + 1))).print_code == 2 ||
        (message_of r (wrap32 ((pre.length : Int) + 1))).print_code == 3) = true := by
      simpa [message_of] using hcode
    rw [hbody, if_pos hcb] at h1
    obtain ⟨rest, hrest⟩ := consumer_loop_extends (consumer_id a.1) (stream a.1 after)
      (stream a.1 before ++ [message_of r (wrap32 ((pre.length : Int) + 1))]) 0
    have hstream : stream a.1 log =
        (stream a.1 before ++ [message_of r (wrap32 ((pre.length : Int) + 1))]) ++
          stream a.1 after := by
      rw [e1, e4, stream_append]
      conv_lhs => rw [ea, stream_cons_same]
      simp
    have hmem : Output.consumer_value (consumer_id a.1) r.value
        (wrap32 ((pre.length : Int) + 1))
        (wrap32 (value_sum (stream a.1 before) + r.value)) ∈
        (consumer_thread (consumer_id a.1) (stream a.1 log)).output := by
      unfold consumer_thread
      rw [hstream, hrest, h1]
      apply List.mem_append_left
      apply List.mem_append_right
      simp [message_of, wrap32_add_left]
    rw [← hc a.1] at hmem
    exact (List.mem_filter.1 hmem).1

/-- C11, amended (status lines).  On an input of records in which no producer delay is
negative, `producer_thread` enqueues for every record its message and then prints
"Producer: value v from input line k" if and only if the report code is 1 or 3, and
no other line (`v` the value of the record, `k` its line number as a 32-bit `int`), and
then enqueues the two quit messages.  A consumer with identity `c` that dequeues a data
message without a negative delay prints "Consumer c: v from input line k; sum = s" if
and only if the report code is 2 or 3, and no other line for it, where `s` is its
running sum after adding `v` in 32-bit `int` arithmetic: the sum of the values it has
dequeued so far.  In the program, run one statement at a time with every interleaving
of the threads, on records in which no consumer delay is negative either: at every
moment the producer lines printed are those of an initial segment of the records, the
messages dequeued are an initial segment of the messages of the records followed by
the two quit messages, and the lines of each consumer are those of `consumer_thread` on
the messages it has dequeued, the last one perhaps still in hand; when the process has
ended, the producer lines are those of all records, every message has been dequeued
once, in the order of the records, and each consumer has printed the lines of
`consumer_thread` on the messages it dequeued and has stored the sum that
`consumer_thread` returns.  Read record by record: a producer line in the output
belongs to a record with code 1 or 3, a status line of consumer 0 or 1 (line 215) to a
record with code 2 or 3; and when the process has ended the output holds the producer line of every record
with code 1 or 3 and, for every record with code 2 or 3, the line of the consumer that
dequeued its message, with the sum of the values which that consumer has dequeued up to
it.  A record with code 3 and value 7 on line 4 yields both lines, each with value 7
and line 4. -/
theorem status_lines (rs : List Record) (h : ∀ r ∈ rs, 0 ≤ r.producer_sleep) :
    producer_thread (encode rs) =
      (events_from 1 rs ++ [Event.enq quit_msg, Event.enq quit_msg], Ending.returned) ∧
    (∀ (pre post : List Record) (r : Record), rs = pre ++ r :: post →
      events_from 1 rs =
        events_from 1 pre ++ record_events r (wrap32 ((pre.length : Int) + 1)) ++
          events_from (wrap32 ((pre.length : Int) + 2)) post) ∧
    (∀ (r : Record) (k : Int),
      (Output.producer_value r.value k ∈ outputs (record_events r k) ↔
        (r.print_code = 1 ∨ r.print_code = 3)) ∧
      (∀ o ∈ outputs (record_events r k), o = Output.producer_value r.value k)) ∧
    (∀ (c sum : Int) (msg : message_t), msg.quit = 0 → 0 ≤ msg.consumer_sleep →
      (Output.consumer_value c msg.value msg.line (wrap32 (sum + msg.value)) ∈
          (consumer_body c sum msg).1 ↔
        (msg.print_code = 2 ∨ msg.print_code = 3)) ∧
      (∀ o ∈ (consumer_body c sum msg).1,
        o = Output.consumer_value c msg.value msg.line (wrap32 (sum + msg.value))) ∧
      (consumer_body c sum msg).2 = Next.again (wrap32 (sum + msg.value)) ∧
      (INT_MIN ≤ sum + msg.value → sum + msg.value ≤ INT_MAX →
        wrap32 (sum + msg.value) = sum + msg.value)) ∧
    (∀ (c : Int) (pre : List message_t) (msg : message_t),
      (∀ m ∈ pre, m.quit = 0) → (∀ m ∈ pre, 0 ≤ m.consumer_sleep) →
      (consumer_thread c (pre ++ [msg])).output =
        (consumer_thread c pre).output ++ (consumer_body c (wrap32 (value_sum pre)) msg).1) ∧
    (∀ (sched : List Action) (s : Prog), (∀ r ∈ rs, 0 ≤ r.consumer_sleep) →
      prog_run BUFFER_SIZE sched (prog_init BUFFER_SIZE (encode rs)) = some s →
      (∃ pre post, rs = pre ++ post ∧
        s.output.filter producer_line = outputs (events_from 1 pre)) ∧
      (∃ rest,
        (dequeue_log BUFFER_SIZE sched (prog_init BUFFER_SIZE (encode rs))).map
            (fun e => e.2) ++ rest =
          messages_from 1 rs ++ [quit_msg, quit_msg]) ∧
      (∀ one, ∃ pre cur,
        stream one (dequeue_log BUFFER_SIZE sched (prog_init BUFFER_SIZE (encode rs))) =
          pre ++ cur ∧
        cur.length ≤ 1 ∧
        s.output.filter (consumer_line (consumer_id one)) =
          (consumer_thread (consumer_id one) pre).output) ∧
      (∀ v k, Output.producer_value v k ∈ s.output →
        ∃ pre r post, rs = pre ++ r :: post ∧ v = r.value ∧
          k = wrap32 ((pre.length : Int) + 1) ∧ (r.print_code = 1 ∨ r.print_code = 3)) ∧
      (∀ one v k x, Output.consumer_value (consumer_id one) v k x ∈ s.output →
        ∃ pre r post, rs = pre ++ r :: post ∧ v = r.value ∧
          k = wrap32 ((pre.length : Int) + 1) ∧ (r.print_code = 2 ∨ r.print_code = 3)) ∧
      (s.halted = true →
        s.output.filter producer_line = outputs (events_from 1 rs) ∧
        (dequeue_log BUFFER_SIZE sched (prog_init BUFFER_SIZE (encode rs))).map
            (fun e => e.2) =
          messages_from 1 rs ++ [quit_msg, quit_msg] ∧
        (∀ one,
          s.output.filter (consumer_line (consumer_id one)) =
            (consumer_thread (consumer_id one)
              (stream one
                (dequeue_log BUFFER_SIZE sched (prog_init BUFFER_SIZE (encode rs))))).output ∧
          (consumer_thread (consumer_id one)
              (stream one
                (dequeue_log BUFFER_SIZE sched (prog_init BUFFER_SIZE (encode rs))))).next =
            Next.returned (consumer s one).consumer_sum) ∧
        (∀ (pre post : List Record) (r : Record), rs = pre ++ r :: post →
          ((r.print_code = 1 ∨ r.print_code = 3) →
            Output.producer_value r.value (wrap32 ((pre.length : Int) + 1)) ∈ s.output) ∧
          ∃ one before after,
            dequeue_log BUFFER_SIZE sched (prog_init BUFFER_SIZE (encode rs)) =
              before ++ (one, message_of r (wrap32 ((pre.length : Int) + 1))) :: after ∧
            before.map (fun e => e.2) = messages_from 1 pre ∧
            ((r.print_code = 2 ∨ r.print_code = 3) →
              Output.consumer_value (consumer_id one) r.value
                (wrap32 ((pre.length : Int) + 1))
                (wrap32 (value_sum (stream one before) + r.value)) ∈ s.output)))) ∧
    (∀ (d cs c sum : Int), 0 ≤ cs →
      outputs (record_events
        { value := 7, producer_sleep := d, consumer_sleep := cs, print_code := 3 } 4) =
        [Output.producer_value 7 4] ∧
      (consumer_body c sum (message_of
        { value := 7, producer_sleep := d, consumer_sleep := cs, print_code := 3 } 4)).1 =
        [Output.consumer_value c 7 4 (wrap32 (sum + 7))]) := by
  have hc : 0 < BUFFER_SIZE := by decide
  have hok : ∀ r ∈ rs, sleep_fails r = false := by
    intro r hr
    simp [sleep_fails, sleep_wrapper_of_nonneg r.producer_sleep (h r hr)]
  have hbody : ∀ (c sum : Int) (msg : message_t), msg.quit = 0 → 0 ≤ msg.consumer_sleep →
      consumer_body c sum msg =
        (if msg.print_code == 2 || msg.print_code == 3 then
            [Output.consumer_value c msg.value msg.line (wrap32 (sum + msg.value))]
          else [],
         Next.again (wrap32 (sum + msg.value))) := by
    intro c sum msg hq hs
    exact consumer_body_data c sum msg hq (sleep_ok msg hs)
  refine ⟨?_, ?_, ?_, ?_, ?_, ?_, ?_⟩
  · exact producer_loop_events rs ((encode rs).length + 1) 1
      (by rw [encode_length]; omega) hok
  · intro pre post r hrs
    have hsplit := events_from_append pre (r :: post) 1
    rw [wrap32_one] at hsplit
    rw [hrs, hsplit]
    simp only [events_from, wrap32_add_left, List.append_assoc]
    have e2 : (1 : Int) + (pre.length : Int) = (pre.length : Int) + 1 := by ring
    have e3 : (1 : Int) + (pre.length : Int) + 1 = (pre.length : Int) + 2 := by ring
    rw [e3, e2]
  · intro r k
    by_cases hcode : r.print_code = 1 ∨ r.print_code = 3
    · simp [record_events, outputs, hcode]
    · simp [record_events, outputs, hcode]
  · intro c sum msg hq hs
    rw [hbody c sum msg hq hs]
    refine ⟨?_, ?_, rfl, fun h1 h2 => wrap32_id _ h1 h2⟩
    · by_cases hcode : msg.print_code = 2 ∨ msg.print_code = 3
      · have hb : (msg.print_code == 2 || msg.print_code == 3) = true := by simpa using hcode
        simp [hb, hcode]
      · have hb : ¬ (msg.print_code == 2 || msg.print_code == 3) = true := by
          simpa using hcode
        simp [hb, hcode]
    · intro o ho
      dsimp only at ho
      split at ho
      · simpa using ho
      · simp at ho
  · intro c pre msg hq hs
    have hn := consumer_loop_data c pre 0 hq hs
    have e0 : wrap32 0 = 0 := by decide
    rw [e0, Int.zero_add] at hn
    exact (consumer_loop_snoc c msg pre 0 _ hn).1
  · intro sched s hcs hrun
    obtain ⟨hs, hl⟩ := line_inv_run BUFFER_SIZE hc rs h hcs sched s hrun
    obtain ⟨p1, p2, p3⟩ := line_inv_segments rs _ s hl
    obtain ⟨p4, p5⟩ := line_inv_records rs _ s hl
    refine ⟨p1, p2, p3, p4, p5, fun hh => ?_⟩
    obtain ⟨f1, f2, f3⟩ := line_inv_final BUFFER_SIZE rs _ s hs hl (hs.2.2.2.1 hh)
    exact ⟨f1, f2, f3, fun pre post r hrs =>
      final_records rs hcs _ s f1 f2 (fun one => (f3 one).1) pre post r hrs⟩
  · intro d cs c sum hcs
    refine ⟨by simp [record_events, outputs], ?_⟩
    rw [hbody c sum _ rfl hcs]
    simp [message_of]

/-- Witness for C11: in the execution `report_schedule` on `report_records` the producer
prints its line for the records with codes 1 and 3, and the consumers print theirs for
the records with codes 2 and 3; the record with code 3 and value 7 on line 4 yields
both lines, the consumer line with the running sum 9 of consumer zero. -/
theorem status_lines_witness :
    (∀ r ∈ report_records, 0 ≤ r.producer_sleep) ∧
    (∀ r ∈ report_records, 0 ≤ r.consumer_sleep) ∧
    prog_run BUFFER_SIZE report_schedule (prog_init BUFFER_SIZE (encode report_records)) =
      some report_final ∧
    dequeue_log BUFFER_SIZE report_schedule (prog_init BUFFER_SIZE (encode report_records)) =
      report_log ∧
    report_final.halted = true ∧
    report_final.output =
      [Output.producer_value 2 2, Output.consumer_value 1 3 3 4, Output.producer_value 7 4,
       Output.consumer_value 0 7 4 9, Output.consumer_final 1 4, Output.consumer_final 0 9,
       Output.total 13] ∧
    outputs (events_from 1 report_records) =
      [Output.producer_value 2 2, Output.producer_value 7 4] ∧
    (consumer_thread 0 (stream false report_log)).output =
      [Output.consumer_value 0 7 4 9, Output.consumer_final 0 9] ∧
    (consumer_thread 1 (stream true report_log)).output =
      [Output.consumer_value 1 3 3 4, Output.consumer_final 1 4] ∧
    (report_final.output.filter producer_line = outputs (events_from 1 report_records) ∧
      (dequeue_log BUFFER_SIZE report_schedule
          (prog_init BUFFER_SIZE (encode report_records))).map (fun e => e.2) =
        messages_from 1 report_records ++ [quit_msg, quit_msg] ∧
      (∀ one,
        report_final.output.filter (consumer_line (consumer_id one)) =
          (consumer_thread (consumer_id one)
            (stream one (dequeue_log BUFFER_SIZE report_schedule
              (prog_init BUFFER_SIZE (encode report_records))))).output ∧
        (consumer_thread (consumer_id one)
            (stream one (dequeue_log BUFFER_SIZE report_schedule
              (prog_init BUFFER_SIZE (encode report_records))))).next =
          Next.returned (consumer report_final one).consumer_sum)) ∧
    Output.producer_value 7 4 ∈ report_final.output :=
  ⟨by decide, by decide, by decide, by decide, rfl, rfl, by decide, by decide, by decide,
    (have hfin := ((status_lines report_records (by decide)).2.2.2.2.2.1 report_schedule
      report_final (by decide) (by decide)).2.2.2.2.2 rfl
     ⟨hfin.1, hfin.2.1, hfin.2.2.1⟩),
    ((((status_lines report_records (by decide)).2.2.2.2.2.1 report_schedule
      report_final (by decide) (by decide)).2.2.2.2.2 rfl).2.2.2
      [{ value := 1, producer_sleep := 0, consumer_sleep := 0, print_code := 0 },
       { value := 2, producer_sleep := 0, consumer_sleep := 0, print_code := 1 },
       { value := 3, producer_sleep := 5, consumer_sleep := 0, print_code := 2 }] []
      { value := 7, producer_sleep := 0, consumer_sleep := 2, print_code := 3 } rfl).1
      (Or.inr rfl)⟩

/-- Counterexample to C11 as stated.  The record `(7,-1,0,1)` has report code 1, but the
producer prints only the error line of `sleep_wrapper` and exits: the line
"Producer: value 7 from input line 1" is not emitted, neither by `producer_thread` nor
in the program.  In the same way a consumer that dequeues a message with report code 2
and `consumer_sleep = -1` prints only the error line.  And on the record `(7,0,-1,1)`
the process can end in `exit(1)`, called by a consumer, while the producer stands
before the `printf` of its line. -/
theorem status_lines_counterexample :
    negative_delay_report.print_code = 1 ∧
    producer_thread (encode [negative_delay_report]) =
      ([Event.out Output.sleep_error], Ending.exited 1) ∧
    consumer_body 0 0
        { value := 7, consumer_sleep := -1, line := 4, print_code := 2, quit := 0 } =
      ([Output.sleep_error], Next.exited 1) ∧
    outcome (prog_run BUFFER_SIZE failed_nap_schedule
        (prog_init BUFFER_SIZE (encode [negative_delay_report]))) =
      some ([Output.sleep_error], some 1, true, false, false, false) ∧
    negative_consumer_delay_report.print_code = 1 ∧
    (∀ r ∈ [negative_consumer_delay_report], 0 ≤ r.producer_sleep) ∧
    outcome (prog_run BUFFER_SIZE lost_report_schedule
        (prog_init BUFFER_SIZE (encode [negative_consumer_delay_report]))) =
      some ([Output.sleep_error], some 1, true, false, false, false) :=
  ⟨rfl, by decide, by decide, rfl, rfl, by decide, rfl⟩

/-! ## The program on an input that `scanf` cannot read to its end -/

theorem scanf_four_unreadable (inp : List Token) (hj : unreadable inp)
    (h4 : (scanf inp).1 = 4) : unreadable (scanf inp).2.2 := by
  obtain ⟨a, b, c, d, hinp, _⟩ := scanf_eq_four inp h4
  generalize (scanf inp).2.2 = rest at hinp
  subst hinp
  have h1 := (unreadable_tail _ _ (by simp) hj).2 (by simp)
  have h2 := (unreadable_tail _ _ (by simp) h1).2 (by simp)
  have h3 := (unreadable_tail _ _ (by simp) h2).2 (by simp)
  exact (unreadable_tail _ _ (by simp) h3).2 (by simp)

theorem unreadable_inv_init (cap : Nat) (inp : List Token) (h : unreadable inp) :
    UnreadableInv (prog_init cap inp) := h

/-- The invariant of the producer on an unreadable input does not depend on where the
producer stands inside the body of its loop. -/
theorem unreadable_inv_loop (inp : List Token) (p : ProducerState)
    (c : CallPc) (h : unreadable inp)
    (hpc : p.pc = ProducerPc.scan ∨ p.pc = ProducerPc.nap ∨ p.pc = ProducerPc.nap_error ∨
      p.pc = ProducerPc.enq EnqueueCall.data c ∨ p.pc = ProducerPc.report ∨
      p.pc = ProducerPc.incr ∨ p.pc = ProducerPc.exit_call ∨ p.pc = ProducerPc.exiting ∨
      p.pc = ProducerPc.input_error)
    (s1 : Prog) (h1 : s1.producer = p) (h2 : s1.input = inp) : UnreadableInv s1 := by
  unfold UnreadableInv
  rw [h1, h2]
  rcases hpc with e | e | e | e | e | e | e | e | e <;> rw [e] <;> first | exact h | trivial

theorem unreadable_inv_step (cap : Nat) (s s1 : Prog) (a : Action) (hb : BaseInv cap s)
    (hinv : UnreadableInv s) (h : prog_step cap s a = some s1) : UnreadableInv s1 := by
  obtain ⟨_, hcases⟩ := prog_step_cases cap s s1 a h
  rcases hcases with ⟨pick, _, hp⟩ | ⟨one, pick, _, hcn⟩ | ⟨pick, _, hm⟩ | ⟨t, _, hw⟩ |
    ⟨_, _, hs1⟩
  · unfold UnreadableInv at hinv
    rcases producer_stmt_cases cap s s1 pick hp with ⟨c, q, hpc, he⟩ | ⟨hpc, h4, hs1⟩ |
      ⟨hpc, h4, hs1⟩ | ⟨hpc, hs1⟩ | ⟨hpc, hs1⟩ | ⟨hpc, hs1⟩ | ⟨hpc, hs1⟩ | ⟨hpc, hs1⟩ |
      ⟨hpc, hs1⟩ | ⟨hpc, hs1⟩
    · rw [hpc] at hinv
      cases c with
      | first_quit => exact hinv.elim
      | second_quit => exact hinv.elim
      | data =>
        have hu : unreadable s.input := by
          cases q <;> exact hinv
        rcases enqueue_stmt_cases cap s s1 EnqueueCall.data pick q he with ⟨rfl, hm, hs1⟩ |
          ⟨rfl, hw, hs1⟩ | ⟨rfl, hw, hs1⟩ | ⟨rfl, hm, hs1⟩ | ⟨rfl, b, hbq, hs1⟩ | ⟨rfl, hs1⟩ |
          ⟨rfl, hs1⟩
        · exact unreadable_inv_loop s.input _ CallPc.test hu
            (Or.inr (Or.inr (Or.inr (Or.inl rfl)))) s1 (by rw [hs1]) (by rw [hs1])
        · exact unreadable_inv_loop s.input _ CallPc.waiting hu
            (Or.inr (Or.inr (Or.inr (Or.inl rfl)))) s1 (by rw [hs1]) (by rw [hs1])
        · exact unreadable_inv_loop s.input _ CallPc.body hu
            (Or.inr (Or.inr (Or.inr (Or.inl rfl)))) s1 (by rw [hs1]) (by rw [hs1])
        · exact unreadable_inv_loop s.input _ CallPc.test hu
            (Or.inr (Or.inr (Or.inr (Or.inl rfl)))) s1 (by rw [hs1]) (by rw [hs1])
        · exact unreadable_inv_loop s.input _ CallPc.unlock hu
            (Or.inr (Or.inr (Or.inr (Or.inl rfl)))) s1 (by rw [hs1]) (by rw [hs1])
        · exact unreadable_inv_loop s.input _ CallPc.signal hu
            (Or.inr (Or.inr (Or.inr (Or.inl rfl)))) s1 (by rw [hs1]) (by rw [hs1])
        · obtain ⟨e1, _, _, _, e5, _, _, _, _⟩ := signal_has_value_proj
            { s with
              producer := { s.producer with pc := after_enqueue s.producer EnqueueCall.data } }
            pick
          rw [← hs1] at e1 e5
          refine unreadable_inv_loop s.input _ CallPc.lock hu ?_ s1 e5 e1
          show after_enqueue s.producer EnqueueCall.data = _ ∨ _
          simp only [after_enqueue]
          split
          · exact Or.inr (Or.inr (Or.inr (Or.inr (Or.inl rfl))))
          · exact Or.inr (Or.inr (Or.inr (Or.inr (Or.inr (Or.inl rfl)))))
    · rw [hpc] at hinv
      have hu := scanf_four_unreadable s.input hinv h4
      refine unreadable_inv_loop _ _ CallPc.lock hu ?_ s1 (by rw [hs1]) (by rw [hs1])
      dsimp only
      split
      · exact Or.inr (Or.inl rfl)
      · exact Or.inr (Or.inr (Or.inr (Or.inl rfl)))
    · rw [hpc] at hinv
      have hne := scanf_unreadable s.input hinv h4
      rw [hs1]
      exact hne
    · rw [hpc] at hinv
      refine unreadable_inv_loop s.input _ CallPc.lock hinv ?_ s1 (by rw [hs1]) (by rw [hs1])
      dsimp only
      split
      · exact Or.inr (Or.inr (Or.inr (Or.inl rfl)))
      · exact Or.inr (Or.inr (Or.inl rfl))
    · rw [hs1]
      trivial
    · rw [hpc] at hinv
      exact unreadable_inv_loop s.input _ CallPc.lock hinv
        (Or.inr (Or.inr (Or.inr (Or.inr (Or.inr (Or.inl rfl)))))) s1 (by rw [hs1])
        (by rw [hs1])
    · rw [hpc] at hinv
      exact unreadable_inv_loop s.input _ CallPc.lock hinv (Or.inl rfl) s1 (by rw [hs1])
        (by rw [hs1])
    · rw [hpc] at hinv
      rw [hs1]
      have hb1 : ((scanf s.input).1 == EOF) = false := by simpa using hinv
      show UnreadableInv _
      unfold UnreadableInv
      simp only [hb1]
      trivial
    · rw [hs1]
      trivial
    · rw [hs1]
      trivial
  · obtain ⟨_, _, e3, e4, _, _, _, _, _⟩ := consumer_effect cap s s1 one hb hcn
    unfold UnreadableInv at hinv ⊢
    rcases e4 with e | ⟨c, hwt, e⟩
    · rw [e, e3]
      exact hinv
    · rw [e, e3]
      rw [hwt] at hinv
      cases c <;> exact hinv
  · rcases main_stmt_cases s s1 hm with ⟨_, _, e⟩ | ⟨_, _, e⟩ | ⟨_, _, e⟩ | ⟨_, e⟩ | ⟨_, e⟩
    all_goals
      rw [e]
      exact hinv
  · rcases spurious_wake_cases s s1 t hw with ⟨c, _, hpc, e⟩ | ⟨one, _, hpc, e⟩
    · unfold UnreadableInv at hinv ⊢
      rw [e]
      rw [hpc] at hinv
      cases c <;> exact hinv
    · rw [e]
      cases one <;> exact hinv
  · rw [hs1]
    exact hinv

/-- What a statement of the producer does to the output, to `main` and to the exit
status: it prints no total line and calls `exit` with status 1 only. -/
theorem producer_end_effect (cap : Nat) (s s1 : Prog) (pick : Bool)
    (h : producer_stmt cap s pick = some s1) :
    (s1.output = s.output ∨ ∃ o, s1.output = s.output ++ [o] ∧ ∀ y, o ≠ Output.total y) ∧
    s1.main = s.main ∧
    (s1.exit_code = s.exit_code ∨ s1.exit_code = (call_exit s 1).exit_code) := by
  rcases producer_stmt_cases cap s s1 pick h with ⟨c, q, hpc, he⟩ | ⟨hpc, _, hs1⟩ |
    ⟨hpc, _, hs1⟩ | ⟨hpc, hs1⟩ | ⟨hpc, hs1⟩ | ⟨hpc, hs1⟩ | ⟨hpc, hs1⟩ | ⟨hpc, hs1⟩ |
    ⟨hpc, hs1⟩ | ⟨hpc, hs1⟩
  · rcases enqueue_stmt_cases cap s s1 c pick q he with ⟨rfl, hm, hs1⟩ | ⟨rfl, hw, hs1⟩ |
      ⟨rfl, hw, hs1⟩ | ⟨rfl, hm, hs1⟩ | ⟨rfl, b, hbq, hs1⟩ | ⟨rfl, hs1⟩ | ⟨rfl, hs1⟩
    · rw [hs1]; exact ⟨Or.inl rfl, rfl, Or.inl rfl⟩
    · rw [hs1]; exact ⟨Or.inl rfl, rfl, Or.inl rfl⟩
    · rw [hs1]; exact ⟨Or.inl rfl, rfl, Or.inl rfl⟩
    · rw [hs1]; exact ⟨Or.inl rfl, rfl, Or.inl rfl⟩
    · rw [hs1]; exact ⟨Or.inl rfl, rfl, Or.inl rfl⟩
    · rw [hs1]; exact ⟨Or.inl rfl, rfl, Or.inl rfl⟩
    · obtain ⟨_, e2, _, _, _, e6, e7, _, _⟩ := signal_has_value_proj
        { s with producer := { s.producer with pc := after_enqueue s.producer c } } pick
      rw [← hs1] at e2 e6 e7
      exact ⟨Or.inl e2, e6, Or.inl e7⟩
  · rw [hs1]; exact ⟨Or.inl rfl, rfl, Or.inl rfl⟩
  · rw [hs1]; exact ⟨Or.inl rfl, rfl, Or.inl rfl⟩
  · rw [hs1]; exact ⟨Or.inl rfl, rfl, Or.inl rfl⟩
  · rw [hs1]; exact ⟨Or.inr ⟨_, rfl, fun y => by simp⟩, rfl, Or.inl rfl⟩
  · rw [hs1]; exact ⟨Or.inr ⟨_, rfl, fun y => by simp⟩, rfl, Or.inl rfl⟩
  · rw [hs1]; exact ⟨Or.inl rfl, rfl, Or.inl rfl⟩
  · rw [hs1]; exact ⟨Or.inl rfl, rfl, Or.inl rfl⟩
  · rw [hs1]; exact ⟨Or.inr ⟨_, rfl, fun y => by simp⟩, rfl, Or.inl rfl⟩
  · rw [hs1]; exact ⟨Or.inl rfl, rfl, Or.inr rfl⟩

/-- What a statement of a consumer does to the output, to `main` and to the exit
status: it prints no total line and calls `exit` with status 1 only. -/
theorem consumer_end_effect (cap : Nat) (s s1 : Prog) (one : Bool)
    (h : consumer_stmt cap s one = some s1) :
    (s1.output = s.output ∨ ∃ o, s1.output = s.output ++ [o] ∧ ∀ y, o ≠ Output.total y) ∧
    s1.main = s.main ∧
    (s1.exit_code = s.exit_code ∨ s1.exit_code = (call_exit s 1).exit_code) := by
  rcases consumer_stmt_cases cap s s1 one h with ⟨q, hpc, he⟩ | ⟨hpc, hs1⟩ | ⟨hpc, hs1⟩ |
    ⟨hpc, hs1⟩ | ⟨hpc, hs1⟩ | ⟨hpc, hs1⟩ | ⟨hpc, hs1⟩ | ⟨hpc, hs1⟩
  · rcases dequeue_stmt_cases cap s s1 one q he with ⟨rfl, hm, hs1⟩ | ⟨rfl, hw, hs1⟩ |
      ⟨rfl, hw, hs1⟩ | ⟨rfl, hm, hs1⟩ | ⟨rfl, msg, b, hbq, hs1⟩ | ⟨rfl, hs1⟩ | ⟨rfl, hs1⟩
    · rw [hs1]; exact ⟨Or.inl (by simp), by simp, Or.inl (by simp)⟩
    · rw [hs1]; exact ⟨Or.inl (by simp), by simp, Or.inl (by simp)⟩
    · rw [hs1]; exact ⟨Or.inl (by simp), by simp, Or.inl (by simp)⟩
    · rw [hs1]; exact ⟨Or.inl (by simp), by simp, Or.inl (by simp)⟩
    · rw [hs1]; exact ⟨Or.inl (by simp), by simp, Or.inl (by simp)⟩
    · rw [hs1]; exact ⟨Or.inl (by simp), by simp, Or.inl (by simp)⟩
    · obtain ⟨_, e2, _, _, _, _, e7, e8, _, _⟩ := signal_has_space_proj
        (set_consumer s one { consumer s one with pc := after_dequeue (consumer s one).msg })
      rw [← hs1] at e2 e7 e8
      exact ⟨Or.inl (by rw [e2]; simp), by rw [e7]; simp, Or.inl (by rw [e8]; simp)⟩
  · rw [hs1]
    exact ⟨Or.inr ⟨Output.consumer_final (consumer s one).consumer_sum (consumer s one).sum,
      by simp, fun y => by simp⟩, by simp, Or.inl (by simp)⟩
  · rw [hs1]; exact ⟨Or.inl (by simp), by simp, Or.inl (by simp)⟩
  · rw [hs1]; exact ⟨Or.inl (by simp), by simp, Or.inl (by simp)⟩
  · rw [hs1]
    exact ⟨Or.inr ⟨Output.sleep_error,
      by simp, fun y => by simp⟩, by simp, Or.inl (by simp)⟩
  · rw [hs1]
    refine ⟨Or.inl ?_, ?_, Or.inr ?_⟩
    · simp [call_exit]
    · simp [call_exit]
    · simp [call_exit]
  · rw [hs1]; exact ⟨Or.inl (by simp), by simp, Or.inl (by simp)⟩
  · rw [hs1]
    exact ⟨Or.inr ⟨Output.consumer_value (consumer s one).consumer_sum (consumer s one).msg.value
      (consumer s one).msg.line (consumer s one).sum,
      by simp, fun y => by simp⟩, by simp, Or.inl (by simp)⟩

theorem call_exit_code (s : Prog) (k0 : Int) (hk0 : k0 = 0 ∨ k0 = 1)
    (h : ∀ k, s.exit_code = some k → k = 0 ∨ k = 1) :
    ∀ k, (call_exit s k0).exit_code = some k → k = 0 ∨ k = 1 := by
  intro k hk
  simp only [call_exit] at hk
  split at hk
  · exact h k hk
  · simp only [Option.some.injEq] at hk
    rw [← hk]
    exact hk0

theorem end_inv_of (s s1 : Prog) (hinv : EndInv s)
    (h : (s1.output = s.output ∨ ∃ o, s1.output = s.output ++ [o] ∧ ∀ y, o ≠ Output.total y) ∧
      s1.main = s.main ∧
      (s1.exit_code = s.exit_code ∨ s1.exit_code = (call_exit s 1).exit_code)) :
    EndInv s1 := by
  obtain ⟨h1, h2⟩ := hinv
  obtain ⟨e1, e2, e3⟩ := h
  refine ⟨?_, ?_⟩
  · rcases e3 with e | e
    · rw [e]
      exact h1
    · rw [e]
      exact call_exit_code s 1 (Or.inr rfl) h1
  · intro x hx
    rw [e2]
    rcases e1 with e | ⟨o, e, ho⟩
    · rw [e] at hx
      exact h2 x hx
    · rw [e] at hx
      rcases List.mem_append.1 hx with hx | hx
      · exact h2 x hx
      · exact absurd (List.mem_singleton.1 hx).symm (ho x)

theorem end_inv_step (cap : Nat) (s s1 : Prog) (a : Action) (hinv : EndInv s)
    (h : prog_step cap s a = some s1) : EndInv s1 := by
  obtain ⟨_, hcases⟩ := prog_step_cases cap s s1 a h
  rcases hcases with ⟨pick, _, hp⟩ | ⟨one, pick, _, hcn⟩ | ⟨pick, _, hm⟩ | ⟨t, _, hw⟩ |
    ⟨_, _, hs1⟩
  · exact end_inv_of s s1 hinv (producer_end_effect cap s s1 pick hp)
  · exact end_inv_of s s1 hinv (consumer_end_effect cap s s1 one hcn)
  · obtain ⟨h1, h2⟩ := hinv
    rcases main_stmt_cases s s1 hm with ⟨hpc, _, e⟩ | ⟨hpc, _, e⟩ | ⟨hpc, _, e⟩ | ⟨hpc, e⟩ |
      ⟨hpc, e⟩
    · rw [e]
      refine ⟨h1, fun x hx => ?_⟩
      have := h2 x hx
      rw [hpc] at this
      simp [main_rank] at this
    · rw [e]
      refine ⟨h1, fun x hx => ?_⟩
      have := h2 x hx
      rw [hpc] at this
      simp [main_rank] at this
    · rw [e]
      refine ⟨h1, fun x hx => ?_⟩
      have := h2 x hx
      rw [hpc] at this
      simp [main_rank] at this
    · rw [e]
      exact ⟨h1, fun x _ => Nat.le_refl 4⟩
    · rw [e]
      refine ⟨call_exit_code _ 0 (Or.inl rfl) h1, fun x _ => ?_⟩
      show 4 ≤ main_rank MainPc.exiting
      decide
  · rcases spurious_wake_cases s s1 t hw with ⟨c, _, hpc, e⟩ | ⟨one, _, hpc, e⟩
    · rw [e]
      exact hinv
    · rw [e]
      cases one <;> exact hinv
  · rw [hs1]
    exact hinv

theorem end_inv_init (cap : Nat) (inp : List Token) : EndInv (prog_init cap inp) := by
  refine ⟨fun k hk => ?_, fun x hx => ?_⟩
  · cases hk
  · simp [prog_init] at hx

/-- On an input that `scanf` cannot read to its end: the invariants of every reachable
state. -/
theorem unreadable_run (cap : Nat) (hc : 0 < cap) (inp : List Token) (hu : unreadable inp)
    (sched : List Action) (s : Prog) (h : prog_run cap sched (prog_init cap inp) = some s) :
    Sound cap s ∧ UnreadableInv s ∧ EndInv s := by
  refine prog_run_induct cap (fun s => Sound cap s ∧ UnreadableInv s ∧ EndInv s) ?_ sched _ s
    ⟨sound_init cap inp, unreadable_inv_init cap inp hu, end_inv_init cap inp⟩ h
  intro s s1 a hinv hstep
  exact ⟨sound_step cap hc s s1 a hinv.1 hstep,
    unreadable_inv_step cap s s1 a hinv.1.1 hinv.2.1 hstep,
    end_inv_step cap s s1 a hinv.2.2 hstep⟩

/-- On an input that `scanf` cannot read to its end no quit message is stored: no
consumer returns, `main` stays before its first join, the total is not printed, and an
exit status is 1. -/
theorem unreadable_facts (cap : Nat) (s : Prog) (hs : Sound cap s) (hu : UnreadableInv s)
    (he : EndInv s) :
    s.producer.pc ≠ ProducerPc.done ∧ s.consumer_zero.pc ≠ ConsumerPc.done ∧
    s.consumer_one.pc ≠ ConsumerPc.done ∧ s.main = MainPc.join_zero ∧
    (∀ x, Output.total x ∉ s.output) ∧ (∀ k, s.exit_code = some k → k = 1) ∧
    (∀ m ∈ contents s.buf, m.quit = 0) := by
  have hq0 : quits_stored s.producer.pc = 0 := by
    unfold UnreadableInv at hu
    cases hpc : s.producer.pc with
    | enq c q =>
      rw [hpc] at hu
      cases c with
      | data => cases q <;> rfl
      | first_quit => exact hu.elim
      | second_quit => exact hu.elim
    | done =>
      rw [hpc] at hu
      exact hu.elim
    | _ => rfl
  obtain ⟨ds, k, hcont, hds, hk, _, f0, f1⟩ := hs.2.2.1
  obtain ⟨_, _, _, _, _, h6, h7, _, _, _⟩ := hs.2.2.2
  rw [hq0] at hk
  have hc0 : s.consumer_zero.pc ≠ ConsumerPc.done := by
    intro hd
    have := holds_quit_done _ f0 hd
    omega
  have hc1 : s.consumer_one.pc ≠ ConsumerPc.done := by
    intro hd
    have := holds_quit_done _ f1 hd
    omega
  have hrank : main_rank s.main = 0 := by
    by_contra hne
    exact hc0 (h7 (by omega))
  have hmain : s.main = MainPc.join_zero := by
    cases hm : s.main <;> rw [hm] at hrank <;> simp [main_rank] at hrank
  refine ⟨?_, hc0, hc1, hmain, ?_, ?_, ?_⟩
  · intro hd
    unfold UnreadableInv at hu
    rw [hd] at hu
    exact hu
  · intro x hx
    have := he.2 x hx
    omega
  · intro k1 hk1
    rcases he.1 k1 hk1 with e | e
    · rw [e] at hk1
      have := h6 hk1
      rw [this] at hrank
      simp [main_rank] at hrank
    · exact e
  · intro m hm
    have hk0 : k = 0 := by omega
    rw [hcont, hk0] at hm
    simp only [List.replicate_zero, List.append_nil] at hm
    exact hds m hm

theorem steps_left_start (cap : Nat) (inp : List Token) :
    steps_left (prog_init cap inp) = 6 * inp.length + 56 := by
  simp only [steps_left, prog_init, contents_init, producer_weight,
    consumer_weight, call_weight, main_rank, List.length_nil]
  simp only [Bool.false_eq_true, if_false]

/-- C8, amended (malformed input).  For every input that holds a character that `%d`
can neither skip nor convert (`Token.junk`), or a sign without a digit after it that is
not the last item of the input (`Token.sign`), `producer_thread` ends in `exit(1)`
after printing an error line (the line of its error branch, or the line of a failed
sleep before it), and it enqueues no quit message.  In every state the program reaches,
at the level of atomic `enqueue` and `dequeue` steps and at the level of statements, no
consumer has returned, the line "Main: total sum is ..." has not been printed, and an
exit status, once set, is 1.  At the level of statements, moreover, the producer does
not return, `main` stays before its first join, every execution is finite, the process
can always go on to its end, and when it has ended its exit status is 1.  The number of
fields on a line plays no role. -/
theorem malformed_input_fatal (lines : List (List Token))
    (h : Token.junk ∈ stream_of_lines lines ∨
      ∃ pre rest, stream_of_lines lines = pre ++ Token.sign :: rest ∧ rest ≠ []) :
    (producer_thread (stream_of_lines lines)).2 = Ending.exited 1 ∧
    (Output.input_error ∈ outputs (producer_thread (stream_of_lines lines)).1 ∨
      Output.sleep_error ∈ outputs (producer_thread (stream_of_lines lines)).1) ∧
    (∀ m ∈ enqueues (producer_thread (stream_of_lines lines)).1, m.quit = 0) ∧
    (∀ sched s,
      sys_run BUFFER_SIZE sched (sys_init BUFFER_SIZE (stream_of_lines lines)) = some s →
        returned_count s = 0 ∧ (∀ x, Output.total x ∉ s.output) ∧
        (∀ k, s.exit_status = some k → k = 1)) ∧
    (∀ sched s,
      prog_run BUFFER_SIZE sched (prog_init BUFFER_SIZE (stream_of_lines lines)) = some s →
        s.producer.pc ≠ ProducerPc.done ∧ s.consumer_zero.pc ≠ ConsumerPc.done ∧
        s.consumer_one.pc ≠ ConsumerPc.done ∧ s.main = MainPc.join_zero ∧
        (∀ m ∈ contents s.buf, m.quit = 0) ∧
        (∀ x, Output.total x ∉ s.output) ∧
        (∀ k, s.exit_code = some k → k = 1) ∧
        (s.halted = true → s.exit_code = some 1) ∧
        sched.length + steps_left s ≤
          6 * (stream_of_lines lines).length + 56 + 3 * wakes sched ∧
        (s.halted = false →
          (∃ t pick s1, prog_step BUFFER_SIZE s (Action.run t pick) = some s1) ∨
          ∃ s1, prog_step BUFFER_SIZE s Action.halt = some s1) ∧
        ∃ rest s1, prog_run BUFFER_SIZE rest s = some s1 ∧ s1.halted = true ∧
          wakes rest = 0) := by
  obtain ⟨hend, hout⟩ := producer_loop_junk ((stream_of_lines lines).length + 1) 1
    (stream_of_lines lines) (Nat.lt_succ_self _) h
  have hq0 : ∀ q datas, ScriptOk q datas (producer_thread (stream_of_lines lines)).1
      (producer_thread (stream_of_lines lines)).2 → q = 0 := by
    intro q datas hok
    obtain ⟨_, _, h3, _⟩ := hok
    rcases h3 with h3 | h3
    · have : (producer_thread (stream_of_lines lines)).2 = Ending.exited 1 := hend
      rw [this] at h3
      exact absurd h3.1 (by simp)
    · exact h3.2
  refine ⟨hend, hout, ?_, ?_, ?_⟩
  · obtain ⟨q, datas, hok⟩ := producer_thread_ok (stream_of_lines lines)
    have hq := hq0 q datas hok
    obtain ⟨h1, h2, _, _⟩ := hok
    intro m hm
    rw [h1, hq] at hm
    simp only [List.replicate_zero, List.append_nil] at hm
    exact h2 m hm
  · intro sched s hs
    obtain ⟨q, datas, hok, hinv⟩ :=
      sys_reach_inv BUFFER_SIZE (by decide) (stream_of_lines lines) sched s hs
    have hq := hq0 q datas hok
    obtain ⟨_, _, _, _, _, _, ⟨datas1, k, _, _, hrc, _, _⟩, hout1, hex⟩ := hinv
    have hrc0 : returned_count s = 0 := by omega
    refine ⟨hrc0, ?_, ?_⟩
    · intro x hx
      have := (hout1 x hx).1
      omega
    · intro k1 hk1
      rcases hex k1 hk1 with h1 | h1
      · exact h1
      · omega
  · intro sched s hrun
    have hc : 0 < BUFFER_SIZE := by decide
    obtain ⟨hs, hu, he⟩ := unreadable_run BUFFER_SIZE hc (stream_of_lines lines) h sched s hrun
    obtain ⟨f1, f2, f3, f4, f5, f6, f7⟩ := unreadable_facts BUFFER_SIZE s hs hu he
    refine ⟨f1, f2, f3, f4, f7, f5, f6, ?_, ?_, ?_, ?_⟩
    · intro hh
      have hsome := hs.2.2.2.1 hh
      cases hx : s.exit_code with
      | none => rw [hx] at hsome; cases hsome
      | some k => rw [f6 k hx]
    · have hb := steps_left_run BUFFER_SIZE hc sched _ s (base_inv_init _ _) hrun
      rw [steps_left_start] at hb
      exact hb
    · intro hh
      exact prog_can_step BUFFER_SIZE hc s hs.1 hs.2.1 hs.2.2.1 hs.2.2.2 hh
    · exact completes_aux BUFFER_SIZE hc (steps_left s) s hs (Nat.le_refl _)

/-- Witness for C8: one line whose third field is not an integer, and a record followed
by a line with a lone sign and a further line, on which an execution of the program
ends with the error line and exit status 1. -/
theorem malformed_input_fatal_witness :
    Token.junk ∈ stream_of_lines junk_lines ∧
    (producer_thread (stream_of_lines junk_lines)).2 = Ending.exited 1 ∧
    stream_of_lines sign_lines =
      [Token.int 5, Token.int 0, Token.int 0, Token.int 0] ++
        Token.sign :: [Token.int 3, Token.int 0, Token.int 0, Token.int 0] ∧
    producer_thread (stream_of_lines sign_lines) =
      ([Event.enq (data_msg 5 1), Event.out Output.input_error], Ending.exited 1) ∧
    (producer_thread (stream_of_lines sign_lines)).2 = Ending.exited 1 ∧
    outcome (prog_run BUFFER_SIZE sign_schedule
        (prog_init BUFFER_SIZE (stream_of_lines sign_lines))) =
      some ([Output.input_error], some 1, true, false, false, false) ∧
    (∀ sched s,
      prog_run BUFFER_SIZE sched (prog_init BUFFER_SIZE (stream_of_lines sign_lines)) =
        some s →
      s.halted = true → s.exit_code = some 1) :=
  ⟨by decide, (malformed_input_fatal junk_lines (Or.inl (by decide))).1, by decide,
    by decide,
    (malformed_input_fatal sign_lines (Or.inr ⟨[Token.int 5, Token.int 0, Token.int 0,
      Token.int 0], [Token.int 3, Token.int 0, Token.int 0, Token.int 0], by decide,
      by decide⟩)).1,
    rfl,
    fun sched s hrun =>
      ((malformed_input_fatal sign_lines (Or.inr ⟨[Token.int 5, Token.int 0, Token.int 0,
        Token.int 0], [Token.int 3, Token.int 0, Token.int 0, Token.int 0], by decide,
        by decide⟩)).2.2.2.2 sched s hrun).2.2.2.2.2.2.2.1⟩

/-- Counterexample to C8 as stated: an input with a line of five integers and a line of
three.  `scanf` reads the eight integers as two records, the producer returns after
enqueueing two quit messages, and under the interleavings `sample_schedule` (of atomic
steps) and `miscounted_schedule` (of statements) the process prints the total line and
exits with status 0.  Neither is every item that is not an integer fatal: on a record
followed by a line that holds a lone sign, and on a line of three integers, the
producer returns after enqueueing the quit messages. -/
theorem malformed_input_counterexample :
    producer_thread (stream_of_lines miscounted_lines) =
      ([Event.enq { value := 1, consumer_sleep := 3, line := 1, print_code := 4, quit := 0 },
        Event.enq { value := 5, consumer_sleep := 7, line := 2, print_code := 8, quit := 0 },
        Event.enq quit_msg, Event.enq quit_msg], Ending.returned) ∧
    observed (sys_run BUFFER_SIZE sample_schedule
        (sys_init BUFFER_SIZE (stream_of_lines miscounted_lines))) =
      some (some 0,
        [Output.consumer_final 1 1, Output.consumer_final 0 5, Output.total 6]) ∧
    outcome (prog_run BUFFER_SIZE miscounted_schedule
        (prog_init BUFFER_SIZE (stream_of_lines miscounted_lines))) =
      some ([Output.consumer_final 1 0, Output.consumer_final 0 6, Output.total 6],
        some 0, true, true, true, true) ∧
    producer_thread (stream_of_lines lone_sign_lines) =
      ([Event.enq (data_msg 5 1), Event.enq quit_msg, Event.enq quit_msg],
        Ending.returned) ∧
    producer_thread (stream_of_lines short_lines) =
      ([Event.enq quit_msg, Event.enq quit_msg], Ending.returned) :=
  ⟨by decide, by decide, rfl, by decide, by decide⟩

end RingbufC
